import Mathlib

/-! Memory coloring (src/opt/memory_coloring_impl.cpp)

A shallow embedding of the memory-coloring pass of the repository and proofs of the
properties its specification states.

Conventions of the embedding.

* An `instruction_ref` is the position of the instruction in the program, an `interval_ptr`
  and a `live_range*` are the index of the interval in `live_intervals` (a `live_range*`
  always points at the `segment` of such an interval).
* `int` and `long long` values are integers, `std::size_t` values are natural numbers;
  64-bit wrap-around is not modelled.
* Undefined behaviour of the C++ code (dereferencing the null pointer that
  `live_ranges[iter]` yields for a missing key, division or remainder by zero) is the
  result `none`.
* `memory_coloring_impl.hpp` is not among the sources.  What the `.cpp` file uses from it
  is either a parameter of the embedding (`helpers`, `conflict_order`, `alloc_order`) or a
  definition marked `Modelled from the spec`.

The functions of the ONNX parser (src/onnx/onnx.cpp, src/onnx/parse_where.cpp) and the
module inlining pass (src/inline_module.cpp) follow the definitions of the memory-coloring
pass, in sections of their own that state their conventions.
-/

namespace migraph

/-! ## Data model -/

/-- Modelled from the spec: the sentinel for an unassigned offset or program point
(`invalid_offset` of memory_coloring_impl.hpp), "distinguished from all valid offsets,
e.g. -1". -/
def invalid_offset : Int := -1

/-- What the pass observes of a `shape`: `bytes()` and `elements()`. -/
structure shape where
  bytes : Nat
  elements : Nat
deriving DecidableEq, Repr

/-- An instruction of the program: its name, its inputs (positions in the program), the
shape it produces and whether it is the parameter that names the program output.  The
other fields are those of the operators the pass reads or creates: the name of a
parameter, the constant of a literal (an opaque number), the `offset` of a `load` or a
`write_literal` and the `pre_copy` of a `write_literal`. -/
structure instruction where
  name : String
  inputs : List Nat
  result : shape
  output_param : Bool := false
  parameter : String := ""
  literal : Nat := 0
  offset : Nat := 0
  pre_copy : Bool := false
deriving DecidableEq, Repr

/-- Modelled from the spec: `live_range` of memory_coloring_impl.hpp, "`begin`, `end`:
program points", "`size`, `offset`: byte size of the value's storage and its assigned
offset", for the value number `vn`.  `size` only ever receives a `std::size_t`. -/
structure live_range where
  begin : Int
  end_ : Int
  offset : Int
  vn : Int
  size : Nat
deriving DecidableEq, Repr

/-- Modelled from the spec: `live_interval` of memory_coloring_impl.hpp, "one live range
plus `id`, `use_points`, `def_point`, `result`, `is_literal`, `is_live_on_entry`". -/
structure live_interval where
  segment : live_range
  id : Int
  use_points : List Int
  def_point : Int
  result : shape
  is_literal : Bool
  is_live_on_entry : Bool
deriving DecidableEq, Repr

/-- Modelled from the spec: the interval a fresh `live_intervals` entry holds (the
constructor of memory_coloring_impl.hpp): nothing assigned, every point and the offset at
the sentinel, size 0. -/
def live_interval.init : live_interval :=
  { segment := { begin := invalid_offset, end_ := invalid_offset, offset := invalid_offset,
                 vn := -1, size := 0 },
    id := -1, use_points := [], def_point := invalid_offset,
    result := { bytes := 0, elements := 0 }, is_literal := false, is_live_on_entry := false }

/-- Modelled from the spec: `live_interval::add_use`, "record a use at the current
point". -/
def live_interval.add_use (i : live_interval) (use : Int) : live_interval :=
  { i with use_points := use :: i.use_points }

/-- The state of the pass (the data members of `memory_coloring_impl` that build and
allocate touch).  `conflict_table v` is the set stored for `v`, empty when there is no
entry (allocate and verify treat both alike); a `std::set<int>` is its ascending list. -/
structure memory_coloring_impl where
  live_intervals : Nat → live_interval
  instr2_live : Nat → Option Nat
  live_ranges : Int → Option Nat
  conflict_table : Int → List Int
  alloc_queue : List Nat
  num_of_lives : Nat
  max_value_number : Int
  required_bytes : Int
  earliest_end_point : Int
  latest_end_point : Int
  unify_literals : Bool

/-- Modelled from the spec: the state the constructor of memory_coloring_impl.hpp leaves,
"all of the above are created fresh per invocation": empty maps, no interval, value
numbers counted from -1 so that the first one is 0, nothing required. -/
def memory_coloring_impl.init (unify : Bool) : memory_coloring_impl :=
  { live_intervals := fun _ => live_interval.init,
    instr2_live := fun _ => none,
    live_ranges := fun _ => none,
    conflict_table := fun _ => [],
    alloc_queue := [],
    num_of_lives := 0,
    max_value_number := -1,
    required_bytes := 0,
    earliest_end_point := -1,
    latest_end_point := -1,
    unify_literals := unify }

/-- A `std::set<int>` insertion on the ascending list. -/
def set_insert (x : Int) (l : List Int) : List Int :=
  if x ∈ l then l else l.orderedInsert (fun a b => a ≤ b) x

/-- A `std::set<int>` erase on the ascending list. -/
def set_erase (x : Int) (l : List Int) : List Int :=
  l.filter (fun y => y ≠ x)

/-- The segment a `live_range*` points at. -/
def memory_coloring_impl.range (s : memory_coloring_impl) (r : Nat) : live_range :=
  (s.live_intervals r).segment

/-- Assignment through an `interval_ptr`. -/
def memory_coloring_impl.set_interval (s : memory_coloring_impl) (i : Nat)
    (v : live_interval) : memory_coloring_impl :=
  { s with live_intervals := Function.update s.live_intervals i v }

/-! ## allocate -/

/-- Modelled from the spec: the comparator `ordering` on `live_range*` of
memory_coloring_impl.hpp makes the conflict queue yield the neighbours "in ascending
offset order".  The order in which a `std::priority_queue` yields ranges of equal offset
is not fixed, so the order of popping is any function `pop` that returns its argument
(the pushed ranges) permuted and ascending in `key` (the offset of a range). -/
structure conflict_order where
  pop : (Nat → Int) → List Nat → List Nat
  perm : ∀ key q, (pop key q).Perm q
  sorted : ∀ key q, (pop key q).Pairwise (fun a b => key a ≤ key b)

/-- A pop order: insertion sort on the offset. -/
def insertion_order : conflict_order :=
  { pop := fun key q => q.insertionSort (fun a b => key a ≤ key b)
    perm := fun key q => List.perm_insertionSort (fun a b => key a ≤ key b) q
    sorted := fun key q =>
      @List.sorted_insertionSort Nat (fun a b => key a ≤ key b) _
        ⟨fun a b => le_total (key a) (key b)⟩ ⟨fun _ _ _ h1 h2 => le_trans h1 h2⟩ q }

/-- Lines 41-64 of allocate, the loop over `vn_set`: every neighbour with a valid offset
is pushed on the conflict queue `q` (kept in the order of pushing) and `offset2_live`
keeps, for every offset, the first neighbour of largest size. -/
def gather (s : memory_coloring_impl) :
    List Int → List Nat × (Int → Option Nat) → Option (List Nat × (Int → Option Nat))
  | [], acc => some acc
  | iter :: rest, (q, offset2_live) =>
    match s.live_ranges iter with
    | none => none
    | some range =>
      let offset := (s.range range).offset
      if offset ≠ invalid_offset then
        match offset2_live offset with
        | none => gather s rest (q ++ [range], Function.update offset2_live offset (some range))
        | some prev =>
          if (s.range prev).size < (s.range range).size then
            gather s rest (q ++ [range], Function.update offset2_live offset (some range))
          else gather s rest (q ++ [range], offset2_live)
      else gather s rest (q, offset2_live)

/-- Lines 84-85 of allocate: `offset` rounded up to a multiple of `element_size`. -/
def align (element_size : Nat) (offset : Int) : Option Int :=
  if element_size = 0 then none
  else if offset % (element_size : Int) ≠ 0 then
    some (offset + ((element_size : Int) - offset % (element_size : Int)))
  else some offset

/-- Lines 67-87 of allocate: the loop over the conflict queue, given in the order of
popping.  The result is the value of `offset` when the loop is left. -/
def scan (s : memory_coloring_impl) (offset2_live : Int → Option Nat) (size element_size : Nat) :
    List Nat → Int → Option Int
  | [], offset => some offset
  | range :: rest, offset =>
    let iter_offset := (s.range range).offset
    if offset > iter_offset then
      (align element_size (max offset (iter_offset + (s.range range).size))).bind
        (scan s offset2_live size element_size rest)
    else if offset2_live iter_offset = some range then
      if iter_offset > offset ∧ iter_offset - offset ≥ (size : Int) then some offset
      else (align element_size (iter_offset + (s.range range).size)).bind
        (scan s offset2_live size element_size rest)
    else (align element_size offset).bind (scan s offset2_live size element_size rest)

/-- The offset allocate computes for the interval `interval` (lines 30-87). -/
def allocate_offset (o : conflict_order) (s : memory_coloring_impl) (interval : Nat) :
    Option Int :=
  let r := (s.live_intervals interval).result
  if r.elements = 0 then none
  else
    match gather s (s.conflict_table (s.live_intervals interval).segment.vn) ([], fun _ => none) with
    | none => none
    | some (q, offset2_live) =>
      scan s offset2_live r.bytes (r.bytes / r.elements) (o.pop (fun i => (s.range i).offset) q) 0

/-- Lines 88-90 of allocate: the offset is stored in the segment and `required_bytes` is
raised. -/
def assign (s : memory_coloring_impl) (interval : Nat) (offset : Int) : memory_coloring_impl :=
  let i := s.live_intervals interval
  { s.set_interval interval { i with segment := { i.segment with offset := offset } } with
    required_bytes := max s.required_bytes (offset + i.segment.size) }

/-- The function `memory_coloring_impl::allocate`: the returned flag and the state it leaves. -/
def allocate (o : conflict_order) (s : memory_coloring_impl) (interval : Nat) :
    Option (Bool × memory_coloring_impl) :=
  if (s.live_intervals interval).result.bytes = 0 then some (false, s)
  else (allocate_offset o s interval).map (fun offset => (true, assign s interval offset))

/-! ## build -/

/-- The helpers of memory_coloring_impl.hpp that build calls: the predicates on an
instruction and the lookup of its alias index (which may inspect the inputs of the
instruction in the program).  They are parameters of the embedding. -/
structure helpers where
  is_param : instruction → Bool
  is_output_param : instruction → Bool
  is_allocate : instruction → Bool
  is_outline : instruction → Bool
  is_literal : instruction → Bool
  is_check_context : instruction → Bool
  get_input_tie_ndx : List instruction → instruction → Int

/-- The instruction a reference designates.  A reference of the C++ program always
designates an instruction; a position outside the program reads as an instruction without
name or inputs. -/
def instr (p : List instruction) (i : Nat) : instruction :=
  p.getD i { name := "", inputs := [], result := { bytes := 0, elements := 0 } }

/-- Modelled from the spec: `add_conflicts` of memory_coloring_impl.hpp, "add interference
edges between this new value number and every value number currently in the live set",
"an undirected interference graph, stored as adjacency sets". -/
def add_conflicts (t : Int → List Int) (live_set : List Int) (val : Int) : Int → List Int :=
  live_set.foldl (fun t iter =>
    let t1 := Function.update t iter (set_insert val (t iter))
    Function.update t1 val (set_insert iter (t1 val))) t

/-- The local variables of build together with the state of the pass.  `live_sets` is a
ghost variable: every value the live set has taken, latest first. -/
structure build_state where
  impl : memory_coloring_impl
  live_set : List Int
  dead_instrs : List Nat
  is_dead : Bool
  live_sets : List (List Int)

/-- Lines 113-133 of build: the instruction `iter` at the program point `cur_points` is
looked up; an allocation or literal finalizes its interval.  The result is `def_interval`
and the new state. -/
def build_def (h : helpers) (p : List instruction) (iter : Nat) (cur_points : Int)
    (st : build_state) : Option Nat × build_state :=
  let s := st.impl
  match s.instr2_live iter with
  | some def_interval =>
    let is_lit := h.is_literal (instr p iter)
    if h.is_allocate (instr p iter) || is_lit then
      let i := s.live_intervals def_interval
      let i1 : live_interval :=
        { i with result := (instr p iter).result, is_literal := is_lit, def_point := cur_points,
                 segment := { i.segment with begin := cur_points,
                                             size := (instr p iter).result.bytes } }
      let s1 := { s.set_interval def_interval i1 with
                  alloc_queue := if !is_lit || s.unify_literals
                                 then s.alloc_queue ++ [def_interval] else s.alloc_queue }
      let live := set_erase i.segment.vn st.live_set
      (some def_interval,
        { st with impl := s1, live_set := live, is_dead := false,
                  live_sets := live :: st.live_sets })
    else (some def_interval, { st with is_dead := false })
  | none =>
    (none, { st with is_dead := !h.is_param (instr p iter) && !h.is_outline (instr p iter)
                                 && !h.is_check_context (instr p iter) })

/-- Lines 138-179 of build: the input `arg` at position `cnt` of the visited
instruction. -/
def build_arg (h : helpers) (p : List instruction) (cur_points tie_ndx : Int)
    (def_interval : Option Nat) (st : build_state) (cnt : Int) (arg : Nat) : build_state :=
  let s := st.impl
  if h.is_param (instr p arg) || h.is_outline (instr p arg) then
    let st1 := if h.is_output_param (instr p arg) then { st with is_dead := false } else st
    match def_interval with
    | some d =>
      { st1 with impl := s.set_interval d { s.live_intervals d with is_live_on_entry := true } }
    | none => st1
  else
    match (if cnt = tie_ndx then def_interval else none) with
    | some d =>
      { st with impl :=
          { s.set_interval d ((s.live_intervals d).add_use cur_points) with
            instr2_live := Function.update s.instr2_live arg (some d) } }
    | none =>
      match s.instr2_live arg with
      | none =>
        let id := s.num_of_lives
        let vn := s.max_value_number + 1
        let i := s.live_intervals id
        let i1 : live_interval :=
          ({ i with id := id, segment := { i.segment with end_ := cur_points, vn := vn } }).add_use
            cur_points
        let live := set_insert vn st.live_set
        { st with
          impl :=
            { s.set_interval id i1 with
              num_of_lives := id + 1
              max_value_number := vn
              instr2_live := Function.update s.instr2_live arg (some id)
              conflict_table := add_conflicts s.conflict_table st.live_set vn
              live_ranges := Function.update s.live_ranges vn (some id)
              earliest_end_point := cur_points
              latest_end_point :=
                if s.latest_end_point = -1 then cur_points else s.latest_end_point }
          live_set := live
          live_sets := live :: st.live_sets }
      | some interval =>
        { st with impl := s.set_interval interval ((s.live_intervals interval).add_use cur_points) }

/-- The loop of lines 136-180 over the inputs, `cnt` being the position of the first input
of the list. -/
def build_args (h : helpers) (p : List instruction) (cur_points tie_ndx : Int)
    (def_interval : Option Nat) : List Nat → Int → build_state → build_state
  | [], _, st => st
  | arg :: rest, cnt, st =>
    build_args h p cur_points tie_ndx def_interval rest (cnt + 1)
      (build_arg h p cur_points tie_ndx def_interval st cnt arg)

/-- One pass through the body of the do-loop of build (lines 109-183) for the instruction
`iter` at the program point `cur_points`. -/
def build_instr (h : helpers) (p : List instruction) (iter : Nat) (cur_points : Int)
    (st : build_state) : build_state :=
  let d := build_def h p iter cur_points st
  let st1 := build_args h p cur_points (h.get_input_tie_ndx p (instr p iter)) d.1
    (instr p iter).inputs 0 d.2
  if st1.is_dead then { st1 with dead_instrs := st1.dead_instrs ++ [iter] } else st1

/-- The do-loop of build with `k` instructions left to visit, the next one being the one
at position `k - 1`; `cur_points` is decremented by 2 after every instruction. -/
def build_loop (h : helpers) (p : List instruction) : Nat → Int → build_state → build_state
  | 0, _, st => st
  | k + 1, cur_points, st =>
    build_loop h p k (cur_points - 2) (build_instr h p k cur_points st)

/-- The local variables of build at the entry of the loop. -/
def build_state.init (s : memory_coloring_impl) : build_state :=
  { impl := s, live_set := [], dead_instrs := [], is_dead := false, live_sets := [[]] }

/-- The locals and the state at the end of `memory_coloring_impl::build`. -/
def build_trace (h : helpers) (p : List instruction) (s : memory_coloring_impl) : build_state :=
  if p.length = 0 then build_state.init s
  else build_loop h p p.length (2 * (p.length : Int)) (build_state.init s)

/-- The function `memory_coloring_impl::build`. -/
def build (h : helpers) (p : List instruction) (s : memory_coloring_impl) :
    memory_coloring_impl :=
  (build_trace h p s).impl

/-! ## run -/

/-- Modelled from the spec: the comparator `ordering` on `interval_ptr` of
memory_coloring_impl.hpp fixes the order in which the allocation queue yields the pushed
intervals.  The theorems hold for every order, so it is any function `pop` that returns
the pushed intervals permuted (it may inspect the state). -/
structure alloc_order where
  pop : memory_coloring_impl → List Nat → List Nat
  perm : ∀ s q, (pop s q).Perm q

/-- The loop of lines 17-22 of run: allocate is called on the intervals in the order in
which the queue yields them. -/
def allocate_all (o : conflict_order) : List Nat → memory_coloring_impl → Option memory_coloring_impl
  | [], s => some s
  | interval :: rest, s => (allocate o s interval).bind (fun r => allocate_all o rest r.2)

/-- The function `memory_coloring_impl::run` up to the end of the allocation loop (lines 7-22); `unify`
says whether MIGRAPH_UNIFY_MEMORY_COLORING is enabled. -/
def run (h : helpers) (o : conflict_order) (a : alloc_order) (unify : Bool)
    (p : List instruction) : Option memory_coloring_impl :=
  let s := build h p (memory_coloring_impl.init unify)
  if s.num_of_lives ≠ 0 then
    (allocate_all o (a.pop s s.alloc_queue) s).map (fun r => { r with alloc_queue := [] })
  else some s

/-! ## The helpers as the specification describes them -/

/-- The table `register_operand_alias` fills (lines 189-199). -/
def operand_alias : List (String × Int) :=
  [("hip::allocate", -1), ("hip::load_literal", -1), ("@outline", -1), ("check_context", -1),
   ("@literal", -1), ("@param", -1), ("transpose", 0), ("flatten", 0), ("broadcast", 1),
   ("reshape", 0), ("pass", 0)]

/-- Modelled from the spec: the helpers of memory_coloring_impl.hpp.  The predicates are
"derivable from instruction kind" (the names are those of `register_operand_alias`,
`allocation_op` names the allocation-origin instruction), and the alias index is the entry
of the table, "none" (-1) for "unknown instruction kinds". -/
def spec_helpers (allocation_op : String) : helpers :=
  { is_param := fun i => i.name == "@param"
    is_output_param := fun i => i.name == "@param" && i.output_param
    is_allocate := fun i => i.name == allocation_op
    is_outline := fun i => i.name == "@outline"
    is_literal := fun i => i.name == "@literal"
    is_check_context := fun i => i.name == "check_context"
    get_input_tie_ndx := fun _ i => ((operand_alias.lookup i.name).getD (-1)) }

/-- A pop order of the allocation queue: the order of pushing. -/
def push_order : alloc_order :=
  { pop := fun _ q => q, perm := fun _ q => List.Perm.refl q }

/-! ## verify -/

/-- Modelled from the spec: `is_disjoin` of memory_coloring_impl.hpp, "the byte ranges
`[a.offset, a.offset+a.size)` and `[b.offset, b.offset+b.size)` do not intersect". -/
def is_disjoin (range1 range2 : live_range) : Bool :=
  decide (range1.size = 0 ∨ range2.size = 0 ∨
    range1.offset + range1.size ≤ range2.offset ∨ range2.offset + range2.size ≤ range1.offset)

/-- Lines 305-312 of verify, the loop over the conflict set of the interval `i` with the
segment `segment`: the value numbers `iter` at which `assert(false)` is reached, paired
with `i`. -/
def verify_set (s : memory_coloring_impl) (i : Nat) (segment : live_range) :
    List Int → Option (List (Nat × Int))
  | [] => some []
  | iter :: rest =>
    match s.live_ranges iter with
    | none => none
    | some range =>
      if (s.range range).offset = invalid_offset then verify_set s i segment rest
      else if !is_disjoin (s.range range) segment then
        (verify_set s i segment rest).map (fun l => (i, iter) :: l)
      else verify_set s i segment rest

/-- Lines 286-314 of verify, the loop over the intervals. -/
def verify_loop (s : memory_coloring_impl) : List Nat → Option (List (Nat × Int))
  | [] => some []
  | i :: rest =>
    let segment := (s.live_intervals i).segment
    if segment.begin = invalid_offset then verify_loop s rest
    else if segment.offset = invalid_offset then verify_loop s rest
    else (verify_set s i segment (s.conflict_table segment.vn)).bind
      (fun l => (verify_loop s rest).map (fun l' => l ++ l'))

/-- The function `memory_coloring_impl::verify`: every place at which `assert(false)` of line 311 is
reached when the run is not stopped there (nor by the assertion of line 293). -/
def verify (s : memory_coloring_impl) : Option (List (Nat × Int)) :=
  verify_loop s (List.range s.num_of_lives)

/-! ## Example programs -/

/-- Three buffers of 16 bytes: A (instruction 1) and B (2) are read by instruction 3, then
B and C (4) by instruction 5, so that A and B, and B and C, are live together. -/
def three_buffers : List instruction :=
  [ { name := "@outline", inputs := [], result := { bytes := 16, elements := 4 } },
    { name := "hip::allocate", inputs := [0], result := { bytes := 16, elements := 4 } },
    { name := "hip::allocate", inputs := [0], result := { bytes := 16, elements := 4 } },
    { name := "add", inputs := [1, 2], result := { bytes := 16, elements := 4 } },
    { name := "hip::allocate", inputs := [0], result := { bytes := 16, elements := 4 } },
    { name := "add", inputs := [2, 4], result := { bytes := 16, elements := 4 } } ]

/-- Two buffers of 16 bytes that are never live together: A (instruction 1) is read by
instruction 2 only, B (3) by instruction 4 only. -/
def two_buffers : List instruction :=
  [ { name := "@outline", inputs := [], result := { bytes := 16, elements := 4 } },
    { name := "hip::allocate", inputs := [0], result := { bytes := 16, elements := 4 } },
    { name := "relu", inputs := [1], result := { bytes := 16, elements := 4 } },
    { name := "hip::allocate", inputs := [0], result := { bytes := 16, elements := 4 } },
    { name := "relu", inputs := [3], result := { bytes := 16, elements := 4 } } ]

/-- A single allocation of size 0 (instruction 1), read by instruction 2. -/
def zero_buffer : List instruction :=
  [ { name := "@outline", inputs := [], result := { bytes := 0, elements := 0 } },
    { name := "hip::allocate", inputs := [0], result := { bytes := 0, elements := 0 } },
    { name := "relu", inputs := [1], result := { bytes := 0, elements := 0 } } ]

/-- A chain of aliasing instructions: the buffer of instruction 1 is reshaped by 2, the
result is reshaped by 3, which instruction 4 reads. -/
def reshape_chain : List instruction :=
  [ { name := "@outline", inputs := [], result := { bytes := 16, elements := 4 } },
    { name := "hip::allocate", inputs := [0], result := { bytes := 16, elements := 4 } },
    { name := "reshape", inputs := [1], result := { bytes := 16, elements := 4 } },
    { name := "reshape", inputs := [2], result := { bytes := 16, elements := 4 } },
    { name := "relu", inputs := [3], result := { bytes := 16, elements := 4 } } ]

/-- A buffer that is read both directly and through an alias: the allocation 1 is reshaped
by 2, instruction 3 reads the reshape, and instruction 4, the last one, reads the
allocation itself. -/
def direct_and_aliased_use : List instruction :=
  [ { name := "@outline", inputs := [], result := { bytes := 16, elements := 4 } },
    { name := "hip::allocate", inputs := [0], result := { bytes := 16, elements := 4 } },
    { name := "reshape", inputs := [1], result := { bytes := 16, elements := 4 } },
    { name := "pass", inputs := [2], result := { bytes := 16, elements := 4 } },
    { name := "pass", inputs := [1], result := { bytes := 16, elements := 4 } } ]

/-- A buffer with two aliases: the allocation 1 is reshaped by 2 and by 3, and
instruction 4 reads both reshapes. -/
def two_reshapes : List instruction :=
  [ { name := "@outline", inputs := [], result := { bytes := 16, elements := 4 } },
    { name := "hip::allocate", inputs := [0], result := { bytes := 16, elements := 4 } },
    { name := "reshape", inputs := [1], result := { bytes := 16, elements := 4 } },
    { name := "reshape", inputs := [1], result := { bytes := 16, elements := 4 } },
    { name := "pass", inputs := [2, 3], result := { bytes := 16, elements := 4 } } ]

/-- A reshape of a parameter: the parameter 0 is reshaped by instruction 1, which
instruction 2 reads. -/
def reshape_of_parameter : List instruction :=
  [ { name := "@param", inputs := [], result := { bytes := 16, elements := 4 },
      parameter := "x" },
    { name := "reshape", inputs := [0], result := { bytes := 16, elements := 4 } },
    { name := "pass", inputs := [1], result := { bytes := 16, elements := 4 } } ]

/-- Three literals: no instruction reads the literal 0, and instruction 3 reads the
literal 1, of 16 bytes, and the literal 2, of size 0. -/
def three_literals : List instruction :=
  [ { name := "@literal", inputs := [], result := { bytes := 16, elements := 4 },
      literal := 7 },
    { name := "@literal", inputs := [], result := { bytes := 16, elements := 4 },
      literal := 8 },
    { name := "@literal", inputs := [], result := { bytes := 0, elements := 0 },
      literal := 9 },
    { name := "add", inputs := [1, 2], result := { bytes := 16, elements := 4 } } ]

/-- A buffer of 6 bytes, three elements of 2 bytes each (instruction 1), read by
instruction 2. -/
def six_byte_buffer : List instruction :=
  [ { name := "@outline", inputs := [], result := { bytes := 6, elements := 3 } },
    { name := "hip::allocate", inputs := [0], result := { bytes := 6, elements := 3 } },
    { name := "pass", inputs := [1], result := { bytes := 6, elements := 3 } } ]

/-- A literal that is read before and after another literal is defined: the literal 0 is
read by the instructions 1 and 3, the literal 2 by the instruction 3, and the instruction 4
reads the results of 1 and 3. -/
def reread_literal : List instruction :=
  [ { name := "@literal", inputs := [], result := { bytes := 16, elements := 4 },
      literal := 7 },
    { name := "relu", inputs := [0], result := { bytes := 16, elements := 4 } },
    { name := "@literal", inputs := [], result := { bytes := 16, elements := 4 },
      literal := 8 },
    { name := "add", inputs := [0, 2], result := { bytes := 16, elements := 4 } },
    { name := "add", inputs := [1, 3], result := { bytes := 16, elements := 4 } } ]

/-! ## rewrite -/

/-- What the pass observes of `shape{shape::float_type, dims}`: as many elements as the
product of the dimensions, of `sizeof(float)` = 4 bytes each. -/
def float_shape (dims : List Nat) : shape :=
  { bytes := 4 * dims.prod, elements := dims.prod }

/-- Modelled from the spec: `program::add_parameter` (program.cpp is not among the
sources), "append a new parameter binding of a given shape to the program".  The
reference it returns is the position of the new instruction, the length of `p`. -/
def add_parameter (p : List instruction) (name : String) (s : shape) : List instruction :=
  p ++ [{ name := "@param", inputs := [], result := s, parameter := name }]

/-- The scratch parameter rewrite adds (lines 206-209): the parameter "scratch", a
one-dimensional float buffer of `required_bytes / sizeof(float)` elements. -/
def scratch_parameter (s : memory_coloring_impl) : instruction :=
  { name := "@param", inputs := [], result := float_shape [s.required_bytes.toNat / 4],
    parameter := "scratch" }

/-- Modelled from the spec: `program::add_literal` (program.cpp is not among the sources):
a new literal instruction that holds the constant `l` of shape `s` is added to the program
like a parameter.  The reference it returns is the length of `p`. -/
def add_literal (p : List instruction) (l : Nat) (s : shape) : List instruction :=
  p ++ [{ name := "@literal", inputs := [], result := s, literal := l }]

/-- Modelled from the spec: the instruction `replace_instruction(ins, op::load{s, offset},
scratch_param)` leaves at the place of `ins`, a "load view" that "reinterprets a sub-range
`[offset, offset+size)` of the scratch buffer" at the shape `s`. -/
def load (s : shape) (offset scratch_param : Nat) : instruction :=
  { name := "load", inputs := [scratch_param], result := s, offset := offset }

/-- Modelled from the spec: the instruction `replace_instruction(ins, write_literal{offset,
pre_copy}, scratch_param, pre)` leaves at the place of `ins`, a "materialize literal" that
"copies the literal's constant data into the scratch buffer at `offset`"; `s` is the shape
of the literal. -/
def write_literal (s : shape) (offset : Nat) (pre_copy : Bool) (scratch_param pre : Nat) :
    instruction :=
  { name := "write_literal", inputs := [scratch_param, pre], result := s, offset := offset,
    pre_copy := pre_copy }

/-- Lines 222-230 of rewrite: the offset the new operator carries, that of the interval, and
0 when the interval has none. -/
def rewrite_offset (i : live_interval) : Nat :=
  if i.segment.offset = invalid_offset then 0 else i.segment.offset.toNat

/-- The body of the loop of rewrite (lines 212-245) for the instruction `ins` of the
program `p`.  The result is the program after the step; `none` is the exception
`inputs().at(0)` throws for an allocation without input. -/
def rewrite_instr (h : helpers) (s : memory_coloring_impl) (scratch_param : Nat)
    (p : List instruction) (ins : Nat) : Option (List instruction) :=
  match s.instr2_live ins with
  | none => some p
  | some interval =>
    let i := s.live_intervals interval
    if i.segment.begin = invalid_offset then some p
    else if !s.unify_literals && i.is_literal then some p
    else
      let offset : Nat := rewrite_offset i
      if h.is_allocate (instr p ins) then
        match (instr p ins).inputs with
        | [] => none
        | a :: _ => some (p.set ins (load (instr p a).result offset scratch_param))
      else if h.is_literal (instr p ins) && s.unify_literals then
        let pre := p.length
        let p1 := add_literal p (instr p ins).literal (instr p ins).result
        let pre_copy := decide (i.segment.begin < s.earliest_end_point)
        some (p1.set ins (write_literal (instr p ins).result offset pre_copy scratch_param pre))
      else some p

/-- The loop of lines 210-246 over the instructions `l` (their positions, in program
order). -/
def rewrite_loop (h : helpers) (s : memory_coloring_impl) (scratch_param : Nat) :
    List Nat → List instruction → Option (List instruction)
  | [], p => some p
  | ins :: rest, p =>
    (rewrite_instr h s scratch_param p ins).bind (rewrite_loop h s scratch_param rest)

/-- The function `memory_coloring_impl::rewrite` on the program `p`.  `required_bytes` is
never negative, so that its conversion to `std::size_t` is its value.  The loop visits the
instructions of `p`; the scratch parameter and the literals rewrite adds are new
instructions, which are no keys of `instr2_live`. -/
def rewrite (h : helpers) (s : memory_coloring_impl) (p : List instruction) :
    Option (List instruction) :=
  let dims := [s.required_bytes.toNat / 4]
  let scratch_param := p.length
  rewrite_loop h s scratch_param (List.range p.length)
    (add_parameter p "scratch" (float_shape dims))

/-- The function `memory_coloring_impl::run` with the program it leaves: the state after
the allocation loop and the program after rewrite, or the program as it was when build
created no interval. -/
def run_pass (h : helpers) (o : conflict_order) (a : alloc_order) (unify : Bool)
    (p : List instruction) : Option (memory_coloring_impl × List instruction) :=
  if (build h p (memory_coloring_impl.init unify)).num_of_lives ≠ 0 then
    (run h o a unify p).bind (fun s => (rewrite h s p).map (fun p' => (s, p')))
  else some (build h p (memory_coloring_impl.init unify), p)

/-- The visits of the do-loop of build on a program of `n` instructions, in the order in
which they are made: the position of the instruction and its program point. -/
def build_visits (n : Nat) : List (Nat × Int) :=
  (List.range n).reverse.map (fun i => (i, 2 * ((i : Int) + 1)))

/-! ## The assertions of the pass -/

/-- Lines 286-295 of verify: the intervals at which the assertion of line 293 fails, those
whose begin is not set and that are not live on entry. -/
def verify_entry (s : memory_coloring_impl) : List Nat :=
  (List.range s.num_of_lives).filter (fun i =>
    decide ((s.live_intervals i).segment.begin = invalid_offset) &&
      !(s.live_intervals i).is_live_on_entry)

/-- Lines 213-226 of rewrite for the instruction `ins`: whether the assertion of line 225
holds when it is reached (`true` when it is not reached). -/
def rewrite_assert (s : memory_coloring_impl) (ins : Nat) : Bool :=
  match s.instr2_live ins with
  | none => true
  | some interval =>
    let i := s.live_intervals interval
    if i.segment.begin = invalid_offset then true
    else if !s.unify_literals && i.is_literal then true
    else if i.segment.offset = invalid_offset then decide (i.result.bytes = 0)
    else true

/-- Lines 174-179 of build for the input `arg` at position `cnt`, read in the state `st`:
whether the assertion of line 178 holds when it is reached, that is when the operand is
no parameter or outlined buffer, is not the tied operand and has an interval already
(`true` when it is not reached). -/
def build_arg_assert (h : helpers) (p : List instruction) (cur_points tie_ndx : Int)
    (def_interval : Option Nat) (st : build_state) (cnt : Int) (arg : Nat) : Bool :=
  if h.is_param (instr p arg) || h.is_outline (instr p arg) then true
  else
    match (if cnt = tie_ndx then def_interval else none) with
    | some _ => true
    | none =>
      match st.impl.instr2_live arg with
      | none => true
      | some interval =>
        let i1 := (st.impl.live_intervals interval).add_use cur_points
        decide (i1.id ∈ st.live_set)

/-- The assertion of line 178 over the loop of lines 136-180, as `build_args` runs it. -/
def build_args_assert (h : helpers) (p : List instruction) (cur_points tie_ndx : Int)
    (def_interval : Option Nat) : List Nat → Int → build_state → Bool
  | [], _, _ => true
  | arg :: rest, cnt, st =>
    build_arg_assert h p cur_points tie_ndx def_interval st cnt arg &&
      build_args_assert h p cur_points tie_ndx def_interval rest (cnt + 1)
        (build_arg h p cur_points tie_ndx def_interval st cnt arg)

/-- The assertion of line 178 during the visit of the instruction `iter`. -/
def build_instr_assert (h : helpers) (p : List instruction) (iter : Nat) (cur_points : Int)
    (st : build_state) : Bool :=
  let d := build_def h p iter cur_points st
  build_args_assert h p cur_points (h.get_input_tie_ndx p (instr p iter)) d.1
    (instr p iter).inputs 0 d.2

/-- The assertion of line 178 over the do-loop of build, as `build_loop` runs it. -/
def build_loop_assert (h : helpers) (p : List instruction) : Nat → Int → build_state → Bool
  | 0, _, _ => true
  | k + 1, cur_points, st =>
    build_instr_assert h p k cur_points st &&
      build_loop_assert h p k (cur_points - 2) (build_instr h p k cur_points st)

/-- Whether the assertion of line 178 holds every time `memory_coloring_impl::build` reaches it. -/
def build_assert (h : helpers) (p : List instruction) (s : memory_coloring_impl) : Bool :=
  if p.length = 0 then true
  else build_loop_assert h p p.length (2 * (p.length : Int)) (build_state.init s)

/-! ## The interval allocator as the specification describes it -/

/-- Modelled from the spec: the order in which the allocation queue yields the intervals
(the comparator of memory_coloring_impl.hpp), "ascending definition-point order (ties
broken by larger size first)". -/
def definition_order : alloc_order :=
  { pop := fun s q => q.insertionSort (fun a b =>
      (s.range a).begin < (s.range b).begin ∨
        ((s.range a).begin = (s.range b).begin ∧ (s.range b).size ≤ (s.range a).size))
    perm := fun _ q => List.perm_insertionSort _ q }

/-- Modelled from the spec (step 3 of the interval allocator): "Gather every interference
neighbor of `vn` that already has a valid offset": the ranges recorded for the value
numbers of the conflict set of the interval, those with a valid offset. -/
def spec_neighbours (s : memory_coloring_impl) (interval : Nat) : List Nat :=
  (s.conflict_table (s.live_intervals interval).segment.vn).filterMap (fun v =>
    match s.live_ranges v with
    | some r => if (s.range r).offset ≠ invalid_offset then some r else none
    | none => none)

/-- Modelled from the spec (step 3): "among neighbors sharing the same offset (possible
after coalescing), keep only the one with the larger size".  A neighbour is dropped when a
kept neighbour of its offset is at least as large, and replaces the kept neighbours of its
offset otherwise. -/
def keep_largest (s : memory_coloring_impl) : List Nat → List Nat
  | [] => []
  | r :: rest =>
    if (keep_largest s rest).any (fun r' =>
        decide ((s.range r').offset = (s.range r).offset ∧
          (s.range r).size ≤ (s.range r').size)) then keep_largest s rest
    else r :: (keep_largest s rest).filter (fun r' =>
      decide ((s.range r').offset ≠ (s.range r).offset))

/-- Modelled from the spec (step 4): "Scan these neighbors in ascending offset order,
tracking a running candidate offset starting at 0: if the candidate offset already lies
inside a neighbor's occupied range, advance the candidate to just past that neighbor's end;
if a gap between the previous neighbor's end and the next neighbor's start is at least
`Rx.size`, stop there."  The list holds the neighbours in ascending offset order, `c` is
the candidate. -/
def spec_scan (s : memory_coloring_impl) (size : Nat) : List Nat → Int → Int
  | [], c => c
  | r :: rest, c =>
    if (s.range r).offset ≤ c ∧ c < (s.range r).offset + (s.range r).size then
      spec_scan s size rest ((s.range r).offset + (s.range r).size)
    else if c < (s.range r).offset ∧ (s.range r).offset - c ≥ (size : Int) then c
    else spec_scan s size rest c

/-- Modelled from the spec (steps 2 to 4): the offset of the interval `interval`, the
candidate the scan of the kept neighbours leaves, and "After considering all neighbors,
round the candidate offset up to a multiple of `element_size`", where `element_size =
Rx.size / element_count`. -/
def spec_offset (s : memory_coloring_impl) (interval : Nat) : Option Int :=
  let r := (s.live_intervals interval).result
  if r.elements = 0 then none
  else
    align (r.bytes / r.elements)
      (spec_scan s r.bytes
        (insertion_order.pop (fun i => (s.range i).offset)
          (keep_largest s (spec_neighbours s interval))) 0)

/-- Modelled from the spec: the scan of step 4 with the two changes that make it the scan
of the code: the candidate also advances past a neighbour that starts less than `size`
after it, and it is rounded up to a multiple of `element_size` after every neighbour
considered (not once at the end). -/
def spec_scan_rounded (s : memory_coloring_impl) (size element_size : Nat) :
    List Nat → Int → Option Int
  | [], c => some c
  | r :: rest, c =>
    if (s.range r).offset ≤ c ∧ c < (s.range r).offset + (s.range r).size then
      (align element_size ((s.range r).offset + (s.range r).size)).bind
        (spec_scan_rounded s size element_size rest)
    else if c < (s.range r).offset ∧ (s.range r).offset - c ≥ (size : Int) then some c
    else if c < (s.range r).offset then
      (align element_size ((s.range r).offset + (s.range r).size)).bind
        (spec_scan_rounded s size element_size rest)
    else (align element_size c).bind (spec_scan_rounded s size element_size rest)

/-- Modelled from the spec: steps 2 to 4 with the scan `spec_scan_rounded`. -/
def spec_offset_rounded (s : memory_coloring_impl) (interval : Nat) : Option Int :=
  let r := (s.live_intervals interval).result
  if r.elements = 0 then none
  else
    spec_scan_rounded s r.bytes (r.bytes / r.elements)
      (insertion_order.pop (fun i => (s.range i).offset)
        (keep_largest s (spec_neighbours s interval))) 0

/-- The offset allocate would compute (lines 30-87) if, of the gathered neighbours of one
offset, only the one `offset2_live` holds, one of largest size, were on the conflict
queue. -/
def allocate_offset_kept (o : conflict_order) (s : memory_coloring_impl) (interval : Nat) :
    Option Int :=
  let r := (s.live_intervals interval).result
  if r.elements = 0 then none
  else
    match gather s (s.conflict_table (s.live_intervals interval).segment.vn) ([], fun _ => none) with
    | none => none
    | some (q, offset2_live) =>
      scan s offset2_live r.bytes (r.bytes / r.elements)
        (o.pop (fun i => (s.range i).offset)
          (q.filter (fun x => decide (offset2_live (s.range x).offset = some x)))) 0

/-- Four buffers, of 6, 4, 4 and 4 bytes: A (instruction 1), C (3) and B (4) are read by
instruction 5, and A, B and X (7, one element of 4 bytes) by instruction 8, so that X is
live together with A and B but not with C. -/
def rounding_gap : List instruction :=
  [ { name := "@outline", inputs := [], result := { bytes := 6, elements := 3 } },
    { name := "hip::allocate", inputs := [0], result := { bytes := 6, elements := 3 } },
    { name := "@outline", inputs := [], result := { bytes := 4, elements := 2 } },
    { name := "hip::allocate", inputs := [2], result := { bytes := 4, elements := 2 } },
    { name := "hip::allocate", inputs := [2], result := { bytes := 4, elements := 2 } },
    { name := "add", inputs := [1, 3, 4], result := { bytes := 4, elements := 2 } },
    { name := "@outline", inputs := [], result := { bytes := 4, elements := 1 } },
    { name := "hip::allocate", inputs := [6], result := { bytes := 4, elements := 1 } },
    { name := "add", inputs := [1, 4, 7], result := { bytes := 4, elements := 1 } } ]

/-- Three buffers, of 4, 4 and 8 bytes: C (instruction 1) and A (2) are read by instruction
3, and A and X (5) by instruction 6, so that X is live together with A only. -/
def small_gap : List instruction :=
  [ { name := "@outline", inputs := [], result := { bytes := 4, elements := 1 } },
    { name := "hip::allocate", inputs := [0], result := { bytes := 4, elements := 1 } },
    { name := "hip::allocate", inputs := [0], result := { bytes := 4, elements := 1 } },
    { name := "add", inputs := [1, 2], result := { bytes := 4, elements := 1 } },
    { name := "@outline", inputs := [], result := { bytes := 8, elements := 2 } },
    { name := "hip::allocate", inputs := [4], result := { bytes := 8, elements := 2 } },
    { name := "add", inputs := [2, 5], result := { bytes := 8, elements := 2 } } ]

/-- Two buffers at one offset: X (instruction 1, 16 bytes) is read together with A (2, 16
bytes) by instruction 3 and together with B (4, 8 bytes) by instruction 5; A and B are
never live together. -/
def two_at_zero : List instruction :=
  [ { name := "@outline", inputs := [], result := { bytes := 16, elements := 4 } },
    { name := "hip::allocate", inputs := [0], result := { bytes := 16, elements := 4 } },
    { name := "hip::allocate", inputs := [0], result := { bytes := 16, elements := 4 } },
    { name := "add", inputs := [1, 2], result := { bytes := 16, elements := 4 } },
    { name := "hip::allocate", inputs := [0], result := { bytes := 8, elements := 2 } },
    { name := "add", inputs := [1, 4], result := { bytes := 16, elements := 4 } } ]

/-! ## Sums over the intervals that have an offset -/

/-- The element size line 34 of allocate computes for the interval `i`: the bytes of its
result divided by its elements. -/
def element_size (s : memory_coloring_impl) (i : Nat) : Nat :=
  (s.live_intervals i).result.bytes / (s.live_intervals i).result.elements

/-- The sum of `w i` over the intervals `i` that have an offset. -/
def placed_sum (s : memory_coloring_impl) (w : Nat → Int) : Int :=
  ((List.range s.num_of_lives).map
    (fun i => if (s.range i).offset ≠ invalid_offset then w i else 0)).sum

/-- The sum of `size + element_size - 1` over the intervals that have an offset. -/
def slot_sum (s : memory_coloring_impl) : Int :=
  placed_sum s (fun i => ((s.range i).size : Int) + (element_size s i : Int) - 1)

/-- The sum of the sizes of the intervals that have an offset. -/
def size_sum (s : memory_coloring_impl) : Int :=
  placed_sum s (fun i => ((s.range i).size : Int))

/-! ## Module inlining (src/inline_module.cpp)

The class `module` and the class `instruction` are not among the sources: what the pass
calls of them is the parameter `module_api`.  An `instruction_ref` is a number, a module
named in `module_inputs()` is a number, and an `argument` (the result of `eval()`) is the
integer it holds, an empty argument being `none`. -/

/-- What inline_module.cpp calls of a module in the state `M`: the instructions of the
module the pass is applied to and of a submodule, in order (`iterator_for`); the name, the
inputs, the outputs, the module inputs, the constant value (`eval()`) and the entry "index"
of the operator value of an instruction; and the mutations, which return the new state and
the reference to the new instruction: `add_literal`, `add_parameter` and `add_outline` with
the literal, the parameter name and the shape of the instruction `sins`,
`insert_instruction(ins, sins->get_operator(), inputs, mod_args)`, `add_literal` with the
shape and data of an argument, `insert_instruction(ins, make_op("if"), inputs, {})` and
`replace_instruction(out, rep)`. -/
structure module_api (M : Type) where
  instructions : M → List Nat
  module_instructions : M → Nat → List Nat
  name : M → Nat → String
  inputs : M → Nat → List Nat
  outputs : M → Nat → List Nat
  module_inputs : M → Nat → List Nat
  eval : M → Nat → Option Int
  index : M → Nat → Option Nat
  add_literal : M → Nat → M × Nat
  add_parameter : M → Nat → M × Nat
  add_outline : M → Nat → M × Nat
  insert_instruction : M → Nat → Nat → List Nat → List Nat → M × Nat
  add_literal_value : M → Int → M × Nat
  insert_if : M → Nat → List Nat → M × Nat
  replace_instruction : M → Nat → Nat → M

/-- Lines 21-57 of inline_module.cpp, the loop of inline_submodule over the instructions
`sins` of the submodule: `map_ins` maps an instruction of the submodule to its copy (the
latest entry first) and the result is the state and `mod_outputs`. -/
def inline_copy {M : Type} (api : module_api M) (ins : Nat) :
    List Nat → M → List (Nat × Nat) → List Nat → M × List Nat
  | [], m, _, mod_outputs => (m, mod_outputs)
  | sins :: rest, m, map_ins, _ =>
    if api.name m sins = "@literal" then
      let r := api.add_literal m sins
      inline_copy api ins rest r.1 ((sins, r.2) :: map_ins) [r.2]
    else if api.name m sins = "@param" then
      let r := api.add_parameter m sins
      inline_copy api ins rest r.1 ((sins, r.2) :: map_ins) [r.2]
    else if api.name m sins = "@outline" then
      let r := api.add_outline m sins
      inline_copy api ins rest r.1 ((sins, r.2) :: map_ins) [r.2]
    else
      let mod_args := api.module_inputs m sins
      let copy_inputs := (api.inputs m sins).map (fun i => (map_ins.lookup i).getD i)
      if api.name m sins = "@return" then (m, copy_inputs)
      else
        let r := api.insert_instruction m ins sins copy_inputs mod_args
        inline_copy api ins rest r.1 ((sins, r.2) :: map_ins) [r.2]

/-- Lines 59-67 of inline_module.cpp, the loop of inline_submodule over the outputs of the
`if` instruction; the result is `none` when `at` throws or the operator has no index. -/
def inline_replace {M : Type} (api : module_api M) (mod_outputs : List Nat) :
    List Nat → M → Option M
  | [], m => some m
  | out :: rest, m =>
    match api.index m out with
    | none => none
    | some index =>
      match mod_outputs[index]? with
      | none => none
      | some rep => inline_replace api mod_outputs rest (api.replace_instruction m out rep)

/-- The function `inline_submodule` (lines 11-68 of inline_module.cpp).  The result is
`none` when the `if` instruction has no input, its condition has no constant value, or
`at` throws. -/
def inline_submodule {M : Type} (api : module_api M) (m : M) (ins : Nat) : Option M :=
  match (api.inputs m ins).head? with
  | none => none
  | some c =>
    match api.eval m c with
    | none => none
    | some arg_cond =>
      let mod_inputs := api.module_inputs m ins
      match (if arg_cond ≠ 0 then mod_inputs[0]? else mod_inputs[1]?) with
      | none => none
      | some smod =>
        let r := inline_copy api ins (api.module_instructions m smod) m [] []
        inline_replace api r.2 (api.outputs r.1 ins) r.1

/-- Lines 99-105 of inline_module.cpp, the loop of apply over the outputs of one submodule:
the result is `none` when an output has no constant value (the statement `return`), and
else `arg_outs`. -/
def fold_module_outs {M : Type} (api : module_api M) (m : M) :
    List Nat → List Int → Option (List Int)
  | [], arg_outs => some arg_outs
  | out :: rest, arg_outs =>
    match api.eval m out with
    | none => none
    | some mod_out => fold_module_outs api m rest (arg_outs ++ [mod_out])

/-- Lines 85-106 of inline_module.cpp, the loop of apply over the submodules of an `if`
instruction.  The result is `none` when a submodule has no instruction (`std::prev` of its
end is undefined), `some none` when the statement `return` of line 103 is reached, and
else `arg_outs`. -/
def fold_outs {M : Type} (api : module_api M) (m : M) :
    List Nat → List Int → Option (Option (List Int))
  | [], arg_outs => some (some arg_outs)
  | mod :: rest, arg_outs =>
    match (api.module_instructions m mod).getLast? with
    | none => none
    | some last =>
      let mod_outputs := if api.name m last = "@return" then api.inputs m last else [last]
      match fold_module_outs api m mod_outputs arg_outs with
      | none => some none
      | some arg_outs1 => fold_outs api m rest arg_outs1

/-- Lines 111-121 of inline_module.cpp, the loop of apply over `i < out_num`, given the
values of `i` still to come; the result is `none` when `at` throws. -/
def fold_loop {M : Type} (api : module_api M) (ins cond : Nat) (arg_outs : List Int)
    (out_num : Nat) : List Nat → M → Option M
  | [], m => some m
  | i :: rest, m =>
    match arg_outs[i]?, arg_outs[i + out_num]? with
    | some a0, some a1 =>
      let l0 := api.add_literal_value m a0
      let l1 := api.add_literal_value l0.1 a1
      let r := api.insert_if l1.1 ins [cond, l0.2, l1.2]
      match (api.outputs r.1 ins)[i]? with
      | none => none
      | some out => fold_loop api ins cond arg_outs out_num rest
          (api.replace_instruction r.1 out r.2)
    | _, _ => none

/-- The loop of `inline_module::apply` (lines 72-129 of inline_module.cpp) over the
instructions still to visit.  The result is the state at the end of apply: the statement
`return` of line 103 ends the loop. -/
def apply_loop {M : Type} (api : module_api M) : List Nat → M → Option M
  | [], m => some m
  | ins :: rest, m =>
    if api.name m ins ≠ "if" then apply_loop api rest m
    else
      match (api.inputs m ins).head? with
      | none => none
      | some cond =>
        match api.eval m cond with
        | none =>
          match fold_outs api m (api.module_inputs m ins) [] with
          | none => none
          | some none => some m
          | some (some arg_outs) =>
            (fold_loop api ins cond arg_outs (arg_outs.length / 2)
              (List.range (arg_outs.length / 2)) m).bind (apply_loop api rest)
        | some _ => (inline_submodule api m ins).bind (apply_loop api rest)

/-- The function `inline_module::apply`.  The loop visits the instructions the module has
when apply is entered: the instructions the body adds are put before the visited
instruction, or are literals, parameters and outlines, which are no `if` instruction. -/
def inline_module.apply {M : Type} (api : module_api M) (m : M) : Option M :=
  apply_loop api (api.instructions m) m

/-! ## A module to evaluate the pass on -/

/-- An instruction of the example modules: its reference, its name, its inputs, its module
inputs, the entry "index" of its operator and, for a literal, its value. -/
structure mod_instruction where
  ref : Nat
  name : String
  inputs : List Nat := []
  module_inputs : List Nat := []
  index : Option Nat := none
  value : Option Int := none
deriving DecidableEq, Repr

/-- A module with its submodules (module `k` is the entry `k` of `subs`); `fresh` is the
reference the next new instruction gets. -/
structure simple_module where
  main : List mod_instruction
  subs : List (List mod_instruction)
  fresh : Nat
deriving DecidableEq, Repr

/-- The instruction with the reference `r`; a reference that designates nothing reads as
an instruction without name. -/
def simple_module.find (m : simple_module) (r : Nat) : mod_instruction :=
  ((m.main ++ m.subs.flatten).find? (fun i => i.ref = r)).getD { ref := r, name := "" }

/-- The instruction `x` put before the instruction with the reference `r`. -/
def insert_before (r : Nat) (x : mod_instruction) : List mod_instruction → List mod_instruction
  | [] => [x]
  | i :: rest => if i.ref = r then x :: i :: rest else i :: insert_before r x rest

/-- An implementation of `module_api` on `simple_module`: only a literal has a constant
value, a new literal, parameter or outline is put at the front of the module, and
`replace_instruction(out, rep)` makes every reader of `out` read `rep`. -/
def simple_api : module_api simple_module :=
  { instructions := fun m => m.main.map (fun i => i.ref)
    module_instructions := fun m k => (m.subs.getD k []).map (fun i => i.ref)
    name := fun m r => (m.find r).name
    inputs := fun m r => (m.find r).inputs
    outputs := fun m r =>
      ((m.main ++ m.subs.flatten).filter (fun i => decide (r ∈ i.inputs))).map (fun i => i.ref)
    module_inputs := fun m r => (m.find r).module_inputs
    eval := fun m r => if (m.find r).name = "@literal" then (m.find r).value else none
    index := fun m r => (m.find r).index
    add_literal := fun m sins =>
      ({ m with main := { m.find sins with ref := m.fresh } :: m.main, fresh := m.fresh + 1 },
        m.fresh)
    add_parameter := fun m sins =>
      ({ m with main := { m.find sins with ref := m.fresh } :: m.main, fresh := m.fresh + 1 },
        m.fresh)
    add_outline := fun m sins =>
      ({ m with main := { m.find sins with ref := m.fresh } :: m.main, fresh := m.fresh + 1 },
        m.fresh)
    insert_instruction := fun m ins sins inputs mod_args =>
      ({ m with
          main := insert_before ins
            { m.find sins with ref := m.fresh, inputs := inputs, module_inputs := mod_args }
            m.main
          fresh := m.fresh + 1 }, m.fresh)
    add_literal_value := fun m v =>
      ({ m with
          main := { ref := m.fresh, name := "@literal", value := some v } :: m.main
          fresh := m.fresh + 1 }, m.fresh)
    insert_if := fun m ins inputs =>
      ({ m with
          main := insert_before ins { ref := m.fresh, name := "if", inputs := inputs } m.main
          fresh := m.fresh + 1 }, m.fresh)
    replace_instruction := fun m out rep =>
      { m with main := m.main.map (fun i =>
          { i with inputs := i.inputs.map (fun x => if x = out then rep else x) }) } }

/-- The submodules of the examples: 0 and 1 return their parameter, 2 returns the negation
of the literal 7, 3 the literal 8, 4 the literal 5 and 5 the literal 6. -/
def example_subs : List (List mod_instruction) :=
  [ [ { ref := 10, name := "@param" }, { ref := 11, name := "@return", inputs := [10] } ],
    [ { ref := 12, name := "@param" }, { ref := 13, name := "@return", inputs := [12] } ],
    [ { ref := 14, name := "@literal", value := some 7 },
      { ref := 15, name := "neg", inputs := [14] },
      { ref := 16, name := "@return", inputs := [15] } ],
    [ { ref := 17, name := "@literal", value := some 8 },
      { ref := 18, name := "@return", inputs := [17] } ],
    [ { ref := 19, name := "@literal", value := some 5 },
      { ref := 20, name := "@return", inputs := [19] } ],
    [ { ref := 21, name := "@literal", value := some 6 },
      { ref := 22, name := "@return", inputs := [21] } ] ]

/-- A module with two `if` instructions: the condition of the first (2) is the parameter 0
and its submodules 0 and 1 return parameters; the condition of the second (4) is the
literal 1, true, and its submodules are 2 and 3.  The instruction 6 adds their outputs. -/
def two_ifs : simple_module :=
  { main :=
      [ { ref := 0, name := "@param" },
        { ref := 1, name := "@literal", value := some 1 },
        { ref := 2, name := "if", inputs := [0], module_inputs := [0, 1] },
        { ref := 3, name := "get_tuple_elem", inputs := [2], index := some 0 },
        { ref := 4, name := "if", inputs := [1], module_inputs := [2, 3] },
        { ref := 5, name := "get_tuple_elem", inputs := [4], index := some 0 },
        { ref := 6, name := "add", inputs := [3, 5] } ],
    subs := example_subs,
    fresh := 30 }

/-- The module `two_ifs` with the two `if` instructions in the other order. -/
def two_ifs_swapped : simple_module :=
  { main :=
      [ { ref := 0, name := "@param" },
        { ref := 1, name := "@literal", value := some 1 },
        { ref := 4, name := "if", inputs := [1], module_inputs := [2, 3] },
        { ref := 5, name := "get_tuple_elem", inputs := [4], index := some 0 },
        { ref := 2, name := "if", inputs := [0], module_inputs := [0, 1] },
        { ref := 3, name := "get_tuple_elem", inputs := [2], index := some 0 },
        { ref := 6, name := "add", inputs := [3, 5] } ],
    subs := example_subs,
    fresh := 30 }

/-- A module with three `if` instructions whose condition is the parameter 0 for the first
two and the literal 1 for the third: the submodules 0 and 1 of the first (2) return
parameters, the submodules 4 and 5 of the second (4) return literals, and the submodules
of the third (6) are 2 and 3. -/
def three_ifs : simple_module :=
  { main :=
      [ { ref := 0, name := "@param" },
        { ref := 1, name := "@literal", value := some 1 },
        { ref := 2, name := "if", inputs := [0], module_inputs := [0, 1] },
        { ref := 3, name := "get_tuple_elem", inputs := [2], index := some 0 },
        { ref := 4, name := "if", inputs := [0], module_inputs := [4, 5] },
        { ref := 5, name := "get_tuple_elem", inputs := [4], index := some 0 },
        { ref := 6, name := "if", inputs := [1], module_inputs := [2, 3] },
        { ref := 7, name := "get_tuple_elem", inputs := [6], index := some 0 },
        { ref := 8, name := "concat", inputs := [3, 5, 7] } ],
    subs := example_subs,
    fresh := 30 }

/-! ## The ONNX parser: programs under construction

The parser adds instructions to the program `prog` with `prog.add_instruction`.  The
program is the list of the instructions added so far and an `instruction_ref` is the
position of an instruction in it, so that the reference a call of `add_instruction`
returns is the length of the program before the call. -/

/-- What the parser reads of a `shape`: the element type, the dimensions `lens()` and the
strides; `!=` on shapes compares all three. -/
structure onnx.shape where
  type : Nat
  lens : List Nat
  strides : List Nat
deriving DecidableEq, Repr

/-- The values `op::padding_mode_t` has. -/
inductive onnx.padding_mode_t where
  | default_
  | same
  | valid
deriving DecidableEq, Repr

/-- The fields of `op::convolution` that parse_conv assigns. -/
structure onnx.convolution where
  padding : List Nat
  stride : List Nat
  dilation : List Nat
  padding_mode : onnx.padding_mode_t
  group : Int
deriving DecidableEq, Repr

/-- The operators the parser functions below add; `named` is an operator that is passed
through (the template argument `x` of the binary operators). -/
inductive onnx.op where
  | convolution (c : onnx.convolution)
  | pad (pads : List Int)
  | broadcast (axis : Nat) (s : onnx.shape)
  | multibroadcast (output_lens : List Nat)
  | add
  | named (name : String)
deriving DecidableEq, Repr

/-- An instruction of the program under construction: its operator and its inputs. -/
structure onnx.instruction where
  op : onnx.op
  inputs : List Nat
deriving DecidableEq, Repr

/-- A call `prog.add_instruction(op, args...)`: the instruction is added at the end of the
program and the reference to it is returned. -/
def onnx.add_instruction (prog : List onnx.instruction) (op : onnx.op) (args : List Nat) :
    List onnx.instruction × Nat :=
  (prog ++ [{ op := op, inputs := args }], prog.length)

/-! ## add_broadcastable_binary_op -/

/-- Lines 176-189 of onnx.cpp: `output_lens` computed from the dimensions `lens0` of arg0
and `lens1` of arg1.  `s0` is the shorter list after the swap; `output_lens` is a copy of
`s1` whose elements from `offset` on are overwritten with the maximum of the elements of
`s0` and of `s1` from `offset` on. -/
def onnx.output_lens (lens0 lens1 : List Nat) : List Nat :=
  let s0 := if lens0.length > lens1.length then lens1 else lens0
  let s1 := if lens0.length > lens1.length then lens0 else lens1
  let offset := s1.length - s0.length
  s1.take offset ++ List.zipWith (fun a b => max a b) s0 (s1.drop offset)

/-- The function `add_broadcastable_binary_op` (lines 156-198 of onnx.cpp).  `get_shape`
gives the shape of an instruction of the program (`instruction::get_shape`, computed by
the operator library, is a parameter). -/
def onnx.add_broadcastable_binary_op (get_shape : List onnx.instruction → Nat → onnx.shape)
    (prog : List onnx.instruction) (arg0 arg1 : Nat) (x : onnx.op) :
    List onnx.instruction × Nat :=
  if get_shape prog arg0 ≠ get_shape prog arg1 then
    let output_lens := onnx.output_lens (get_shape prog arg0).lens (get_shape prog arg1).lens
    let l0 := onnx.add_instruction prog (onnx.op.multibroadcast output_lens) [arg0]
    let l1 := onnx.add_instruction l0.1 (onnx.op.multibroadcast output_lens) [arg1]
    onnx.add_instruction l1.1 x [l0.2, l1.2]
  else onnx.add_instruction prog x [arg0, arg1]

/-- The dimensions of two lists aligned at the first elements, the maximum being taken
where both lists have an element and the longer list being copied beyond; applied to the
reversed dimension lists it is the right-aligned broadcast. -/
def onnx.aligned_max : List Nat → List Nat → List Nat
  | [], b => b
  | a, [] => a
  | x :: a, y :: b => max x y :: onnx.aligned_max a b

/-! ## parse_lstm: the activation names -/

/-- Lines 978-1054 of onnx.cpp: the list `vec_names` of parse_lstm.  `activations` is the
attribute "activations" when the node has it; `bidirectional` says whether the direction
is `rnn_direction::bidirectional`.  A case `n` of the switch on `vec_names.size()` binds
the `n` elements that `vec_names.at(0)`, ..., `vec_names.at(n - 1)` read. -/
def onnx.lstm_vec_names (bidirectional : Bool) (activations : Option (List String)) :
    List String :=
  let vec_names := match activations with
    | some names => names
    | none => ["sigmoid", "tanh", "tanh"]
  if bidirectional then
    match vec_names with
    | [a] => [a, a, a, a, a, a]
    | [a, b] => [a, b, b, a, b, b]
    | [a, b, c] => [a, b, c, a, b, c]
    | [a, b, c, d] => [a, b, c, d, d, d]
    | [a, b, c, d, e] => [a, b, c, d, e, e]
    | _ => vec_names
  else
    match vec_names with
    | [a] => [a, a, a]
    | [a, b] => [a, b, b]
    | _ => vec_names

/-! ## parse_conv -/

/-- The attributes of a node that parse_conv reads, each present or not. -/
structure onnx.conv_attributes where
  pads : Option (List Int) := none
  auto_pad : Option String := none
  strides : Option (List Int) := none
  dilations : Option (List Int) := none
  group : Option Int := none
deriving DecidableEq, Repr

/-- The conversion of a `std::int64_t` to `std::size_t`. -/
def onnx.to_size_t (x : Int) : Nat :=
  (x % 2 ^ 64).toNat

/-- Lines 236-260 of parse_conv: the attribute "pads".  The result is an error message
when the function throws, and else the operator, the program and `l0`. -/
def onnx.conv_pads (prog : List onnx.instruction) (attributes : onnx.conv_attributes)
    (op : onnx.convolution) (l0 : Nat) :
    Except String (onnx.convolution × List onnx.instruction × Nat) :=
  match attributes.pads with
  | none => Except.ok (op, prog, l0)
  | some padding =>
    if attributes.auto_pad.isSome then
      Except.error "auto_pad and padding cannot be specified simultaneously"
    else if padding.length ≠ 4 then Except.error "padding should have 4 values"
    else if padding.getD 0 0 ≠ padding.getD 2 0 ∨ padding.getD 1 0 ≠ padding.getD 3 0 then
      let r := onnx.add_instruction prog
        (onnx.op.pad [0, 0, padding.getD 0 0, padding.getD 1 0, 0, 0, padding.getD 2 0,
          padding.getD 3 0]) [l0]
      Except.ok (op, r.1, r.2)
    else
      Except.ok ({ op with padding := [onnx.to_size_t (padding.getD 0 0),
                                       onnx.to_size_t (padding.getD 1 0)] }, prog, l0)

/-- The call `copy(ints, a.begin())` into the `std::array<std::size_t, 2>` `a`: undefined
when there are more than two `ints`. -/
def onnx.copy_into (ints : List Int) (a : List Nat) : Option (List Nat) :=
  if ints.length ≤ a.length then some (ints.map onnx.to_size_t ++ a.drop ints.length)
  else none

/-- Lines 261-268 of parse_conv: the attributes "strides" and "dilations". -/
def onnx.conv_strides (attributes : onnx.conv_attributes) (op : onnx.convolution) :
    Option onnx.convolution :=
  let op1 := match attributes.strides with
    | none => some op
    | some ints => (onnx.copy_into ints op.stride).map (fun s => { op with stride := s })
  op1.bind (fun op1 =>
    match attributes.dilations with
    | none => some op1
    | some ints =>
      (onnx.copy_into ints op1.dilation).map (fun d => { op1 with dilation := d }))

/-- Lines 269-280 of parse_conv: the attribute "auto_pad".  `to_upper` is the function of
that name of the string utilities (a parameter); `s.find("SAME") != npos` says that "SAME"
occurs in `s`. -/
def onnx.conv_auto_pad (to_upper : String → String) (attributes : onnx.conv_attributes)
    (op : onnx.convolution) : Except String onnx.convolution :=
  match attributes.auto_pad with
  | none => Except.ok op
  | some s =>
    if attributes.pads.isSome ∧ to_upper s ≠ "NOTSET" then
      Except.error "auto_pad and padding cannot be specified simultaneously"
    else if "SAME".toList <:+: s.toList then
      Except.ok { op with padding_mode := onnx.padding_mode_t.same }
    else Except.ok op

/-- The function `parse_conv` (lines 231-293 of onnx.cpp).  `op` is the default
constructed `op::convolution` (operators.hpp is not among the sources).  The result is
`none` when the behaviour is undefined (an element of `args` that is not there is read, or
too many strides or dilations are copied), an error message when the function throws, and
else the program and the reference returned. -/
def onnx.parse_conv (to_upper : String → String)
    (get_shape : List onnx.instruction → Nat → onnx.shape) (op : onnx.convolution)
    (prog : List onnx.instruction) (attributes : onnx.conv_attributes) (args : List Nat) :
    Option (Except String (List onnx.instruction × Nat)) :=
  match args[0]? with
  | none => none
  | some arg0 =>
    match onnx.conv_pads prog attributes op arg0 with
    | Except.error e => some (Except.error e)
    | Except.ok (op1, prog1, l0) =>
      match onnx.conv_strides attributes op1 with
      | none => none
      | some op2 =>
        match onnx.conv_auto_pad to_upper attributes op2 with
        | Except.error e => some (Except.error e)
        | Except.ok op3 =>
          let op4 := match attributes.group with
            | some g => { op3 with group := g }
            | none => op3
          if args.length = 3 then
            match args[1]?, args[2]? with
            | some arg1, some arg2 =>
              let l1 := onnx.add_instruction prog1 (onnx.op.convolution op4) [arg0, arg1]
              let l2 := onnx.add_instruction l1.1
                (onnx.op.broadcast 1 (get_shape l1.1 l1.2)) [arg2]
              some (Except.ok (onnx.add_instruction l2.1 onnx.op.add [l1.2, l2.2]))
            | _, _ => none
          else
            match args[1]? with
            | none => none
            | some arg1 =>
              some (Except.ok (onnx.add_instruction prog1 (onnx.op.convolution op4)
                [l0, arg1]))

/-- A string in upper case, character by character. -/
def onnx.upper (s : String) : String :=
  String.mk (s.toList.map Char.toUpper)

/-- An `op::convolution` with no padding, unit strides and dilations and one group. -/
def onnx.plain_convolution : onnx.convolution :=
  { padding := [0, 0], stride := [1, 1], dilation := [1, 1],
    padding_mode := onnx.padding_mode_t.default_, group := 1 }

/-- A program of three instructions for the data, the weights and the bias of a
convolution. -/
def onnx.conv_inputs : List onnx.instruction :=
  [ { op := onnx.op.named "@param", inputs := [] },
    { op := onnx.op.named "@param", inputs := [] },
    { op := onnx.op.named "@param", inputs := [] } ]

/-- A shape function for the examples: every instruction has the same shape. -/
def onnx.flat_shape (_ : List onnx.instruction) (_ : Nat) : onnx.shape :=
  { type := 0, lens := [1, 1, 1, 1], strides := [1, 1, 1, 1] }

/-! ## parse_where

The instructions parse_where adds are followed as the tensors they compute: an
`instruction_ref` is represented by the tensor the instruction yields, and
`info.add_instruction(make_op(name), args...)` is the operator `name` of the operator
library applied to the tensors of `args`. -/

/-- A tensor as far as parse_where determines it: its dimensions `lens()` and its elements
in row-major order. -/
structure onnx.tensor where
  lens : List Nat
  data : List Int
deriving DecidableEq, Repr

/-- The value `get_shape().elements()`: the product of the dimensions. -/
def onnx.tensor.elements (t : onnx.tensor) : Nat :=
  t.lens.prod

/-- The conversion of an integer to `int`. -/
def onnx.to_int32 (x : Int) : Int :=
  (x + 2 ^ 31) % 2 ^ 32 - 2 ^ 31

/-- What parse_where calls and is not among the sources, as parameters: the function
`compute_broadcasted_lens` and the operators multibroadcast, convert (to bool and to
int32), if, concat (along the axis 0), reshape, mul, add and gather (along the axis 0, the
data first, then the indices). -/
structure onnx.where_ops where
  compute_broadcasted_lens : List Nat → List Nat → List Nat
  multibroadcast : List Nat → onnx.tensor → onnx.tensor
  convert_bool : onnx.tensor → onnx.tensor
  convert_int32 : onnx.tensor → onnx.tensor
  if_op : onnx.tensor → onnx.tensor → onnx.tensor → onnx.tensor
  concat : onnx.tensor → onnx.tensor → onnx.tensor
  reshape : List Int → onnx.tensor → onnx.tensor
  mul : onnx.tensor → onnx.tensor → onnx.tensor
  add : onnx.tensor → onnx.tensor → onnx.tensor
  gather : onnx.tensor → onnx.tensor → onnx.tensor

/-- Lines 51-59 of parse_where.cpp: the instruction `ins_ind`, the sum of the product of
the literal `l_offset` (`elem_num` times the value `elem_num`) with `cond` and of the
literal `l_ind` (the values 0, 1, ..., `elem_num - 1`), both of the dimensions `lens`. -/
def onnx.where_ind (ops : onnx.where_ops) (lens : List Nat) (elem_num : Nat)
    (cond : onnx.tensor) : onnx.tensor :=
  let l_ind : onnx.tensor :=
    { lens := lens, data := (List.range elem_num).map (fun (i : Nat) => onnx.to_int32 (i : Int)) }
  let l_offset : onnx.tensor :=
    { lens := lens, data := List.replicate elem_num (onnx.to_int32 (elem_num : Int)) }
  let ins_offset := ops.mul l_offset cond
  ops.add ins_offset l_ind

/-- Lines 46-49 of parse_where.cpp: the instruction `rsp_data`, the concatenation of
args[2] and args[1] reshaped to the one dimension `2 * elem_num`. -/
def onnx.where_data (ops : onnx.where_ops) (elem_num : Nat) (arg1 arg2 : onnx.tensor) :
    onnx.tensor :=
  let concat_data := ops.concat arg2 arg1
  ops.reshape [((2 * elem_num : Nat) : Int)] concat_data

/-- The function `parse_where::parse` (lines 14-62 of parse_where.cpp).  The result is
`none` when an element of `args` that is not there is read. -/
def onnx.parse_where (ops : onnx.where_ops) (args : List onnx.tensor) : Option onnx.tensor :=
  match args[0]?, args[1]?, args[2]? with
  | some arg0, some arg1, some arg2 =>
    let lens := ops.compute_broadcasted_lens arg0.lens arg1.lens
    let lens := ops.compute_broadcasted_lens lens arg2.lens
    let arg1 := if arg1.lens ≠ lens then ops.multibroadcast lens arg1 else arg1
    let arg2 := if arg2.lens ≠ lens then ops.multibroadcast lens arg2 else arg2
    if arg0.elements = 1 then some (ops.if_op (ops.convert_bool arg0) arg1 arg2)
    else
      let cond := ops.convert_int32 arg0
      let cond := if cond.lens ≠ lens then ops.multibroadcast lens cond else cond
      let elem_num := arg1.elements
      some (ops.gather (onnx.where_data ops elem_num arg1 arg2)
        (onnx.where_ind ops lens elem_num cond))
  | _, _, _ => none

/-- What the theorem on parse_where assumes of the operators: broadcasting equal
dimensions gives these dimensions; convert keeps the dimensions and the number of
elements; concat along the axis 0 of tensors of equal dimensions puts the elements of the
second after those of the first; reshape keeps the elements; mul and add of tensors of
equal dimensions are the element-wise product and sum in `int` and mul keeps the
dimensions; and gather along the axis
0 from data of one dimension yields, at the place of every index `k` that is in range, the
element `k` of the data. -/
structure onnx.where_laws (ops : onnx.where_ops) : Prop where
  broadcast_same : ∀ l, ops.compute_broadcasted_lens l l = l
  convert_lens : ∀ t, (ops.convert_int32 t).lens = t.lens
  convert_length : ∀ t, (ops.convert_int32 t).data.length = t.data.length
  concat_data : ∀ a b, a.lens = b.lens → (ops.concat a b).data = a.data ++ b.data
  reshape_data : ∀ d t, (ops.reshape d t).data = t.data
  mul_data : ∀ a b, a.lens = b.lens →
    (ops.mul a b).data = List.zipWith (fun x y => onnx.to_int32 (x * y)) a.data b.data
  mul_lens : ∀ a b, a.lens = b.lens → (ops.mul a b).lens = a.lens
  add_data : ∀ a b, a.lens = b.lens →
    (ops.add a b).data = List.zipWith (fun x y => onnx.to_int32 (x + y)) a.data b.data
  gather_data : ∀ (d idx : onnx.tensor) (i : Nat) (k : Int), idx.data[i]? = some k → 0 ≤ k → k.toNat < d.data.length →
    (ops.gather d idx).data[i]? = d.data[k.toNat]?

/-- An implementation of the operators on lists, to evaluate parse_where on examples:
multibroadcast only repeats the element of a tensor of one element. -/
def onnx.list_ops : onnx.where_ops :=
  { compute_broadcasted_lens := onnx.output_lens
    multibroadcast := fun lens t =>
      { lens := lens,
        data := if t.data.length = 1 then List.replicate lens.prod (t.data.headD 0)
                else t.data }
    convert_bool := fun t => { t with data := t.data.map (fun v => if v = 0 then 0 else 1) }
    convert_int32 := fun t => { t with data := t.data.map onnx.to_int32 }
    if_op := fun c a b => if c.data.headD 0 = 0 then b else a
    concat := fun a b =>
      { lens := (a.lens.headD 0 + b.lens.headD 0) :: a.lens.tail, data := a.data ++ b.data }
    reshape := fun d t => { lens := d.map Int.toNat, data := t.data }
    mul := fun a b =>
      { lens := a.lens,
        data := List.zipWith (fun x y => onnx.to_int32 (x * y)) a.data b.data }
    add := fun a b =>
      { lens := a.lens,
        data := List.zipWith (fun x y => onnx.to_int32 (x + y)) a.data b.data }
    gather := fun d idx =>
      { lens := idx.lens, data := idx.data.map (fun k => d.data.getD k.toNat 0) } }

/-! ## Vocabulary of the proofs -/

/-- The representative `offset2_live` holds for the offset of `r` is at least as large as
`r` and is still to be scanned, or lies below `offset`. -/
def rep_ok (s : memory_coloring_impl) (m : Int → Option Nat) (R : List Nat) (offset : Int)
    (r : Nat) : Prop :=
  ∃ r', m (s.range r).offset = some r' ∧ (s.range r').offset = (s.range r).offset ∧
    (s.range r).size ≤ (s.range r').size ∧
    (r' ∈ R ∨ (s.range r').offset + (s.range r').size ≤ offset)

/-- What holds of the conflict queue and of `offset2_live` while the neighbours are
gathered: an entry of the map is a queued range of that offset, and every queued range has
an entry of its offset that is at least as large. -/
def gathered (s : memory_coloring_impl) (q : List Nat) (m : Int → Option Nat) : Prop :=
  (∀ x r', m x = some r' → r' ∈ q ∧ (s.range r').offset = x) ∧
  (∀ r ∈ q, ∃ r', m (s.range r).offset = some r' ∧ (s.range r).size ≤ (s.range r').size)

/-- The neighbours of the interval `interval` that have an offset: the ranges recorded for
the value numbers of its conflict set whose offset is valid. -/
def placed_neighbour (s : memory_coloring_impl) (interval r : Nat) : Prop :=
  ∃ v ∈ s.conflict_table (s.live_intervals interval).segment.vn,
    s.live_ranges v = some r ∧ (s.range r).offset ≠ invalid_offset

/-- The offset `off` is the least offset that is not negative, is a multiple of `es` and
leaves the `size` bytes from it on clear of every range of `P`. -/
def least_fit (s : memory_coloring_impl) (P : Nat → Prop) (size es : Nat) (off : Int) :
    Prop :=
  0 ≤ off ∧ (es : Int) ∣ off ∧
  (∀ r, P r → off + size ≤ (s.range r).offset ∨ (s.range r).offset + (s.range r).size ≤ off) ∧
  ∀ c : Int, 0 ≤ c → (es : Int) ∣ c →
    (∀ r, P r → c + size ≤ (s.range r).offset ∨ (s.range r).offset + (s.range r).size ≤ c) →
    off ≤ c

/-- The conflict graph and the recorded ranges fit together: adjacency is symmetric and
irreflexive, every value number of a conflict set has a recorded range, a recorded range
is the segment of that value number, and the size of a segment is the byte size of the
result of its interval. -/
structure coherent (s : memory_coloring_impl) : Prop where
  sym : ∀ v w, w ∈ s.conflict_table v → v ∈ s.conflict_table w
  irrefl : ∀ v, v ∉ s.conflict_table v
  ranged : ∀ v w, w ∈ s.conflict_table v → ∃ r, s.live_ranges w = some r
  range_vn : ∀ v r, s.live_ranges v = some r → (s.live_intervals r).segment.vn = v
  sizes : ∀ i, (s.live_intervals i).segment.size = (s.live_intervals i).result.bytes

/-- What build keeps true of its state between two inputs. -/
structure build_inv (st : build_state) : Prop where
  coh : coherent st.impl
  range_lt : ∀ v r, st.impl.live_ranges v = some r →
    r < st.impl.num_of_lives ∧ v ≤ st.impl.max_value_number
  table_le : ∀ v w, w ∈ st.impl.conflict_table v → w ≤ st.impl.max_value_number
  live_le : ∀ v ∈ st.live_set,
    v ≤ st.impl.max_value_number ∧ ∃ r, st.impl.live_ranges v = some r
  unplaced : ∀ i, (st.impl.live_intervals i).segment.offset = invalid_offset
  held_lt : ∀ j d, st.impl.instr2_live j = some d → d < st.impl.num_of_lives
  queue_lt : ∀ d ∈ st.impl.alloc_queue, d < st.impl.num_of_lives
  inverse : ∀ i, i < st.impl.num_of_lives →
    st.impl.live_ranges (st.impl.live_intervals i).segment.vn = some i
  fresh : ∀ i, st.impl.num_of_lives ≤ i → st.impl.live_intervals i = live_interval.init
  required_zero : st.impl.required_bytes = 0

/-- The byte ranges `[o1, o1 + s1)` and `[o2, o2 + s2)` intersect: some byte lies in
both. -/
def ranges_meet (o1 : Int) (s1 : Nat) (o2 : Int) (s2 : Nat) : Prop :=
  ∃ x : Int, o1 ≤ x ∧ x < o1 + s1 ∧ o2 ≤ x ∧ x < o2 + s2

/-- What the allocation loop keeps true of the state: it is coherent, an interval with a
result of non-zero size is the recorded range of its value number, an interval with an
offset has a result of non-zero size and a non-negative offset, and the ranges of two
adjacent value numbers that both have an offset lie one after the other. -/
structure alloc_inv (s : memory_coloring_impl) : Prop where
  coh : coherent s
  owner : ∀ i, (s.live_intervals i).result.bytes ≠ 0 →
    s.live_ranges (s.live_intervals i).segment.vn = some i
  placed_pos : ∀ i, (s.range i).offset ≠ invalid_offset →
    (s.live_intervals i).result.bytes ≠ 0 ∧ 0 ≤ (s.range i).offset
  disjoint : ∀ v w a b, w ∈ s.conflict_table v → s.live_ranges v = some a →
    s.live_ranges w = some b → (s.range a).offset ≠ invalid_offset →
    (s.range b).offset ≠ invalid_offset →
    (s.range a).offset + (s.range a).size ≤ (s.range b).offset ∨
    (s.range b).offset + (s.range b).size ≤ (s.range a).offset

/-- A shape for which line 34 of allocate and the alignment are defined: when it has bytes
it has elements, and no more elements than bytes. -/
def shape_ok (sh : shape) : Prop :=
  sh.bytes ≠ 0 → sh.elements ≠ 0 ∧ sh.bytes / sh.elements ≠ 0

/-- What build keeps true of the recorded values of the live set: the latest one is the
live set, two value numbers in one recorded live set are adjacent, and adjacent value
numbers occur together in a recorded live set. -/
structure trace_inv (st : build_state) : Prop where
  head : st.live_sets.head? = some st.live_set
  together : ∀ L ∈ st.live_sets, ∀ u ∈ L, ∀ v ∈ L, u ≠ v → v ∈ st.impl.conflict_table u
  witnessed : ∀ u v, v ∈ st.impl.conflict_table u → ∃ L ∈ st.live_sets, u ∈ L ∧ v ∈ L

/-- What build keeps true of an alias chain `c 0, ..., c m` read by the instruction `R`,
when the instructions at the positions `k` and above have been visited: once `R` is visited
the last link has an interval, and once the link `c (j+1)` is visited the link `c j` has
the interval of `c (j+1)`. -/
def chain_inv (m : Nat) (c : Nat → Nat) (R k : Nat) (s : memory_coloring_impl) : Prop :=
  (k ≤ R → s.instr2_live (c m) ≠ none) ∧
  ∀ j < m, k ≤ c (j + 1) →
    s.instr2_live (c j) = s.instr2_live (c (j + 1)) ∧ s.instr2_live (c (j + 1)) ≠ none

/-- What build keeps true, in a program in which every instruction precedes its readers,
when the instructions at the positions `k` and above have been visited: a queued interval
is the interval of no instruction still to be visited, no two instructions still to be
visited have the same interval, and no interval is queued twice. -/
structure holder_inv (k : Nat) (s : memory_coloring_impl) : Prop where
  no_holder : ∀ d ∈ s.alloc_queue, ∀ j < k, s.instr2_live j ≠ some d
  unique : ∀ j1 < k, ∀ j2 < k, ∀ d, s.instr2_live j1 = some d → s.instr2_live j2 = some d →
    j1 = j2
  nodup : s.alloc_queue.Nodup

/-- The same during the loop over the inputs of the instruction at position `k`, `cnt`
being the position of the next input: until the tied input is reached, the interval of
the visited instruction is not queued and is the interval of no instruction below `k`. -/
def args_inv (k : Nat) (tie_ndx : Int) (def_interval : Option Nat) (cnt : Int)
    (s : memory_coloring_impl) : Prop :=
  holder_inv k s ∧
  ∀ d, def_interval = some d → cnt ≤ tie_ndx →
    d ∉ s.alloc_queue ∧ ∀ j < k, s.instr2_live j ≠ some d

/-- The value `required_bytes` is the largest end `offset + size` of the intervals that
have an offset, and 0 when none has. -/
def high_water (s : memory_coloring_impl) : Prop :=
  (∀ i, (s.range i).offset ≠ invalid_offset →
    (s.range i).offset + (s.range i).size ≤ s.required_bytes) ∧
  ((∃ i, (s.range i).offset ≠ invalid_offset ∧
      (s.range i).offset + (s.range i).size = s.required_bytes) ∨
    (s.required_bytes = 0 ∧ ∀ i, (s.range i).offset = invalid_offset))

/-- A program point of a program of `n` instructions: even and in `[2, 2n]`. -/
def point_ok (n : Nat) (x : Int) : Prop :=
  2 ≤ x ∧ x ≤ 2 * (n : Int) ∧ (2 : Int) ∣ x

/-- Every begin, def, end and use point of the interval `i` is unset (the sentinel) or a
program point; use points are always set. -/
def points_ok (n : Nat) (i : live_interval) : Prop :=
  (i.segment.begin = invalid_offset ∨ point_ok n i.segment.begin) ∧
  (i.def_point = invalid_offset ∨ point_ok n i.def_point) ∧
  (i.segment.end_ = invalid_offset ∨ point_ok n i.segment.end_) ∧
  ∀ u ∈ i.use_points, point_ok n u

/-- The state `s'` differs from `s` in offsets and required_bytes only (and in the
allocation queue): what rewrite reads apart from the offsets is the same. -/
def recolored (s s' : memory_coloring_impl) : Prop :=
  s'.instr2_live = s.instr2_live ∧ s'.unify_literals = s.unify_literals ∧
  s'.earliest_end_point = s.earliest_end_point ∧ s'.num_of_lives = s.num_of_lives ∧
  ∀ i, (s'.live_intervals i).segment.begin = (s.live_intervals i).segment.begin ∧
    (s'.live_intervals i).is_literal = (s.live_intervals i).is_literal ∧
    (s'.live_intervals i).result = (s.live_intervals i).result ∧
    (s'.live_intervals i).segment.size = (s.live_intervals i).segment.size

/-- What build keeps true of finalization, in a program in which every instruction
precedes its readers and no allocation or literal instruction has an alias index, when the
instructions at the positions `k` and above have been visited: an interval whose begin is
set is the interval of no instruction still to be visited, a queued interval has its begin
set, and the interval of a visited allocation or literal instruction `L` holds the program
point of `L`, its shape and its kind, and is queued unless it is a literal that is not
unified. -/
structure fin_inv (h : helpers) (p : List instruction) (unify : Bool) (k : Nat)
    (s : memory_coloring_impl) : Prop where
  unify_eq : s.unify_literals = unify
  no_holder : ∀ d, (s.live_intervals d).segment.begin ≠ invalid_offset →
    ∀ j < k, s.instr2_live j ≠ some d
  queue_fin : ∀ d ∈ s.alloc_queue, (s.live_intervals d).segment.begin ≠ invalid_offset
  record : ∀ L, k ≤ L → L < p.length →
    (h.is_allocate (instr p L) || h.is_literal (instr p L)) = true →
    ∀ d, s.instr2_live L = some d →
      (s.live_intervals d).segment.begin = 2 * ((L : Int) + 1) ∧
      (s.live_intervals d).def_point = 2 * ((L : Int) + 1) ∧
      (s.live_intervals d).result = (instr p L).result ∧
      (s.live_intervals d).is_literal = h.is_literal (instr p L) ∧
      (d ∈ s.alloc_queue ↔ (!h.is_literal (instr p L) || unify) = true)

/-- The same during the loop over the inputs of the instruction at position `k`, `cnt`
being the position of the next input: until the tied input is reached, the begin of the
interval of the visited instruction is not set. -/
def fin_args (h : helpers) (p : List instruction) (unify : Bool) (k : Nat) (tie_ndx : Int)
    (def_interval : Option Nat) (cnt : Int) (s : memory_coloring_impl) : Prop :=
  fin_inv h p unify k s ∧
  ∀ d, def_interval = some d → cnt ≤ tie_ndx →
    (s.live_intervals d).segment.begin = invalid_offset

/-- The interval `d` exists, its begin is not set and it is not queued. -/
def unfinalized (d : Nat) (s : memory_coloring_impl) : Prop :=
  d < s.num_of_lives ∧ (s.live_intervals d).segment.begin = invalid_offset ∧
  d ∉ s.alloc_queue

/-- What build keeps true of an aliasing instruction `X` whose tied input is a parameter or
an outlined buffer, when the instructions at the positions `k` and above have been
visited: once `X` is visited, the interval of `X` (if it has one) is not finalized and is
the interval of no instruction still to be visited. -/
def dead_end (X k : Nat) (s : memory_coloring_impl) : Prop :=
  k ≤ X → ∀ d, s.instr2_live X = some d →
    unfinalized d s ∧ ∀ j < k, s.instr2_live j ≠ some d

/-- What build keeps true of the parameters it reads, in a program in which every
instruction precedes its readers, when the instructions at the positions `k` and above
have been visited: the interval of a visited instruction that reads a parameter or an
outlined buffer is marked live on entry. -/
def entry_inv (h : helpers) (p : List instruction) (k : Nat) (s : memory_coloring_impl) :
    Prop :=
  ∀ I, k ≤ I → I < p.length → ∀ P ∈ (instr p I).inputs,
    (h.is_param (instr p P) || h.is_outline (instr p P)) = true →
    ∀ d, s.instr2_live I = some d → (s.live_intervals d).is_live_on_entry = true

/-- Every interval whose begin is set is on the allocation queue, unless it is marked as a
literal while literals are not unified. -/
def queued_inv (s : memory_coloring_impl) : Prop :=
  ∀ d, (s.live_intervals d).segment.begin ≠ invalid_offset →
    (!(s.live_intervals d).is_literal || s.unify_literals) = true → d ∈ s.alloc_queue

/-- The counters and the intervals fit together: the value-number counter is one less than
the interval counter, and the id and the value number of the interval `i` are both `i`. -/
def ids_inv (s : memory_coloring_impl) : Prop :=
  s.max_value_number = (s.num_of_lives : Int) - 1 ∧
  ∀ i < s.num_of_lives, (s.live_intervals i).id = (i : Int) ∧
    (s.live_intervals i).segment.vn = (i : Int)

/-- What build keeps true of the live set, when the instructions at the positions `k` and
above have been visited: the value number of the interval of an instruction still to be
visited is in the live set. -/
def live_inv (k : Nat) (st : build_state) : Prop :=
  ∀ j < k, ∀ d, st.impl.instr2_live j = some d →
    (st.impl.live_intervals d).segment.vn ∈ st.live_set

/-- The same during the loop over the inputs of the instruction at position `k`: until the
tied input is reached the value number of the interval of the visited instruction is in
the live set. -/
def live_args (k : Nat) (tie_ndx : Int) (def_interval : Option Nat) (cnt : Int)
    (st : build_state) : Prop :=
  live_inv k st ∧
  ∀ d, def_interval = some d → cnt ≤ tie_ndx →
    (st.impl.live_intervals d).segment.vn ∈ st.live_set

/-- What build keeps true of the end points while it is at the program point `cur`:
`earliest_end_point` is at most the end point of every interval and is the end point of one
of them (when there is an interval), the end point of an interval is its largest use
point, and no end point lies before `cur`. -/
def ends_inv (cur : Int) (s : memory_coloring_impl) : Prop :=
  (∀ i < s.num_of_lives,
    s.earliest_end_point ≤ (s.live_intervals i).segment.end_ ∧
    (s.live_intervals i).segment.end_ ∈ (s.live_intervals i).use_points ∧
    ∀ u ∈ (s.live_intervals i).use_points, u ≤ (s.live_intervals i).segment.end_) ∧
  (0 < s.num_of_lives →
    cur ≤ s.earliest_end_point ∧
    ∃ i < s.num_of_lives, (s.live_intervals i).segment.end_ = s.earliest_end_point)

/-- Every interval has an instruction of its own among the `n` first ones that has an entry
in the instruction-to-interval map: a function `c` sends the intervals to pairwise
different such instructions. -/
def creators (n : Nat) (s : memory_coloring_impl) : Prop :=
  ∃ c : Nat → Nat, (∀ i < s.num_of_lives, c i < n ∧ s.instr2_live (c i) ≠ none) ∧
    ∀ i < s.num_of_lives, ∀ j < s.num_of_lives, c i = c j → i = j

/-- Every interval whose begin is set has its begin equal to its def point and before its
end. -/
def begun (s : memory_coloring_impl) : Prop :=
  ∀ d, (s.live_intervals d).segment.begin ≠ invalid_offset →
    (s.live_intervals d).segment.begin = (s.live_intervals d).def_point ∧
    (s.live_intervals d).segment.begin < (s.live_intervals d).segment.end_

/-! ## Facts about align -/

theorem align_some {es : Nat} (hes : es ≠ 0) (x : Int) : ∃ y, align es x = some y := by
  unfold align
  rw [if_neg hes]
  split <;> exact ⟨_, rfl⟩

theorem align_spec {es : Nat} {x y : Int} (h : align es x = some y) :
    x ≤ y ∧ (es : Int) ∣ y ∧ ∀ c : Int, (es : Int) ∣ c → x ≤ c → y ≤ c := by
  unfold align at h
  split at h
  · exact absurd h (by simp)
  · rename_i hes
    have hpos : (0 : Int) < es := by exact_mod_cast Nat.pos_of_ne_zero hes
    split at h
    · rename_i hr
      simp only [Option.some.injEq] at h
      subst h
      have h1 := Int.emod_nonneg x (ne_of_gt hpos)
      have h2 := Int.emod_lt_of_pos x hpos
      have h3 := Int.emod_add_ediv x es
      refine ⟨by omega, ?_, ?_⟩
      · refine ⟨x / es + 1, ?_⟩
        rw [mul_add, mul_one]
        omega
      · rintro c ⟨k, rfl⟩ hc
        have hk : x / es < k := by
          by_contra hcon
          have : (es : Int) * k ≤ es * (x / es) :=
            mul_le_mul_of_nonneg_left (not_lt.mp hcon) (le_of_lt hpos)
          omega
        have : (es : Int) * (x / es + 1) ≤ es * k :=
          mul_le_mul_of_nonneg_left hk (le_of_lt hpos)
        rw [mul_add, mul_one] at this
        omega
    · rename_i hr
      simp only [Option.some.injEq] at h
      subst h
      refine ⟨le_refl _, ?_, fun c _ hc => hc⟩
      exact Int.dvd_of_emod_eq_zero (not_not.mp hr)

/-! ## The scan of the conflict queue -/

theorem scan_safe (s : memory_coloring_impl) (m : Int → Option Nat) (size es : Nat) :
    ∀ (R : List Nat) (offset o : Int),
      R.Pairwise (fun a b => (s.range a).offset ≤ (s.range b).offset) →
      (∀ r ∈ R, rep_ok s m R offset r) →
      scan s m size es R offset = some o →
      offset ≤ o ∧ ∀ r ∈ R, o + size ≤ (s.range r).offset ∨
        (s.range r).offset + (s.range r).size ≤ o := by
  intro R
  induction R with
  | nil =>
    intro offset o _ _ h
    simp only [scan, Option.some.injEq] at h
    subst h
    exact ⟨le_refl _, fun r hr => absurd hr (List.not_mem_nil r)⟩
  | cons x R ih =>
    intro offset o hsort hrep h
    rw [List.pairwise_cons] at hsort
    -- the step common to the branches that continue the loop
    have step : ∀ offset', offset ≤ offset' →
        ((s.range x).offset + (s.range x).size ≤ offset' ∨
          (offset' ≤ (s.range x).offset ∧ m (s.range x).offset ≠ some x)) →
        (align es offset').bind (scan s m size es R) = some o →
        offset ≤ o ∧ ∀ r ∈ x :: R, o + size ≤ (s.range r).offset ∨
          (s.range r).offset + (s.range r).size ≤ o := by
      intro offset' hle hx hb
      obtain ⟨a, ha, hscan⟩ := Option.bind_eq_some.mp hb
      have hal := (align_spec ha).1
      have hrep' : ∀ r ∈ R, rep_ok s m R a r := by
        intro r hr
        obtain ⟨r', h1, h2, h3, h4⟩ := hrep r (List.mem_cons_of_mem _ hr)
        refine ⟨r', h1, h2, h3, ?_⟩
        rcases h4 with h4 | h4
        · rcases List.mem_cons.mp h4 with h5 | h5
          · subst h5
            rcases hx with hx | hx
            · right; omega
            · exact absurd (h2 ▸ h1) hx.2
          · exact Or.inl h5
        · right; omega
      obtain ⟨hoa, hall⟩ := ih a o hsort.2 hrep' hscan
      refine ⟨by omega, ?_⟩
      intro r hr
      rcases List.mem_cons.mp hr with hr | hr
      · subst hr
        rcases hx with hx | hx
        · right; omega
        · obtain ⟨r', h1, h2, h3, h4⟩ := hrep r (List.mem_cons_self _ _)
          rcases h4 with h4 | h4
          · rcases List.mem_cons.mp h4 with h5 | h5
            · subst h5; exact absurd h1 hx.2
            · rcases hall r' h5 with h6 | h6
              · left; omega
              · right; omega
          · right; omega
      · exact hall r hr
    simp only [scan] at h
    split at h
    · rename_i hgt
      exact step _ (le_max_left _ _) (Or.inl (le_max_right _ _)) h
    · rename_i hgt
      split at h
      · rename_i hm
        split at h
        · rename_i hbreak
          simp only [Option.some.injEq] at h
          subst h
          refine ⟨le_refl _, ?_⟩
          intro r hr
          rcases List.mem_cons.mp hr with hr | hr
          · subst hr; left; omega
          · have := hsort.1 r hr
            left; omega
        · exact step _ (by omega) (Or.inl (le_refl _)) h
      · rename_i hm
        exact step _ (le_refl _) (Or.inr ⟨by omega, hm⟩) h

theorem scan_min (s : memory_coloring_impl) (m : Int → Option Nat) (size es : Nat)
    (hsize : 0 < size) :
    ∀ (R : List Nat) (offset o : Int),
      scan s m size es R offset = some o →
      ∀ c : Int, offset ≤ c → c < o → (es : Int) ∣ c →
        ∃ r ∈ R, ¬ (c + size ≤ (s.range r).offset ∨
          (s.range r).offset + (s.range r).size ≤ c) := by
  intro R
  induction R with
  | nil =>
    intro offset o h c h1 h2 _
    simp only [scan, Option.some.injEq] at h
    omega
  | cons x R ih =>
    intro offset o h c hc1 hc2 hdvd
    have step : ∀ offset', (c < offset' → ¬ (c + size ≤ (s.range x).offset ∨
          (s.range x).offset + (s.range x).size ≤ c)) →
        (align es offset').bind (scan s m size es R) = some o →
        ∃ r ∈ x :: R, ¬ (c + size ≤ (s.range r).offset ∨
          (s.range r).offset + (s.range r).size ≤ c) := by
      intro offset' hx hb
      obtain ⟨a, ha, hscan⟩ := Option.bind_eq_some.mp hb
      have hal := align_spec ha
      by_cases hca : a ≤ c
      · obtain ⟨r, hr, hrr⟩ := ih a o hscan c hca hc2 hdvd
        exact ⟨r, List.mem_cons_of_mem _ hr, hrr⟩
      · have : c < offset' := by
          by_contra hcon
          exact hca (hal.2.2 c hdvd (not_lt.mp hcon))
        exact ⟨x, List.mem_cons_self _ _, hx this⟩
    simp only [scan] at h
    split at h
    · rename_i hgt
      refine step _ ?_ h
      intro hlt
      have := lt_max_iff.mp hlt
      omega
    · rename_i hgt
      split at h
      · rename_i hm
        split at h
        · simp only [Option.some.injEq] at h
          omega
        · rename_i hbreak
          refine step _ ?_ h
          intro hlt
          omega
      · exact step _ (fun hlt => absurd hlt (by omega)) h

theorem scan_some (s : memory_coloring_impl) (m : Int → Option Nat) (size es : Nat)
    (hes : es ≠ 0) : ∀ (R : List Nat) (offset : Int),
      ∃ o, scan s m size es R offset = some o := by
  intro R
  induction R with
  | nil => intro offset; exact ⟨offset, rfl⟩
  | cons x R ih =>
    intro offset
    have step : ∀ offset', ∃ o, (align es offset').bind (scan s m size es R) = some o := by
      intro offset'
      obtain ⟨a, ha⟩ := align_some hes offset'
      obtain ⟨o, ho⟩ := ih a
      exact ⟨o, by rw [ha]; exact ho⟩
    simp only [scan]
    split
    · exact step _
    · split
      · split
        · exact ⟨_, rfl⟩
        · exact step _
      · exact step _

theorem scan_nil (s : memory_coloring_impl) (m : Int → Option Nat) (size es : Nat)
    (offset : Int) : scan s m size es [] offset = some offset := rfl

/-! ## The neighbours allocate gathers -/

theorem gathered_push (s : memory_coloring_impl) (q : List Nat) (m : Int → Option Nat)
    (range : Nat) (hg : gathered s q m) :
    gathered s (q ++ [range])
      (match m (s.range range).offset with
       | none => Function.update m (s.range range).offset (some range)
       | some prev =>
         if (s.range prev).size < (s.range range).size then
           Function.update m (s.range range).offset (some range)
         else m) := by
  obtain ⟨hv, hc⟩ := hg
  have key : ∀ (hle : ∀ prev, m (s.range range).offset = some prev →
      (s.range prev).size ≤ (s.range range).size),
      gathered s (q ++ [range]) (Function.update m (s.range range).offset (some range)) := by
    intro hle
    constructor
    · intro x r' hx
      by_cases hxe : x = (s.range range).offset
      · subst hxe
        rw [Function.update_same] at hx
        simp only [Option.some.injEq] at hx
        subst hx
        exact ⟨by simp, rfl⟩
      · rw [Function.update_noteq hxe] at hx
        obtain ⟨h1, h2⟩ := hv x r' hx
        exact ⟨List.mem_append_left _ h1, h2⟩
    · intro r hr
      by_cases hre : (s.range r).offset = (s.range range).offset
      · refine ⟨range, by rw [hre, Function.update_same], ?_⟩
        rcases List.mem_append.mp hr with hr | hr
        · obtain ⟨r', h1, h2⟩ := hc r hr
          rw [hre] at h1
          exact le_trans h2 (hle r' h1)
        · simp only [List.mem_singleton] at hr
          subst hr
          exact le_refl _
      · rcases List.mem_append.mp hr with hr | hr
        · obtain ⟨r', h1, h2⟩ := hc r hr
          exact ⟨r', by rw [Function.update_noteq hre]; exact h1, h2⟩
        · simp only [List.mem_singleton] at hr
          subst hr
          exact absurd rfl hre
  split
  · rename_i hnone
    exact key (fun prev hp => by rw [hnone] at hp; exact absurd hp (by simp))
  · rename_i prev hsome
    split
    · rename_i hlt
      refine key (fun prev' hp => ?_)
      rw [hsome] at hp
      simp only [Option.some.injEq] at hp
      subst hp
      exact le_of_lt hlt
    · rename_i hlt
      constructor
      · intro x r' hx
        obtain ⟨h1, h2⟩ := hv x r' hx
        exact ⟨List.mem_append_left _ h1, h2⟩
      · intro r hr
        rcases List.mem_append.mp hr with hr | hr
        · exact hc r hr
        · simp only [List.mem_singleton] at hr
          subst hr
          exact ⟨prev, hsome, not_lt.mp hlt⟩

theorem gather_step (s : memory_coloring_impl) (iter : Int) (rest : List Int) (q : List Nat)
    (m : Int → Option Nat) (range : Nat) (h : s.live_ranges iter = some range) :
    gather s (iter :: rest) (q, m) =
      if (s.range range).offset ≠ invalid_offset then
        gather s rest (q ++ [range],
          match m (s.range range).offset with
          | none => Function.update m (s.range range).offset (some range)
          | some prev =>
            if (s.range prev).size < (s.range range).size then
              Function.update m (s.range range).offset (some range)
            else m)
      else gather s rest (q, m) := by
  simp only [gather, h]
  split
  · split <;> [rfl; (split <;> rfl)]
  · rfl

theorem gather_spec (s : memory_coloring_impl) :
    ∀ (vs : List Int) (q0 : List Nat) (m0 : Int → Option Nat) (q : List Nat)
      (m : Int → Option Nat), gathered s q0 m0 → gather s vs (q0, m0) = some (q, m) →
      gathered s q m ∧
      (∀ r, r ∈ q ↔ r ∈ q0 ∨ ∃ v ∈ vs, s.live_ranges v = some r ∧
        (s.range r).offset ≠ invalid_offset) := by
  intro vs
  induction vs with
  | nil =>
    intro q0 m0 q m hg h
    simp only [gather, Option.some.injEq, Prod.mk.injEq] at h
    obtain ⟨rfl, rfl⟩ := h
    exact ⟨hg, fun r => by simp⟩
  | cons iter rest ih =>
    intro q0 m0 q m hg h
    cases hl : s.live_ranges iter with
    | none => simp [gather, hl] at h
    | some range =>
      rw [gather_step s iter rest q0 m0 range hl] at h
      split at h
      · rename_i hoff
        obtain ⟨h1, h2⟩ := ih _ _ q m (gathered_push s q0 m0 range hg) h
        refine ⟨h1, fun r => ?_⟩
        rw [h2 r]
        constructor
        · rintro (hr | ⟨v, hv, hvr, hvo⟩)
          · rcases List.mem_append.mp hr with hr | hr
            · exact Or.inl hr
            · simp only [List.mem_singleton] at hr
              subst hr
              exact Or.inr ⟨iter, List.mem_cons_self _ _, hl, hoff⟩
          · exact Or.inr ⟨v, List.mem_cons_of_mem _ hv, hvr, hvo⟩
        · rintro (hr | ⟨v, hv, hvr, hvo⟩)
          · exact Or.inl (List.mem_append_left _ hr)
          · rcases List.mem_cons.mp hv with hv | hv
            · subst hv
              rw [hl] at hvr
              simp only [Option.some.injEq] at hvr
              subst hvr
              exact Or.inl (by simp)
            · exact Or.inr ⟨v, hv, hvr, hvo⟩
      · rename_i hoff
        obtain ⟨h1, h2⟩ := ih _ _ q m hg h
        refine ⟨h1, fun r => ?_⟩
        rw [h2 r]
        constructor
        · rintro (hr | ⟨v, hv, hvr, hvo⟩)
          · exact Or.inl hr
          · exact Or.inr ⟨v, List.mem_cons_of_mem _ hv, hvr, hvo⟩
        · rintro (hr | ⟨v, hv, hvr, hvo⟩)
          · exact Or.inl hr
          · rcases List.mem_cons.mp hv with hv | hv
            · subst hv
              rw [hl] at hvr
              simp only [Option.some.injEq] at hvr
              subst hvr
              exact absurd hvo hoff
            · exact Or.inr ⟨v, hv, hvr, hvo⟩

theorem gather_some (s : memory_coloring_impl) :
    ∀ (vs : List Int) (acc : List Nat × (Int → Option Nat)),
      (∀ v ∈ vs, ∃ r, s.live_ranges v = some r) → ∃ res, gather s vs acc = some res := by
  intro vs
  induction vs with
  | nil => intro acc _; exact ⟨acc, rfl⟩
  | cons iter rest ih =>
    rintro ⟨q, m⟩ h
    obtain ⟨range, hl⟩ := h iter (List.mem_cons_self _ _)
    rw [gather_step s iter rest q m range hl]
    have h' : ∀ v ∈ rest, ∃ r, s.live_ranges v = some r :=
      fun v hv => h v (List.mem_cons_of_mem _ hv)
    split
    · exact ih _ h'
    · exact ih _ h'

theorem gathered_nil (s : memory_coloring_impl) : gathered s [] (fun _ => none) :=
  ⟨fun _ _ h => absurd h (by simp), fun _ h => absurd h (List.not_mem_nil _)⟩

theorem scan_aligned (s : memory_coloring_impl) (m : Int → Option Nat) (size es : Nat) :
    ∀ (R : List Nat) (offset o : Int), (es : Int) ∣ offset →
      scan s m size es R offset = some o → (es : Int) ∣ o := by
  intro R
  induction R with
  | nil =>
    intro offset o hd h
    simp only [scan, Option.some.injEq] at h
    exact h ▸ hd
  | cons x R ih =>
    intro offset o hd h
    have step : ∀ offset', (align es offset').bind (scan s m size es R) = some o →
        (es : Int) ∣ o := by
      intro offset' hb
      obtain ⟨a, ha, hscan⟩ := Option.bind_eq_some.mp hb
      exact ih a o (align_spec ha).2.1 hscan
    simp only [scan] at h
    split at h
    · exact step _ h
    · split at h
      · split at h
        · simp only [Option.some.injEq] at h
          exact h ▸ hd
        · exact step _ h
      · exact step _ h

theorem allocate_offset_spec (o : conflict_order) (s : memory_coloring_impl) (interval : Nat)
    (off : Int) (h : allocate_offset o s interval = some off) :
    0 ≤ off ∧
    (((s.live_intervals interval).result.bytes / (s.live_intervals interval).result.elements
        : Nat) : Int) ∣ off ∧
    (∀ r, placed_neighbour s interval r →
      off + (s.live_intervals interval).result.bytes ≤ (s.range r).offset ∨
      (s.range r).offset + (s.range r).size ≤ off) ∧
    (0 < (s.live_intervals interval).result.bytes → ∀ c : Int, 0 ≤ c →
      (((s.live_intervals interval).result.bytes / (s.live_intervals interval).result.elements
        : Nat) : Int) ∣ c →
      (∀ r, placed_neighbour s interval r →
        c + (s.live_intervals interval).result.bytes ≤ (s.range r).offset ∨
        (s.range r).offset + (s.range r).size ≤ c) → off ≤ c) := by
  unfold allocate_offset at h
  simp only at h
  split at h
  · exact absurd h (by simp)
  · split at h
    · exact absurd h (by simp)
    · rename_i q m hg
      obtain ⟨⟨hv, hc⟩, hmem⟩ := gather_spec s _ [] (fun _ => none) q m (gathered_nil s) hg
      have hperm := o.perm (fun i => (s.range i).offset) q
      have hsorted := o.sorted (fun i => (s.range i).offset) q
      have hrep : ∀ r ∈ o.pop (fun i => (s.range i).offset) q,
          rep_ok s m (o.pop (fun i => (s.range i).offset) q) 0 r := by
        intro r hr
        obtain ⟨r', h1, h2⟩ := hc r (hperm.mem_iff.mp hr)
        obtain ⟨h3, h4⟩ := hv _ _ h1
        exact ⟨r', h1, h4, h2, Or.inl (hperm.mem_iff.mpr h3)⟩
      have hq : ∀ r, r ∈ o.pop (fun i => (s.range i).offset) q ↔ placed_neighbour s interval r := by
        intro r
        rw [hperm.mem_iff, hmem r]
        simp [placed_neighbour]
      obtain ⟨h0, hsafe⟩ := scan_safe s m _ _ _ 0 off hsorted hrep h
      refine ⟨h0, scan_aligned s m _ _ _ 0 off (dvd_zero _) h, ?_, ?_⟩
      · intro r hr
        exact hsafe r ((hq r).mpr hr)
      · intro hpos c hc0 hdvd hfeas
        by_contra hcon
        obtain ⟨r, hr, hbad⟩ := scan_min s m _ _ hpos _ 0 off h c hc0 (not_le.mp hcon) hdvd
        exact hbad (hfeas r ((hq r).mp hr))

theorem allocate_offset_some (o : conflict_order) (s : memory_coloring_impl) (interval : Nat)
    (he : (s.live_intervals interval).result.elements ≠ 0)
    (hes : (s.live_intervals interval).result.bytes /
      (s.live_intervals interval).result.elements ≠ 0)
    (hl : ∀ v ∈ s.conflict_table (s.live_intervals interval).segment.vn,
      ∃ r, s.live_ranges v = some r) :
    ∃ off, allocate_offset o s interval = some off := by
  unfold allocate_offset
  simp only
  rw [if_neg he]
  obtain ⟨⟨q, m⟩, hg⟩ := gather_some s _ ([], fun _ => none) hl
  rw [hg]
  exact scan_some s m _ _ hes _ 0

/-! ## Sets and the conflict table -/

theorem mem_set_insert (x y : Int) (l : List Int) : y ∈ set_insert x l ↔ y = x ∨ y ∈ l := by
  unfold set_insert
  split
  · rename_i h
    constructor
    · exact Or.inr
    · rintro (rfl | h') <;> assumption
  · simp [List.mem_orderedInsert]

theorem mem_set_erase (x y : Int) (l : List Int) : y ∈ set_erase x l ↔ y ∈ l ∧ y ≠ x := by
  simp [set_erase]

theorem mem_add_conflicts (val : Int) :
    ∀ (L : List Int) (t : Int → List Int) (v w : Int),
      w ∈ add_conflicts t L val v ↔
        w ∈ t v ∨ (v = val ∧ w ∈ L) ∨ (w = val ∧ v ∈ L) := by
  intro L
  induction L with
  | nil => intro t v w; simp [add_conflicts]
  | cons iter L ih =>
    intro t v w
    have hstep : ∀ v w, w ∈ (Function.update (Function.update t iter (set_insert val (t iter))) val
        (set_insert iter ((Function.update t iter (set_insert val (t iter))) val))) v ↔
        w ∈ t v ∨ (v = val ∧ w = iter) ∨ (v = iter ∧ w = val) := by
      intro v w
      by_cases hv : v = val
      · subst hv
        rw [Function.update_same, mem_set_insert]
        by_cases hi : v = iter
        · subst hi
          rw [Function.update_same, mem_set_insert]
          constructor
          · rintro (h | h | h)
            · exact Or.inr (Or.inl ⟨rfl, h⟩)
            · exact Or.inr (Or.inl ⟨rfl, h⟩)
            · exact Or.inl h
          · rintro (h | ⟨_, h⟩ | ⟨_, h⟩)
            · exact Or.inr (Or.inr h)
            · exact Or.inl h
            · exact Or.inl h
        · rw [Function.update_noteq hi]
          constructor
          · rintro (h | h)
            · exact Or.inr (Or.inl ⟨rfl, h⟩)
            · exact Or.inl h
          · rintro (h | ⟨_, h⟩ | ⟨h, _⟩)
            · exact Or.inr h
            · exact Or.inl h
            · exact absurd h hi
      · rw [Function.update_noteq hv]
        by_cases hi : v = iter
        · subst hi
          rw [Function.update_same, mem_set_insert]
          constructor
          · rintro (h | h)
            · exact Or.inr (Or.inr ⟨rfl, h⟩)
            · exact Or.inl h
          · rintro (h | ⟨h, _⟩ | ⟨_, h⟩)
            · exact Or.inr h
            · exact absurd h hv
            · exact Or.inl h
        · rw [Function.update_noteq hi]
          constructor
          · exact Or.inl
          · rintro (h | ⟨h, _⟩ | ⟨h, _⟩)
            · exact h
            · exact absurd h hv
            · exact absurd h hi
    have hfold : add_conflicts t (iter :: L) val =
        add_conflicts (Function.update (Function.update t iter (set_insert val (t iter))) val
          (set_insert iter ((Function.update t iter (set_insert val (t iter))) val))) L val := by
      simp [add_conflicts]
    rw [hfold, ih, hstep]
    simp only [List.mem_cons]
    tauto

/-! ## What build keeps true -/

/-- A change of one interval that keeps its value number and its offset, and keeps the size
of the segment equal to the byte size of the result, keeps the state coherent. -/
theorem build_inv_set_interval (st : build_state) (hi : build_inv st) (d : Nat)
    (i : live_interval) (s' : memory_coloring_impl) (live : List Int)
    (dead : List Nat) (isd : Bool) (ls : List (List Int))
    (h1 : s'.live_intervals = Function.update st.impl.live_intervals d i)
    (h2 : s'.live_ranges = st.impl.live_ranges)
    (h3 : s'.conflict_table = st.impl.conflict_table)
    (h4 : s'.num_of_lives = st.impl.num_of_lives)
    (h5 : s'.max_value_number = st.impl.max_value_number)
    (hvn : i.segment.vn = (st.impl.live_intervals d).segment.vn)
    (hoff : i.segment.offset = (st.impl.live_intervals d).segment.offset)
    (hsz : i.segment.size = i.result.bytes)
    (hlive : ∀ v ∈ live, v ∈ st.live_set)
    (hd : d < st.impl.num_of_lives)
    (h6 : ∀ j d', s'.instr2_live j = some d' → d' < st.impl.num_of_lives)
    (h7 : ∀ d' ∈ s'.alloc_queue, d' < st.impl.num_of_lives)
    (h8 : s'.required_bytes = st.impl.required_bytes) :
    build_inv { impl := s', live_set := live, dead_instrs := dead, is_dead := isd,
                live_sets := ls } := by
  have hli : ∀ j, (s'.live_intervals j).segment.vn = (st.impl.live_intervals j).segment.vn ∧
      (s'.live_intervals j).segment.offset = (st.impl.live_intervals j).segment.offset ∧
      (s'.live_intervals j).segment.size = (s'.live_intervals j).result.bytes := by
    intro j
    rw [h1]
    by_cases hj : j = d
    · subst hj
      simp only [Function.update_same]
      exact ⟨hvn, hoff, hsz⟩
    · rw [Function.update_noteq hj]
      exact ⟨rfl, rfl, hi.coh.sizes j⟩
  refine ⟨⟨?_, ?_, ?_, ?_, ?_⟩, ?_, ?_, ?_, ?_, ?_, ?_, ?_, ?_, ?_⟩
  · intro v w hw
    simp only [h3] at hw ⊢
    exact hi.coh.sym v w hw
  · intro v
    simp only [h3]
    exact hi.coh.irrefl v
  · intro v w hw
    simp only [h3, h2] at hw ⊢
    exact hi.coh.ranged v w hw
  · intro v r hr
    simp only [h2] at hr
    rw [(hli r).1]
    exact hi.coh.range_vn v r hr
  · intro j
    exact (hli j).2.2
  · intro v r hr
    simp only [h2, h4, h5] at hr ⊢
    exact hi.range_lt v r hr
  · intro v w hw
    simp only [h3, h5] at hw ⊢
    exact hi.table_le v w hw
  · intro v hv
    simp only [h2, h5]
    exact hi.live_le v (hlive v hv)
  · intro j
    simp only
    rw [(hli j).2.1]
    exact hi.unplaced j
  · intro j d' hj
    simp only [h4]
    exact h6 j d' hj
  · intro d' hd'
    simp only [h4]
    exact h7 d' hd'
  · intro j hj
    simp only [h4] at hj
    simp only [h2, (hli j).1]
    exact hi.inverse j hj
  · intro j hj
    simp only [h4] at hj
    simp only [h1]
    rw [Function.update_noteq (by omega)]
    exact hi.fresh j hj
  · simp only [h8]
    exact hi.required_zero

theorem build_inv_keep (st st' : build_state) (hi : build_inv st) (h1 : st'.impl = st.impl)
    (h2 : st'.live_set = st.live_set) : build_inv st' := by
  obtain ⟨⟨a1, a2, a3, a4, a5⟩, b, c, d, e, f, g, i, j, k⟩ := hi
  refine ⟨⟨?_, ?_, ?_, ?_, ?_⟩, ?_, ?_, ?_, ?_, ?_, ?_, ?_, ?_, ?_⟩ <;> simp only [h1, h2] <;>
    assumption

theorem tie_eq_some {cnt tie_ndx : Int} {def_interval : Option Nat} {d : Nat}
    (h : (if cnt = tie_ndx then def_interval else none) = some d) :
    cnt = tie_ndx ∧ def_interval = some d := by
  split at h
  · rename_i hc; exact ⟨hc, h⟩
  · exact absurd h (by simp)

theorem build_inv_def (h : helpers) (p : List instruction) (iter : Nat) (cur_points : Int)
    (st : build_state) (hi : build_inv st) :
    build_inv (build_def h p iter cur_points st).2 ∧
    (build_def h p iter cur_points st).1 = st.impl.instr2_live iter ∧
    (build_def h p iter cur_points st).2.impl.num_of_lives = st.impl.num_of_lives := by
  unfold build_def
  simp only
  split
  · rename_i d hd
    split
    · refine ⟨?_, hd.symm, rfl⟩
      refine build_inv_set_interval st hi d _ _ _ _ _ _ rfl rfl rfl rfl rfl rfl rfl rfl ?_
        (hi.held_lt _ _ hd) (fun j d' hj => hi.held_lt j d' hj) ?_ rfl
      · intro v hv
        exact ((mem_set_erase _ _ _).mp hv).1
      · intro d' hd'
        simp only [memory_coloring_impl.set_interval] at hd'
        split at hd'
        · rcases List.mem_append.mp hd' with h1 | h1
          · exact hi.queue_lt d' h1
          · simp only [List.mem_singleton] at h1
            exact h1 ▸ hi.held_lt _ _ hd
        · exact hi.queue_lt d' hd'
    · exact ⟨build_inv_keep st _ hi rfl rfl, hd.symm, rfl⟩
  · rename_i hd
    exact ⟨build_inv_keep st _ hi rfl rfl, hd.symm, rfl⟩

theorem build_inv_arg (h : helpers) (p : List instruction) (cur_points tie_ndx : Int)
    (def_interval : Option Nat) (st : build_state) (cnt : Int) (arg : Nat)
    (hi : build_inv st) (hdef : ∀ d, def_interval = some d → d < st.impl.num_of_lives) :
    build_inv (build_arg h p cur_points tie_ndx def_interval st cnt arg) ∧
    st.impl.num_of_lives ≤
      (build_arg h p cur_points tie_ndx def_interval st cnt arg).impl.num_of_lives := by
  unfold build_arg
  simp only
  split
  · split
    · rename_i d
      split
      · exact ⟨build_inv_set_interval st hi _ _ _ _ _ _ _ rfl rfl rfl rfl rfl rfl rfl
          (hi.coh.sizes _) (fun v hv => hv) (hdef d rfl) hi.held_lt hi.queue_lt rfl, le_refl _⟩
      · exact ⟨build_inv_set_interval st hi _ _ _ _ _ _ _ rfl rfl rfl rfl rfl rfl rfl
          (hi.coh.sizes _) (fun v hv => hv) (hdef d rfl) hi.held_lt hi.queue_lt rfl, le_refl _⟩
    · split
      · exact ⟨build_inv_keep st _ hi rfl rfl, le_refl _⟩
      · exact ⟨build_inv_keep st _ hi rfl rfl, le_refl _⟩
  · split
    · rename_i d htie
      have hd := hdef d (tie_eq_some htie).2
      refine ⟨build_inv_set_interval st hi _ _ _ _ _ _ _ rfl rfl rfl rfl rfl rfl rfl
        (hi.coh.sizes _) (fun v hv => hv) hd ?_ hi.queue_lt rfl, le_refl _⟩
      intro j d' hj
      simp only [memory_coloring_impl.set_interval] at hj
      by_cases hja : j = arg
      · subst hja
        rw [Function.update_same] at hj
        simp only [Option.some.injEq] at hj
        exact hj ▸ hd
      · rw [Function.update_noteq hja] at hj
        exact hi.held_lt j d' hj
    · split
      · -- a new interval and a new value number
        have hfresh : ∀ v r, st.impl.live_ranges v = some r → r ≠ st.impl.num_of_lives :=
          fun v r hr => ne_of_lt (hi.range_lt v r hr).1
        have hnew : ∀ v, st.impl.live_ranges v ≠ none → v ≠ st.impl.max_value_number + 1 := by
          intro v hv
          obtain ⟨r, hr⟩ := Option.ne_none_iff_exists'.mp hv
          have := (hi.range_lt v r hr).2
          omega
        refine ⟨⟨⟨?_, ?_, ?_, ?_, ?_⟩, ?_, ?_, ?_, ?_, ?_, ?_, ?_, ?_, ?_⟩, Nat.le_succ _⟩
        · intro v w hw
          simp only [memory_coloring_impl.set_interval, mem_add_conflicts] at hw ⊢
          rcases hw with hw | hw | hw
          · exact Or.inl (hi.coh.sym v w hw)
          · exact Or.inr (Or.inr hw)
          · exact Or.inr (Or.inl hw)
        · intro v hv
          simp only [memory_coloring_impl.set_interval, mem_add_conflicts] at hv
          rcases hv with hv | ⟨h1, h2⟩ | ⟨h1, h2⟩
          · exact hi.coh.irrefl v hv
          · have := (hi.live_le v h2).1
            omega
          · have := (hi.live_le v h2).1
            omega
        · intro v w hw
          simp only [memory_coloring_impl.set_interval, mem_add_conflicts] at hw ⊢
          by_cases hwe : w = st.impl.max_value_number + 1
          · exact ⟨_, by rw [hwe, Function.update_same]⟩
          · rw [Function.update_noteq hwe]
            rcases hw with hw | ⟨_, h2⟩ | ⟨h1, _⟩
            · exact hi.coh.ranged v w hw
            · exact (hi.live_le w h2).2
            · exact absurd h1 hwe
        · intro v r hr
          simp only [memory_coloring_impl.set_interval] at hr ⊢
          by_cases hve : v = st.impl.max_value_number + 1
          · subst hve
            rw [Function.update_same] at hr
            simp only [Option.some.injEq] at hr
            subst hr
            simp [live_interval.add_use]
          · rw [Function.update_noteq hve] at hr
            rw [Function.update_noteq (hfresh v r hr)]
            exact hi.coh.range_vn v r hr
        · intro j
          simp only [memory_coloring_impl.set_interval]
          by_cases hj : j = st.impl.num_of_lives
          · subst hj
            simp only [Function.update_same, live_interval.add_use]
            exact hi.coh.sizes _
          · rw [Function.update_noteq hj]
            exact hi.coh.sizes j
        · intro v r hr
          simp only [memory_coloring_impl.set_interval] at hr ⊢
          by_cases hve : v = st.impl.max_value_number + 1
          · subst hve
            rw [Function.update_same] at hr
            simp only [Option.some.injEq] at hr
            subst hr
            exact ⟨by omega, le_refl _⟩
          · rw [Function.update_noteq hve] at hr
            have := hi.range_lt v r hr
            omega
        · intro v w hw
          simp only [memory_coloring_impl.set_interval, mem_add_conflicts] at hw ⊢
          rcases hw with hw | ⟨_, h2⟩ | ⟨h1, _⟩
          · have := hi.table_le v w hw
            omega
          · have := (hi.live_le w h2).1
            omega
          · omega
        · intro v hv
          simp only [memory_coloring_impl.set_interval, mem_set_insert] at hv ⊢
          rcases hv with hv | hv
          · subst hv
            exact ⟨le_refl _, _, Function.update_same _ _ _⟩
          · obtain ⟨h1, r, h2⟩ := hi.live_le v hv
            refine ⟨by omega, r, ?_⟩
            rw [Function.update_noteq (hnew v (by rw [h2]; simp))]
            exact h2
        · intro j
          simp only [memory_coloring_impl.set_interval]
          by_cases hj : j = st.impl.num_of_lives
          · subst hj
            simp only [Function.update_same, live_interval.add_use]
            exact hi.unplaced _
          · rw [Function.update_noteq hj]
            exact hi.unplaced j
        · intro j d' hj
          simp only [memory_coloring_impl.set_interval] at hj ⊢
          by_cases hja : j = arg
          · subst hja
            rw [Function.update_same] at hj
            simp only [Option.some.injEq] at hj
            omega
          · rw [Function.update_noteq hja] at hj
            have := hi.held_lt j d' hj
            omega
        · intro d' hd'
          simp only [memory_coloring_impl.set_interval] at hd' ⊢
          have := hi.queue_lt d' hd'
          omega
        · intro j hj
          simp only [memory_coloring_impl.set_interval] at hj ⊢
          by_cases hje : j = st.impl.num_of_lives
          · subst hje
            rw [Function.update_same]
            exact Function.update_same _ _ _
          · rw [Function.update_noteq hje]
            have hlt : j < st.impl.num_of_lives := by omega
            have h1 := hi.inverse j hlt
            rw [Function.update_noteq (hnew _ (by rw [h1]; simp))]
            exact h1
        · intro j hj
          simp only [memory_coloring_impl.set_interval] at hj ⊢
          rw [Function.update_noteq (by omega)]
          exact hi.fresh j (by omega)
        · exact hi.required_zero
      · rename_i d hheld
        exact ⟨build_inv_set_interval st hi _ _ _ _ _ _ _ rfl rfl rfl rfl rfl rfl rfl
          (hi.coh.sizes _) (fun v hv => hv) (hi.held_lt _ _ hheld) hi.held_lt hi.queue_lt rfl,
          le_refl _⟩

theorem build_inv_args (h : helpers) (p : List instruction) (cur_points tie_ndx : Int)
    (def_interval : Option Nat) :
    ∀ (args : List Nat) (cnt : Int) (st : build_state), build_inv st →
      (∀ d, def_interval = some d → d < st.impl.num_of_lives) →
      build_inv (build_args h p cur_points tie_ndx def_interval args cnt st) := by
  intro args
  induction args with
  | nil => intro cnt st hi _; exact hi
  | cons arg rest ih =>
    intro cnt st hi hdef
    obtain ⟨h1, h2⟩ := build_inv_arg h p cur_points tie_ndx def_interval st cnt arg hi hdef
    exact ih (cnt + 1) _ h1 (fun d hd => lt_of_lt_of_le (hdef d hd) h2)

theorem build_inv_instr (h : helpers) (p : List instruction) (iter : Nat) (cur_points : Int)
    (st : build_state) (hi : build_inv st) : build_inv (build_instr h p iter cur_points st) := by
  unfold build_instr
  simp only
  obtain ⟨h1, h2, h3⟩ := build_inv_def h p iter cur_points st hi
  have h4 := build_inv_args h p cur_points (h.get_input_tie_ndx p (instr p iter))
    (build_def h p iter cur_points st).1 (instr p iter).inputs 0 _ h1
    (fun d hd => by rw [h3]; exact hi.held_lt iter d (by rw [← h2]; exact hd))
  split
  · exact build_inv_keep _ _ h4 rfl rfl
  · exact h4

theorem build_inv_loop (h : helpers) (p : List instruction) :
    ∀ (k : Nat) (cur_points : Int) (st : build_state), build_inv st →
      build_inv (build_loop h p k cur_points st) := by
  intro k
  induction k with
  | zero => intro _ st hi; exact hi
  | succ k ih =>
    intro cur_points st hi
    exact ih _ _ (build_inv_instr h p k cur_points st hi)

theorem build_inv_init (unify : Bool) :
    build_inv (build_state.init (memory_coloring_impl.init unify)) := by
  refine ⟨⟨?_, ?_, ?_, ?_, ?_⟩, ?_, ?_, ?_, ?_, ?_, ?_, ?_, ?_, ?_⟩ <;>
    simp [build_state.init, memory_coloring_impl.init, live_interval.init]

theorem build_inv_trace (h : helpers) (p : List instruction) (unify : Bool) :
    build_inv (build_trace h p (memory_coloring_impl.init unify)) := by
  unfold build_trace
  split
  · exact build_inv_init unify
  · exact build_inv_loop h p _ _ _ (build_inv_init unify)

/-! ## The live set and the conflict table -/

theorem trace_inv_keep (st st' : build_state) (hi : trace_inv st)
    (h1 : st'.impl.conflict_table = st.impl.conflict_table) (h2 : st'.live_set = st.live_set)
    (h3 : st'.live_sets = st.live_sets) : trace_inv st' := by
  obtain ⟨a, b, c⟩ := hi
  refine ⟨?_, ?_, ?_⟩ <;> simp only [h1, h2, h3] <;> assumption

theorem trace_inv_def (h : helpers) (p : List instruction) (iter : Nat) (cur_points : Int)
    (st : build_state) (hi : trace_inv st) : trace_inv (build_def h p iter cur_points st).2 := by
  unfold build_def
  simp only
  split
  · split
    · refine ⟨rfl, ?_, ?_⟩
      · intro L hL u hu v hv huv
        simp only [memory_coloring_impl.set_interval] at hL ⊢
        rcases List.mem_cons.mp hL with hL | hL
        · subst hL
          have hh := hi.head
          have hmem : st.live_set ∈ st.live_sets := List.mem_of_mem_head? hh
          exact hi.together _ hmem u ((mem_set_erase _ _ _).mp hu).1 v
            ((mem_set_erase _ _ _).mp hv).1 huv
        · exact hi.together L hL u hu v hv huv
      · intro u v huv
        simp only [memory_coloring_impl.set_interval] at huv ⊢
        obtain ⟨L, hL, h1, h2⟩ := hi.witnessed u v huv
        exact ⟨L, List.mem_cons_of_mem _ hL, h1, h2⟩
    · exact trace_inv_keep st _ hi rfl rfl rfl
  · exact trace_inv_keep st _ hi rfl rfl rfl

theorem trace_inv_arg (h : helpers) (p : List instruction) (cur_points tie_ndx : Int)
    (def_interval : Option Nat) (st : build_state) (cnt : Int) (arg : Nat)
    (hi : trace_inv st) :
    trace_inv (build_arg h p cur_points tie_ndx def_interval st cnt arg) := by
  unfold build_arg
  simp only
  split
  · split
    · split
      · exact trace_inv_keep st _ hi rfl rfl rfl
      · exact trace_inv_keep st _ hi rfl rfl rfl
    · split
      · exact trace_inv_keep st _ hi rfl rfl rfl
      · exact trace_inv_keep st _ hi rfl rfl rfl
  · split
    · exact trace_inv_keep st _ hi rfl rfl rfl
    · split
      · have hmem : st.live_set ∈ st.live_sets := List.mem_of_mem_head? hi.head
        refine ⟨rfl, ?_, ?_⟩
        · intro L hL u hu v hv huv
          simp only [memory_coloring_impl.set_interval, mem_add_conflicts] at hL ⊢
          rcases List.mem_cons.mp hL with hL | hL
          · subst hL
            rcases (mem_set_insert _ _ _).mp hu with hu | hu
            · rcases (mem_set_insert _ _ _).mp hv with hv | hv
              · exact absurd (hu.trans hv.symm) huv
              · exact Or.inr (Or.inl ⟨hu, hv⟩)
            · rcases (mem_set_insert _ _ _).mp hv with hv | hv
              · exact Or.inr (Or.inr ⟨hv, hu⟩)
              · exact Or.inl (hi.together _ hmem u hu v hv huv)
          · exact Or.inl (hi.together L hL u hu v hv huv)
        · intro u v huv
          simp only [memory_coloring_impl.set_interval, mem_add_conflicts] at huv ⊢
          rcases huv with huv | ⟨h1, h2⟩ | ⟨h1, h2⟩
          · obtain ⟨L, hL, h1, h2⟩ := hi.witnessed u v huv
            exact ⟨L, List.mem_cons_of_mem _ hL, h1, h2⟩
          · exact ⟨_, List.mem_cons_self _ _, (mem_set_insert _ _ _).mpr (Or.inl h1),
              (mem_set_insert _ _ _).mpr (Or.inr h2)⟩
          · exact ⟨_, List.mem_cons_self _ _, (mem_set_insert _ _ _).mpr (Or.inr h2),
              (mem_set_insert _ _ _).mpr (Or.inl h1)⟩
      · exact trace_inv_keep st _ hi rfl rfl rfl

theorem trace_inv_args (h : helpers) (p : List instruction) (cur_points tie_ndx : Int)
    (def_interval : Option Nat) :
    ∀ (args : List Nat) (cnt : Int) (st : build_state), trace_inv st →
      trace_inv (build_args h p cur_points tie_ndx def_interval args cnt st) := by
  intro args
  induction args with
  | nil => intro cnt st hi; exact hi
  | cons arg rest ih =>
    intro cnt st hi
    exact ih (cnt + 1) _ (trace_inv_arg h p cur_points tie_ndx def_interval st cnt arg hi)

theorem trace_inv_instr (h : helpers) (p : List instruction) (iter : Nat) (cur_points : Int)
    (st : build_state) (hi : trace_inv st) : trace_inv (build_instr h p iter cur_points st) := by
  unfold build_instr
  simp only
  have h4 := trace_inv_args h p cur_points (h.get_input_tie_ndx p (instr p iter))
    (build_def h p iter cur_points st).1 (instr p iter).inputs 0 _
    (trace_inv_def h p iter cur_points st hi)
  split
  · exact trace_inv_keep _ _ h4 rfl rfl rfl
  · exact h4

theorem trace_inv_loop (h : helpers) (p : List instruction) :
    ∀ (k : Nat) (cur_points : Int) (st : build_state), trace_inv st →
      trace_inv (build_loop h p k cur_points st) := by
  intro k
  induction k with
  | zero => intro _ st hi; exact hi
  | succ k ih =>
    intro cur_points st hi
    exact ih _ _ (trace_inv_instr h p k cur_points st hi)

theorem trace_inv_init (unify : Bool) :
    trace_inv (build_state.init (memory_coloring_impl.init unify)) := by
  refine ⟨rfl, ?_, ?_⟩ <;> simp [build_state.init, memory_coloring_impl.init]

theorem trace_inv_trace (h : helpers) (p : List instruction) (unify : Bool) :
    trace_inv (build_trace h p (memory_coloring_impl.init unify)) := by
  unfold build_trace
  split
  · exact trace_inv_init unify
  · exact trace_inv_loop h p _ _ _ (trace_inv_init unify)

/-! ## The instruction-to-interval map during build -/

theorem build_def_instr2_live (h : helpers) (p : List instruction) (iter : Nat)
    (cur_points : Int) (st : build_state) :
    (build_def h p iter cur_points st).2.impl.instr2_live = st.impl.instr2_live := by
  unfold build_def
  simp only
  split
  · split <;> rfl
  · rfl

theorem build_arg_other (h : helpers) (p : List instruction) (cur_points tie_ndx : Int)
    (def_interval : Option Nat) (st : build_state) (cnt : Int) (arg j : Nat) (hj : j ≠ arg) :
    (build_arg h p cur_points tie_ndx def_interval st cnt arg).impl.instr2_live j =
      st.impl.instr2_live j := by
  unfold build_arg
  simp only
  split
  · split
    · split <;> rfl
    · split <;> rfl
  · split
    · simp only [memory_coloring_impl.set_interval]
      rw [Function.update_noteq hj]
    · split
      · simp only [memory_coloring_impl.set_interval]
        rw [Function.update_noteq hj]
      · rfl

theorem build_arg_kept (h : helpers) (p : List instruction) (cur_points tie_ndx : Int)
    (def_interval : Option Nat) (st : build_state) (cnt : Int) (arg j d : Nat)
    (hcnt : cnt ≠ tie_ndx) (hj : st.impl.instr2_live j = some d) :
    (build_arg h p cur_points tie_ndx def_interval st cnt arg).impl.instr2_live j = some d := by
  by_cases hja : j = arg
  · subst hja
    unfold build_arg
    simp only
    split
    · split
      · split <;> exact hj
      · split <;> exact hj
    · try rw [if_neg hcnt]
      dsimp only
      split
      · rename_i hnone
        rw [hj] at hnone
        exact absurd hnone (by simp)
      · exact hj
  · rw [build_arg_other h p cur_points tie_ndx def_interval st cnt arg j hja]
    exact hj

theorem build_arg_tied (h : helpers) (p : List instruction) (cur_points tie_ndx : Int)
    (st : build_state) (arg d : Nat)
    (hp : h.is_param (instr p arg) = false) (ho : h.is_outline (instr p arg) = false) :
    (build_arg h p cur_points tie_ndx (some d) st tie_ndx arg).impl.instr2_live arg = some d := by
  unfold build_arg
  simp only [hp, ho, Bool.or_self, Bool.false_eq_true, if_false, if_true]
  exact Function.update_same _ _ _

theorem build_arg_held (h : helpers) (p : List instruction) (cur_points tie_ndx : Int)
    (def_interval : Option Nat) (st : build_state) (cnt : Int) (arg : Nat)
    (hp : h.is_param (instr p arg) = false) (ho : h.is_outline (instr p arg) = false) :
    (build_arg h p cur_points tie_ndx def_interval st cnt arg).impl.instr2_live arg ≠ none := by
  unfold build_arg
  simp only [hp, ho, Bool.or_self, Bool.false_eq_true, if_false]
  split
  · simp only [memory_coloring_impl.set_interval]
    rw [Function.update_same]
    simp
  · split
    · simp only [memory_coloring_impl.set_interval]
      rw [Function.update_same]
      simp
    · rename_i hsome
      simp only [memory_coloring_impl.set_interval]
      rw [hsome]
      simp

theorem build_arg_stays_held (h : helpers) (p : List instruction) (cur_points tie_ndx : Int)
    (def_interval : Option Nat) (st : build_state) (cnt : Int) (arg j : Nat)
    (hj : st.impl.instr2_live j ≠ none) :
    (build_arg h p cur_points tie_ndx def_interval st cnt arg).impl.instr2_live j ≠ none := by
  by_cases hja : j = arg
  · subst hja
    unfold build_arg
    simp only
    split
    · split
      · split <;> exact hj
      · split <;> exact hj
    · split
      · simp only [memory_coloring_impl.set_interval]
        rw [Function.update_same]
        simp
      · split
        · simp only [memory_coloring_impl.set_interval]
          rw [Function.update_same]
          simp
        · exact hj
  · rw [build_arg_other h p cur_points tie_ndx def_interval st cnt arg j hja]
    exact hj

theorem build_args_other (h : helpers) (p : List instruction) (cur_points tie_ndx : Int)
    (def_interval : Option Nat) (j : Nat) :
    ∀ (args : List Nat) (cnt : Int) (st : build_state), j ∉ args →
      (build_args h p cur_points tie_ndx def_interval args cnt st).impl.instr2_live j =
        st.impl.instr2_live j := by
  intro args
  induction args with
  | nil => intro _ _ _; rfl
  | cons arg rest ih =>
    intro cnt st hj
    simp only [build_args]
    rw [ih (cnt + 1) _ (fun hm => hj (List.mem_cons_of_mem _ hm))]
    exact build_arg_other h p cur_points tie_ndx def_interval st cnt arg j
      (fun he => hj (he ▸ List.mem_cons_self _ _))

theorem build_args_kept (h : helpers) (p : List instruction) (cur_points tie_ndx : Int)
    (def_interval : Option Nat) (j d : Nat) :
    ∀ (args : List Nat) (cnt : Int) (st : build_state), tie_ndx < cnt →
      st.impl.instr2_live j = some d →
      (build_args h p cur_points tie_ndx def_interval args cnt st).impl.instr2_live j =
        some d := by
  intro args
  induction args with
  | nil => intro _ _ _ hj; exact hj
  | cons arg rest ih =>
    intro cnt st hc hj
    simp only [build_args]
    exact ih (cnt + 1) _ (by omega)
      (build_arg_kept h p cur_points tie_ndx def_interval st cnt arg j d (by omega) hj)

theorem build_args_stays_held (h : helpers) (p : List instruction) (cur_points tie_ndx : Int)
    (def_interval : Option Nat) (j : Nat) :
    ∀ (args : List Nat) (cnt : Int) (st : build_state), st.impl.instr2_live j ≠ none →
      (build_args h p cur_points tie_ndx def_interval args cnt st).impl.instr2_live j ≠
        none := by
  intro args
  induction args with
  | nil => intro _ _ hj; exact hj
  | cons arg rest ih =>
    intro cnt st hj
    simp only [build_args]
    exact ih (cnt + 1) _
      (build_arg_stays_held h p cur_points tie_ndx def_interval st cnt arg j hj)

theorem build_args_held (h : helpers) (p : List instruction) (cur_points tie_ndx : Int)
    (def_interval : Option Nat) (a : Nat)
    (hp : h.is_param (instr p a) = false) (ho : h.is_outline (instr p a) = false) :
    ∀ (args : List Nat) (cnt : Int) (st : build_state), a ∈ args →
      (build_args h p cur_points tie_ndx def_interval args cnt st).impl.instr2_live a ≠
        none := by
  intro args
  induction args with
  | nil => intro _ _ ha; exact absurd ha (List.not_mem_nil _)
  | cons arg rest ih =>
    intro cnt st ha
    simp only [build_args]
    by_cases hae : a = arg
    · subst hae
      exact build_args_stays_held h p cur_points tie_ndx def_interval a rest (cnt + 1) _
        (build_arg_held h p cur_points tie_ndx def_interval st cnt a hp ho)
    · rcases List.mem_cons.mp ha with ha | ha
      · exact absurd ha hae
      · exact ih (cnt + 1) _ ha

theorem build_args_tied (h : helpers) (p : List instruction) (cur_points : Int) (d a : Nat)
    (hp : h.is_param (instr p a) = false) (ho : h.is_outline (instr p a) = false) :
    ∀ (args : List Nat) (t : Nat) (cnt : Int) (st : build_state), args[t]? = some a →
      (build_args h p cur_points (cnt + t) (some d) args cnt st).impl.instr2_live a =
        some d := by
  intro args
  induction args with
  | nil => intro t _ _ ht; simp at ht
  | cons arg rest ih =>
    intro t cnt st ht
    simp only [build_args]
    cases t with
    | zero =>
      simp only [List.getElem?_cons_zero, Option.some.injEq] at ht
      subst ht
      simp only [Nat.cast_zero, add_zero]
      exact build_args_kept h p cur_points cnt (some d) arg d rest (cnt + 1) _ (by omega)
        (build_arg_tied h p cur_points cnt st arg d hp ho)
    | succ t =>
      simp only [List.getElem?_cons_succ] at ht
      have := ih t (cnt + 1) (build_arg h p cur_points (cnt + (t + 1 : Nat)) (some d) st cnt arg) ht
      have he : cnt + ((t + 1 : Nat) : Int) = cnt + 1 + (t : Int) := by push_cast; ring
      rw [he]
      rw [he] at this
      exact this

theorem build_instr_other (h : helpers) (p : List instruction) (iter : Nat) (cur_points : Int)
    (st : build_state) (j : Nat) (hj : j ∉ (instr p iter).inputs) :
    (build_instr h p iter cur_points st).impl.instr2_live j = st.impl.instr2_live j := by
  have h1 : (build_instr h p iter cur_points st).impl =
      (build_args h p cur_points (h.get_input_tie_ndx p (instr p iter))
        (build_def h p iter cur_points st).1 (instr p iter).inputs 0
        (build_def h p iter cur_points st).2).impl := by
    unfold build_instr
    simp only
    split <;> rfl
  rw [h1, build_args_other h p cur_points _ _ j _ 0 _ hj, build_def_instr2_live]

theorem build_instr_impl (h : helpers) (p : List instruction) (iter : Nat) (cur_points : Int)
    (st : build_state) :
    (build_instr h p iter cur_points st).impl =
      (build_args h p cur_points (h.get_input_tie_ndx p (instr p iter))
        (build_def h p iter cur_points st).1 (instr p iter).inputs 0
        (build_def h p iter cur_points st).2).impl := by
  unfold build_instr
  simp only
  split <;> rfl

theorem build_def_fst (h : helpers) (p : List instruction) (iter : Nat) (cur_points : Int)
    (st : build_state) :
    (build_def h p iter cur_points st).1 = st.impl.instr2_live iter := by
  unfold build_def
  simp only
  split
  · rename_i d hd
    split <;> exact hd.symm
  · rename_i hd
    exact hd.symm

/-! ## Alias chains -/

theorem instr_inputs_lt (p : List instruction) (i a : Nat) (ha : a ∈ (instr p i).inputs) :
    i < p.length := by
  by_contra hcon
  unfold instr at ha
  rw [List.getD_eq_default _ _ (not_lt.mp hcon)] at ha
  exact absurd ha (List.not_mem_nil _)

theorem chain_step (h : helpers) (p : List instruction) (m : Nat) (c : Nat → Nat) (R : Nat)
    (hwf : ∀ i < p.length, ∀ a ∈ (instr p i).inputs, a < i)
    (hlink : ∀ j < m, ∃ t : Nat, h.get_input_tie_ndx p (instr p (c (j + 1))) = (t : Int) ∧
      (instr p (c (j + 1))).inputs[t]? = some (c j))
    (honly : ∀ j < m, ∀ x < p.length, c j ∈ (instr p x).inputs → x = c (j + 1))
    (hread : c m ∈ (instr p R).inputs)
    (hnp : ∀ j ≤ m, h.is_param (instr p (c j)) = false ∧ h.is_outline (instr p (c j)) = false)
    (k : Nat) (cur_points : Int) (st : build_state) (hi : chain_inv m c R (k + 1) st.impl) :
    chain_inv m c R k (build_instr h p k cur_points st).impl := by
  have hwf' : ∀ i a, a ∈ (instr p i).inputs → a < i :=
    fun i a ha => hwf i (instr_inputs_lt p i a ha) a ha
  have hself : k ∉ (instr p k).inputs := fun hk => lt_irrefl k (hwf' k k hk)
  have hlinkmem : ∀ j < m, c j ∈ (instr p (c (j + 1))).inputs := by
    intro j hj
    obtain ⟨t, _, ht⟩ := hlink j hj
    exact List.getElem?_mem ht
  constructor
  · intro hk
    rw [build_instr_impl]
    by_cases hR : R = k
    · subst hR
      exact build_args_held h p cur_points _ _ (c m) (hnp m (le_refl _)).1 (hnp m (le_refl _)).2
        _ 0 _ hread
    · apply build_args_stays_held
      rw [build_def_instr2_live]
      exact hi.1 (by omega)
  · intro j hj hk
    by_cases hc : c (j + 1) = k
    · -- the link c (j+1) is visited
      have hheld : st.impl.instr2_live k ≠ none := by
        rw [← hc]
        by_cases hjm : j + 1 < m
        · have hlt := hwf' _ _ (hlinkmem (j + 1) hjm)
          have := hi.2 (j + 1) hjm (by omega)
          rw [this.1]
          exact this.2
        · have hjm' : j + 1 = m := by omega
          rw [hjm']
          have hlt := hwf' _ _ hread
          have hcm : c m = k := by rw [← hjm']; exact hc
          exact hi.1 (by omega)
      obtain ⟨d, hd⟩ := Option.ne_none_iff_exists'.mp hheld
      obtain ⟨t, ht1, ht2⟩ := hlink j hj
      have hk' : (build_instr h p k cur_points st).impl.instr2_live k = some d := by
        rw [build_instr_other h p k cur_points st k hself]
        exact hd
      have hj' : (build_instr h p k cur_points st).impl.instr2_live (c j) = some d := by
        rw [build_instr_impl, build_def_fst, hd]
        rw [hc] at ht1 ht2
        rw [ht1]
        have := build_args_tied h p cur_points d (c j) (hnp j (by omega)).1 (hnp j (by omega)).2
          (instr p k).inputs t 0 (build_def h p k cur_points st).2 ht2
        rw [zero_add] at this
        exact this
      rw [hc, hj', hk']
      exact ⟨rfl, by simp⟩
    · have hk2 : k + 1 ≤ c (j + 1) := by omega
      have h1 : c j ∉ (instr p k).inputs := by
        intro hmem
        exact hc (honly j hj k (instr_inputs_lt p k _ hmem) hmem).symm
      have h2 : c (j + 1) ∉ (instr p k).inputs := by
        intro hmem
        have := hwf' k _ hmem
        omega
      rw [build_instr_other h p k cur_points st _ h1, build_instr_other h p k cur_points st _ h2]
      exact hi.2 j hj hk2

theorem chain_loop (h : helpers) (p : List instruction) (m : Nat) (c : Nat → Nat) (R : Nat)
    (hwf : ∀ i < p.length, ∀ a ∈ (instr p i).inputs, a < i)
    (hlink : ∀ j < m, ∃ t : Nat, h.get_input_tie_ndx p (instr p (c (j + 1))) = (t : Int) ∧
      (instr p (c (j + 1))).inputs[t]? = some (c j))
    (honly : ∀ j < m, ∀ x < p.length, c j ∈ (instr p x).inputs → x = c (j + 1))
    (hread : c m ∈ (instr p R).inputs)
    (hnp : ∀ j ≤ m, h.is_param (instr p (c j)) = false ∧ h.is_outline (instr p (c j)) = false) :
    ∀ (k : Nat) (cur_points : Int) (st : build_state), chain_inv m c R k st.impl →
      chain_inv m c R 0 (build_loop h p k cur_points st).impl := by
  intro k
  induction k with
  | zero => intro _ st hi; exact hi
  | succ k ih =>
    intro cur_points st hi
    exact ih _ _ (chain_step h p m c R hwf hlink honly hread hnp k cur_points st hi)

theorem chain_collapse (h : helpers) (p : List instruction) (unify : Bool) (m : Nat)
    (c : Nat → Nat) (R : Nat)
    (hwf : ∀ i < p.length, ∀ a ∈ (instr p i).inputs, a < i)
    (hlink : ∀ j < m, ∃ t : Nat, h.get_input_tie_ndx p (instr p (c (j + 1))) = (t : Int) ∧
      (instr p (c (j + 1))).inputs[t]? = some (c j))
    (honly : ∀ j < m, ∀ x < p.length, c j ∈ (instr p x).inputs → x = c (j + 1))
    (hread : c m ∈ (instr p R).inputs)
    (hnp : ∀ j ≤ m, h.is_param (instr p (c j)) = false ∧ h.is_outline (instr p (c j)) = false) :
    ∃ d, ∀ j ≤ m, (build h p (memory_coloring_impl.init unify)).instr2_live (c j) = some d := by
  have hRlt := instr_inputs_lt p R _ hread
  have hinit : chain_inv m c R p.length (build_state.init (memory_coloring_impl.init unify)).impl := by
    constructor
    · intro hk; omega
    · intro j hj hk
      obtain ⟨t, _, ht⟩ := hlink j hj
      have := instr_inputs_lt p _ _ (List.getElem?_mem ht)
      omega
  have hfin : chain_inv m c R 0 (build h p (memory_coloring_impl.init unify)) := by
    unfold build build_trace
    split
    · rename_i h0; omega
    · exact chain_loop h p m c R hwf hlink honly hread hnp _ _ _ hinit
  obtain ⟨d, hd⟩ := Option.ne_none_iff_exists'.mp (hfin.1 (Nat.zero_le _))
  refine ⟨d, ?_⟩
  have key : ∀ i, i ≤ m →
      (build h p (memory_coloring_impl.init unify)).instr2_live (c (m - i)) = some d := by
    intro i
    induction i with
    | zero => intro _; exact hd
    | succ i ih =>
      intro hi
      have h1 := (hfin.2 (m - (i + 1)) (by omega) (Nat.zero_le _)).1
      have h2 : m - (i + 1) + 1 = m - i := by omega
      rw [h2] at h1
      rw [h1]
      exact ih (by omega)
  intro j hj
  have := key (m - j) (by omega)
  have h3 : m - (m - j) = j := by omega
  rw [h3] at this
  exact this

/-! ## No interval is queued twice -/

theorem build_arg_queue (h : helpers) (p : List instruction) (cur_points tie_ndx : Int)
    (def_interval : Option Nat) (st : build_state) (cnt : Int) (arg : Nat) :
    (build_arg h p cur_points tie_ndx def_interval st cnt arg).impl.alloc_queue =
      st.impl.alloc_queue := by
  unfold build_arg
  simp only
  split
  · split
    · split <;> rfl
    · split <;> rfl
  · split
    · rfl
    · split <;> rfl

theorem args_inv_keep (k : Nat) (tie_ndx : Int) (def_interval : Option Nat) (cnt : Int)
    (s s' : memory_coloring_impl) (hi : args_inv k tie_ndx def_interval cnt s)
    (h1 : s'.instr2_live = s.instr2_live) (h2 : s'.alloc_queue = s.alloc_queue) :
    args_inv k tie_ndx def_interval (cnt + 1) s' := by
  obtain ⟨⟨a, b, c⟩, e⟩ := hi
  refine ⟨⟨?_, ?_, ?_⟩, ?_⟩
  · rw [h1, h2]; exact a
  · rw [h1]; exact b
  · rw [h2]; exact c
  · intro d hd hc
    rw [h1, h2]
    exact e d hd (by omega)

theorem args_inv_arg (h : helpers) (p : List instruction) (cur_points tie_ndx : Int)
    (def_interval : Option Nat) (st : build_state) (cnt : Int) (arg k : Nat)
    (hb : build_inv st) (hdef : ∀ d, def_interval = some d → d < st.impl.num_of_lives)
    (harg : arg < k) (hi : args_inv k tie_ndx def_interval cnt st.impl) :
    args_inv k tie_ndx def_interval (cnt + 1)
      (build_arg h p cur_points tie_ndx def_interval st cnt arg).impl := by
  unfold build_arg
  simp only
  split
  · split
    · split
      · exact args_inv_keep k tie_ndx _ cnt _ _ hi rfl rfl
      · exact args_inv_keep k tie_ndx _ cnt _ _ hi rfl rfl
    · split
      · exact args_inv_keep k tie_ndx _ cnt _ _ hi rfl rfl
      · exact args_inv_keep k tie_ndx _ cnt _ _ hi rfl rfl
  · split
    · rename_i d htie
      obtain ⟨hc, hd⟩ := tie_eq_some htie
      obtain ⟨hq, hno⟩ := hi.2 d hd (le_of_eq hc)
      refine ⟨⟨?_, ?_, hi.1.nodup⟩, ?_⟩
      · intro d' hd' j hj
        simp only [memory_coloring_impl.set_interval] at hd' ⊢
        by_cases hja : j = arg
        · subst hja
          rw [Function.update_same]
          intro he
          simp only [Option.some.injEq] at he
          exact hq (he ▸ hd')
        · rw [Function.update_noteq hja]
          exact hi.1.no_holder d' hd' j hj
      · intro j1 hj1 j2 hj2 d' h1 h2
        simp only [memory_coloring_impl.set_interval] at h1 h2
        by_cases ha1 : j1 = arg
        · by_cases ha2 : j2 = arg
          · rw [ha1, ha2]
          · rw [ha1, Function.update_same] at h1
            rw [Function.update_noteq ha2] at h2
            simp only [Option.some.injEq] at h1
            exact absurd (h1 ▸ h2) (hno j2 hj2)
        · rw [Function.update_noteq ha1] at h1
          by_cases ha2 : j2 = arg
          · rw [ha2, Function.update_same] at h2
            simp only [Option.some.injEq] at h2
            exact absurd (h2 ▸ h1) (hno j1 hj1)
          · rw [Function.update_noteq ha2] at h2
            exact hi.1.unique j1 hj1 j2 hj2 d' h1 h2
      · intro d' _ hc'
        omega
    · split
      · refine ⟨⟨?_, ?_, hi.1.nodup⟩, ?_⟩
        · intro d' hd' j hj
          simp only [memory_coloring_impl.set_interval] at hd' ⊢
          by_cases hja : j = arg
          · subst hja
            rw [Function.update_same]
            intro he
            simp only [Option.some.injEq] at he
            have := hb.queue_lt d' hd'
            omega
          · rw [Function.update_noteq hja]
            exact hi.1.no_holder d' hd' j hj
        · intro j1 hj1 j2 hj2 d' h1 h2
          simp only [memory_coloring_impl.set_interval] at h1 h2
          by_cases ha1 : j1 = arg
          · by_cases ha2 : j2 = arg
            · rw [ha1, ha2]
            · rw [ha1, Function.update_same] at h1
              rw [Function.update_noteq ha2] at h2
              simp only [Option.some.injEq] at h1
              have := hb.held_lt j2 d' h2
              omega
          · rw [Function.update_noteq ha1] at h1
            by_cases ha2 : j2 = arg
            · rw [ha2, Function.update_same] at h2
              simp only [Option.some.injEq] at h2
              have := hb.held_lt j1 d' h1
              omega
            · rw [Function.update_noteq ha2] at h2
              exact hi.1.unique j1 hj1 j2 hj2 d' h1 h2
        · intro d hd hc
          obtain ⟨hq, hno⟩ := hi.2 d hd (by omega)
          refine ⟨hq, ?_⟩
          intro j hj
          simp only [memory_coloring_impl.set_interval]
          by_cases hja : j = arg
          · subst hja
            rw [Function.update_same]
            intro he
            simp only [Option.some.injEq] at he
            have := hdef d hd
            omega
          · rw [Function.update_noteq hja]
            exact hno j hj
      · exact args_inv_keep k tie_ndx _ cnt _ _ hi rfl rfl

theorem args_inv_args (h : helpers) (p : List instruction) (cur_points tie_ndx : Int)
    (def_interval : Option Nat) (k : Nat) :
    ∀ (args : List Nat) (cnt : Int) (st : build_state), build_inv st →
      (∀ d, def_interval = some d → d < st.impl.num_of_lives) →
      (∀ a ∈ args, a < k) → args_inv k tie_ndx def_interval cnt st.impl →
      holder_inv k (build_args h p cur_points tie_ndx def_interval args cnt st).impl := by
  intro args
  induction args with
  | nil => intro cnt st _ _ _ hi; exact hi.1
  | cons arg rest ih =>
    intro cnt st hb hdef hlt hi
    obtain ⟨h1, h2⟩ := build_inv_arg h p cur_points tie_ndx def_interval st cnt arg hb hdef
    exact ih (cnt + 1) _ h1 (fun d hd => lt_of_lt_of_le (hdef d hd) h2)
      (fun a ha => hlt a (List.mem_cons_of_mem _ ha))
      (args_inv_arg h p cur_points tie_ndx def_interval st cnt arg k hb hdef
        (hlt arg (List.mem_cons_self _ _)) hi)

theorem args_inv_def (h : helpers) (p : List instruction) (k : Nat) (cur_points tie_ndx : Int)
    (st : build_state)
    (htie : (h.is_allocate (instr p k) || h.is_literal (instr p k)) = true → tie_ndx < 0)
    (hi : holder_inv (k + 1) st.impl) :
    args_inv k tie_ndx (build_def h p k cur_points st).1 0
      (build_def h p k cur_points st).2.impl := by
  have hsub : ∀ d, st.impl.instr2_live k = some d →
      d ∉ st.impl.alloc_queue ∧ ∀ j < k, st.impl.instr2_live j ≠ some d := by
    intro d hd
    refine ⟨fun hq => hi.no_holder d hq k (Nat.lt_succ_self k) hd, ?_⟩
    intro j hj hjd
    have := hi.unique j (by omega) k (Nat.lt_succ_self k) d hjd hd
    omega
  have hweak : holder_inv k st.impl :=
    ⟨fun d hd j hj => hi.no_holder d hd j (by omega),
      fun j1 h1 j2 h2 => hi.unique j1 (by omega) j2 (by omega), hi.nodup⟩
  unfold build_def
  simp only
  split
  · rename_i d hd
    split
    · rename_i hfin
      have ht := htie hfin
      refine ⟨⟨?_, hweak.unique, ?_⟩, ?_⟩
      · intro d' hd' j hj
        simp only [memory_coloring_impl.set_interval] at hd' ⊢
        split at hd'
        · rcases List.mem_append.mp hd' with h1 | h1
          · exact hweak.no_holder d' h1 j hj
          · simp only [List.mem_singleton] at h1
            subst h1
            exact (hsub d' hd).2 j hj
        · exact hweak.no_holder d' hd' j hj
      · simp only [memory_coloring_impl.set_interval]
        split
        · rw [List.nodup_append]
          refine ⟨hi.nodup, List.nodup_singleton d, ?_⟩
          intro x hx hx'
          simp only [List.mem_singleton] at hx'
          subst hx'
          exact (hsub x hd).1 hx
        · exact hi.nodup
      · intro d' _ hc
        omega
    · refine ⟨hweak, ?_⟩
      intro d' hd' _
      simp only [Option.some.injEq] at hd'
      subst hd'
      exact hsub d hd
  · refine ⟨hweak, ?_⟩
    intro d' hd' _
    exact absurd hd' (by simp)

theorem holder_inv_instr (h : helpers) (p : List instruction) (k : Nat) (cur_points : Int)
    (st : build_state) (hb : build_inv st)
    (hwf : ∀ a ∈ (instr p k).inputs, a < k)
    (htie : (h.is_allocate (instr p k) || h.is_literal (instr p k)) = true →
      h.get_input_tie_ndx p (instr p k) < 0)
    (hi : holder_inv (k + 1) st.impl) :
    holder_inv k (build_instr h p k cur_points st).impl := by
  rw [build_instr_impl]
  obtain ⟨h1, h2, h3⟩ := build_inv_def h p k cur_points st hb
  exact args_inv_args h p cur_points _ _ k _ 0 _ h1
    (fun d hd => by rw [h3]; exact hb.held_lt k d (by rw [← h2]; exact hd)) hwf
    (args_inv_def h p k cur_points _ st htie hi)

theorem holder_inv_loop (h : helpers) (p : List instruction)
    (hwf : ∀ i < p.length, ∀ a ∈ (instr p i).inputs, a < i)
    (htie : ∀ i < p.length, (h.is_allocate (instr p i) || h.is_literal (instr p i)) = true →
      h.get_input_tie_ndx p (instr p i) < 0) :
    ∀ (k : Nat) (cur_points : Int) (st : build_state), k ≤ p.length → build_inv st →
      holder_inv k st.impl → holder_inv 0 (build_loop h p k cur_points st).impl := by
  intro k
  induction k with
  | zero => intro _ st _ _ hi; exact hi
  | succ k ih =>
    intro cur_points st hk hb hi
    exact ih _ _ (by omega) (build_inv_instr h p k cur_points st hb)
      (holder_inv_instr h p k cur_points st hb (hwf k (by omega)) (htie k (by omega)) hi)

theorem build_queue_nodup (h : helpers) (p : List instruction) (unify : Bool)
    (hwf : ∀ i < p.length, ∀ a ∈ (instr p i).inputs, a < i)
    (htie : ∀ i < p.length, (h.is_allocate (instr p i) || h.is_literal (instr p i)) = true →
      h.get_input_tie_ndx p (instr p i) < 0) :
    (build h p (memory_coloring_impl.init unify)).alloc_queue.Nodup := by
  unfold build build_trace
  split
  · exact List.nodup_nil
  · refine (holder_inv_loop h p hwf htie _ _ _ (le_refl _) (build_inv_init unify) ?_).nodup
    refine ⟨?_, ?_, ?_⟩ <;> simp [build_state.init, memory_coloring_impl.init]

/-! ## What the allocation loop keeps true -/

theorem not_ranges_meet_iff (o1 : Int) (s1 : Nat) (o2 : Int) (s2 : Nat) :
    ¬ ranges_meet o1 s1 o2 s2 ↔ s1 = 0 ∨ s2 = 0 ∨ o1 + s1 ≤ o2 ∨ o2 + s2 ≤ o1 := by
  unfold ranges_meet
  constructor
  · intro h
    by_contra hcon
    push_neg at hcon
    obtain ⟨h1, h2, h3, h4⟩ := hcon
    have h1' : 0 < s1 := Nat.pos_of_ne_zero h1
    have h2' : 0 < s2 := Nat.pos_of_ne_zero h2
    exact h ⟨max o1 o2, le_max_left _ _, by rw [max_lt_iff]; omega, le_max_right _ _,
      by rw [max_lt_iff]; omega⟩
  · rintro h ⟨x, h1, h2, h3, h4⟩
    omega

theorem build_trace_impl (h : helpers) (p : List instruction) (s : memory_coloring_impl) :
    (build_trace h p s).impl = build h p s := rfl

theorem alloc_inv_build (h : helpers) (p : List instruction) (unify : Bool) :
    alloc_inv (build h p (memory_coloring_impl.init unify)) := by
  have hi := build_inv_trace h p unify
  rw [← build_trace_impl]
  refine ⟨hi.coh, ?_, ?_, ?_⟩
  · intro i hb
    by_cases hlt : i < (build_trace h p (memory_coloring_impl.init unify)).impl.num_of_lives
    · exact hi.inverse i hlt
    · rw [hi.fresh i (not_lt.mp hlt)] at hb
      exact absurd rfl hb
  · intro i hoff
    exact absurd (hi.unplaced i) hoff
  · intro v w a b _ _ _ hoff
    exact absurd (hi.unplaced a) hoff

theorem assign_range (s : memory_coloring_impl) (interval : Nat) (off : Int) (i : Nat) :
    (assign s interval off).range i =
      if i = interval then { (s.range interval) with offset := off } else s.range i := by
  unfold assign memory_coloring_impl.range memory_coloring_impl.set_interval
  simp only
  by_cases hi : i = interval
  · subst hi
    rw [Function.update_same, if_pos rfl]
  · rw [Function.update_noteq hi, if_neg hi]

theorem assign_result (s : memory_coloring_impl) (interval : Nat) (off : Int) (i : Nat) :
    ((assign s interval off).live_intervals i).result = (s.live_intervals i).result := by
  unfold assign memory_coloring_impl.set_interval
  simp only
  by_cases hi : i = interval
  · subst hi
    rw [Function.update_same]
  · rw [Function.update_noteq hi]

theorem assign_segment (s : memory_coloring_impl) (interval : Nat) (off : Int) (i : Nat) :
    ((assign s interval off).live_intervals i).segment = (assign s interval off).range i := rfl

theorem assign_table (s : memory_coloring_impl) (interval : Nat) (off : Int) :
    (assign s interval off).conflict_table = s.conflict_table := rfl

theorem assign_ranges (s : memory_coloring_impl) (interval : Nat) (off : Int) :
    (assign s interval off).live_ranges = s.live_ranges := rfl

theorem assign_required (s : memory_coloring_impl) (interval : Nat) (off : Int) :
    (assign s interval off).required_bytes =
      max s.required_bytes (off + (s.range interval).size) := rfl

theorem alloc_inv_assign (o : conflict_order) (s : memory_coloring_impl) (interval : Nat)
    (off : Int) (hi : alloc_inv s) (hb : (s.live_intervals interval).result.bytes ≠ 0)
    (h : allocate_offset o s interval = some off) : alloc_inv (assign s interval off) := by
  obtain ⟨h0, _, hsafe, _⟩ := allocate_offset_spec o s interval off h
  have hsz : ((s.range interval).size : Int) = (s.live_intervals interval).result.bytes := by
    have := hi.coh.sizes interval
    unfold memory_coloring_impl.range
    exact_mod_cast this
  have hvn : ∀ i, ((assign s interval off).range i).vn = (s.range i).vn := by
    intro i
    rw [assign_range]
    split
    · rename_i h1; rw [h1]
    · rfl
  have hsize : ∀ i, ((assign s interval off).range i).size = (s.range i).size := by
    intro i
    rw [assign_range]
    split
    · rename_i h1; rw [h1]
    · rfl
  refine ⟨⟨?_, ?_, ?_, ?_, ?_⟩, ?_, ?_, ?_⟩
  · exact hi.coh.sym
  · exact hi.coh.irrefl
  · exact hi.coh.ranged
  · intro v r hr
    rw [assign_segment, hvn]
    exact hi.coh.range_vn v r hr
  · intro i
    rw [assign_segment, hsize, assign_result]
    exact hi.coh.sizes i
  · intro i hbi
    rw [assign_result] at hbi
    rw [assign_segment, hvn, assign_ranges]
    exact hi.owner i hbi
  · intro i hoff
    rw [assign_result]
    rw [assign_range] at hoff ⊢
    split
    · rename_i h1
      subst h1
      exact ⟨hb, h0⟩
    · rename_i h1
      rw [if_neg h1] at hoff
      exact hi.placed_pos i hoff
  · intro v w a b hw ha hbr hoa hob
    rw [assign_table] at hw
    rw [assign_ranges] at ha hbr
    rw [hsize, hsize]
    rw [assign_range] at hoa hob ⊢
    rw [assign_range]
    have hva := hi.coh.range_vn v a ha
    have hwb := hi.coh.range_vn w b hbr
    by_cases h1 : a = interval
    · by_cases h2 : b = interval
      · exfalso
        subst h1
        subst h2
        rw [hva] at hwb
        subst hwb
        exact hi.coh.irrefl _ hw
      · rw [if_neg h2] at hob ⊢
        rw [if_pos h1]
        subst h1
        have := hsafe b ⟨w, hva ▸ hw, hbr, hob⟩
        simp only
        omega
    · rw [if_neg h1] at hoa ⊢
      by_cases h2 : b = interval
      · rw [if_pos h2]
        subst h2
        have := hsafe a ⟨v, hwb ▸ hi.coh.sym v w hw, ha, hoa⟩
        simp only
        omega
      · rw [if_neg h2] at hob ⊢
        exact hi.disjoint v w a b hw ha hbr hoa hob

theorem allocate_inv (o : conflict_order) (s : memory_coloring_impl) (interval : Nat)
    (r : Bool × memory_coloring_impl) (hi : alloc_inv s) (h : allocate o s interval = some r) :
    alloc_inv r.2 := by
  unfold allocate at h
  split at h
  · simp only [Option.some.injEq] at h
    subst h
    exact hi
  · rename_i hb
    obtain ⟨off, hoff, hr⟩ := Option.map_eq_some'.mp h
    subst hr
    exact alloc_inv_assign o s interval off hi hb hoff

theorem allocate_all_inv (o : conflict_order) :
    ∀ (l : List Nat) (s s' : memory_coloring_impl), alloc_inv s →
      allocate_all o l s = some s' → alloc_inv s' := by
  intro l
  induction l with
  | nil =>
    intro s s' hi h
    simp only [allocate_all, Option.some.injEq] at h
    exact h ▸ hi
  | cons x l ih =>
    intro s s' hi h
    simp only [allocate_all] at h
    obtain ⟨r, hr, hrest⟩ := Option.bind_eq_some.mp h
    exact ih r.2 s' (allocate_inv o s x r hi hr) hrest

/-! ## verify -/

theorem verify_set_nil (s : memory_coloring_impl) (i : Nat) (segment : live_range) :
    ∀ l : List Int,
      (∀ iter ∈ l, ∃ r, s.live_ranges iter = some r ∧
        ((s.range r).offset = invalid_offset ∨ is_disjoin (s.range r) segment = true)) →
      verify_set s i segment l = some [] := by
  intro l
  induction l with
  | nil => intro _; rfl
  | cons iter rest ih =>
    intro h
    obtain ⟨r, hr, hd⟩ := h iter (List.mem_cons_self _ _)
    have hrest := ih (fun x hx => h x (List.mem_cons_of_mem _ hx))
    simp only [verify_set, hr]
    split
    · exact hrest
    · rename_i hoff
      rcases hd with hd | hd
      · exact absurd hd hoff
      · simp [hd, hrest]

theorem verify_loop_nil (s : memory_coloring_impl) :
    ∀ l : List Nat,
      (∀ i ∈ l, (s.live_intervals i).segment.offset ≠ invalid_offset →
        verify_set s i (s.live_intervals i).segment
          (s.conflict_table (s.live_intervals i).segment.vn) = some []) →
      verify_loop s l = some [] := by
  intro l
  induction l with
  | nil => intro _; rfl
  | cons i rest ih =>
    intro h
    have hrest := ih (fun x hx => h x (List.mem_cons_of_mem _ hx))
    simp only [verify_loop]
    split
    · exact hrest
    · split
      · exact hrest
      · rename_i hoff
        rw [h i (List.mem_cons_self _ _) hoff, hrest]
        rfl

theorem verify_nil (s : memory_coloring_impl) (hi : alloc_inv s) : verify s = some [] := by
  unfold verify
  apply verify_loop_nil
  intro i _ hoff
  apply verify_set_nil
  intro iter hiter
  obtain ⟨r, hr⟩ := hi.coh.ranged _ _ hiter
  refine ⟨r, hr, ?_⟩
  by_cases hro : (s.range r).offset = invalid_offset
  · exact Or.inl hro
  · right
    have hown := hi.owner i (hi.placed_pos i hoff).1
    have := hi.disjoint _ _ i r hiter hown hr hoff hro
    unfold is_disjoin
    simp only [decide_eq_true_eq]
    unfold memory_coloring_impl.range at this
    unfold memory_coloring_impl.range
    omega

theorem alloc_inv_queue (s : memory_coloring_impl) (q : List Nat) (hi : alloc_inv s) :
    alloc_inv { s with alloc_queue := q } :=
  ⟨⟨hi.coh.sym, hi.coh.irrefl, hi.coh.ranged, hi.coh.range_vn, hi.coh.sizes⟩, hi.owner,
    hi.placed_pos, hi.disjoint⟩

theorem alloc_inv_run (h : helpers) (o : conflict_order) (a : alloc_order) (unify : Bool)
    (p : List instruction) (s : memory_coloring_impl) (hrun : run h o a unify p = some s) :
    alloc_inv s := by
  unfold run at hrun
  simp only at hrun
  split at hrun
  · obtain ⟨r, hr, hs⟩ := Option.map_eq_some'.mp hrun
    subst hs
    exact alloc_inv_queue r [] (allocate_all_inv o _ _ r (alloc_inv_build h p unify) hr)
  · simp only [Option.some.injEq] at hrun
    subst hrun
    exact alloc_inv_build h p unify

/-! ## Single calls of allocate -/

theorem allocate_offset_zero (o : conflict_order) (s : memory_coloring_impl) (interval : Nat)
    (he : (s.live_intervals interval).result.elements ≠ 0)
    (hn : ∀ v ∈ s.conflict_table (s.live_intervals interval).segment.vn,
      ∃ r, s.live_ranges v = some r ∧ (s.range r).offset = invalid_offset) :
    allocate_offset o s interval = some 0 := by
  unfold allocate_offset
  simp only
  rw [if_neg he]
  obtain ⟨⟨q, m⟩, hg⟩ := gather_some s _ ([], fun _ => none)
    (fun v hv => (hn v hv).imp (fun _ hr => hr.1))
  rw [hg]
  simp only
  have hq : q = [] := by
    apply List.eq_nil_iff_forall_not_mem.mpr
    intro r hr
    rcases ((gather_spec s _ [] _ q m (gathered_nil s) hg).2 r).mp hr with h1 | ⟨v, hv, hvr, hvo⟩
    · exact absurd h1 (List.not_mem_nil _)
    · obtain ⟨r', hr', ho'⟩ := hn v hv
      rw [hvr] at hr'
      simp only [Option.some.injEq] at hr'
      subst hr'
      exact hvo ho'
  subst hq
  rw [List.perm_nil.mp (o.perm _ [])]
  rfl

theorem allocate_of_offset (o : conflict_order) (s : memory_coloring_impl) (interval : Nat)
    (off : Int) (hb : (s.live_intervals interval).result.bytes ≠ 0)
    (h : allocate_offset o s interval = some off) :
    allocate o s interval = some (true, assign s interval off) := by
  unfold allocate
  rw [if_neg hb, h]
  rfl

theorem allocate_true (o : conflict_order) (s s' : memory_coloring_impl) (interval : Nat)
    (h : allocate o s interval = some (true, s')) :
    (s.live_intervals interval).result.bytes ≠ 0 ∧
    ∃ off, allocate_offset o s interval = some off ∧ s' = assign s interval off := by
  unfold allocate at h
  split at h
  · simp at h
  · rename_i hb
    obtain ⟨off, hoff, hr⟩ := Option.map_eq_some'.mp h
    simp only [Prod.mk.injEq, true_and] at hr
    exact ⟨hb, off, hoff, hr.symm⟩

theorem assign_offset (s : memory_coloring_impl) (interval : Nat) (off : Int) :
    ((assign s interval off).range interval).offset = off := by
  rw [assign_range, if_pos rfl]

theorem assign_offset_other (s : memory_coloring_impl) (interval : Nat) (off : Int) (i : Nat)
    (hi : i ≠ interval) : (assign s interval off).range i = s.range i := by
  rw [assign_range, if_neg hi]

theorem allocate_some (o : conflict_order) (s : memory_coloring_impl) (interval : Nat)
    (hi : alloc_inv s) (hs : shape_ok (s.live_intervals interval).result) :
    ∃ r, allocate o s interval = some r := by
  by_cases hb : (s.live_intervals interval).result.bytes = 0
  · exact ⟨(false, s), by unfold allocate; rw [if_pos hb]⟩
  · obtain ⟨he, hes⟩ := hs hb
    obtain ⟨off, hoff⟩ := allocate_offset_some o s interval he hes
      (fun v hv => hi.coh.ranged _ v hv)
    exact ⟨_, allocate_of_offset o s interval off hb hoff⟩

theorem allocate_result (o : conflict_order) (s : memory_coloring_impl) (interval : Nat)
    (r : Bool × memory_coloring_impl) (h : allocate o s interval = some r) (i : Nat) :
    (r.2.live_intervals i).result = (s.live_intervals i).result := by
  unfold allocate at h
  split at h
  · simp only [Option.some.injEq] at h
    subst h
    rfl
  · obtain ⟨off, _, hr⟩ := Option.map_eq_some'.mp h
    subst hr
    exact assign_result s interval off i

theorem allocate_all_some (o : conflict_order) :
    ∀ (l : List Nat) (s : memory_coloring_impl), alloc_inv s →
      (∀ i, shape_ok (s.live_intervals i).result) → ∃ s', allocate_all o l s = some s' := by
  intro l
  induction l with
  | nil => intro s _ _; exact ⟨s, rfl⟩
  | cons x l ih =>
    intro s hi hs
    obtain ⟨r, hr⟩ := allocate_some o s x hi (hs x)
    obtain ⟨s', hs'⟩ := ih r.2 (allocate_inv o s x r hi hr)
      (fun i => by rw [allocate_result o s x r hr i]; exact hs i)
    exact ⟨s', by simp only [allocate_all, hr, Option.some_bind]; exact hs'⟩

/-! ## required_bytes -/

theorem high_water_assign (o : conflict_order) (s : memory_coloring_impl) (X : Nat) (off : Int)
    (hw : high_water s) (hX : (s.range X).offset = invalid_offset)
    (hoff : allocate_offset o s X = some off) : high_water (assign s X off) := by
  have h0 := (allocate_offset_spec o s X off hoff).1
  have hsize : ((assign s X off).range X).size = (s.range X).size := by
    rw [assign_range, if_pos rfl]
  constructor
  · intro i hi
    rw [assign_required]
    by_cases hiX : i = X
    · subst hiX
      rw [assign_offset, hsize]
      exact le_max_right _ _
    · rw [assign_offset_other s X off i hiX] at hi ⊢
      exact le_trans (hw.1 i hi) (le_max_left _ _)
  · left
    by_cases hle : s.required_bytes ≤ off + (s.range X).size
    · refine ⟨X, ?_, ?_⟩
      · rw [assign_offset]
        unfold invalid_offset
        omega
      · rw [assign_offset, hsize, assign_required, max_eq_right hle]
    · rcases hw.2 with ⟨i, hi1, hi2⟩ | ⟨hz, _⟩
      · have hiX : i ≠ X := fun he => hi1 (he ▸ hX)
        refine ⟨i, ?_, ?_⟩
        · rw [assign_offset_other s X off i hiX]
          exact hi1
        · rw [assign_offset_other s X off i hiX, assign_required,
            max_eq_left (le_of_lt (not_le.mp hle))]
          exact hi2
      · omega

theorem allocate_all_high_water (o : conflict_order) :
    ∀ (l : List Nat) (s s' : memory_coloring_impl), high_water s → l.Nodup →
      (∀ i ∈ l, (s.range i).offset = invalid_offset) →
      allocate_all o l s = some s' → high_water s' := by
  intro l
  induction l with
  | nil =>
    intro s s' hw _ _ h
    simp only [allocate_all, Option.some.injEq] at h
    exact h ▸ hw
  | cons X l ih =>
    intro s s' hw hnd hun h
    simp only [allocate_all] at h
    obtain ⟨r, hr, hrest⟩ := Option.bind_eq_some.mp h
    rw [List.nodup_cons] at hnd
    have hX := hun X (List.mem_cons_self _ _)
    unfold allocate at hr
    split at hr
    · simp only [Option.some.injEq] at hr
      subst hr
      exact ih s s' hw hnd.2 (fun i hi => hun i (List.mem_cons_of_mem _ hi)) hrest
    · obtain ⟨off, hoff, hr'⟩ := Option.map_eq_some'.mp hr
      subst hr'
      refine ih _ s' (high_water_assign o s X off hw hX hoff) hnd.2 ?_ hrest
      intro i hi
      have hiX : i ≠ X := fun he => hnd.1 (he ▸ hi)
      rw [assign_offset_other s X off i hiX]
      exact hun i (List.mem_cons_of_mem _ hi)

theorem high_water_run (h : helpers) (o : conflict_order) (a : alloc_order) (unify : Bool)
    (p : List instruction) (s : memory_coloring_impl)
    (hwf : ∀ i < p.length, ∀ x ∈ (instr p i).inputs, x < i)
    (htie : ∀ i < p.length, (h.is_allocate (instr p i) || h.is_literal (instr p i)) = true →
      h.get_input_tie_ndx p (instr p i) < 0)
    (hrun : run h o a unify p = some s) : high_water s := by
  have hb := build_inv_trace h p unify
  have hw0 : high_water (build h p (memory_coloring_impl.init unify)) :=
    ⟨fun i hi => absurd (hb.unplaced i) hi, Or.inr ⟨hb.required_zero, hb.unplaced⟩⟩
  unfold run at hrun
  simp only at hrun
  split at hrun
  · obtain ⟨r, hr, hs⟩ := Option.map_eq_some'.mp hrun
    subst hs
    have hnd := build_queue_nodup h p unify hwf htie
    have := allocate_all_high_water o _ _ r hw0
      ((a.perm _ _).nodup_iff.mpr hnd) (fun i _ => hb.unplaced i) hr
    exact this
  · simp only [Option.some.injEq] at hrun
    subst hrun
    exact hw0

/-! ## The results of the intervals come from the program -/

theorem build_arg_result (h : helpers) (p : List instruction) (cur_points tie_ndx : Int)
    (def_interval : Option Nat) (st : build_state) (cnt : Int) (arg i : Nat) :
    ((build_arg h p cur_points tie_ndx def_interval st cnt arg).impl.live_intervals i).result =
      (st.impl.live_intervals i).result := by
  have key : ∀ (d : Nat) (v : live_interval), v.result = (st.impl.live_intervals d).result →
      (Function.update st.impl.live_intervals d v i).result = (st.impl.live_intervals i).result := by
    intro d v hv
    by_cases hid : i = d
    · subst hid
      rw [Function.update_same]
      exact hv
    · rw [Function.update_noteq hid]
  unfold build_arg
  simp only
  split
  · split
    · split <;> exact key _ _ rfl
    · split <;> rfl
  · split
    · exact key _ _ rfl
    · split
      · exact key _ _ rfl
      · exact key _ _ rfl

theorem build_args_result (h : helpers) (p : List instruction) (cur_points tie_ndx : Int)
    (def_interval : Option Nat) (i : Nat) :
    ∀ (args : List Nat) (cnt : Int) (st : build_state),
      ((build_args h p cur_points tie_ndx def_interval args cnt st).impl.live_intervals i).result
        = (st.impl.live_intervals i).result := by
  intro args
  induction args with
  | nil => intro _ _; rfl
  | cons arg rest ih =>
    intro cnt st
    simp only [build_args]
    rw [ih, build_arg_result]

theorem build_def_result (h : helpers) (p : List instruction) (iter : Nat) (cur_points : Int)
    (st : build_state) (i : Nat) :
    ((build_def h p iter cur_points st).2.impl.live_intervals i).result =
        (st.impl.live_intervals i).result ∨
      ((build_def h p iter cur_points st).2.impl.live_intervals i).result =
        (instr p iter).result := by
  unfold build_def
  simp only
  split
  · rename_i d _
    split
    · simp only [memory_coloring_impl.set_interval]
      by_cases hid : i = d
      · subst hid
        rw [Function.update_same]
        exact Or.inr rfl
      · rw [Function.update_noteq hid]
        exact Or.inl rfl
    · exact Or.inl rfl
  · exact Or.inl rfl

theorem build_loop_result (h : helpers) (p : List instruction) (P : shape → Prop)
    (hP : ∀ j, P (instr p j).result) :
    ∀ (k : Nat) (cur_points : Int) (st : build_state),
      (∀ i, P (st.impl.live_intervals i).result) →
      ∀ i, P ((build_loop h p k cur_points st).impl.live_intervals i).result := by
  intro k
  induction k with
  | zero => intro _ st hi; exact hi
  | succ k ih =>
    intro cur_points st hi
    apply ih
    intro i
    rw [build_instr_impl, build_args_result]
    rcases build_def_result h p k cur_points st i with h1 | h1
    · rw [h1]; exact hi i
    · rw [h1]; exact hP k

theorem instr_mem_or_default (p : List instruction) (j : Nat) :
    instr p j ∈ p ∨ (instr p j).result = { bytes := 0, elements := 0 } := by
  unfold instr
  by_cases hj : j < p.length
  · left
    rw [List.getD_eq_getElem _ _ hj]
    exact List.getElem_mem _
  · right
    rw [List.getD_eq_default _ _ (not_lt.mp hj)]

theorem build_shapes_ok (h : helpers) (p : List instruction) (unify : Bool)
    (hp : ∀ ins ∈ p, shape_ok ins.result) (i : Nat) :
    shape_ok ((build h p (memory_coloring_impl.init unify)).live_intervals i).result := by
  have h0 : shape_ok { bytes := 0, elements := 0 } := fun hb => absurd rfl hb
  have hP : ∀ j, shape_ok (instr p j).result := by
    intro j
    rcases instr_mem_or_default p j with h1 | h1
    · exact hp _ h1
    · rw [h1]; exact h0
  unfold build build_trace
  split
  · exact h0
  · exact build_loop_result h p shape_ok hP _ _ _ (fun _ => h0) i

/-- The run finishes on every program whose shapes have, when they have bytes, at least
one element and no more elements than bytes. -/
theorem run_finishes (h : helpers) (o : conflict_order) (a : alloc_order) (unify : Bool)
    (p : List instruction) (hp : ∀ ins ∈ p, shape_ok ins.result) :
    ∃ s, run h o a unify p = some s := by
  unfold run
  simp only
  split
  · obtain ⟨s', hs'⟩ := allocate_all_some o
      (a.pop (build h p (memory_coloring_impl.init unify))
        (build h p (memory_coloring_impl.init unify)).alloc_queue)
      (build h p (memory_coloring_impl.init unify)) (alloc_inv_build h p unify)
      (build_shapes_ok h p unify hp)
    exact ⟨_, by rw [hs']; rfl⟩
  · exact ⟨_, rfl⟩

/-! ## The fields of the intervals during build -/

theorem build_arg_fields (h : helpers) (p : List instruction) (cur_points tie_ndx : Int)
    (def_interval : Option Nat) (st : build_state) (cnt : Int) (arg i : Nat) :
    ((build_arg h p cur_points tie_ndx def_interval st cnt arg).impl.live_intervals i).segment.begin
        = (st.impl.live_intervals i).segment.begin ∧
    ((build_arg h p cur_points tie_ndx def_interval st cnt arg).impl.live_intervals i).def_point
        = (st.impl.live_intervals i).def_point ∧
    ((build_arg h p cur_points tie_ndx def_interval st cnt arg).impl.live_intervals i).is_literal
        = (st.impl.live_intervals i).is_literal ∧
    (((build_arg h p cur_points tie_ndx def_interval st cnt arg).impl.live_intervals i).segment.end_
        = (st.impl.live_intervals i).segment.end_ ∨
      ((build_arg h p cur_points tie_ndx def_interval st cnt arg).impl.live_intervals i).segment.end_
        = cur_points) ∧
    (((build_arg h p cur_points tie_ndx def_interval st cnt arg).impl.live_intervals i).use_points
        = (st.impl.live_intervals i).use_points ∨
      ((build_arg h p cur_points tie_ndx def_interval st cnt arg).impl.live_intervals i).use_points
        = cur_points :: (st.impl.live_intervals i).use_points) := by
  have key : ∀ (d : Nat) (v : live_interval),
      v.segment.begin = (st.impl.live_intervals d).segment.begin →
      v.def_point = (st.impl.live_intervals d).def_point →
      v.is_literal = (st.impl.live_intervals d).is_literal →
      (v.segment.end_ = (st.impl.live_intervals d).segment.end_ ∨ v.segment.end_ = cur_points) →
      (v.use_points = (st.impl.live_intervals d).use_points ∨
        v.use_points = cur_points :: (st.impl.live_intervals d).use_points) →
      (Function.update st.impl.live_intervals d v i).segment.begin
          = (st.impl.live_intervals i).segment.begin ∧
      (Function.update st.impl.live_intervals d v i).def_point
          = (st.impl.live_intervals i).def_point ∧
      (Function.update st.impl.live_intervals d v i).is_literal
          = (st.impl.live_intervals i).is_literal ∧
      ((Function.update st.impl.live_intervals d v i).segment.end_
          = (st.impl.live_intervals i).segment.end_ ∨
        (Function.update st.impl.live_intervals d v i).segment.end_ = cur_points) ∧
      ((Function.update st.impl.live_intervals d v i).use_points
          = (st.impl.live_intervals i).use_points ∨
        (Function.update st.impl.live_intervals d v i).use_points
          = cur_points :: (st.impl.live_intervals i).use_points) := by
    intro d v h1 h2 h3 h4 h5
    by_cases hid : i = d
    · subst hid
      rw [Function.update_same]
      exact ⟨h1, h2, h3, h4, h5⟩
    · rw [Function.update_noteq hid]
      exact ⟨rfl, rfl, rfl, Or.inl rfl, Or.inl rfl⟩
  unfold build_arg
  simp only
  split
  · split
    · split <;> exact key _ _ rfl rfl rfl (Or.inl rfl) (Or.inl rfl)
    · split <;> exact ⟨rfl, rfl, rfl, Or.inl rfl, Or.inl rfl⟩
  · split
    · exact key _ _ rfl rfl rfl (Or.inl rfl) (Or.inr rfl)
    · split
      · exact key _ _ rfl rfl rfl (Or.inr rfl) (Or.inr rfl)
      · exact key _ _ rfl rfl rfl (Or.inl rfl) (Or.inr rfl)

theorem build_args_fixed (h : helpers) (p : List instruction) (cur_points tie_ndx : Int)
    (def_interval : Option Nat) (i : Nat) :
    ∀ (args : List Nat) (cnt : Int) (st : build_state),
      ((build_args h p cur_points tie_ndx def_interval args cnt st).impl.live_intervals
          i).segment.begin = (st.impl.live_intervals i).segment.begin ∧
      ((build_args h p cur_points tie_ndx def_interval args cnt st).impl.live_intervals
          i).def_point = (st.impl.live_intervals i).def_point ∧
      ((build_args h p cur_points tie_ndx def_interval args cnt st).impl.live_intervals
          i).is_literal = (st.impl.live_intervals i).is_literal := by
  intro args
  induction args with
  | nil => intro _ _; exact ⟨rfl, rfl, rfl⟩
  | cons arg rest ih =>
    intro cnt st
    simp only [build_args]
    obtain ⟨h1, h2, h3⟩ := ih (cnt + 1) (build_arg h p cur_points tie_ndx def_interval st cnt arg)
    obtain ⟨g1, g2, g3, _, _⟩ := build_arg_fields h p cur_points tie_ndx def_interval st cnt arg i
    exact ⟨h1.trans g1, h2.trans g2, h3.trans g3⟩

theorem build_def_fields (h : helpers) (p : List instruction) (iter : Nat) (cur_points : Int)
    (st : build_state) (i : Nat) :
    ((build_def h p iter cur_points st).2.impl.live_intervals i).segment.end_
        = (st.impl.live_intervals i).segment.end_ ∧
    ((build_def h p iter cur_points st).2.impl.live_intervals i).use_points
        = (st.impl.live_intervals i).use_points ∧
    ((((build_def h p iter cur_points st).2.impl.live_intervals i).segment.begin
          = (st.impl.live_intervals i).segment.begin ∧
        ((build_def h p iter cur_points st).2.impl.live_intervals i).def_point
          = (st.impl.live_intervals i).def_point ∧
        ((build_def h p iter cur_points st).2.impl.live_intervals i).is_literal
          = (st.impl.live_intervals i).is_literal ∧
        ((build_def h p iter cur_points st).2.impl.live_intervals i).result
          = (st.impl.live_intervals i).result) ∨
      (st.impl.instr2_live iter = some i ∧
        (h.is_allocate (instr p iter) || h.is_literal (instr p iter)) = true ∧
        ((build_def h p iter cur_points st).2.impl.live_intervals i).segment.begin = cur_points ∧
        ((build_def h p iter cur_points st).2.impl.live_intervals i).def_point = cur_points ∧
        ((build_def h p iter cur_points st).2.impl.live_intervals i).is_literal
          = h.is_literal (instr p iter) ∧
        ((build_def h p iter cur_points st).2.impl.live_intervals i).result
          = (instr p iter).result)) := by
  unfold build_def
  simp only
  split
  · rename_i d hd
    split
    · rename_i hfin
      simp only [memory_coloring_impl.set_interval]
      by_cases hid : i = d
      · subst hid
        rw [Function.update_same]
        exact ⟨rfl, rfl, Or.inr ⟨hd, hfin, rfl, rfl, rfl, rfl⟩⟩
      · rw [Function.update_noteq hid]
        exact ⟨rfl, rfl, Or.inl ⟨rfl, rfl, rfl, rfl⟩⟩
    · exact ⟨rfl, rfl, Or.inl ⟨rfl, rfl, rfl, rfl⟩⟩
  · exact ⟨rfl, rfl, Or.inl ⟨rfl, rfl, rfl, rfl⟩⟩

/-! ## Program points -/

theorem build_visits_succ (k : Nat) :
    build_visits (k + 1) = (k, 2 * ((k : Int) + 1)) :: build_visits k := by
  unfold build_visits
  rw [List.range_succ, List.reverse_append]
  rfl

theorem build_loop_eq_visits (h : helpers) (p : List instruction) :
    ∀ (k : Nat) (st : build_state),
      build_loop h p k (2 * (k : Int)) st =
        (build_visits k).foldl (fun st v => build_instr h p v.1 v.2 st) st := by
  intro k
  induction k with
  | zero => intro st; rfl
  | succ k ih =>
    intro st
    rw [build_visits_succ, List.foldl_cons]
    simp only [build_loop]
    have h1 : 2 * ((k + 1 : Nat) : Int) - 2 = 2 * (k : Int) := by push_cast; ring
    have h2 : 2 * ((k + 1 : Nat) : Int) = 2 * ((k : Int) + 1) := by push_cast; ring
    rw [h1, ih, h2]

theorem build_arg_points (h : helpers) (p : List instruction) (n : Nat)
    (cur_points tie_ndx : Int) (def_interval : Option Nat) (st : build_state) (cnt : Int)
    (arg : Nat) (hc : point_ok n cur_points)
    (hi : ∀ i, points_ok n (st.impl.live_intervals i)) (i : Nat) :
    points_ok n
      ((build_arg h p cur_points tie_ndx def_interval st cnt arg).impl.live_intervals i) := by
  obtain ⟨h1, h2, _, h4, h5⟩ := build_arg_fields h p cur_points tie_ndx def_interval st cnt arg i
  obtain ⟨g1, g2, g3, g4⟩ := hi i
  refine ⟨by rw [h1]; exact g1, by rw [h2]; exact g2, ?_, ?_⟩
  · rcases h4 with h4 | h4
    · rw [h4]; exact g3
    · rw [h4]; exact Or.inr hc
  · rcases h5 with h5 | h5
    · rw [h5]; exact g4
    · rw [h5]
      intro u hu
      rcases List.mem_cons.mp hu with hu | hu
      · rw [hu]; exact hc
      · exact g4 u hu

theorem build_args_points (h : helpers) (p : List instruction) (n : Nat)
    (cur_points tie_ndx : Int) (def_interval : Option Nat) (hc : point_ok n cur_points) :
    ∀ (args : List Nat) (cnt : Int) (st : build_state),
      (∀ i, points_ok n (st.impl.live_intervals i)) →
      ∀ i, points_ok n
        ((build_args h p cur_points tie_ndx def_interval args cnt st).impl.live_intervals i) := by
  intro args
  induction args with
  | nil => intro _ _ hi; exact hi
  | cons arg rest ih =>
    intro cnt st hi
    simp only [build_args]
    exact ih (cnt + 1) _
      (build_arg_points h p n cur_points tie_ndx def_interval st cnt arg hc hi)

theorem build_instr_points (h : helpers) (p : List instruction) (n iter : Nat)
    (cur_points : Int) (st : build_state) (hc : point_ok n cur_points)
    (hi : ∀ i, points_ok n (st.impl.live_intervals i)) (i : Nat) :
    points_ok n ((build_instr h p iter cur_points st).impl.live_intervals i) := by
  rw [build_instr_impl]
  apply build_args_points h p n cur_points _ _ hc
  intro j
  obtain ⟨h1, h2, h3⟩ := build_def_fields h p iter cur_points st j
  obtain ⟨g1, g2, g3, g4⟩ := hi j
  refine ⟨?_, ?_, by rw [h1]; exact g3, by rw [h2]; exact g4⟩
  · rcases h3 with h3 | h3
    · rw [h3.1]; exact g1
    · rw [h3.2.2.1]; exact Or.inr hc
  · rcases h3 with h3 | h3
    · rw [h3.2.1]; exact g2
    · rw [h3.2.2.2.1]; exact Or.inr hc

theorem build_loop_points (h : helpers) (p : List instruction) (n : Nat) :
    ∀ (k : Nat) (st : build_state), k ≤ n →
      (∀ i, points_ok n (st.impl.live_intervals i)) →
      ∀ i, points_ok n ((build_loop h p k (2 * (k : Int)) st).impl.live_intervals i) := by
  intro k
  induction k with
  | zero => intro st _ hi; exact hi
  | succ k ih =>
    intro st hk hi
    simp only [build_loop]
    have h1 : 2 * ((k + 1 : Nat) : Int) - 2 = 2 * (k : Int) := by push_cast; ring
    rw [h1]
    apply ih _ (by omega)
    apply build_instr_points h p n k _ st _ hi
    refine ⟨by push_cast; omega, by push_cast; omega, ⟨(k : Int) + 1, by push_cast; ring⟩⟩

theorem build_points_ok (h : helpers) (p : List instruction) (unify : Bool) (i : Nat) :
    points_ok p.length ((build h p (memory_coloring_impl.init unify)).live_intervals i) := by
  have h0 : ∀ j, points_ok p.length
      ((build_state.init (memory_coloring_impl.init unify)).impl.live_intervals j) := by
    intro j
    exact ⟨Or.inl rfl, Or.inl rfl, Or.inl rfl, fun u hu => absurd hu (List.not_mem_nil _)⟩
  unfold build build_trace
  split
  · exact h0 i
  · exact build_loop_points h p p.length p.length _ (le_refl _) h0 i

/-! ## What the allocation loop leaves untouched -/

theorem recolored_refl (s : memory_coloring_impl) : recolored s s :=
  ⟨rfl, rfl, rfl, rfl, fun _ => ⟨rfl, rfl, rfl, rfl⟩⟩

theorem recolored_trans (s1 s2 s3 : memory_coloring_impl) (h1 : recolored s1 s2)
    (h2 : recolored s2 s3) : recolored s1 s3 := by
  obtain ⟨a1, a2, a3, a4, a5⟩ := h1
  obtain ⟨b1, b2, b3, b4, b5⟩ := h2
  refine ⟨b1.trans a1, b2.trans a2, b3.trans a3, b4.trans a4, fun i => ?_⟩
  obtain ⟨c1, c2, c3, c4⟩ := a5 i
  obtain ⟨d1, d2, d3, d4⟩ := b5 i
  exact ⟨d1.trans c1, d2.trans c2, d3.trans c3, d4.trans c4⟩

theorem recolored_assign (s : memory_coloring_impl) (X : Nat) (off : Int) :
    recolored s (assign s X off) := by
  refine ⟨rfl, rfl, rfl, rfl, fun i => ?_⟩
  have hr := assign_range s X off i
  have hres := assign_result s X off i
  unfold memory_coloring_impl.range at hr
  by_cases hi : i = X
  · rw [if_pos hi] at hr
    subst hi
    refine ⟨by rw [hr], ?_, hres, by rw [hr]⟩
    unfold assign memory_coloring_impl.set_interval
    simp only [Function.update_same]
  · rw [if_neg hi] at hr
    refine ⟨by rw [hr], ?_, hres, by rw [hr]⟩
    unfold assign memory_coloring_impl.set_interval
    simp only [Function.update_noteq hi]

theorem recolored_allocate (o : conflict_order) (s : memory_coloring_impl) (X : Nat)
    (r : Bool × memory_coloring_impl) (h : allocate o s X = some r) : recolored s r.2 := by
  unfold allocate at h
  split at h
  · simp only [Option.some.injEq] at h
    subst h
    exact recolored_refl s
  · obtain ⟨off, _, hr⟩ := Option.map_eq_some'.mp h
    subst hr
    exact recolored_assign s X off

theorem allocate_offsets (o : conflict_order) (s : memory_coloring_impl) (X : Nat)
    (r : Bool × memory_coloring_impl) (h : allocate o s X = some r) :
    (∀ i, i ≠ X → r.2.range i = s.range i) ∧
    (∀ i, 0 ≤ (s.range i).offset → 0 ≤ (r.2.range i).offset) ∧
    ((s.live_intervals X).result.bytes ≠ 0 → 0 ≤ (r.2.range X).offset) := by
  unfold allocate at h
  split at h
  · rename_i hb
    simp only [Option.some.injEq] at h
    subst h
    exact ⟨fun _ _ => rfl, fun _ hi => hi, fun hne => absurd hb hne⟩
  · obtain ⟨off, hoff, hr⟩ := Option.map_eq_some'.mp h
    subst hr
    have h0 := (allocate_offset_spec o s X off hoff).1
    refine ⟨fun i hi => assign_offset_other s X off i hi, ?_, fun _ => ?_⟩
    · intro i hi
      by_cases hiX : i = X
      · subst hiX
        rw [assign_offset]
        exact h0
      · rw [assign_offset_other s X off i hiX]
        exact hi
    · rw [assign_offset]
      exact h0

theorem allocate_all_offsets (o : conflict_order) :
    ∀ (l : List Nat) (s s' : memory_coloring_impl), allocate_all o l s = some s' →
      recolored s s' ∧
      (∀ i, i ∉ l → s'.range i = s.range i) ∧
      (∀ i, 0 ≤ (s.range i).offset → 0 ≤ (s'.range i).offset) ∧
      (∀ i ∈ l, (s.live_intervals i).result.bytes ≠ 0 → 0 ≤ (s'.range i).offset) := by
  intro l
  induction l with
  | nil =>
    intro s s' h
    simp only [allocate_all, Option.some.injEq] at h
    subst h
    exact ⟨recolored_refl s, fun _ _ => rfl, fun _ hi => hi,
      fun i hi => absurd hi (List.not_mem_nil _)⟩
  | cons X l ih =>
    intro s s' h
    simp only [allocate_all] at h
    obtain ⟨r, hr, hrest⟩ := Option.bind_eq_some.mp h
    obtain ⟨g1, g2, g3, g4⟩ := ih r.2 s' hrest
    obtain ⟨f1, f2, f3⟩ := allocate_offsets o s X r hr
    have hrec := recolored_allocate o s X r hr
    refine ⟨recolored_trans _ _ _ hrec g1, ?_, fun i hi => g3 i (f2 i hi), ?_⟩
    · intro i hi
      rw [List.mem_cons, not_or] at hi
      rw [g2 i hi.2, f1 i hi.1]
    · intro i hi hb
      rcases List.mem_cons.mp hi with hi | hi
      · subst hi
        exact g3 i (f3 hb)
      · by_cases hil : i ∈ l
        · exact g4 i hil (by rw [(hrec.2.2.2.2 i).2.2.1]; exact hb)
        · exact absurd hi hil

theorem run_offsets (h : helpers) (o : conflict_order) (a : alloc_order) (unify : Bool)
    (p : List instruction) (s : memory_coloring_impl) (hrun : run h o a unify p = some s) :
    recolored (build h p (memory_coloring_impl.init unify)) s ∧
    (∀ i, i ∉ (build h p (memory_coloring_impl.init unify)).alloc_queue →
      (s.range i).offset = invalid_offset) ∧
    (∀ i ∈ (build h p (memory_coloring_impl.init unify)).alloc_queue,
      ((build h p (memory_coloring_impl.init unify)).live_intervals i).result.bytes ≠ 0 →
      0 ≤ (s.range i).offset) := by
  have hb := build_inv_trace h p unify
  unfold run at hrun
  simp only at hrun
  split at hrun
  · obtain ⟨r, hr, hs⟩ := Option.map_eq_some'.mp hrun
    subst hs
    obtain ⟨g1, g2, _, g4⟩ := allocate_all_offsets o _ _ r hr
    have hperm := a.perm (build h p (memory_coloring_impl.init unify))
      (build h p (memory_coloring_impl.init unify)).alloc_queue
    refine ⟨g1, ?_, ?_⟩
    · intro i hi
      have := g2 i (fun hm => hi (hperm.mem_iff.mp hm))
      change (r.range i).offset = invalid_offset
      rw [this]
      exact hb.unplaced i
    · intro i hi hbytes
      exact g4 i (hperm.mem_iff.mpr hi) hbytes
  · rename_i hn
    simp only [Option.some.injEq] at hrun
    subst hrun
    refine ⟨recolored_refl _, fun i _ => hb.unplaced i, ?_⟩
    intro i hi
    have := hb.queue_lt i hi
    rw [build_trace_impl] at this
    omega

/-! ## Finalization -/

theorem build_arg_unify (h : helpers) (p : List instruction) (cur_points tie_ndx : Int)
    (def_interval : Option Nat) (st : build_state) (cnt : Int) (arg : Nat) :
    (build_arg h p cur_points tie_ndx def_interval st cnt arg).impl.unify_literals =
      st.impl.unify_literals := by
  unfold build_arg
  simp only
  split
  · split
    · split <;> rfl
    · split <;> rfl
  · split
    · rfl
    · split <;> rfl

theorem build_arg_holder_cases (h : helpers) (p : List instruction)
    (cur_points tie_ndx : Int) (def_interval : Option Nat) (st : build_state) (cnt : Int)
    (arg j d : Nat)
    (hj : (build_arg h p cur_points tie_ndx def_interval st cnt arg).impl.instr2_live j
      = some d) :
    st.impl.instr2_live j = some d ∨
    (j = arg ∧ cnt = tie_ndx ∧ def_interval = some d ∧
      (h.is_param (instr p arg) || h.is_outline (instr p arg)) = false) ∨
    (j = arg ∧ d = st.impl.num_of_lives) := by
  by_cases hja : j = arg
  · subst hja
    unfold build_arg at hj
    simp only at hj
    split at hj
    · rename_i hp
      left
      revert hj
      split
      · split <;> exact id
      · split <;> exact id
    · rename_i hp
      split at hj
      · rename_i d' htie
        obtain ⟨hc, hd⟩ := tie_eq_some htie
        simp only [memory_coloring_impl.set_interval, Function.update_same,
          Option.some.injEq] at hj
        subst hj
        exact Or.inr (Or.inl ⟨rfl, hc, hd, by simpa using hp⟩)
      · split at hj
        · simp only [memory_coloring_impl.set_interval, Function.update_same,
            Option.some.injEq] at hj
          exact Or.inr (Or.inr ⟨rfl, hj.symm⟩)
        · exact Or.inl hj
  · rw [build_arg_other h p cur_points tie_ndx def_interval st cnt arg j hja] at hj
    exact Or.inl hj

theorem build_def_final (h : helpers) (p : List instruction) (iter : Nat) (cur_points : Int)
    (st : build_state) (d : Nat) (hd : st.impl.instr2_live iter = some d)
    (hf : (h.is_allocate (instr p iter) || h.is_literal (instr p iter)) = true) :
    ((build_def h p iter cur_points st).2.impl.live_intervals d).segment.begin = cur_points ∧
    ((build_def h p iter cur_points st).2.impl.live_intervals d).def_point = cur_points ∧
    ((build_def h p iter cur_points st).2.impl.live_intervals d).result
      = (instr p iter).result ∧
    ((build_def h p iter cur_points st).2.impl.live_intervals d).is_literal
      = h.is_literal (instr p iter) ∧
    (build_def h p iter cur_points st).2.impl.alloc_queue =
      (if (!h.is_literal (instr p iter) || st.impl.unify_literals) = true
        then st.impl.alloc_queue ++ [d] else st.impl.alloc_queue) ∧
    (∀ i, i ≠ d → (build_def h p iter cur_points st).2.impl.live_intervals i
      = st.impl.live_intervals i) ∧
    (build_def h p iter cur_points st).2.impl.unify_literals = st.impl.unify_literals := by
  unfold build_def
  simp only [hd, hf, if_true, memory_coloring_impl.set_interval, Function.update_same]
  refine ⟨trivial, trivial, trivial, trivial, trivial, ?_, trivial⟩
  intro i hi
  rw [Function.update_noteq hi]

theorem build_def_not_final (h : helpers) (p : List instruction) (iter : Nat)
    (cur_points : Int) (st : build_state)
    (hn : ∀ d, st.impl.instr2_live iter = some d →
      (h.is_allocate (instr p iter) || h.is_literal (instr p iter)) = false) :
    (build_def h p iter cur_points st).2.impl = st.impl := by
  unfold build_def
  simp only
  split
  · rename_i d hd
    rw [hn d hd]
    rfl
  · rfl

theorem fin_args_arg (h : helpers) (p : List instruction) (unify : Bool)
    (cur_points tie_ndx : Int) (def_interval : Option Nat) (st : build_state) (cnt : Int)
    (arg k : Nat) (hb : build_inv st) (harg : arg < k)
    (hi : fin_args h p unify k tie_ndx def_interval cnt st.impl) :
    fin_args h p unify k tie_ndx def_interval (cnt + 1)
      (build_arg h p cur_points tie_ndx def_interval st cnt arg).impl := by
  obtain ⟨⟨a1, a2, a3, a4⟩, a5⟩ := hi
  have hf := build_arg_fields h p cur_points tie_ndx def_interval st cnt arg
  have hq := build_arg_queue h p cur_points tie_ndx def_interval st cnt arg
  refine ⟨⟨?_, ?_, ?_, ?_⟩, ?_⟩
  · rw [build_arg_unify]
    exact a1
  · intro d hd j hj hjd
    rw [(hf d).1] at hd
    rcases build_arg_holder_cases h p cur_points tie_ndx def_interval st cnt arg j d hjd with
      h1 | ⟨_, hc, hdef, _⟩ | ⟨_, hnew⟩
    · exact a2 d hd j hj h1
    · exact hd (a5 d hdef (le_of_eq hc))
    · apply hd
      rw [hnew, hb.fresh _ (le_refl _)]
      rfl
  · intro d hd
    rw [hq] at hd
    rw [(hf d).1]
    exact a3 d hd
  · intro L hkL hL hfin d hd
    rw [build_arg_other h p cur_points tie_ndx def_interval st cnt arg L (by omega)] at hd
    obtain ⟨r1, r2, r3, r4, r5⟩ := a4 L hkL hL hfin d hd
    refine ⟨by rw [(hf d).1]; exact r1, by rw [(hf d).2.1]; exact r2,
      by rw [build_arg_result]; exact r3, by rw [(hf d).2.2.1]; exact r4,
      by rw [hq]; exact r5⟩
  · intro d hdef hc
    rw [(hf d).1]
    exact a5 d hdef (by omega)

theorem fin_args_args (h : helpers) (p : List instruction) (unify : Bool)
    (cur_points tie_ndx : Int) (def_interval : Option Nat) (k : Nat) :
    ∀ (args : List Nat) (cnt : Int) (st : build_state), build_inv st →
      (∀ d, def_interval = some d → d < st.impl.num_of_lives) →
      (∀ a ∈ args, a < k) → fin_args h p unify k tie_ndx def_interval cnt st.impl →
      fin_inv h p unify k (build_args h p cur_points tie_ndx def_interval args cnt st).impl := by
  intro args
  induction args with
  | nil => intro cnt st _ _ _ hi; exact hi.1
  | cons arg rest ih =>
    intro cnt st hb hdef hlt hi
    obtain ⟨h1, h2⟩ := build_inv_arg h p cur_points tie_ndx def_interval st cnt arg hb hdef
    exact ih (cnt + 1) _ h1 (fun d hd => lt_of_lt_of_le (hdef d hd) h2)
      (fun a ha => hlt a (List.mem_cons_of_mem _ ha))
      (fin_args_arg h p unify cur_points tie_ndx def_interval st cnt arg k hb
        (hlt arg (List.mem_cons_self _ _)) hi)

theorem fin_args_def (h : helpers) (p : List instruction) (unify : Bool) (k : Nat)
    (tie_ndx : Int) (st : build_state)
    (htie : (h.is_allocate (instr p k) || h.is_literal (instr p k)) = true → tie_ndx < 0)
    (hh : holder_inv (k + 1) st.impl) (hi : fin_inv h p unify (k + 1) st.impl) :
    fin_args h p unify k tie_ndx (build_def h p k (2 * ((k : Int) + 1)) st).1 0
      (build_def h p k (2 * ((k : Int) + 1)) st).2.impl := by
  obtain ⟨a1, a2, a3, a4⟩ := hi
  have hcur : (2 * ((k : Int) + 1)) ≠ invalid_offset := by unfold invalid_offset; omega
  by_cases hcase : ∃ d, st.impl.instr2_live k = some d ∧
      (h.is_allocate (instr p k) || h.is_literal (instr p k)) = true
  · obtain ⟨d, hd, hf⟩ := hcase
    obtain ⟨f1, f2, f3, f4, f5, f6, f7⟩ :=
      build_def_final h p k (2 * ((k : Int) + 1)) st d hd hf
    rw [a1] at f5
    refine ⟨⟨?_, ?_, ?_, ?_⟩, ?_⟩
    · rw [f7]
      exact a1
    · intro d' hd' j hj hjd
      rw [build_def_instr2_live] at hjd
      by_cases hdd : d' = d
      · subst hdd
        have := hh.unique j (by omega) k (by omega) d' hjd hd
        omega
      · rw [f6 d' hdd] at hd'
        exact a2 d' hd' j (by omega) hjd
    · intro d' hd'
      by_cases hdd : d' = d
      · subst hdd
        rw [f1]
        exact hcur
      · rw [f6 d' hdd]
        apply a3
        rw [f5] at hd'
        split at hd'
        · rcases List.mem_append.mp hd' with h1 | h1
          · exact h1
          · simp only [List.mem_singleton] at h1
            exact absurd h1 hdd
        · exact hd'
    · intro L hkL hL hfin d' hd'
      rw [build_def_instr2_live] at hd'
      by_cases hLk : L = k
      · subst hLk
        rw [hd] at hd'
        simp only [Option.some.injEq] at hd'
        subst hd'
        refine ⟨f1, f2, f3, f4, ?_⟩
        rw [f5]
        by_cases hc : (!h.is_literal (instr p L) || unify) = true
        · rw [if_pos hc]
          simp only [List.mem_append, List.mem_singleton, or_true, hc]
        · rw [if_neg hc]
          constructor
          · intro hq
            exact absurd hd (hh.no_holder d hq L (by omega))
          · intro hc'
            exact absurd hc' hc
      · obtain ⟨r1, r2, r3, r4, r5⟩ := a4 L (by omega) hL hfin d' hd'
        have hdd : d' ≠ d := by
          intro he
          subst he
          exact a2 d' (by rw [r1]; unfold invalid_offset; omega) k (by omega) hd
        rw [f6 d' hdd]
        refine ⟨r1, r2, r3, r4, ?_⟩
        rw [f5, ← r5]
        split
        · simp only [List.mem_append, List.mem_singleton, hdd, or_false]
        · rfl
    · intro d' _ hc
      have := htie hf
      omega
  · have hn : ∀ d, st.impl.instr2_live k = some d →
        (h.is_allocate (instr p k) || h.is_literal (instr p k)) = false := by
      intro d hd
      by_contra hne
      exact hcase ⟨d, hd, (Bool.not_eq_false _).mp hne⟩
    rw [build_def_not_final h p k _ st hn, build_def_fst]
    refine ⟨⟨a1, fun d hd j hj => a2 d hd j (by omega), a3, ?_⟩, ?_⟩
    · intro L hkL hL hfin d hd
      by_cases hLk : L = k
      · subst hLk
        rw [hn d hd] at hfin
        exact absurd hfin (by simp)
      · exact a4 L (by omega) hL hfin d hd
    · intro d hdef _
      by_contra hne
      exact a2 d hne k (by omega) hdef

theorem fin_inv_instr (h : helpers) (p : List instruction) (unify : Bool) (k : Nat)
    (st : build_state) (hb : build_inv st)
    (hwf : ∀ a ∈ (instr p k).inputs, a < k)
    (htie : (h.is_allocate (instr p k) || h.is_literal (instr p k)) = true →
      h.get_input_tie_ndx p (instr p k) < 0)
    (hh : holder_inv (k + 1) st.impl) (hi : fin_inv h p unify (k + 1) st.impl) :
    fin_inv h p unify k (build_instr h p k (2 * ((k : Int) + 1)) st).impl := by
  rw [build_instr_impl]
  obtain ⟨h1, h2, h3⟩ := build_inv_def h p k (2 * ((k : Int) + 1)) st hb
  exact fin_args_args h p unify _ _ _ k _ 0 _ h1
    (fun d hd => by rw [h3]; exact hb.held_lt k d (by rw [← h2]; exact hd)) hwf
    (fin_args_def h p unify k _ st htie hh hi)

theorem fin_inv_loop (h : helpers) (p : List instruction) (unify : Bool)
    (hwf : ∀ i < p.length, ∀ a ∈ (instr p i).inputs, a < i)
    (htie : ∀ i < p.length, (h.is_allocate (instr p i) || h.is_literal (instr p i)) = true →
      h.get_input_tie_ndx p (instr p i) < 0) :
    ∀ (k : Nat) (st : build_state), k ≤ p.length → build_inv st →
      holder_inv k st.impl → fin_inv h p unify k st.impl →
      fin_inv h p unify 0 (build_loop h p k (2 * (k : Int)) st).impl := by
  intro k
  induction k with
  | zero => intro st _ _ _ hi; exact hi
  | succ k ih =>
    intro st hk hb hh hi
    simp only [build_loop]
    have h1 : 2 * ((k + 1 : Nat) : Int) - 2 = 2 * (k : Int) := by push_cast; ring
    have h2 : 2 * ((k + 1 : Nat) : Int) = 2 * ((k : Int) + 1) := by push_cast; ring
    rw [h1, h2]
    exact ih _ (by omega) (build_inv_instr h p k _ st hb)
      (holder_inv_instr h p k _ st hb (hwf k (by omega)) (htie k (by omega)) hh)
      (fin_inv_instr h p unify k st hb (hwf k (by omega)) (htie k (by omega)) hh hi)

theorem build_fin (h : helpers) (p : List instruction) (unify : Bool)
    (hwf : ∀ i < p.length, ∀ a ∈ (instr p i).inputs, a < i)
    (htie : ∀ i < p.length, (h.is_allocate (instr p i) || h.is_literal (instr p i)) = true →
      h.get_input_tie_ndx p (instr p i) < 0) :
    fin_inv h p unify 0 (build h p (memory_coloring_impl.init unify)) := by
  have h0 : ∀ k, fin_inv h p unify k
      (build_state.init (memory_coloring_impl.init unify)).impl := by
    intro k
    refine ⟨rfl, ?_, ?_, ?_⟩
    · intro d _ j _
      simp [build_state.init, memory_coloring_impl.init]
    · intro d hd
      simp [build_state.init, memory_coloring_impl.init] at hd
    · intro L _ _ _ d hd
      simp [build_state.init, memory_coloring_impl.init] at hd
  unfold build build_trace
  split
  · rename_i hlen
    have := h0 0
    exact this
  · refine fin_inv_loop h p unify hwf htie _ _ (le_refl _) (build_inv_init unify) ?_ (h0 _)
    refine ⟨?_, ?_, ?_⟩ <;> simp [build_state.init, memory_coloring_impl.init]

/-! ## Instructions without a finalized interval -/

theorem build_loop_unread (h : helpers) (p : List instruction) (L : Nat)
    (hun : ∀ R, L ∉ (instr p R).inputs) :
    ∀ (k : Nat) (cur_points : Int) (st : build_state),
      (build_loop h p k cur_points st).impl.instr2_live L = st.impl.instr2_live L := by
  intro k
  induction k with
  | zero => intro _ _; rfl
  | succ k ih =>
    intro cur_points st
    simp only [build_loop]
    rw [ih, build_instr_other h p k cur_points st L (hun k)]

theorem build_unread (h : helpers) (p : List instruction) (unify : Bool) (L : Nat)
    (hun : ∀ R, L ∉ (instr p R).inputs) :
    (build h p (memory_coloring_impl.init unify)).instr2_live L = none := by
  unfold build build_trace
  split
  · rfl
  · rw [build_loop_unread h p L hun]
    rfl

theorem build_read (h : helpers) (p : List instruction) (unify : Bool) (L R : Nat)
    (hwf : ∀ i < p.length, ∀ a ∈ (instr p i).inputs, a < i)
    (hread : L ∈ (instr p R).inputs)
    (hnp : (h.is_param (instr p L) || h.is_outline (instr p L)) = false) :
    ∃ d, (build h p (memory_coloring_impl.init unify)).instr2_live L = some d := by
  rw [Bool.or_eq_false_iff] at hnp
  obtain ⟨d, hd⟩ := chain_collapse h p unify 0 (fun _ => L) R hwf
    (fun j hj => absurd hj (Nat.not_lt_zero j)) (fun j hj => absurd hj (Nat.not_lt_zero j))
    hread (fun _ _ => hnp)
  exact ⟨d, hd 0 (le_refl _)⟩

theorem build_arg_num_le (h : helpers) (p : List instruction) (cur_points tie_ndx : Int)
    (def_interval : Option Nat) (st : build_state) (cnt : Int) (arg : Nat) :
    st.impl.num_of_lives ≤
      (build_arg h p cur_points tie_ndx def_interval st cnt arg).impl.num_of_lives := by
  unfold build_arg
  simp only
  split
  · split
    · split <;> exact le_refl _
    · split <;> exact le_refl _
  · split
    · exact le_refl _
    · split
      · exact Nat.le_succ _
      · exact le_refl _

theorem build_def_num (h : helpers) (p : List instruction) (iter : Nat) (cur_points : Int)
    (st : build_state) :
    (build_def h p iter cur_points st).2.impl.num_of_lives = st.impl.num_of_lives := by
  unfold build_def
  simp only
  split
  · split <;> rfl
  · rfl

theorem unfinalized_arg (h : helpers) (p : List instruction) (cur_points tie_ndx : Int)
    (def_interval : Option Nat) (st : build_state) (cnt : Int) (arg d : Nat)
    (hu : unfinalized d st.impl)
    (hnt : def_interval = some d → cnt = tie_ndx →
      (h.is_param (instr p arg) || h.is_outline (instr p arg)) = true) :
    unfinalized d (build_arg h p cur_points tie_ndx def_interval st cnt arg).impl ∧
    ∀ j, st.impl.instr2_live j ≠ some d →
      (build_arg h p cur_points tie_ndx def_interval st cnt arg).impl.instr2_live j ≠ some d := by
  obtain ⟨u1, u2, u3⟩ := hu
  refine ⟨⟨lt_of_lt_of_le u1 (build_arg_num_le _ _ _ _ _ _ _ _), ?_, ?_⟩, ?_⟩
  · rw [(build_arg_fields h p cur_points tie_ndx def_interval st cnt arg d).1]
    exact u2
  · rw [build_arg_queue]
    exact u3
  · intro j hj hjd
    rcases build_arg_holder_cases h p cur_points tie_ndx def_interval st cnt arg j d hjd with
      h1 | ⟨_, hc, hdef, hfalse⟩ | ⟨_, hnew⟩
    · exact hj h1
    · rw [hnt hdef hc] at hfalse
      exact absurd hfalse (by simp)
    · omega

theorem unfinalized_args (h : helpers) (p : List instruction) (cur_points tie_ndx : Int)
    (def_interval : Option Nat) (d : Nat) :
    ∀ (args : List Nat) (cnt : Int) (st : build_state), unfinalized d st.impl →
      (def_interval = some d → ∀ (t : Nat) (a : Nat), args[t]? = some a →
        cnt + (t : Int) = tie_ndx →
        (h.is_param (instr p a) || h.is_outline (instr p a)) = true) →
      unfinalized d (build_args h p cur_points tie_ndx def_interval args cnt st).impl ∧
      ∀ j, st.impl.instr2_live j ≠ some d →
        (build_args h p cur_points tie_ndx def_interval args cnt st).impl.instr2_live j
          ≠ some d := by
  intro args
  induction args with
  | nil => intro _ st hu _; exact ⟨hu, fun _ hj => hj⟩
  | cons arg rest ih =>
    intro cnt st hu hnt
    simp only [build_args]
    obtain ⟨h1, h2⟩ := unfinalized_arg h p cur_points tie_ndx def_interval st cnt arg d hu
      (fun hdef hc => hnt hdef 0 arg (by simp) (by simpa using hc))
    obtain ⟨g1, g2⟩ := ih (cnt + 1) _ h1 (fun hdef t a ha hc =>
      hnt hdef (t + 1) a (by simpa using ha) (by push_cast; omega))
    exact ⟨g1, fun j hj => g2 j (h2 j hj)⟩

theorem unfinalized_def (h : helpers) (p : List instruction) (iter : Nat) (cur_points : Int)
    (st : build_state) (d : Nat) (hu : unfinalized d st.impl)
    (hk : st.impl.instr2_live iter = some d →
      (h.is_allocate (instr p iter) || h.is_literal (instr p iter)) = false) :
    unfinalized d (build_def h p iter cur_points st).2.impl := by
  obtain ⟨u1, u2, u3⟩ := hu
  by_cases hcase : ∃ d0, st.impl.instr2_live iter = some d0 ∧
      (h.is_allocate (instr p iter) || h.is_literal (instr p iter)) = true
  · obtain ⟨d0, hd0, hf⟩ := hcase
    have hdd : d ≠ d0 := by
      intro he
      subst he
      rw [hk hd0] at hf
      exact absurd hf (by simp)
    obtain ⟨_, _, _, _, f5, f6, _⟩ := build_def_final h p iter cur_points st d0 hd0 hf
    refine ⟨by rw [build_def_num]; exact u1, by rw [f6 d hdd]; exact u2, ?_⟩
    rw [f5]
    split
    · simp only [List.mem_append, List.mem_singleton, hdd, or_false]
      exact u3
    · exact u3
  · have hn : ∀ d0, st.impl.instr2_live iter = some d0 →
        (h.is_allocate (instr p iter) || h.is_literal (instr p iter)) = false := by
      intro d0 hd0
      by_contra hne
      exact hcase ⟨d0, hd0, (Bool.not_eq_false _).mp hne⟩
    rw [build_def_not_final h p iter cur_points st hn]
    exact ⟨u1, u2, u3⟩

theorem unfinalized_instr (h : helpers) (p : List instruction) (iter : Nat) (cur_points : Int)
    (st : build_state) (d : Nat) (hu : unfinalized d st.impl)
    (hk : st.impl.instr2_live iter = some d →
      (h.is_allocate (instr p iter) || h.is_literal (instr p iter)) = false ∧
      ∀ (t : Nat) (a : Nat), (instr p iter).inputs[t]? = some a →
        (t : Int) = h.get_input_tie_ndx p (instr p iter) →
        (h.is_param (instr p a) || h.is_outline (instr p a)) = true) :
    unfinalized d (build_instr h p iter cur_points st).impl ∧
    ∀ j, st.impl.instr2_live j ≠ some d →
      (build_instr h p iter cur_points st).impl.instr2_live j ≠ some d := by
  rw [build_instr_impl]
  have h1 := unfinalized_def h p iter cur_points st d hu (fun hd => (hk hd).1)
  obtain ⟨g1, g2⟩ := unfinalized_args h p cur_points (h.get_input_tie_ndx p (instr p iter))
    (build_def h p iter cur_points st).1 d (instr p iter).inputs 0 _ h1
    (fun hdef t a ha hc => by
      rw [build_def_fst] at hdef
      exact (hk hdef).2 t a ha (by omega))
  refine ⟨g1, fun j hj => g2 j ?_⟩
  rw [build_def_instr2_live]
  exact hj

theorem dead_end_instr (h : helpers) (p : List instruction) (unify : Bool) (X k : Nat)
    (st : build_state) (hb : build_inv st)
    (hwf : ∀ a ∈ (instr p k).inputs, a < k)
    (hX : (h.is_allocate (instr p X) || h.is_literal (instr p X)) = false)
    (hP : ∀ (t : Nat) (a : Nat), (instr p X).inputs[t]? = some a →
        (t : Int) = h.get_input_tie_ndx p (instr p X) →
        (h.is_param (instr p a) || h.is_outline (instr p a)) = true)
    (hh : holder_inv (k + 1) st.impl) (hf : fin_inv h p unify (k + 1) st.impl)
    (hi : dead_end X (k + 1) st.impl) :
    dead_end X k (build_instr h p k (2 * ((k : Int) + 1)) st).impl := by
  intro hkX d hd
  have hXin : X ∉ (instr p k).inputs := fun hm => by
    have := hwf X hm
    omega
  rw [build_instr_other h p k _ st X hXin] at hd
  by_cases hkeq : k = X
  · subst hkeq
    have hu : unfinalized d st.impl := by
      refine ⟨hb.held_lt k d hd, ?_, fun hq => hh.no_holder d hq k (by omega) hd⟩
      by_contra hne
      exact hf.no_holder d hne k (by omega) hd
    obtain ⟨g1, g2⟩ := unfinalized_instr h p k (2 * ((k : Int) + 1)) st d hu
      (fun _ => ⟨hX, hP⟩)
    refine ⟨g1, fun j hj => g2 j ?_⟩
    intro hjd
    have := hh.unique j (by omega) k (by omega) d hjd hd
    omega
  · obtain ⟨hu, hno⟩ := hi (by omega) d hd
    obtain ⟨g1, g2⟩ := unfinalized_instr h p k (2 * ((k : Int) + 1)) st d hu
      (fun hkd => absurd hkd (hno k (by omega)))
    exact ⟨g1, fun j hj => g2 j (hno j (by omega))⟩

theorem dead_end_loop (h : helpers) (p : List instruction) (unify : Bool) (X : Nat)
    (hwf : ∀ i < p.length, ∀ a ∈ (instr p i).inputs, a < i)
    (htie : ∀ i < p.length, (h.is_allocate (instr p i) || h.is_literal (instr p i)) = true →
      h.get_input_tie_ndx p (instr p i) < 0)
    (hX : (h.is_allocate (instr p X) || h.is_literal (instr p X)) = false)
    (hP : ∀ (t : Nat) (a : Nat), (instr p X).inputs[t]? = some a →
        (t : Int) = h.get_input_tie_ndx p (instr p X) →
        (h.is_param (instr p a) || h.is_outline (instr p a)) = true) :
    ∀ (k : Nat) (st : build_state), k ≤ p.length → build_inv st →
      holder_inv k st.impl → fin_inv h p unify k st.impl → dead_end X k st.impl →
      dead_end X 0 (build_loop h p k (2 * (k : Int)) st).impl := by
  intro k
  induction k with
  | zero => intro st _ _ _ _ hi; exact hi
  | succ k ih =>
    intro st hk hb hh hf hi
    simp only [build_loop]
    have h1 : 2 * ((k + 1 : Nat) : Int) - 2 = 2 * (k : Int) := by push_cast; ring
    have h2 : 2 * ((k + 1 : Nat) : Int) = 2 * ((k : Int) + 1) := by push_cast; ring
    rw [h1, h2]
    exact ih _ (by omega) (build_inv_instr h p k _ st hb)
      (holder_inv_instr h p k _ st hb (hwf k (by omega)) (htie k (by omega)) hh)
      (fin_inv_instr h p unify k st hb (hwf k (by omega)) (htie k (by omega)) hh hf)
      (dead_end_instr h p unify X k st hb (hwf k (by omega)) hX hP hh hf hi)

theorem build_dead_end (h : helpers) (p : List instruction) (unify : Bool) (X : Nat)
    (hwf : ∀ i < p.length, ∀ a ∈ (instr p i).inputs, a < i)
    (htie : ∀ i < p.length, (h.is_allocate (instr p i) || h.is_literal (instr p i)) = true →
      h.get_input_tie_ndx p (instr p i) < 0)
    (hXlt : X < p.length)
    (hX : (h.is_allocate (instr p X) || h.is_literal (instr p X)) = false)
    (hP : ∀ (t : Nat) (a : Nat), (instr p X).inputs[t]? = some a →
        (t : Int) = h.get_input_tie_ndx p (instr p X) →
        (h.is_param (instr p a) || h.is_outline (instr p a)) = true)
    (d : Nat) (hd : (build h p (memory_coloring_impl.init unify)).instr2_live X = some d) :
    unfinalized d (build h p (memory_coloring_impl.init unify)) := by
  revert hd
  unfold build build_trace
  split
  · intro hd
    simp [build_state.init, memory_coloring_impl.init] at hd
  · intro hd
    have h0 : fin_inv h p unify p.length
        (build_state.init (memory_coloring_impl.init unify)).impl := by
      refine ⟨rfl, ?_, ?_, ?_⟩
      · intro d _ j _
        simp [build_state.init, memory_coloring_impl.init]
      · intro d hd
        simp [build_state.init, memory_coloring_impl.init] at hd
      · intro L _ _ _ d hd
        simp [build_state.init, memory_coloring_impl.init] at hd
    have hh0 : holder_inv p.length
        (build_state.init (memory_coloring_impl.init unify)).impl := by
      refine ⟨?_, ?_, ?_⟩ <;> simp [build_state.init, memory_coloring_impl.init]
    exact (dead_end_loop h p unify X hwf htie hX hP p.length _ (le_refl _)
      (build_inv_init unify) hh0 h0 (fun hle => by omega) (Nat.zero_le _) d hd).1

/-! ## rewrite -/

theorem instr_eq_of_getElem? (p q : List instruction) (i : Nat) (h : q[i]? = p[i]?) :
    instr q i = instr p i := by
  unfold instr
  rw [List.getD_eq_getElem?_getD, List.getD_eq_getElem?_getD, h]

theorem rewrite_instr_load (h : helpers) (s : memory_coloring_impl) (sp : Nat)
    (p : List instruction) (i d : Nat) (hd : s.instr2_live i = some d)
    (hb : (s.live_intervals d).segment.begin ≠ invalid_offset)
    (hl : (!s.unify_literals && (s.live_intervals d).is_literal) = false)
    (ha : h.is_allocate (instr p i) = true) :
    rewrite_instr h s sp p i =
      match (instr p i).inputs with
      | [] => none
      | a :: _ =>
        some (p.set i (load (instr p a).result (rewrite_offset (s.live_intervals d)) sp)) := by
  unfold rewrite_instr
  simp only [hd, if_neg hb, hl, ha, if_true, Bool.false_eq_true, if_false]

theorem rewrite_instr_write (h : helpers) (s : memory_coloring_impl) (sp : Nat)
    (p : List instruction) (i d : Nat) (hd : s.instr2_live i = some d)
    (hb : (s.live_intervals d).segment.begin ≠ invalid_offset)
    (hu : s.unify_literals = true)
    (ha : h.is_allocate (instr p i) = false) (hlit : h.is_literal (instr p i) = true) :
    rewrite_instr h s sp p i =
      some ((add_literal p (instr p i).literal (instr p i).result).set i
        (write_literal (instr p i).result (rewrite_offset (s.live_intervals d))
          (decide ((s.live_intervals d).segment.begin < s.earliest_end_point)) sp p.length)) := by
  unfold rewrite_instr
  simp only [hd, if_neg hb, hu, ha, hlit, Bool.not_true, Bool.false_and, Bool.and_self,
    Bool.false_eq_true, if_false, if_true]

theorem rewrite_instr_cases (h : helpers) (s : memory_coloring_impl) (sp : Nat)
    (p p' : List instruction) (i : Nat) (hr : rewrite_instr h s sp p i = some p') :
    p' = p ∨
    ∃ d, s.instr2_live i = some d ∧ (s.live_intervals d).segment.begin ≠ invalid_offset ∧
      (!s.unify_literals && (s.live_intervals d).is_literal) = false ∧
      ((h.is_allocate (instr p i) = true ∧ ∃ a rest, (instr p i).inputs = a :: rest ∧
          p' = p.set i (load (instr p a).result (rewrite_offset (s.live_intervals d)) sp)) ∨
        (h.is_allocate (instr p i) = false ∧ h.is_literal (instr p i) = true ∧
          s.unify_literals = true ∧
          p' = (add_literal p (instr p i).literal (instr p i).result).set i
            (write_literal (instr p i).result (rewrite_offset (s.live_intervals d))
              (decide ((s.live_intervals d).segment.begin < s.earliest_end_point)) sp
              p.length))) := by
  unfold rewrite_instr at hr
  split at hr
  · left; simp only [Option.some.injEq] at hr; exact hr.symm
  · rename_i d hd
    simp only at hr
    split at hr
    · left; simp only [Option.some.injEq] at hr; exact hr.symm
    · rename_i hb
      split at hr
      · left; simp only [Option.some.injEq] at hr; exact hr.symm
      · rename_i hl
        split at hr
        · rename_i ha
          split at hr
          · exact absurd hr (by simp)
          · rename_i a rest hin
            simp only [Option.some.injEq] at hr
            exact Or.inr ⟨d, hd, hb, by simpa using hl, Or.inl ⟨ha, a, rest, hin, hr.symm⟩⟩
        · rename_i ha
          split at hr
          · rename_i hlu
            simp only [Option.some.injEq] at hr
            simp only [Bool.and_eq_true] at hlu
            exact Or.inr ⟨d, hd, hb, by simpa using hl,
              Or.inr ⟨by simpa using ha, hlu.1, hlu.2, hr.symm⟩⟩
          · left; simp only [Option.some.injEq] at hr; exact hr.symm

theorem rewrite_instr_frame (h : helpers) (s : memory_coloring_impl) (sp : Nat)
    (p p' : List instruction) (i : Nat) (hi : i < p.length)
    (hr : rewrite_instr h s sp p i = some p') :
    p.length ≤ p'.length ∧
    (∀ j, j ≠ i → j < p.length → p'[j]? = p[j]?) ∧
    (∀ j, p.length ≤ j → ∀ x, p'[j]? = some x → x.name = "@literal") := by
  rcases rewrite_instr_cases h s sp p p' i hr with rfl | ⟨d, _, _, _, h1 | h1⟩
  · refine ⟨le_refl _, fun _ _ _ => rfl, ?_⟩
    intro j hj x hx
    rw [List.getElem?_eq_none hj] at hx
    exact absurd hx (by simp)
  · obtain ⟨_, a, rest, _, rfl⟩ := h1
    refine ⟨by rw [List.length_set], ?_, ?_⟩
    · intro j hj _
      rw [List.getElem?_set_ne (Ne.symm hj)]
    · intro j hj x hx
      rw [List.getElem?_eq_none (by rw [List.length_set]; exact hj)] at hx
      exact absurd hx (by simp)
  · obtain ⟨_, _, _, rfl⟩ := h1
    unfold add_literal
    refine ⟨by rw [List.length_set, List.length_append]; omega, ?_, ?_⟩
    · intro j hj hlt
      rw [List.getElem?_set_ne (Ne.symm hj), List.getElem?_append_left hlt]
    · intro j hj x hx
      by_cases hji : i = j
      · omega
      · rw [List.getElem?_set_ne hji, List.getElem?_append_right hj] at hx
        have hx' := List.getElem?_mem hx
        simp only [List.mem_singleton] at hx'
        rw [hx']

theorem rewrite_loop_spec (h : helpers) (s : memory_coloring_impl) (sp : Nat) :
    ∀ (l : List Nat) (p p' : List instruction), (∀ i ∈ l, i < p.length) → l.Nodup →
      rewrite_loop h s sp l p = some p' →
      p.length ≤ p'.length ∧
      (∀ j < p.length, j ∉ l → p'[j]? = p[j]?) ∧
      (∀ j ∈ l, ∃ q q', p.length ≤ q.length ∧ q[j]? = p[j]? ∧
        rewrite_instr h s sp q j = some q' ∧ p'[j]? = q'[j]?) ∧
      (∀ j, p.length ≤ j → ∀ x, p'[j]? = some x → x.name = "@literal") := by
  intro l
  induction l with
  | nil =>
    intro p p' _ _ hr
    simp only [rewrite_loop, Option.some.injEq] at hr
    subst hr
    refine ⟨le_refl _, fun _ _ _ => rfl, fun j hj => absurd hj (List.not_mem_nil _), ?_⟩
    intro j hj x hx
    rw [List.getElem?_eq_none hj] at hx
    exact absurd hx (by simp)
  | cons i rest ih =>
    intro p p' hlt hnd hr
    simp only [rewrite_loop] at hr
    obtain ⟨p1, hp1, hrest⟩ := Option.bind_eq_some.mp hr
    have hi := hlt i (List.mem_cons_self _ _)
    obtain ⟨f1, f2, f3⟩ := rewrite_instr_frame h s sp p p1 i hi hp1
    rw [List.nodup_cons] at hnd
    obtain ⟨g1, g2, g3, g4⟩ := ih p1 p'
      (fun j hj => lt_of_lt_of_le (hlt j (List.mem_cons_of_mem _ hj)) f1) hnd.2 hrest
    refine ⟨le_trans f1 g1, ?_, ?_, ?_⟩
    · intro j hj hjl
      rw [List.mem_cons, not_or] at hjl
      rw [g2 j (lt_of_lt_of_le hj f1) hjl.2, f2 j hjl.1 hj]
    · intro j hj
      rcases List.mem_cons.mp hj with hj | hj
      · subst hj
        exact ⟨p, p1, le_refl _, rfl, hp1, g2 j (lt_of_lt_of_le hi f1) hnd.1⟩
      · obtain ⟨q, q', h1, h2, h3, h4⟩ := g3 j hj
        have hji : j ≠ i := fun he => hnd.1 (he ▸ hj)
        exact ⟨q, q', le_trans f1 h1,
          by rw [h2, f2 j hji (hlt j (List.mem_cons_of_mem _ hj))], h3, h4⟩
    · intro j hj x hx
      by_cases hj1 : j < p1.length
      · have hjr : j ∉ rest := fun hm => by
          have := hlt j (List.mem_cons_of_mem _ hm)
          omega
        rw [g2 j hj1 hjr] at hx
        exact f3 j hj x hx
      · exact g4 j (not_lt.mp hj1) x hx

theorem rewrite_spec (h : helpers) (s : memory_coloring_impl) (p p' : List instruction)
    (hr : rewrite h s p = some p') :
    p'[p.length]? = some (scratch_parameter s) ∧
    (∀ j, p.length < j → ∀ x, p'[j]? = some x → x.name = "@literal") ∧
    ∀ i < p.length, ∃ q q', p.length < q.length ∧ q[i]? = p[i]? ∧
      rewrite_instr h s p.length q i = some q' ∧ p'[i]? = q'[i]? := by
  unfold rewrite add_parameter at hr
  simp only at hr
  obtain ⟨g1, g2, g3, g4⟩ := rewrite_loop_spec h s p.length (List.range p.length) _ p'
    (fun i hi => by rw [List.length_append]; exact Nat.lt_succ_of_lt (List.mem_range.mp hi))
    (List.nodup_range _) hr
  refine ⟨?_, ?_, ?_⟩
  · rw [g2 p.length (by rw [List.length_append]; simp) (by simp)]
    exact List.getElem?_concat_length _ _
  · intro j hj x hx
    exact g4 j (by rw [List.length_append]; simpa using hj) x hx
  · intro i hi
    obtain ⟨q, q', h1, h2, h3, h4⟩ := g3 i (List.mem_range.mpr hi)
    refine ⟨q, q', ?_, ?_, h3, h4⟩
    · rw [List.length_append] at h1
      simpa using h1
    · rw [h2, List.getElem?_append_left hi]

theorem run_pass_some (h : helpers) (o : conflict_order) (a : alloc_order) (unify : Bool)
    (p p' : List instruction) (s : memory_coloring_impl)
    (hr : run_pass h o a unify p = some (s, p')) :
    run h o a unify p = some s ∧
    (((build h p (memory_coloring_impl.init unify)).num_of_lives ≠ 0 ∧
        rewrite h s p = some p') ∨
      ((build h p (memory_coloring_impl.init unify)).num_of_lives = 0 ∧ p' = p)) := by
  unfold run_pass at hr
  split at hr
  · rename_i hn
    obtain ⟨s1, hs1, hm⟩ := Option.bind_eq_some.mp hr
    obtain ⟨p1, hp1, he⟩ := Option.map_eq_some'.mp hm
    simp only [Prod.mk.injEq] at he
    obtain ⟨rfl, rfl⟩ := he
    exact ⟨hs1, Or.inl ⟨hn, hp1⟩⟩
  · rename_i hn
    simp only [Option.some.injEq, Prod.mk.injEq] at hr
    obtain ⟨rfl, rfl⟩ := hr
    refine ⟨?_, Or.inr ⟨by simpa using hn, rfl⟩⟩
    unfold run
    simp only
    rw [if_neg hn]

theorem rewrite_unchanged (h : helpers) (s : memory_coloring_impl) (p p' : List instruction)
    (hr : rewrite h s p = some p') (i : Nat) (hi : i < p.length)
    (hskip : ∀ d, s.instr2_live i = some d →
      (s.live_intervals d).segment.begin = invalid_offset ∨
      (!s.unify_literals && (s.live_intervals d).is_literal) = true ∨
      (h.is_allocate (instr p i) = false ∧
        (h.is_literal (instr p i) && s.unify_literals) = false)) :
    p'[i]? = p[i]? := by
  obtain ⟨q, q', _, h2, h3, h4⟩ := (rewrite_spec h s p p' hr).2.2 i hi
  have hq := instr_eq_of_getElem? p q i h2
  rcases rewrite_instr_cases h s p.length q q' i h3 with rfl | ⟨d, hd, hb, hl, h5 | h5⟩
  · exact h4.trans h2
  · rw [hq] at h5
    rcases hskip d hd with h6 | h6 | h6
    · exact absurd h6 hb
    · rw [hl] at h6
      exact absurd h6 (by simp)
    · rw [h5.1] at h6
      exact absurd h6.1 (by simp)
  · rw [hq] at h5
    rcases hskip d hd with h6 | h6 | h6
    · exact absurd h6 hb
    · rw [hl] at h6
      exact absurd h6 (by simp)
    · rw [h5.2.1, h5.2.2.1] at h6
      exact absurd h6.2 (by simp)

theorem rewrite_load (h : helpers) (s : memory_coloring_impl) (p p' : List instruction)
    (hr : rewrite h s p = some p') (i d : Nat) (hi : i < p.length)
    (hd : s.instr2_live i = some d)
    (hb : (s.live_intervals d).segment.begin ≠ invalid_offset)
    (hl : (!s.unify_literals && (s.live_intervals d).is_literal) = false)
    (ha : h.is_allocate (instr p i) = true) :
    ∃ sh, p'[i]? = some (load sh (rewrite_offset (s.live_intervals d)) p.length) := by
  obtain ⟨q, q', hlen, h2, h3, h4⟩ := (rewrite_spec h s p p' hr).2.2 i hi
  have hq := instr_eq_of_getElem? p q i h2
  rw [rewrite_instr_load h s p.length q i d hd hb hl (by rw [hq]; exact ha)] at h3
  split at h3
  · exact absurd h3 (by simp)
  · rename_i a rest _
    simp only [Option.some.injEq] at h3
    subst h3
    exact ⟨(instr q a).result, by rw [h4, List.getElem?_set_self (by omega)]⟩

theorem rewrite_write (h : helpers) (s : memory_coloring_impl) (p p' : List instruction)
    (hr : rewrite h s p = some p') (i d : Nat) (hi : i < p.length)
    (hd : s.instr2_live i = some d)
    (hb : (s.live_intervals d).segment.begin ≠ invalid_offset)
    (hu : s.unify_literals = true)
    (ha : h.is_allocate (instr p i) = false) (hlit : h.is_literal (instr p i) = true) :
    ∃ pre, p.length < pre ∧
      p'[i]? = some (write_literal (instr p i).result (rewrite_offset (s.live_intervals d))
        (decide ((s.live_intervals d).segment.begin < s.earliest_end_point)) p.length pre) := by
  obtain ⟨q, q', hlen, h2, h3, h4⟩ := (rewrite_spec h s p p' hr).2.2 i hi
  have hq := instr_eq_of_getElem? p q i h2
  rw [rewrite_instr_write h s p.length q i d hd hb hu (by rw [hq]; exact ha)
    (by rw [hq]; exact hlit)] at h3
  simp only [Option.some.injEq] at h3
  subst h3
  refine ⟨q.length, hlen, ?_⟩
  rw [h4, List.getElem?_set_self (by unfold add_literal; rw [List.length_append]; omega), hq]

theorem rewrite_instr_some (h : helpers) (s : memory_coloring_impl) (sp : Nat)
    (q : List instruction) (i : Nat)
    (hin : h.is_allocate (instr q i) = true → (instr q i).inputs ≠ []) :
    ∃ q', rewrite_instr h s sp q i = some q' := by
  unfold rewrite_instr
  split
  · exact ⟨_, rfl⟩
  · simp only
    split
    · exact ⟨_, rfl⟩
    · split
      · exact ⟨_, rfl⟩
      · split
        · rename_i ha
          split
          · rename_i hnil
            exact absurd hnil (hin ha)
          · exact ⟨_, rfl⟩
        · split
          · exact ⟨_, rfl⟩
          · exact ⟨_, rfl⟩

theorem rewrite_loop_some (h : helpers) (s : memory_coloring_impl) (sp : Nat) :
    ∀ (l : List Nat) (q : List instruction), (∀ i ∈ l, i < q.length) → l.Nodup →
      (∀ i ∈ l, h.is_allocate (instr q i) = true → (instr q i).inputs ≠ []) →
      ∃ p', rewrite_loop h s sp l q = some p' := by
  intro l
  induction l with
  | nil => intro q _ _ _; exact ⟨q, rfl⟩
  | cons i rest ih =>
    intro q hlt hnd hin
    simp only [rewrite_loop]
    obtain ⟨q1, hq1⟩ := rewrite_instr_some h s sp q i (hin i (List.mem_cons_self _ _))
    have hi := hlt i (List.mem_cons_self _ _)
    obtain ⟨f1, f2, _⟩ := rewrite_instr_frame h s sp q q1 i hi hq1
    rw [List.nodup_cons] at hnd
    have hsame : ∀ j ∈ rest, instr q1 j = instr q j := by
      intro j hj
      apply instr_eq_of_getElem?
      exact f2 j (fun he => hnd.1 (he ▸ hj)) (hlt j (List.mem_cons_of_mem _ hj))
    obtain ⟨p', hp'⟩ := ih q1
      (fun j hj => lt_of_lt_of_le (hlt j (List.mem_cons_of_mem _ hj)) f1) hnd.2
      (fun j hj => by rw [hsame j hj]; exact hin j (List.mem_cons_of_mem _ hj))
    exact ⟨p', by rw [hq1]; exact hp'⟩

theorem rewrite_some (h : helpers) (s : memory_coloring_impl) (p : List instruction)
    (hin : ∀ ins ∈ p, h.is_allocate ins = true → ins.inputs ≠ []) :
    ∃ p', rewrite h s p = some p' := by
  unfold rewrite
  simp only
  apply rewrite_loop_some h s p.length (List.range p.length)
  · intro i hi
    unfold add_parameter
    rw [List.length_append]
    exact Nat.lt_succ_of_lt (List.mem_range.mp hi)
  · exact List.nodup_range _
  · intro i hi
    have hlt := List.mem_range.mp hi
    have he : instr (add_parameter p "scratch" (float_shape [s.required_bytes.toNat / 4])) i
        = instr p i :=
      instr_eq_of_getElem? _ _ i (by unfold add_parameter; exact List.getElem?_append_left hlt)
    rw [he]
    apply hin
    unfold instr
    rw [List.getD_eq_getElem _ _ hlt]
    exact List.getElem_mem _

theorem run_pass_finishes (h : helpers) (o : conflict_order) (a : alloc_order) (unify : Bool)
    (p : List instruction) (hp : ∀ ins ∈ p, shape_ok ins.result)
    (hin : ∀ ins ∈ p, h.is_allocate ins = true → ins.inputs ≠ []) :
    ∃ r, run_pass h o a unify p = some r := by
  unfold run_pass
  split
  · obtain ⟨s, hs⟩ := run_finishes h o a unify p hp
    obtain ⟨p', hp'⟩ := rewrite_some h s p hin
    exact ⟨(s, p'), by rw [hs]; simp only [Option.some_bind, hp', Option.map_some']⟩
  · exact ⟨_, rfl⟩

theorem run_pass_no_interval (h : helpers) (o : conflict_order) (a : alloc_order)
    (unify : Bool) (p : List instruction) (s : memory_coloring_impl)
    (hrun : run h o a unify p = some s)
    (h0 : (build h p (memory_coloring_impl.init unify)).num_of_lives = 0) (i : Nat) :
    s.instr2_live i = none := by
  have hb := build_inv_trace h p unify
  rw [(run_offsets h o a unify p s hrun).1.1]
  cases hd : (build h p (memory_coloring_impl.init unify)).instr2_live i with
  | none => rfl
  | some d =>
    have := hb.held_lt i d hd
    rw [build_trace_impl, h0] at this
    omega

/-! ## The pass as a whole -/

theorem run_pass_rewrite (h : helpers) (o : conflict_order) (a : alloc_order) (unify : Bool)
    (p p' : List instruction) (s : memory_coloring_impl)
    (hrun : run_pass h o a unify p = some (s, p')) (i d : Nat)
    (hd : s.instr2_live i = some d) : rewrite h s p = some p' := by
  obtain ⟨h1, h2⟩ := run_pass_some h o a unify p p' s hrun
  rcases h2 with ⟨_, hr⟩ | ⟨h0, _⟩
  · exact hr
  · rw [run_pass_no_interval h o a unify p s h1 h0 i] at hd
    exact absurd hd (by simp)

theorem run_pass_unchanged (h : helpers) (o : conflict_order) (a : alloc_order) (unify : Bool)
    (p p' : List instruction) (s : memory_coloring_impl)
    (hrun : run_pass h o a unify p = some (s, p')) (i : Nat) (hi : i < p.length)
    (hskip : ∀ d, s.instr2_live i = some d →
      (s.live_intervals d).segment.begin = invalid_offset ∨
      (!s.unify_literals && (s.live_intervals d).is_literal) = true ∨
      (h.is_allocate (instr p i) = false ∧
        (h.is_literal (instr p i) && s.unify_literals) = false)) :
    p'[i]? = p[i]? := by
  rcases (run_pass_some h o a unify p p' s hrun).2 with ⟨_, hr⟩ | ⟨_, he⟩
  · exact rewrite_unchanged h s p p' hr i hi hskip
  · rw [he]

theorem run_record (h : helpers) (o : conflict_order) (a : alloc_order) (unify : Bool)
    (p : List instruction) (s : memory_coloring_impl)
    (hwf : ∀ i < p.length, ∀ x ∈ (instr p i).inputs, x < i)
    (htie : ∀ i < p.length, (h.is_allocate (instr p i) || h.is_literal (instr p i)) = true →
      h.get_input_tie_ndx p (instr p i) < 0)
    (hrun : run h o a unify p = some s) (L : Nat) (hL : L < p.length)
    (hfin : (h.is_allocate (instr p L) || h.is_literal (instr p L)) = true) (d : Nat)
    (hd : s.instr2_live L = some d) :
    (s.live_intervals d).segment.begin = 2 * ((L : Int) + 1) ∧
    (s.live_intervals d).result = (instr p L).result ∧
    (s.live_intervals d).is_literal = h.is_literal (instr p L) ∧
    (s.range d).size = (instr p L).result.bytes ∧
    s.unify_literals = unify ∧
    (d ∈ (build h p (memory_coloring_impl.init unify)).alloc_queue ↔
      (!h.is_literal (instr p L) || unify) = true) := by
  obtain ⟨r1, r2, _, _, r5⟩ := (run_offsets h o a unify p s hrun).1
  have hf := build_fin h p unify hwf htie
  rw [r1] at hd
  obtain ⟨f1, _, f3, f4, f5⟩ := hf.record L (Nat.zero_le _) hL hfin d hd
  obtain ⟨g1, g2, g3, g4⟩ := r5 d
  have hsz := (build_inv_trace h p unify).coh.sizes d
  rw [build_trace_impl] at hsz
  refine ⟨g1.trans f1, g3.trans f3, g2.trans f4, ?_, r2.trans hf.unify_eq, f5⟩
  unfold memory_coloring_impl.range
  rw [g4, hsz, f3]

theorem run_sized_offset (h : helpers) (o : conflict_order) (a : alloc_order) (unify : Bool)
    (p : List instruction) (s : memory_coloring_impl)
    (hrun : run h o a unify p = some s) (d : Nat)
    (hq : d ∈ (build h p (memory_coloring_impl.init unify)).alloc_queue) :
    ((s.live_intervals d).result.bytes ≠ 0 →
      0 ≤ (s.range d).offset ∧
      ((rewrite_offset (s.live_intervals d) : Nat) : Int) = (s.range d).offset) ∧
    ((s.live_intervals d).result.bytes = 0 →
      (s.range d).offset = invalid_offset ∧ rewrite_offset (s.live_intervals d) = 0) := by
  obtain ⟨r1, _, r3⟩ := run_offsets h o a unify p s hrun
  constructor
  · intro hb
    have h0 := r3 d hq (by rw [← (r1.2.2.2.2 d).2.2.1]; exact hb)
    refine ⟨h0, ?_⟩
    unfold rewrite_offset
    unfold memory_coloring_impl.range at h0
    rw [if_neg (by unfold invalid_offset; omega)]
    exact Int.toNat_of_nonneg h0
  · intro hb
    have hinv : (s.range d).offset = invalid_offset := by
      by_contra hne
      exact ((alloc_inv_run h o a unify p s hrun).placed_pos d hne).1 hb
    refine ⟨hinv, ?_⟩
    unfold rewrite_offset
    unfold memory_coloring_impl.range at hinv
    rw [if_pos hinv]

/-! ## Parameters and outlined buffers -/

theorem build_arg_param (h : helpers) (p : List instruction) (cur_points tie_ndx : Int)
    (def_interval : Option Nat) (st : build_state) (cnt : Int) (arg : Nat)
    (hp : (h.is_param (instr p arg) || h.is_outline (instr p arg)) = true) :
    (build_arg h p cur_points tie_ndx def_interval st cnt arg).impl =
      (match def_interval with
       | some d => st.impl.set_interval d
           { st.impl.live_intervals d with is_live_on_entry := true }
       | none => st.impl) ∧
    (build_arg h p cur_points tie_ndx def_interval st cnt arg).live_set = st.live_set := by
  unfold build_arg
  simp only [hp, if_true]
  split
  · split <;> exact ⟨rfl, rfl⟩
  · split <;> exact ⟨rfl, rfl⟩

theorem build_arg_holder_np (h : helpers) (p : List instruction) (cur_points tie_ndx : Int)
    (def_interval : Option Nat) (st : build_state) (cnt : Int) (arg j d : Nat)
    (hj : (build_arg h p cur_points tie_ndx def_interval st cnt arg).impl.instr2_live j
      = some d) :
    st.impl.instr2_live j = some d ∨
    (j = arg ∧ (h.is_param (instr p arg) || h.is_outline (instr p arg)) = false) := by
  by_cases hja : j = arg
  · subst hja
    by_cases hp : (h.is_param (instr p j) || h.is_outline (instr p j)) = true
    · rw [(build_arg_param h p cur_points tie_ndx def_interval st cnt j hp).1] at hj
      left
      revert hj
      split <;> exact id
    · exact Or.inr ⟨rfl, by simpa using hp⟩
  · rw [build_arg_other h p cur_points tie_ndx def_interval st cnt arg j hja] at hj
    exact Or.inl hj

theorem build_args_holder_np (h : helpers) (p : List instruction) (cur_points tie_ndx : Int)
    (def_interval : Option Nat) (j d : Nat) :
    ∀ (args : List Nat) (cnt : Int) (st : build_state),
      (build_args h p cur_points tie_ndx def_interval args cnt st).impl.instr2_live j
        = some d →
      st.impl.instr2_live j = some d ∨
      (h.is_param (instr p j) || h.is_outline (instr p j)) = false := by
  intro args
  induction args with
  | nil => intro _ _ hj; exact Or.inl hj
  | cons arg rest ih =>
    intro cnt st hj
    simp only [build_args] at hj
    rcases ih (cnt + 1) _ hj with h1 | h1
    · rcases build_arg_holder_np h p cur_points tie_ndx def_interval st cnt arg j d h1 with
        h2 | ⟨rfl, h2⟩
      · exact Or.inl h2
      · exact Or.inr h2
    · exact Or.inr h1

theorem build_loop_holder_np (h : helpers) (p : List instruction) :
    ∀ (k : Nat) (cur_points : Int) (st : build_state),
      (∀ j d, st.impl.instr2_live j = some d →
        (h.is_param (instr p j) || h.is_outline (instr p j)) = false) →
      ∀ j d, (build_loop h p k cur_points st).impl.instr2_live j = some d →
        (h.is_param (instr p j) || h.is_outline (instr p j)) = false := by
  intro k
  induction k with
  | zero => intro _ st hi; exact hi
  | succ k ih =>
    intro cur_points st hi
    simp only [build_loop]
    apply ih
    intro j d hj
    rw [build_instr_impl] at hj
    rcases build_args_holder_np h p cur_points _ _ j d _ 0 _ hj with h1 | h1
    · rw [build_def_instr2_live] at h1
      exact hi j d h1
    · exact h1

theorem build_holder_np (h : helpers) (p : List instruction) (unify : Bool) (j d : Nat)
    (hj : (build h p (memory_coloring_impl.init unify)).instr2_live j = some d) :
    (h.is_param (instr p j) || h.is_outline (instr p j)) = false := by
  have h0 : ∀ j d, (build_state.init (memory_coloring_impl.init unify)).impl.instr2_live j
      = some d → (h.is_param (instr p j) || h.is_outline (instr p j)) = false := by
    intro j d hj
    simp [build_state.init, memory_coloring_impl.init] at hj
  revert hj
  unfold build build_trace
  split
  · exact h0 j d
  · exact build_loop_holder_np h p _ _ _ h0 j d

theorem build_arg_entry (h : helpers) (p : List instruction) (cur_points tie_ndx : Int)
    (def_interval : Option Nat) (st : build_state) (cnt : Int) (arg i : Nat) :
    ((st.impl.live_intervals i).is_live_on_entry = true →
      ((build_arg h p cur_points tie_ndx def_interval st cnt arg).impl.live_intervals
        i).is_live_on_entry = true) ∧
    ((h.is_param (instr p arg) || h.is_outline (instr p arg)) = true →
      def_interval = some i →
      ((build_arg h p cur_points tie_ndx def_interval st cnt arg).impl.live_intervals
        i).is_live_on_entry = true) := by
  have key : ∀ (d : Nat) (v : live_interval),
      ((st.impl.live_intervals d).is_live_on_entry = true → v.is_live_on_entry = true) →
      (st.impl.live_intervals i).is_live_on_entry = true →
      (Function.update st.impl.live_intervals d v i).is_live_on_entry = true := by
    intro d v hv hi
    by_cases hid : i = d
    · subst hid
      rw [Function.update_same]
      exact hv hi
    · rw [Function.update_noteq hid]
      exact hi
  constructor
  · unfold build_arg
    simp only
    split
    · split
      · split <;> exact key _ _ (fun _ => rfl)
      · split <;> exact id
    · split
      · exact key _ _ id
      · split
        · exact key _ _ id
        · exact key _ _ id
  · intro hp hd
    subst hd
    rw [(build_arg_param h p cur_points tie_ndx (some i) st cnt arg hp).1]
    simp only [memory_coloring_impl.set_interval, Function.update_same]

theorem build_args_entry (h : helpers) (p : List instruction) (cur_points tie_ndx : Int)
    (def_interval : Option Nat) (i : Nat) :
    ∀ (args : List Nat) (cnt : Int) (st : build_state),
      ((st.impl.live_intervals i).is_live_on_entry = true →
        ((build_args h p cur_points tie_ndx def_interval args cnt st).impl.live_intervals
          i).is_live_on_entry = true) ∧
      (∀ P ∈ args, (h.is_param (instr p P) || h.is_outline (instr p P)) = true →
        def_interval = some i →
        ((build_args h p cur_points tie_ndx def_interval args cnt st).impl.live_intervals
          i).is_live_on_entry = true) := by
  intro args
  induction args with
  | nil => intro _ _; exact ⟨id, fun P hP => absurd hP (List.not_mem_nil _)⟩
  | cons arg rest ih =>
    intro cnt st
    simp only [build_args]
    obtain ⟨g1, g2⟩ := ih (cnt + 1) (build_arg h p cur_points tie_ndx def_interval st cnt arg)
    obtain ⟨f1, f2⟩ := build_arg_entry h p cur_points tie_ndx def_interval st cnt arg i
    refine ⟨fun hi => g1 (f1 hi), ?_⟩
    intro P hP hparam hd
    rcases List.mem_cons.mp hP with hP | hP
    · subst hP
      exact g1 (f2 hparam hd)
    · exact g2 P hP hparam hd

theorem build_def_entry (h : helpers) (p : List instruction) (iter : Nat) (cur_points : Int)
    (st : build_state) (i : Nat) :
    ((build_def h p iter cur_points st).2.impl.live_intervals i).is_live_on_entry =
      (st.impl.live_intervals i).is_live_on_entry := by
  unfold build_def
  simp only
  split
  · rename_i d _
    split
    · simp only [memory_coloring_impl.set_interval]
      by_cases hid : i = d
      · subst hid
        rw [Function.update_same]
      · rw [Function.update_noteq hid]
    · rfl
  · rfl

theorem entry_inv_instr (h : helpers) (p : List instruction) (k : Nat) (cur_points : Int)
    (st : build_state) (hwf : ∀ i < p.length, ∀ a ∈ (instr p i).inputs, a < i)
    (hi : entry_inv h p (k + 1) st.impl) :
    entry_inv h p k (build_instr h p k cur_points st).impl := by
  intro I hkI hI P hP hparam d hd
  have hIin : I ∉ (instr p k).inputs := fun hm => by
    have hk := instr_inputs_lt p k I hm
    have := hwf k hk I hm
    omega
  rw [build_instr_other h p k cur_points st I hIin] at hd
  rw [build_instr_impl]
  obtain ⟨g1, g2⟩ := build_args_entry h p cur_points (h.get_input_tie_ndx p (instr p k))
    (build_def h p k cur_points st).1 d (instr p k).inputs 0
    (build_def h p k cur_points st).2
  by_cases hIk : I = k
  · subst hIk
    exact g2 P hP hparam (by rw [build_def_fst]; exact hd)
  · apply g1
    rw [build_def_entry]
    exact hi I (by omega) hI P hP hparam d hd

theorem entry_inv_loop (h : helpers) (p : List instruction)
    (hwf : ∀ i < p.length, ∀ a ∈ (instr p i).inputs, a < i) :
    ∀ (k : Nat) (cur_points : Int) (st : build_state), entry_inv h p k st.impl →
      entry_inv h p 0 (build_loop h p k cur_points st).impl := by
  intro k
  induction k with
  | zero => intro _ st hi; exact hi
  | succ k ih =>
    intro cur_points st hi
    simp only [build_loop]
    exact ih _ _ (entry_inv_instr h p k cur_points st hwf hi)

theorem build_entry (h : helpers) (p : List instruction) (unify : Bool)
    (hwf : ∀ i < p.length, ∀ a ∈ (instr p i).inputs, a < i) :
    entry_inv h p 0 (build h p (memory_coloring_impl.init unify)) := by
  unfold build build_trace
  split
  · intro I _ hI
    omega
  · apply entry_inv_loop h p hwf
    intro I hkI hI
    omega

/-! ## Finalized intervals are queued -/

theorem queued_inv_arg (h : helpers) (p : List instruction) (cur_points tie_ndx : Int)
    (def_interval : Option Nat) (st : build_state) (cnt : Int) (arg : Nat)
    (hi : queued_inv st.impl) :
    queued_inv (build_arg h p cur_points tie_ndx def_interval st cnt arg).impl := by
  intro d hb hl
  obtain ⟨f1, _, f3, _, _⟩ := build_arg_fields h p cur_points tie_ndx def_interval st cnt arg d
  rw [f1] at hb
  rw [f3, build_arg_unify] at hl
  rw [build_arg_queue]
  exact hi d hb hl

theorem queued_inv_args (h : helpers) (p : List instruction) (cur_points tie_ndx : Int)
    (def_interval : Option Nat) :
    ∀ (args : List Nat) (cnt : Int) (st : build_state), queued_inv st.impl →
      queued_inv (build_args h p cur_points tie_ndx def_interval args cnt st).impl := by
  intro args
  induction args with
  | nil => intro _ _ hi; exact hi
  | cons arg rest ih =>
    intro cnt st hi
    simp only [build_args]
    exact ih (cnt + 1) _ (queued_inv_arg h p cur_points tie_ndx def_interval st cnt arg hi)

theorem queued_inv_def (h : helpers) (p : List instruction) (iter : Nat) (cur_points : Int)
    (st : build_state) (hi : queued_inv st.impl) :
    queued_inv (build_def h p iter cur_points st).2.impl := by
  by_cases hcase : ∃ d0, st.impl.instr2_live iter = some d0 ∧
      (h.is_allocate (instr p iter) || h.is_literal (instr p iter)) = true
  · obtain ⟨d0, hd0, hf⟩ := hcase
    obtain ⟨_, _, _, f4, f5, f6, f7⟩ := build_def_final h p iter cur_points st d0 hd0 hf
    intro d hb hl
    rw [f5]
    by_cases hdd : d = d0
    · subst hdd
      rw [f4, f7] at hl
      rw [if_pos hl]
      simp
    · rw [f6 d hdd] at hb hl
      rw [f7] at hl
      have := hi d hb hl
      split
      · exact List.mem_append_left _ this
      · exact this
  · have hn : ∀ d0, st.impl.instr2_live iter = some d0 →
        (h.is_allocate (instr p iter) || h.is_literal (instr p iter)) = false := by
      intro d0 hd0
      by_contra hne
      exact hcase ⟨d0, hd0, (Bool.not_eq_false _).mp hne⟩
    rw [build_def_not_final h p iter cur_points st hn]
    exact hi

theorem queued_inv_loop (h : helpers) (p : List instruction) :
    ∀ (k : Nat) (cur_points : Int) (st : build_state), queued_inv st.impl →
      queued_inv (build_loop h p k cur_points st).impl := by
  intro k
  induction k with
  | zero => intro _ st hi; exact hi
  | succ k ih =>
    intro cur_points st hi
    simp only [build_loop]
    apply ih
    rw [build_instr_impl]
    exact queued_inv_args h p cur_points _ _ _ 0 _ (queued_inv_def h p k cur_points st hi)

theorem build_queued (h : helpers) (p : List instruction) (unify : Bool) :
    queued_inv (build h p (memory_coloring_impl.init unify)) := by
  have h0 : queued_inv (build_state.init (memory_coloring_impl.init unify)).impl := by
    intro d hb
    exact absurd rfl hb
  unfold build build_trace
  split
  · exact h0
  · exact queued_inv_loop h p _ _ _ h0

theorem run_rewrite_assert (h : helpers) (o : conflict_order) (a : alloc_order)
    (unify : Bool) (p : List instruction) (s : memory_coloring_impl)
    (hrun : run h o a unify p = some s) (d : Nat)
    (hb : (s.live_intervals d).segment.begin ≠ invalid_offset)
    (hl : (!s.unify_literals && (s.live_intervals d).is_literal) = false) :
    (s.live_intervals d).segment.offset ≠ invalid_offset ∨
      (s.live_intervals d).result.bytes = 0 := by
  obtain ⟨r1, _, r3⟩ := run_offsets h o a unify p s hrun
  obtain ⟨g1, g2, g3, _⟩ := r1.2.2.2.2 d
  have hq : d ∈ (build h p (memory_coloring_impl.init unify)).alloc_queue := by
    apply build_queued h p unify d
    · rw [← g1]
      exact hb
    · rw [← g2, ← r1.2.1]
      cases hx : (s.live_intervals d).is_literal <;> cases hy : s.unify_literals <;>
        simp_all
  by_cases hbytes : (s.live_intervals d).result.bytes = 0
  · exact Or.inr hbytes
  · left
    have := r3 d hq (by rw [← g3]; exact hbytes)
    unfold memory_coloring_impl.range at this
    unfold invalid_offset
    omega

/-! ## Ids, value numbers and the live set -/

theorem ids_inv_update (s : memory_coloring_impl) (d : Nat) (v : live_interval)
    (hi : ids_inv s) (hid : v.id = (s.live_intervals d).id)
    (hvn : v.segment.vn = (s.live_intervals d).segment.vn) :
    ids_inv (s.set_interval d v) := by
  refine ⟨hi.1, ?_⟩
  intro i hlt
  simp only [memory_coloring_impl.set_interval]
  by_cases hid' : i = d
  · subst hid'
    rw [Function.update_same, hid, hvn]
    exact hi.2 i hlt
  · rw [Function.update_noteq hid']
    exact hi.2 i hlt

theorem ids_inv_arg (h : helpers) (p : List instruction) (cur_points tie_ndx : Int)
    (def_interval : Option Nat) (st : build_state) (cnt : Int) (arg : Nat)
    (hi : ids_inv st.impl) :
    ids_inv (build_arg h p cur_points tie_ndx def_interval st cnt arg).impl := by
  unfold build_arg
  simp only
  split
  · split
    · split <;> exact ids_inv_update _ _ _ hi rfl rfl
    · split <;> exact hi
  · split
    · rename_i d _
      exact ⟨hi.1, (ids_inv_update st.impl d
        ((st.impl.live_intervals d).add_use cur_points) hi rfl rfl).2⟩
    · split
      · refine ⟨?_, ?_⟩
        · simp only [memory_coloring_impl.set_interval]
          rw [hi.1]
          push_cast
          ring
        · intro i hlt
          simp only [memory_coloring_impl.set_interval] at hlt ⊢
          by_cases hid : i = st.impl.num_of_lives
          · subst hid
            rw [Function.update_same]
            simp only [live_interval.add_use]
            refine ⟨trivial, ?_⟩
            rw [hi.1]
            ring
          · rw [Function.update_noteq hid]
            exact hi.2 i (by omega)
      · exact ids_inv_update _ _ _ hi rfl rfl

theorem ids_inv_args (h : helpers) (p : List instruction) (cur_points tie_ndx : Int)
    (def_interval : Option Nat) :
    ∀ (args : List Nat) (cnt : Int) (st : build_state), ids_inv st.impl →
      ids_inv (build_args h p cur_points tie_ndx def_interval args cnt st).impl := by
  intro args
  induction args with
  | nil => intro _ _ hi; exact hi
  | cons arg rest ih =>
    intro cnt st hi
    simp only [build_args]
    exact ih (cnt + 1) _ (ids_inv_arg h p cur_points tie_ndx def_interval st cnt arg hi)

theorem ids_inv_def (h : helpers) (p : List instruction) (iter : Nat) (cur_points : Int)
    (st : build_state) (hi : ids_inv st.impl) :
    ids_inv (build_def h p iter cur_points st).2.impl := by
  unfold build_def
  simp only
  split
  · rename_i d _
    split
    · refine ⟨hi.1, ?_⟩
      intro i hlt
      simp only [memory_coloring_impl.set_interval]
      by_cases hid : i = d
      · subst hid
        rw [Function.update_same]
        exact hi.2 i hlt
      · rw [Function.update_noteq hid]
        exact hi.2 i hlt
    · exact hi
  · exact hi

theorem ids_inv_instr (h : helpers) (p : List instruction) (iter : Nat) (cur_points : Int)
    (st : build_state) (hi : ids_inv st.impl) :
    ids_inv (build_instr h p iter cur_points st).impl := by
  rw [build_instr_impl]
  exact ids_inv_args h p cur_points _ _ _ 0 _ (ids_inv_def h p iter cur_points st hi)

theorem ids_inv_loop (h : helpers) (p : List instruction) :
    ∀ (k : Nat) (cur_points : Int) (st : build_state), ids_inv st.impl →
      ids_inv (build_loop h p k cur_points st).impl := by
  intro k
  induction k with
  | zero => intro _ st hi; exact hi
  | succ k ih =>
    intro cur_points st hi
    simp only [build_loop]
    exact ih _ _ (ids_inv_instr h p k cur_points st hi)

theorem ids_inv_init (unify : Bool) :
    ids_inv (build_state.init (memory_coloring_impl.init unify)).impl :=
  ⟨rfl, fun i hi => absurd hi (Nat.not_lt_zero i)⟩

theorem build_ids (h : helpers) (p : List instruction) (unify : Bool) :
    ids_inv (build h p (memory_coloring_impl.init unify)) := by
  unfold build build_trace
  split
  · exact ids_inv_init unify
  · exact ids_inv_loop h p _ _ _ (ids_inv_init unify)

theorem live_args_keep (k : Nat) (tie_ndx : Int) (def_interval : Option Nat) (cnt : Int)
    (st st' : build_state) (hi : live_args k tie_ndx def_interval cnt st)
    (h1 : st'.impl.instr2_live = st.impl.instr2_live)
    (h2 : ∀ i, (st'.impl.live_intervals i).segment.vn = (st.impl.live_intervals i).segment.vn)
    (h3 : st'.live_set = st.live_set) :
    live_args k tie_ndx def_interval (cnt + 1) st' := by
  constructor
  · intro j hj d hd
    rw [h1] at hd
    rw [h2, h3]
    exact hi.1 j hj d hd
  · intro d hd hc
    rw [h2, h3]
    exact hi.2 d hd (by omega)

theorem update_vn (f : Nat → live_interval) (d : Nat) (v : live_interval)
    (hv : v.segment.vn = (f d).segment.vn) (i : Nat) :
    (Function.update f d v i).segment.vn = (f i).segment.vn := by
  by_cases hid : i = d
  · subst hid
    rw [Function.update_same, hv]
  · rw [Function.update_noteq hid]

theorem live_args_arg (h : helpers) (p : List instruction) (cur_points tie_ndx : Int)
    (def_interval : Option Nat) (st : build_state) (cnt : Int) (arg k : Nat)
    (hb : build_inv st) (hids : ids_inv st.impl)
    (hdef : ∀ d, def_interval = some d → d < st.impl.num_of_lives)
    (harg : arg < k) (hi : live_args k tie_ndx def_interval cnt st) :
    live_args k tie_ndx def_interval (cnt + 1)
      (build_arg h p cur_points tie_ndx def_interval st cnt arg) ∧
    build_arg_assert h p cur_points tie_ndx def_interval st cnt arg = true := by
  unfold build_arg build_arg_assert
  simp only
  split
  · refine ⟨?_, rfl⟩
    split
    · rename_i d
      split
      · exact live_args_keep k tie_ndx _ cnt st _ hi rfl
          (fun i => update_vn st.impl.live_intervals d
            { st.impl.live_intervals d with is_live_on_entry := true } rfl i) rfl
      · exact live_args_keep k tie_ndx _ cnt st _ hi rfl
          (fun i => update_vn st.impl.live_intervals d
            { st.impl.live_intervals d with is_live_on_entry := true } rfl i) rfl
    · split
      · exact live_args_keep k tie_ndx _ cnt st _ hi rfl (fun _ => rfl) rfl
      · exact live_args_keep k tie_ndx _ cnt st _ hi rfl (fun _ => rfl) rfl
  · split
    · rename_i d htie
      obtain ⟨hc, hd⟩ := tie_eq_some htie
      have hlive := hi.2 d hd (le_of_eq hc)
      refine ⟨⟨?_, ?_⟩, rfl⟩
      · intro j hj d' hd'
        simp only [memory_coloring_impl.set_interval] at hd' ⊢
        rw [update_vn st.impl.live_intervals d
          ((st.impl.live_intervals d).add_use cur_points) rfl d']
        by_cases hja : j = arg
        · subst hja
          rw [Function.update_same] at hd'
          simp only [Option.some.injEq] at hd'
          subst hd'
          exact hlive
        · rw [Function.update_noteq hja] at hd'
          exact hi.1 j hj d' hd'
      · intro d' _ hc'
        omega
    · split
      · refine ⟨⟨?_, ?_⟩, rfl⟩
        · intro j hj d' hd'
          simp only [memory_coloring_impl.set_interval] at hd' ⊢
          rw [mem_set_insert]
          by_cases hja : j = arg
          · subst hja
            rw [Function.update_same] at hd'
            simp only [Option.some.injEq] at hd'
            subst hd'
            left
            rw [Function.update_same]
            rfl
          · rw [Function.update_noteq hja] at hd'
            have hlt := hb.held_lt j d' hd'
            right
            rw [Function.update_noteq (by omega)]
            exact hi.1 j hj d' hd'
        · intro d hd hc
          simp only [memory_coloring_impl.set_interval]
          rw [mem_set_insert]
          right
          have hlt := hdef d hd
          rw [Function.update_noteq (by omega)]
          exact hi.2 d hd (by omega)
      · rename_i interval hheld
        refine ⟨?_, ?_⟩
        · exact live_args_keep k tie_ndx _ cnt st _ hi rfl
            (fun i => update_vn st.impl.live_intervals interval
              ((st.impl.live_intervals interval).add_use cur_points) rfl i) rfl
        · have hlt := hb.held_lt arg interval hheld
          have h1 := hi.1 arg harg interval hheld
          obtain ⟨e1, e2⟩ := hids.2 interval hlt
          apply decide_eq_true
          simp only [live_interval.add_use]
          rw [e1, ← e2]
          exact h1

theorem live_args_args (h : helpers) (p : List instruction) (cur_points tie_ndx : Int)
    (def_interval : Option Nat) (k : Nat) :
    ∀ (args : List Nat) (cnt : Int) (st : build_state), build_inv st → ids_inv st.impl →
      (∀ d, def_interval = some d → d < st.impl.num_of_lives) →
      (∀ a ∈ args, a < k) → live_args k tie_ndx def_interval cnt st →
      live_inv k (build_args h p cur_points tie_ndx def_interval args cnt st) ∧
      build_args_assert h p cur_points tie_ndx def_interval args cnt st = true := by
  intro args
  induction args with
  | nil => intro cnt st _ _ _ _ hi; exact ⟨hi.1, rfl⟩
  | cons arg rest ih =>
    intro cnt st hb hids hdef hlt hi
    obtain ⟨h1, h2⟩ := build_inv_arg h p cur_points tie_ndx def_interval st cnt arg hb hdef
    obtain ⟨g1, g2⟩ := live_args_arg h p cur_points tie_ndx def_interval st cnt arg k hb hids
      hdef (hlt arg (List.mem_cons_self _ _)) hi
    obtain ⟨f1, f2⟩ := ih (cnt + 1) _ h1
      (ids_inv_arg h p cur_points tie_ndx def_interval st cnt arg hids)
      (fun d hd => lt_of_lt_of_le (hdef d hd) h2)
      (fun a ha => hlt a (List.mem_cons_of_mem _ ha)) g1
    refine ⟨f1, ?_⟩
    simp only [build_args_assert, g2, f2, Bool.and_self]

theorem live_args_def (h : helpers) (p : List instruction) (k : Nat) (cur_points tie_ndx : Int)
    (st : build_state) (hb : build_inv st) (hids : ids_inv st.impl)
    (htie : (h.is_allocate (instr p k) || h.is_literal (instr p k)) = true → tie_ndx < 0)
    (hh : holder_inv (k + 1) st.impl) (hi : live_inv (k + 1) st) :
    live_args k tie_ndx (build_def h p k cur_points st).1 0
      (build_def h p k cur_points st).2 := by
  unfold build_def
  simp only
  split
  · rename_i d hd
    split
    · rename_i hfin
      have ht := htie hfin
      refine ⟨?_, fun d' _ hc => by omega⟩
      intro j hj d' hd'
      simp only [memory_coloring_impl.set_interval] at hd' ⊢
      rw [mem_set_erase]
      have hvn : ∀ i, (Function.update st.impl.live_intervals d
          { st.impl.live_intervals d with
            result := (instr p k).result, is_literal := h.is_literal (instr p k),
            def_point := cur_points,
            segment := { (st.impl.live_intervals d).segment with
              begin := cur_points, size := (instr p k).result.bytes } } i).segment.vn =
          (st.impl.live_intervals i).segment.vn := by
        intro i
        by_cases hid : i = d
        · subst hid
          rw [Function.update_same]
        · rw [Function.update_noteq hid]
      rw [hvn d']
      refine ⟨hi j (by omega) d' hd', ?_⟩
      have hne : d' ≠ d := by
        intro he
        subst he
        have := hh.unique j (by omega) k (by omega) d' hd' hd
        omega
      rw [(hids.2 d' (hb.held_lt j d' hd')).2, (hids.2 d (hb.held_lt k d hd)).2]
      intro he
      exact hne (by exact_mod_cast he)
    · refine ⟨fun j hj d' hd' => hi j (by omega) d' hd', ?_⟩
      intro d' hd' _
      simp only [Option.some.injEq] at hd'
      subst hd'
      exact hi k (by omega) d hd
  · refine ⟨fun j hj d' hd' => hi j (by omega) d' hd', ?_⟩
    intro d' hd' _
    exact absurd hd' (by simp)

theorem live_inv_instr (h : helpers) (p : List instruction) (k : Nat) (cur_points : Int)
    (st : build_state) (hb : build_inv st) (hids : ids_inv st.impl)
    (hwf : ∀ a ∈ (instr p k).inputs, a < k)
    (htie : (h.is_allocate (instr p k) || h.is_literal (instr p k)) = true →
      h.get_input_tie_ndx p (instr p k) < 0)
    (hh : holder_inv (k + 1) st.impl) (hi : live_inv (k + 1) st) :
    live_inv k (build_instr h p k cur_points st) ∧
    build_instr_assert h p k cur_points st = true := by
  obtain ⟨h1, h2, h3⟩ := build_inv_def h p k cur_points st hb
  obtain ⟨g1, g2⟩ := live_args_args h p cur_points (h.get_input_tie_ndx p (instr p k))
    (build_def h p k cur_points st).1 k (instr p k).inputs 0 _ h1
    (ids_inv_def h p k cur_points st hids)
    (fun d hd => by rw [h3]; exact hb.held_lt k d (by rw [← h2]; exact hd)) hwf
    (live_args_def h p k cur_points _ st hb hids htie hh hi)
  refine ⟨?_, g2⟩
  unfold build_instr
  simp only
  split
  · exact g1
  · exact g1

theorem live_inv_loop (h : helpers) (p : List instruction)
    (hwf : ∀ i < p.length, ∀ a ∈ (instr p i).inputs, a < i)
    (htie : ∀ i < p.length, (h.is_allocate (instr p i) || h.is_literal (instr p i)) = true →
      h.get_input_tie_ndx p (instr p i) < 0) :
    ∀ (k : Nat) (cur_points : Int) (st : build_state), k ≤ p.length → build_inv st →
      ids_inv st.impl → holder_inv k st.impl → live_inv k st →
      build_loop_assert h p k cur_points st = true := by
  intro k
  induction k with
  | zero => intro _ _ _ _ _ _ _; rfl
  | succ k ih =>
    intro cur_points st hk hb hids hh hi
    obtain ⟨g1, g2⟩ := live_inv_instr h p k cur_points st hb hids (hwf k (by omega))
      (htie k (by omega)) hh hi
    have := ih (cur_points - 2) (build_instr h p k cur_points st) (by omega)
      (build_inv_instr h p k cur_points st hb) (ids_inv_instr h p k cur_points st hids)
      (holder_inv_instr h p k cur_points st hb (hwf k (by omega)) (htie k (by omega)) hh) g1
    simp only [build_loop_assert, g2, this, Bool.and_self]

theorem build_assert_true (h : helpers) (p : List instruction) (unify : Bool)
    (hwf : ∀ i < p.length, ∀ a ∈ (instr p i).inputs, a < i)
    (htie : ∀ i < p.length, (h.is_allocate (instr p i) || h.is_literal (instr p i)) = true →
      h.get_input_tie_ndx p (instr p i) < 0) :
    build_assert h p (memory_coloring_impl.init unify) = true := by
  unfold build_assert
  split
  · rfl
  · refine live_inv_loop h p hwf htie _ _ _ (le_refl _) (build_inv_init unify)
      (ids_inv_init unify) ?_ ?_
    · refine ⟨?_, ?_, ?_⟩ <;> simp [build_state.init, memory_coloring_impl.init]
    · intro j _ d hd
      simp [build_state.init, memory_coloring_impl.init] at hd

/-! ## Offsets are assigned once -/

theorem allocate_all_append (o : conflict_order) :
    ∀ (l1 l2 : List Nat) (s : memory_coloring_impl),
      allocate_all o (l1 ++ l2) s = (allocate_all o l1 s).bind (allocate_all o l2) := by
  intro l1
  induction l1 with
  | nil => intro l2 s; rfl
  | cons x l1 ih =>
    intro l2 s
    simp only [List.cons_append, allocate_all]
    cases hx : allocate o s x with
    | none => rfl
    | some r =>
      simp only [Option.some_bind]
      exact ih l2 r.2

theorem run_allocate_all (h : helpers) (o : conflict_order) (a : alloc_order) (unify : Bool)
    (p : List instruction) (s : memory_coloring_impl) (hrun : run h o a unify p = some s) :
    ∃ r, allocate_all o
        (a.pop (build h p (memory_coloring_impl.init unify))
          (build h p (memory_coloring_impl.init unify)).alloc_queue)
        (build h p (memory_coloring_impl.init unify)) = some r ∧
      ∀ i, s.range i = r.range i := by
  unfold run at hrun
  simp only at hrun
  split at hrun
  · obtain ⟨r, hr, hs⟩ := Option.map_eq_some'.mp hrun
    subst hs
    exact ⟨r, hr, fun _ => rfl⟩
  · rename_i hn
    simp only [Option.some.injEq] at hrun
    subst hrun
    have hb := build_inv_trace h p unify
    have hq : (build h p (memory_coloring_impl.init unify)).alloc_queue = [] := by
      apply List.eq_nil_iff_forall_not_mem.mpr
      intro d hd
      have := hb.queue_lt d hd
      rw [build_trace_impl] at this
      omega
    rw [hq]
    have hperm := a.perm (build h p (memory_coloring_impl.init unify)) []
    rw [List.Perm.eq_nil hperm]
    exact ⟨_, rfl, fun _ => rfl⟩

theorem allocate_all_final (o : conflict_order) (l : List Nat) (s s' sn : memory_coloring_impl)
    (n : Nat) (hnd : l.Nodup) (hun : ∀ i, (s.range i).offset = invalid_offset)
    (hall : allocate_all o l s = some s') (hpre : allocate_all o (l.take n) s = some sn)
    (i : Nat) (hi : (sn.range i).offset ≠ invalid_offset) :
    (s'.range i).offset = (sn.range i).offset := by
  have hsplit : allocate_all o (l.take n ++ l.drop n) s = some s' := by
    rw [List.take_append_drop]
    exact hall
  rw [allocate_all_append, hpre] at hsplit
  simp only [Option.some_bind] at hsplit
  have hmem : i ∈ l.take n := by
    by_contra hnot
    rw [(allocate_all_offsets o _ _ sn hpre).2.1 i hnot] at hi
    exact hi (hun i)
  have hnot : i ∉ l.drop n := by
    intro hd
    have hdis : List.Disjoint (l.take n) (l.drop n) := by
      have := hnd
      rw [← List.take_append_drop n l, List.nodup_append] at this
      exact this.2.2
    exact hdis hmem hd
  rw [(allocate_all_offsets o _ _ s' hsplit).2.1 i hnot]

/-! ## The earliest end point -/

theorem ends_inv_keep (cur : Int) (s s' : memory_coloring_impl) (hi : ends_inv cur s)
    (hnum : s'.num_of_lives = s.num_of_lives)
    (he : s'.earliest_end_point = s.earliest_end_point)
    (hend : ∀ i, (s'.live_intervals i).segment.end_ = (s.live_intervals i).segment.end_)
    (huse : ∀ i, (s'.live_intervals i).use_points = (s.live_intervals i).use_points ∨
      (s'.live_intervals i).use_points = cur :: (s.live_intervals i).use_points) :
    ends_inv cur s' := by
  obtain ⟨a1, a2⟩ := hi
  constructor
  · intro i hlt
    rw [hnum] at hlt
    obtain ⟨b1, b2, b3⟩ := a1 i hlt
    rw [he, hend]
    refine ⟨b1, ?_, ?_⟩
    · rcases huse i with hu | hu
      · rw [hu]; exact b2
      · rw [hu]; exact List.mem_cons_of_mem _ b2
    · rcases huse i with hu | hu
      · rw [hu]; exact b3
      · rw [hu]
        intro u hu'
        rcases List.mem_cons.mp hu' with hu' | hu'
        · rw [hu']
          exact le_trans (a2 (by omega)).1 b1
        · exact b3 u hu'
  · intro hpos
    rw [hnum] at hpos
    obtain ⟨c1, i, hi1, hi2⟩ := a2 hpos
    rw [he, hnum]
    exact ⟨c1, i, hi1, by rw [hend]; exact hi2⟩

theorem update_end (f : Nat → live_interval) (d : Nat) (v : live_interval)
    (hv : v.segment.end_ = (f d).segment.end_) (i : Nat) :
    (Function.update f d v i).segment.end_ = (f i).segment.end_ := by
  by_cases hid : i = d
  · subst hid
    rw [Function.update_same, hv]
  · rw [Function.update_noteq hid]

theorem update_use (f : Nat → live_interval) (d : Nat) (v : live_interval) (cur : Int)
    (hv : v.use_points = (f d).use_points ∨ v.use_points = cur :: (f d).use_points)
    (i : Nat) :
    (Function.update f d v i).use_points = (f i).use_points ∨
      (Function.update f d v i).use_points = cur :: (f i).use_points := by
  by_cases hid : i = d
  · subst hid
    rw [Function.update_same]
    exact hv
  · rw [Function.update_noteq hid]
    exact Or.inl rfl

theorem ends_inv_arg (h : helpers) (p : List instruction) (cur_points tie_ndx : Int)
    (def_interval : Option Nat) (st : build_state) (cnt : Int) (arg : Nat)
    (hb : build_inv st) (hi : ends_inv cur_points st.impl) :
    ends_inv cur_points (build_arg h p cur_points tie_ndx def_interval st cnt arg).impl := by
  unfold build_arg
  simp only
  split
  · split
    · rename_i d
      split
      · exact ends_inv_keep cur_points st.impl _ hi rfl rfl
          (fun i => update_end st.impl.live_intervals d
            { st.impl.live_intervals d with is_live_on_entry := true } rfl i)
          (fun i => update_use st.impl.live_intervals d
            { st.impl.live_intervals d with is_live_on_entry := true } cur_points
            (Or.inl rfl) i)
      · exact ends_inv_keep cur_points st.impl _ hi rfl rfl
          (fun i => update_end st.impl.live_intervals d
            { st.impl.live_intervals d with is_live_on_entry := true } rfl i)
          (fun i => update_use st.impl.live_intervals d
            { st.impl.live_intervals d with is_live_on_entry := true } cur_points
            (Or.inl rfl) i)
    · split <;> exact hi
  · split
    · rename_i d _
      exact ends_inv_keep cur_points st.impl _ hi rfl rfl
        (fun i => update_end st.impl.live_intervals d
          ((st.impl.live_intervals d).add_use cur_points) rfl i)
        (fun i => update_use st.impl.live_intervals d
          ((st.impl.live_intervals d).add_use cur_points) cur_points (Or.inr rfl) i)
    · split
      · obtain ⟨a1, a2⟩ := hi
        have hfresh := hb.fresh st.impl.num_of_lives (le_refl _)
        constructor
        · intro i hlt
          simp only [memory_coloring_impl.set_interval] at hlt ⊢
          by_cases hid : i = st.impl.num_of_lives
          · subst hid
            rw [Function.update_same]
            simp only [live_interval.add_use, hfresh, live_interval.init]
            refine ⟨le_refl _, List.mem_cons_self _ _, ?_⟩
            intro u hu
            simp only [List.mem_cons, List.not_mem_nil, or_false] at hu
            rw [hu]
          · rw [Function.update_noteq hid]
            have hlt' : i < st.impl.num_of_lives := by omega
            obtain ⟨b1, b2, b3⟩ := a1 i hlt'
            exact ⟨le_trans (a2 (by omega)).1 b1, b2, b3⟩
        · intro _
          simp only [memory_coloring_impl.set_interval]
          refine ⟨le_refl _, st.impl.num_of_lives, Nat.lt_succ_self _, ?_⟩
          rw [Function.update_same]
          rfl
      · rename_i d _
        exact ends_inv_keep cur_points st.impl _ hi rfl rfl
          (fun i => update_end st.impl.live_intervals d
            ((st.impl.live_intervals d).add_use cur_points) rfl i)
          (fun i => update_use st.impl.live_intervals d
            ((st.impl.live_intervals d).add_use cur_points) cur_points (Or.inr rfl) i)

theorem ends_inv_args (h : helpers) (p : List instruction) (cur_points tie_ndx : Int)
    (def_interval : Option Nat) :
    ∀ (args : List Nat) (cnt : Int) (st : build_state), build_inv st →
      (∀ d, def_interval = some d → d < st.impl.num_of_lives) →
      ends_inv cur_points st.impl →
      ends_inv cur_points
        (build_args h p cur_points tie_ndx def_interval args cnt st).impl := by
  intro args
  induction args with
  | nil => intro _ _ _ _ hi; exact hi
  | cons arg rest ih =>
    intro cnt st hb hdef hi
    obtain ⟨h1, h2⟩ := build_inv_arg h p cur_points tie_ndx def_interval st cnt arg hb hdef
    exact ih (cnt + 1) _ h1 (fun d hd => lt_of_lt_of_le (hdef d hd) h2)
      (ends_inv_arg h p cur_points tie_ndx def_interval st cnt arg hb hi)

theorem build_def_earliest (h : helpers) (p : List instruction) (iter : Nat)
    (cur_points : Int) (st : build_state) :
    (build_def h p iter cur_points st).2.impl.earliest_end_point =
      st.impl.earliest_end_point := by
  unfold build_def
  simp only
  split
  · split <;> rfl
  · rfl

theorem ends_inv_instr (h : helpers) (p : List instruction) (iter : Nat) (cur_points : Int)
    (st : build_state) (hb : build_inv st) (hi : ends_inv cur_points st.impl) :
    ends_inv cur_points (build_instr h p iter cur_points st).impl := by
  rw [build_instr_impl]
  obtain ⟨h1, h2, h3⟩ := build_inv_def h p iter cur_points st hb
  apply ends_inv_args h p cur_points _ _ _ 0 _ h1
    (fun d hd => by rw [h3]; exact hb.held_lt iter d (by rw [← h2]; exact hd))
  exact ends_inv_keep cur_points st.impl _ hi (build_def_num h p iter cur_points st)
    (build_def_earliest h p iter cur_points st)
    (fun i => (build_def_fields h p iter cur_points st i).1)
    (fun i => Or.inl (build_def_fields h p iter cur_points st i).2.1)

theorem ends_inv_mono (cur cur' : Int) (s : memory_coloring_impl) (hc : cur' ≤ cur)
    (hi : ends_inv cur s) : ends_inv cur' s :=
  ⟨hi.1, fun hpos => ⟨le_trans hc (hi.2 hpos).1, (hi.2 hpos).2⟩⟩

theorem ends_inv_loop (h : helpers) (p : List instruction) :
    ∀ (k : Nat) (cur_points : Int) (st : build_state), build_inv st →
      ends_inv cur_points st.impl →
      ∃ c, ends_inv c (build_loop h p k cur_points st).impl := by
  intro k
  induction k with
  | zero => intro c st _ hi; exact ⟨c, hi⟩
  | succ k ih =>
    intro cur_points st hb hi
    simp only [build_loop]
    exact ih _ _ (build_inv_instr h p k cur_points st hb)
      (ends_inv_mono cur_points _ _ (by omega) (ends_inv_instr h p k cur_points st hb hi))

theorem build_ends (h : helpers) (p : List instruction) (unify : Bool) :
    ∃ c, ends_inv c (build h p (memory_coloring_impl.init unify)) := by
  have h0 : ∀ c, ends_inv c (build_state.init (memory_coloring_impl.init unify)).impl :=
    fun c => ⟨fun i hi => absurd hi (Nat.not_lt_zero i), fun hpos => absurd hpos (lt_irrefl 0)⟩
  unfold build build_trace
  split
  · exact ⟨0, h0 0⟩
  · exact ends_inv_loop h p _ _ _ (build_inv_init unify) (h0 _)

theorem allocate_points (o : conflict_order) (s : memory_coloring_impl) (X : Nat)
    (r : Bool × memory_coloring_impl) (h : allocate o s X = some r) (i : Nat) :
    (r.2.live_intervals i).segment.end_ = (s.live_intervals i).segment.end_ ∧
    (r.2.live_intervals i).use_points = (s.live_intervals i).use_points := by
  unfold allocate at h
  split at h
  · simp only [Option.some.injEq] at h
    subst h
    exact ⟨rfl, rfl⟩
  · obtain ⟨off, _, hr⟩ := Option.map_eq_some'.mp h
    subst hr
    unfold assign memory_coloring_impl.set_interval
    simp only
    by_cases hid : i = X
    · subst hid
      rw [Function.update_same]
      exact ⟨rfl, rfl⟩
    · rw [Function.update_noteq hid]
      exact ⟨rfl, rfl⟩

theorem allocate_all_points (o : conflict_order) :
    ∀ (l : List Nat) (s s' : memory_coloring_impl), allocate_all o l s = some s' →
      ∀ i, (s'.live_intervals i).segment.end_ = (s.live_intervals i).segment.end_ ∧
        (s'.live_intervals i).use_points = (s.live_intervals i).use_points := by
  intro l
  induction l with
  | nil =>
    intro s s' h i
    simp only [allocate_all, Option.some.injEq] at h
    subst h
    exact ⟨rfl, rfl⟩
  | cons X l ih =>
    intro s s' h i
    simp only [allocate_all] at h
    obtain ⟨r, hr, hrest⟩ := Option.bind_eq_some.mp h
    obtain ⟨g1, g2⟩ := ih r.2 s' hrest i
    obtain ⟨f1, f2⟩ := allocate_points o s X r hr i
    exact ⟨g1.trans f1, g2.trans f2⟩

theorem run_ends (h : helpers) (o : conflict_order) (a : alloc_order) (unify : Bool)
    (p : List instruction) (s : memory_coloring_impl) (hrun : run h o a unify p = some s) :
    ∃ c, ends_inv c s := by
  obtain ⟨c, hc⟩ := build_ends h p unify
  obtain ⟨_, _, r3, r4, _⟩ := (run_offsets h o a unify p s hrun).1
  have hpts : ∀ i, (s.live_intervals i).segment.end_ =
        ((build h p (memory_coloring_impl.init unify)).live_intervals i).segment.end_ ∧
      (s.live_intervals i).use_points =
        ((build h p (memory_coloring_impl.init unify)).live_intervals i).use_points := by
    unfold run at hrun
    simp only at hrun
    split at hrun
    · obtain ⟨r, hr, hs⟩ := Option.map_eq_some'.mp hrun
      subst hs
      exact allocate_all_points o _ _ r hr
    · simp only [Option.some.injEq] at hrun
      subst hrun
      exact fun _ => ⟨rfl, rfl⟩
  exact ⟨c, ends_inv_keep c _ s hc r4 r3 (fun i => (hpts i).1) (fun i => Or.inl (hpts i).2)⟩

/-! ## The allocator and the procedure of the specification -/

theorem mem_spec_neighbours (s : memory_coloring_impl) (interval r : Nat) :
    r ∈ spec_neighbours s interval ↔ placed_neighbour s interval r := by
  unfold spec_neighbours placed_neighbour
  rw [List.mem_filterMap]
  constructor
  · rintro ⟨v, hv, hr⟩
    refine ⟨v, hv, ?_⟩
    split at hr
    · rename_i r' hl
      split at hr
      · rename_i hoff
        simp only [Option.some.injEq] at hr
        subst hr
        exact ⟨hl, hoff⟩
      · exact absurd hr (by simp)
    · exact absurd hr (by simp)
  · rintro ⟨v, hv, hl, hoff⟩
    refine ⟨v, hv, ?_⟩
    rw [hl]
    simp only
    rw [if_pos hoff]

theorem keep_largest_spec (s : memory_coloring_impl) :
    ∀ q : List Nat,
      (∀ r ∈ keep_largest s q, r ∈ q) ∧
      (∀ r ∈ q, ∃ r' ∈ keep_largest s q, (s.range r').offset = (s.range r).offset ∧
        (s.range r).size ≤ (s.range r').size) ∧
      (keep_largest s q).Pairwise (fun a b => (s.range a).offset ≠ (s.range b).offset) := by
  intro q
  induction q with
  | nil =>
    exact ⟨fun r hr => absurd hr (List.not_mem_nil r), fun r hr => absurd hr (List.not_mem_nil r),
      List.Pairwise.nil⟩
  | cons x q ih =>
    obtain ⟨k1, k2, k3⟩ := ih
    simp only [keep_largest]
    split
    · rename_i hany
      rw [List.any_eq_true] at hany
      obtain ⟨r', hr', hc⟩ := hany
      simp only [decide_eq_true_eq] at hc
      refine ⟨fun r hr => List.mem_cons_of_mem _ (k1 r hr), ?_, k3⟩
      intro r hr
      rcases List.mem_cons.mp hr with hr | hr
      · subst hr
        exact ⟨r', hr', hc.1, hc.2⟩
      · exact k2 r hr
    · rename_i hany
      have hnone : ∀ r' ∈ keep_largest s q, (s.range r').offset = (s.range x).offset →
          (s.range r').size < (s.range x).size := by
        intro r' hr' ho
        by_contra hcon
        apply hany
        rw [List.any_eq_true]
        exact ⟨r', hr', by simp only [decide_eq_true_eq]; exact ⟨ho, by omega⟩⟩
      refine ⟨?_, ?_, ?_⟩
      · intro r hr
        rcases List.mem_cons.mp hr with hr | hr
        · subst hr
          exact List.mem_cons_self _ _
        · exact List.mem_cons_of_mem _ (k1 r (List.mem_filter.mp hr).1)
      · intro r hr
        rcases List.mem_cons.mp hr with hr | hr
        · subst hr
          exact ⟨r, List.mem_cons_self _ _, rfl, le_refl _⟩
        · obtain ⟨r', hr', ho, hsz⟩ := k2 r hr
          by_cases hox : (s.range r').offset = (s.range x).offset
          · refine ⟨x, List.mem_cons_self _ _, by rw [← ho, hox], ?_⟩
            have := hnone r' hr' hox
            omega
          · refine ⟨r', List.mem_cons_of_mem _ (List.mem_filter.mpr ⟨hr', ?_⟩), ho, hsz⟩
            simp only [decide_eq_true_eq]
            exact hox
      · rw [List.pairwise_cons]
        refine ⟨?_, k3.filter _⟩
        intro r' hr'
        have := (List.mem_filter.mp hr').2
        simp only [decide_eq_true_eq] at this
        exact fun he => this he.symm

theorem find_of_pairwise (key : Nat → Int) :
    ∀ (K : List Nat) (r : Nat), K.Pairwise (fun a b => key a ≠ key b) → r ∈ K →
      K.find? (fun x => decide (key x = key r)) = some r := by
  intro K
  induction K with
  | nil => intro r _ hr; exact absurd hr (List.not_mem_nil r)
  | cons x K ih =>
    intro r hp hr
    rw [List.pairwise_cons] at hp
    by_cases hxr : x = r
    · subst hxr
      simp [List.find?]
    · rcases List.mem_cons.mp hr with hr | hr
      · exact absurd hr.symm hxr
      · have hne : key x ≠ key r := hp.1 r hr
        rw [List.find?_cons_of_neg _ (by simpa using hne)]
        exact ih r hp.2 hr

theorem spec_scan_rounded_eq (s : memory_coloring_impl) (m : Int → Option Nat)
    (size es : Nat) :
    ∀ (R : List Nat) (c : Int), (∀ r ∈ R, m (s.range r).offset = some r) →
      spec_scan_rounded s size es R c = scan s m size es R c := by
  intro R
  induction R with
  | nil => intro c _; rfl
  | cons r rest ih =>
    intro c hm
    have hrest : spec_scan_rounded s size es rest = scan s m size es rest :=
      funext (fun c' => ih c' (fun x hx => hm x (List.mem_cons_of_mem _ hx)))
    have hr := hm r (List.mem_cons_self _ _)
    simp only [spec_scan_rounded, scan, hrest, hr, if_true]
    split_ifs <;> first
      | rfl
      | (exfalso; omega)
      | (congr 2; omega)

theorem scan_least_fit (s : memory_coloring_impl) (m : Int → Option Nat) (size es : Nat)
    (hsize : 0 < size) (R : List Nat) (off : Int)
    (hsorted : R.Pairwise (fun a b => (s.range a).offset ≤ (s.range b).offset))
    (hrep : ∀ r ∈ R, rep_ok s m R 0 r) (h : scan s m size es R 0 = some off)
    (P : Nat → Prop) (hsub : ∀ r ∈ R, P r)
    (hcover : ∀ r, P r → ∃ r' ∈ R, (s.range r').offset = (s.range r).offset ∧
      (s.range r).size ≤ (s.range r').size) :
    least_fit s P size es off := by
  obtain ⟨h0, hsafe⟩ := scan_safe s m size es R 0 off hsorted hrep h
  refine ⟨h0, scan_aligned s m size es R 0 off (dvd_zero _) h, ?_, ?_⟩
  · intro r hr
    obtain ⟨r', hr', ho, hsz⟩ := hcover r hr
    have hsz' : ((s.range r).size : Int) ≤ (s.range r').size := by exact_mod_cast hsz
    rcases hsafe r' hr' with h1 | h1
    · left; omega
    · right; omega
  · intro c hc0 hdvd hfeas
    by_contra hcon
    obtain ⟨r, hr, hbad⟩ := scan_min s m size es hsize R 0 off h c hc0 (not_le.mp hcon) hdvd
    exact hbad (hfeas r (hsub r hr))

theorem least_fit_unique (s : memory_coloring_impl) (P : Nat → Prop) (size es : Nat)
    (a b : Int) (ha : least_fit s P size es a) (hb : least_fit s P size es b) : a = b :=
  le_antisymm (ha.2.2.2 b hb.1 hb.2.1 hb.2.2.1) (hb.2.2.2 a ha.1 ha.2.1 ha.2.2.1)

theorem allocate_offset_least (o : conflict_order) (s : memory_coloring_impl) (interval : Nat)
    (off : Int) (hpos : 0 < (s.live_intervals interval).result.bytes)
    (h : allocate_offset o s interval = some off) :
    least_fit s (placed_neighbour s interval) (s.live_intervals interval).result.bytes
      ((s.live_intervals interval).result.bytes / (s.live_intervals interval).result.elements)
      off := by
  obtain ⟨h1, h2, h3, h4⟩ := allocate_offset_spec o s interval off h
  exact ⟨h1, h2, h3, h4 hpos⟩

theorem allocate_offset_kept_least (o : conflict_order) (s : memory_coloring_impl)
    (interval : Nat) (off : Int) (hpos : 0 < (s.live_intervals interval).result.bytes)
    (h : allocate_offset_kept o s interval = some off) :
    least_fit s (placed_neighbour s interval) (s.live_intervals interval).result.bytes
      ((s.live_intervals interval).result.bytes / (s.live_intervals interval).result.elements)
      off := by
  unfold allocate_offset_kept at h
  simp only at h
  split at h
  · exact absurd h (by simp)
  · split at h
    · exact absurd h (by simp)
    · rename_i q m hg
      obtain ⟨⟨hv, hc⟩, hmem⟩ := gather_spec s _ [] (fun _ => none) q m (gathered_nil s) hg
      have hperm := o.perm (fun i => (s.range i).offset)
        (q.filter (fun x => decide (m (s.range x).offset = some x)))
      have hsorted := o.sorted (fun i => (s.range i).offset)
        (q.filter (fun x => decide (m (s.range x).offset = some x)))
      have hin : ∀ r, r ∈ o.pop (fun i => (s.range i).offset)
          (q.filter (fun x => decide (m (s.range x).offset = some x))) ↔
          r ∈ q ∧ m (s.range r).offset = some r := by
        intro r
        rw [hperm.mem_iff, List.mem_filter]
        simp only [decide_eq_true_eq]
      have hq : ∀ r, r ∈ q ↔ placed_neighbour s interval r := by
        intro r
        rw [hmem r]
        simp [placed_neighbour]
      apply scan_least_fit s m _ _ hpos _ off hsorted ?_ h
      · intro r hr
        exact (hq r).mp ((hin r).mp hr).1
      · intro r hr
        obtain ⟨r', h1, h2⟩ := hc r ((hq r).mpr hr)
        obtain ⟨h3, h4⟩ := hv _ _ h1
        exact ⟨r', (hin r').mpr ⟨h3, by rw [h4]; exact h1⟩, h4, h2⟩
      · intro r hr
        exact ⟨r, ((hin r).mp hr).2, rfl, le_refl _, Or.inl hr⟩

theorem allocate_offset_kept_some (o : conflict_order) (s : memory_coloring_impl)
    (interval : Nat) (he : (s.live_intervals interval).result.elements ≠ 0)
    (hes : (s.live_intervals interval).result.bytes /
      (s.live_intervals interval).result.elements ≠ 0)
    (hl : ∀ v ∈ s.conflict_table (s.live_intervals interval).segment.vn,
      ∃ r, s.live_ranges v = some r) :
    ∃ off, allocate_offset_kept o s interval = some off := by
  unfold allocate_offset_kept
  simp only
  rw [if_neg he]
  obtain ⟨⟨q, m⟩, hg⟩ := gather_some s _ ([], fun _ => none) hl
  rw [hg]
  exact scan_some s m _ _ hes _ 0

theorem spec_offset_rounded_scan (s : memory_coloring_impl) (interval : Nat)
    (he : (s.live_intervals interval).result.elements ≠ 0) :
    spec_offset_rounded s interval =
      scan s (fun x => (keep_largest s (spec_neighbours s interval)).find?
          (fun r => decide ((s.range r).offset = x)))
        (s.live_intervals interval).result.bytes
        ((s.live_intervals interval).result.bytes / (s.live_intervals interval).result.elements)
        (insertion_order.pop (fun i => (s.range i).offset)
          (keep_largest s (spec_neighbours s interval))) 0 := by
  unfold spec_offset_rounded
  simp only
  rw [if_neg he]
  apply spec_scan_rounded_eq
  intro r hr
  have hperm := insertion_order.perm (fun i => (s.range i).offset)
    (keep_largest s (spec_neighbours s interval))
  exact find_of_pairwise (fun i => (s.range i).offset) _ r
    (keep_largest_spec s (spec_neighbours s interval)).2.2 (hperm.mem_iff.mp hr)

theorem spec_offset_rounded_least (s : memory_coloring_impl) (interval : Nat) (off : Int)
    (hpos : 0 < (s.live_intervals interval).result.bytes)
    (h : spec_offset_rounded s interval = some off) :
    least_fit s (placed_neighbour s interval) (s.live_intervals interval).result.bytes
      ((s.live_intervals interval).result.bytes / (s.live_intervals interval).result.elements)
      off := by
  have he : (s.live_intervals interval).result.elements ≠ 0 := by
    intro he
    unfold spec_offset_rounded at h
    simp only at h
    rw [if_pos he] at h
    exact absurd h (by simp)
  rw [spec_offset_rounded_scan s interval he] at h
  obtain ⟨k1, k2, k3⟩ := keep_largest_spec s (spec_neighbours s interval)
  have hperm := insertion_order.perm (fun i => (s.range i).offset)
    (keep_largest s (spec_neighbours s interval))
  have hsorted := insertion_order.sorted (fun i => (s.range i).offset)
    (keep_largest s (spec_neighbours s interval))
  apply scan_least_fit s _ _ _ hpos _ off hsorted ?_ h
  · intro r hr
    exact (mem_spec_neighbours s interval r).mp (k1 r (hperm.mem_iff.mp hr))
  · intro r hr
    obtain ⟨r', hr', ho, hsz⟩ := k2 r ((mem_spec_neighbours s interval r).mpr hr)
    exact ⟨r', hperm.mem_iff.mpr hr', ho, hsz⟩
  · intro r hr
    exact ⟨r, find_of_pairwise (fun i => (s.range i).offset) _ r k3 (hperm.mem_iff.mp hr),
      rfl, le_refl _, Or.inl hr⟩

theorem spec_offset_rounded_some (s : memory_coloring_impl) (interval : Nat)
    (he : (s.live_intervals interval).result.elements ≠ 0)
    (hes : (s.live_intervals interval).result.bytes /
      (s.live_intervals interval).result.elements ≠ 0) :
    ∃ off, spec_offset_rounded s interval = some off := by
  rw [spec_offset_rounded_scan s interval he]
  exact scan_some s _ _ _ hes _ 0

/-! ## The number of intervals -/

theorem build_arg_num_cases (h : helpers) (p : List instruction) (cur_points tie_ndx : Int)
    (def_interval : Option Nat) (st : build_state) (cnt : Int) (arg : Nat) :
    (build_arg h p cur_points tie_ndx def_interval st cnt arg).impl.num_of_lives
        = st.impl.num_of_lives ∨
    ((build_arg h p cur_points tie_ndx def_interval st cnt arg).impl.num_of_lives
        = st.impl.num_of_lives + 1 ∧
      st.impl.instr2_live arg = none ∧
      (build_arg h p cur_points tie_ndx def_interval st cnt arg).impl.instr2_live arg
        ≠ none) := by
  unfold build_arg
  simp only
  split
  · split
    · split <;> exact Or.inl rfl
    · split <;> exact Or.inl rfl
  · split
    · exact Or.inl rfl
    · split
      · rename_i hnone
        right
        refine ⟨rfl, hnone, ?_⟩
        simp only [memory_coloring_impl.set_interval]
        rw [Function.update_same]
        simp
      · exact Or.inl rfl

theorem creators_arg (h : helpers) (p : List instruction) (n : Nat) (cur_points tie_ndx : Int)
    (def_interval : Option Nat) (st : build_state) (cnt : Int) (arg : Nat) (harg : arg < n)
    (hi : creators n st.impl) :
    creators n (build_arg h p cur_points tie_ndx def_interval st cnt arg).impl := by
  obtain ⟨c, hc1, hc2⟩ := hi
  have hheld := build_arg_stays_held h p cur_points tie_ndx def_interval st cnt arg
  rcases build_arg_num_cases h p cur_points tie_ndx def_interval st cnt arg with
    hn | ⟨hn, hnone, hsome⟩
  · refine ⟨c, ?_, ?_⟩
    · intro i hlt
      rw [hn] at hlt
      exact ⟨(hc1 i hlt).1, hheld (c i) (hc1 i hlt).2⟩
    · intro i hi j hj
      rw [hn] at hi hj
      exact hc2 i hi j hj
  · have hne : ∀ i < st.impl.num_of_lives, c i ≠ arg := by
      intro i hlt he
      exact (hc1 i hlt).2 (he ▸ hnone)
    refine ⟨Function.update c st.impl.num_of_lives arg, ?_, ?_⟩
    · intro i hlt
      rw [hn] at hlt
      by_cases hid : i = st.impl.num_of_lives
      · subst hid
        rw [Function.update_same]
        exact ⟨harg, hsome⟩
      · rw [Function.update_noteq hid]
        have hlt' : i < st.impl.num_of_lives := by omega
        exact ⟨(hc1 i hlt').1, hheld (c i) (hc1 i hlt').2⟩
    · intro i hi j hj hij
      rw [hn] at hi hj
      by_cases hid : i = st.impl.num_of_lives
      · by_cases hjd : j = st.impl.num_of_lives
        · rw [hid, hjd]
        · rw [hid, Function.update_same, Function.update_noteq hjd] at hij
          exact absurd hij.symm (hne j (by omega))
      · by_cases hjd : j = st.impl.num_of_lives
        · rw [hjd, Function.update_same, Function.update_noteq hid] at hij
          exact absurd hij (hne i (by omega))
        · rw [Function.update_noteq hid, Function.update_noteq hjd] at hij
          exact hc2 i (by omega) j (by omega) hij

theorem creators_args (h : helpers) (p : List instruction) (n : Nat)
    (cur_points tie_ndx : Int) (def_interval : Option Nat) :
    ∀ (args : List Nat) (cnt : Int) (st : build_state), (∀ a ∈ args, a < n) →
      creators n st.impl →
      creators n (build_args h p cur_points tie_ndx def_interval args cnt st).impl := by
  intro args
  induction args with
  | nil => intro _ _ _ hi; exact hi
  | cons arg rest ih =>
    intro cnt st hlt hi
    simp only [build_args]
    exact ih (cnt + 1) _ (fun a ha => hlt a (List.mem_cons_of_mem _ ha))
      (creators_arg h p n cur_points tie_ndx def_interval st cnt arg
        (hlt arg (List.mem_cons_self _ _)) hi)

theorem creators_instr (h : helpers) (p : List instruction) (iter : Nat) (cur_points : Int)
    (st : build_state)
    (hin : ∀ i < p.length, ∀ a ∈ (instr p i).inputs, a < p.length)
    (hi : creators p.length st.impl) :
    creators p.length (build_instr h p iter cur_points st).impl := by
  rw [build_instr_impl]
  apply creators_args h p p.length cur_points _ _ _ 0 _
  · intro a ha
    exact hin iter (instr_inputs_lt p iter a ha) a ha
  · obtain ⟨c, hc1, hc2⟩ := hi
    refine ⟨c, ?_, ?_⟩
    · intro i hlt
      rw [build_def_num] at hlt
      rw [build_def_instr2_live]
      exact hc1 i hlt
    · intro i hi j hj
      rw [build_def_num] at hi hj
      exact hc2 i hi j hj

theorem creators_foldl (h : helpers) (p : List instruction)
    (hin : ∀ i < p.length, ∀ a ∈ (instr p i).inputs, a < p.length) :
    ∀ (l : List (Nat × Int)) (st : build_state), creators p.length st.impl →
      creators p.length (l.foldl (fun st v => build_instr h p v.1 v.2 st) st).impl := by
  intro l
  induction l with
  | nil => intro st hi; exact hi
  | cons v l ih =>
    intro st hi
    rw [List.foldl_cons]
    exact ih _ (creators_instr h p v.1 v.2 st hin hi)

theorem creators_le (n : Nat) (s : memory_coloring_impl) (hi : creators n s) :
    s.num_of_lives ≤ n := by
  obtain ⟨c, hc1, hc2⟩ := hi
  have := Finset.card_le_card_of_injOn c
    (s := Finset.range s.num_of_lives) (t := Finset.range n)
    (fun i hi => Finset.mem_range.mpr (hc1 i (Finset.mem_range.mp hi)).1)
    (fun i hi j hj hij => hc2 i (Finset.mem_range.mp hi) j (Finset.mem_range.mp hj) hij)
  simpa using this

theorem creators_init (n : Nat) (unify : Bool) :
    creators n (build_state.init (memory_coloring_impl.init unify)).impl :=
  ⟨fun _ => 0, fun i hi => absurd hi (Nat.not_lt_zero i),
    fun i hi => absurd hi (Nat.not_lt_zero i)⟩

theorem build_trace_eq_visits (h : helpers) (p : List instruction) (s : memory_coloring_impl) :
    build_trace h p s =
      (build_visits p.length).foldl (fun st v => build_instr h p v.1 v.2 st)
        (build_state.init s) := by
  unfold build_trace
  split
  · rename_i h0
    rw [h0]
    rfl
  · exact build_loop_eq_visits h p p.length _

/-! ## Begin, def point and end of a finalized interval -/

theorem build_arg_end_old (h : helpers) (p : List instruction) (cur_points tie_ndx : Int)
    (def_interval : Option Nat) (st : build_state) (cnt : Int) (arg i : Nat)
    (hi : i ≠ st.impl.num_of_lives) :
    ((build_arg h p cur_points tie_ndx def_interval st cnt arg).impl.live_intervals
        i).segment.end_ = (st.impl.live_intervals i).segment.end_ := by
  have key : ∀ (d : Nat) (v : live_interval),
      v.segment.end_ = (st.impl.live_intervals d).segment.end_ →
      (Function.update st.impl.live_intervals d v i).segment.end_
        = (st.impl.live_intervals i).segment.end_ :=
    fun d v hv => update_end st.impl.live_intervals d v hv i
  unfold build_arg
  simp only
  split
  · split
    · split <;> exact key _ _ rfl
    · split <;> rfl
  · split
    · exact key _ _ rfl
    · split
      · simp only [memory_coloring_impl.set_interval]
        rw [Function.update_noteq hi]
      · exact key _ _ rfl

theorem begun_lt (st : build_state) (hb : build_inv st) (d : Nat)
    (hd : (st.impl.live_intervals d).segment.begin ≠ invalid_offset) :
    d < st.impl.num_of_lives := by
  by_contra hcon
  rw [hb.fresh d (not_lt.mp hcon)] at hd
  exact hd rfl

theorem begun_arg (h : helpers) (p : List instruction) (cur_points tie_ndx : Int)
    (def_interval : Option Nat) (st : build_state) (cnt : Int) (arg : Nat)
    (hb : build_inv st) (hi : begun st.impl) :
    begun (build_arg h p cur_points tie_ndx def_interval st cnt arg).impl := by
  intro d hd
  obtain ⟨h1, h2, _, _, _⟩ := build_arg_fields h p cur_points tie_ndx def_interval st cnt arg d
  rw [h1] at hd
  have hlt := begun_lt st hb d hd
  rw [h1, h2, build_arg_end_old h p cur_points tie_ndx def_interval st cnt arg d (by omega)]
  exact hi d hd

theorem begun_args (h : helpers) (p : List instruction) (cur_points tie_ndx : Int)
    (def_interval : Option Nat) :
    ∀ (args : List Nat) (cnt : Int) (st : build_state), build_inv st →
      (∀ d, def_interval = some d → d < st.impl.num_of_lives) → begun st.impl →
      begun (build_args h p cur_points tie_ndx def_interval args cnt st).impl := by
  intro args
  induction args with
  | nil => intro _ _ _ _ hi; exact hi
  | cons arg rest ih =>
    intro cnt st hb hdef hi
    simp only [build_args]
    obtain ⟨h1, h2⟩ := build_inv_arg h p cur_points tie_ndx def_interval st cnt arg hb hdef
    exact ih (cnt + 1) _ h1 (fun d hd => lt_of_lt_of_le (hdef d hd) h2)
      (begun_arg h p cur_points tie_ndx def_interval st cnt arg hb hi)

theorem begun_def (h : helpers) (p : List instruction) (iter : Nat) (cur_points c : Int)
    (st : build_state) (hc : cur_points < c) (hb : build_inv st)
    (he : ends_inv c st.impl) (hi : begun st.impl) :
    begun (build_def h p iter cur_points st).2.impl := by
  intro d hd
  obtain ⟨h1, _, h3⟩ := build_def_fields h p iter cur_points st d
  rw [h1]
  rcases h3 with ⟨g1, g2, _, _⟩ | ⟨g1, _, g3, g4, _, _⟩
  · rw [g1] at hd
    rw [g1, g2]
    exact hi d hd
  · rw [g3, g4]
    refine ⟨rfl, ?_⟩
    have hlt := hb.held_lt iter d g1
    have e1 := (he.1 d hlt).1
    have e2 := (he.2 (by omega)).1
    omega

theorem begun_instr (h : helpers) (p : List instruction) (iter : Nat) (cur_points c : Int)
    (st : build_state) (hc : cur_points < c) (hb : build_inv st)
    (he : ends_inv c st.impl) (hi : begun st.impl) :
    begun (build_instr h p iter cur_points st).impl := by
  rw [build_instr_impl]
  obtain ⟨h1, h2, h3⟩ := build_inv_def h p iter cur_points st hb
  exact begun_args h p cur_points _ _ _ 0 _ h1
    (fun d hd => by rw [h3]; exact hb.held_lt iter d (by rw [← h2]; exact hd))
    (begun_def h p iter cur_points c st hc hb he hi)

theorem begun_loop (h : helpers) (p : List instruction) :
    ∀ (k : Nat) (cur_points c : Int) (st : build_state), cur_points < c → build_inv st →
      ends_inv c st.impl → begun st.impl →
      begun (build_loop h p k cur_points st).impl := by
  intro k
  induction k with
  | zero => intro _ _ st _ _ _ hi; exact hi
  | succ k ih =>
    intro cur_points c st hc hb he hi
    simp only [build_loop]
    exact ih _ cur_points _ (by omega) (build_inv_instr h p k cur_points st hb)
      (ends_inv_instr h p k cur_points st hb (ends_inv_mono c _ _ (le_of_lt hc) he))
      (begun_instr h p k cur_points c st hc hb he hi)

theorem build_begun (h : helpers) (p : List instruction) (unify : Bool) :
    begun (build h p (memory_coloring_impl.init unify)) := by
  have h0 : ∀ c, ends_inv c (build_state.init (memory_coloring_impl.init unify)).impl :=
    fun c => ⟨fun i hi => absurd hi (Nat.not_lt_zero i), fun hpos => absurd hpos (lt_irrefl 0)⟩
  have hb0 : begun (build_state.init (memory_coloring_impl.init unify)).impl :=
    fun d hd => absurd rfl hd
  unfold build build_trace
  split
  · exact hb0
  · exact begun_loop h p _ _ (2 * (p.length : Int) + 1) _ (by omega) (build_inv_init unify)
      (h0 _) hb0

/-! ## required_bytes against the sum of the slots -/

theorem align_lt {es : Nat} {x y : Int} (h : align es x = some y) : y < x + es := by
  unfold align at h
  split at h
  · exact absurd h (by simp)
  · rename_i hes
    have hpos : (0 : Int) < es := by exact_mod_cast Nat.pos_of_ne_zero hes
    split at h
    · rename_i hr
      simp only [Option.some.injEq] at h
      subst h
      have h1 := Int.emod_nonneg x (ne_of_gt hpos)
      omega
    · simp only [Option.some.injEq] at h
      subst h
      omega

theorem sum_range_update (f g : Nat → Int) (X : Nat) (w : Int) :
    ∀ n, X < n → (∀ i, i ≠ X → g i = f i) → g X = f X + w →
      ((List.range n).map g).sum = ((List.range n).map f).sum + w := by
  intro n
  induction n with
  | zero => intro hX; exact absurd hX (Nat.not_lt_zero X)
  | succ n ih =>
    intro hX ho hx
    rw [List.range_succ, List.map_append, List.map_append, List.sum_append, List.sum_append]
    simp only [List.map_cons, List.map_nil, List.sum_cons, List.sum_nil, add_zero]
    by_cases hn : X = n
    · subst hn
      have hsame : (List.range X).map g = (List.range X).map f := by
        apply List.map_congr_left
        intro i hi
        exact ho i (by have := List.mem_range.mp hi; omega)
      rw [hsame, hx]
      ring
    · rw [ih (by omega) ho hx, ho n (fun he => hn he.symm)]
      ring

theorem placed_sum_assign (s : memory_coloring_impl) (X : Nat) (off : Int) (w w' : Nat → Int)
    (hX : (s.range X).offset = invalid_offset) (hlt : X < s.num_of_lives) (hoff : 0 ≤ off)
    (hw : ∀ i, w' i = w i) :
    placed_sum (assign s X off) w' = placed_sum s w + w X := by
  unfold placed_sum
  have hnum : (assign s X off).num_of_lives = s.num_of_lives := rfl
  rw [hnum]
  apply sum_range_update _ _ X (w X) _ hlt
  · intro i hi
    rw [assign_offset_other s X off i hi, hw]
  · rw [assign_offset, hX, hw]
    have h1 : off ≠ invalid_offset := by unfold invalid_offset; omega
    rw [if_pos h1, if_neg (fun hc => hc rfl)]
    ring

theorem element_size_assign (s : memory_coloring_impl) (X : Nat) (off : Int) (i : Nat) :
    element_size (assign s X off) i = element_size s i := by
  unfold element_size
  rw [assign_result]

theorem size_assign (s : memory_coloring_impl) (X : Nat) (off : Int) (i : Nat) :
    ((assign s X off).range i).size = (s.range i).size := by
  rw [assign_range]
  split
  · rename_i hi
    rw [hi]
  · rfl

theorem allocate_offset_below (o : conflict_order) (s : memory_coloring_impl) (X : Nat)
    (off c : Int) (hw : high_water s) (hb : (s.live_intervals X).result.bytes ≠ 0)
    (hoff : allocate_offset o s X = some off) (h0 : 0 ≤ c) (hc : s.required_bytes ≤ c)
    (hdvd : ((element_size s X : Nat) : Int) ∣ c) : off ≤ c := by
  refine (allocate_offset_spec o s X off hoff).2.2.2 (Nat.pos_of_ne_zero hb) c h0 hdvd ?_
  intro r hr
  obtain ⟨v, _, _, hv⟩ := hr
  exact Or.inr (le_trans (hw.1 r hv) hc)

theorem allocate_all_slots (o : conflict_order) :
    ∀ (l : List Nat) (s s' : memory_coloring_impl), alloc_inv s → high_water s → l.Nodup →
      (∀ i ∈ l, (s.range i).offset = invalid_offset ∧ i < s.num_of_lives ∧
        shape_ok (s.live_intervals i).result) →
      0 ≤ s.required_bytes → s.required_bytes ≤ slot_sum s →
      allocate_all o l s = some s' → s'.required_bytes ≤ slot_sum s' := by
  intro l
  induction l with
  | nil =>
    intro s s' _ _ _ _ _ hle h
    simp only [allocate_all, Option.some.injEq] at h
    exact h ▸ hle
  | cons X l ih =>
    intro s s' hi hw hnd hun h0 hle h
    simp only [allocate_all] at h
    obtain ⟨r, hr, hrest⟩ := Option.bind_eq_some.mp h
    rw [List.nodup_cons] at hnd
    obtain ⟨hX, hlt, hshape⟩ := hun X (List.mem_cons_self _ _)
    have hi' := allocate_inv o s X r hi hr
    unfold allocate at hr
    split at hr
    · simp only [Option.some.injEq] at hr
      subst hr
      exact ih s s' hi hw hnd.2 (fun i hi => hun i (List.mem_cons_of_mem _ hi)) h0 hle hrest
    · rename_i hb
      obtain ⟨off, hoff, hr'⟩ := Option.map_eq_some'.mp hr
      subst hr'
      obtain ⟨_, hes⟩ := hshape hb
      have hoff0 := (allocate_offset_spec o s X off hoff).1
      obtain ⟨c, hc⟩ := align_some hes s.required_bytes
      obtain ⟨c1, c2, _⟩ := align_spec hc
      have c3 := align_lt hc
      have hbelow := allocate_offset_below o s X off c hw hb hoff (by omega) c1 c2
      have hsum : slot_sum (assign s X off) =
          slot_sum s + (((s.range X).size : Int) + (element_size s X : Int) - 1) := by
        unfold slot_sum
        exact placed_sum_assign s X off _ _ hX hlt hoff0
          (fun i => by rw [size_assign, element_size_assign])
      refine ih _ s' hi' (high_water_assign o s X off hw hX hoff) hnd.2 ?_ ?_ ?_ hrest
      · intro i hi
        have hiX : i ≠ X := fun he => hnd.1 (he ▸ hi)
        obtain ⟨u1, u2, u3⟩ := hun i (List.mem_cons_of_mem _ hi)
        rw [assign_offset_other s X off i hiX, assign_result]
        exact ⟨u1, u2, u3⟩
      · rw [assign_required]
        exact le_trans h0 (le_max_left _ _)
      · rw [assign_required, hsum]
        have hes' : (1 : Int) ≤ (element_size s X : Int) := by
          have : element_size s X ≠ 0 := hes
          omega
        have hc3 : c < s.required_bytes + (element_size s X : Int) := c3
        have hsz : (0 : Int) ≤ ((s.range X).size : Int) := Int.natCast_nonneg _
        apply max_le <;> omega

theorem allocate_all_sizes (o : conflict_order) (e : Nat) :
    ∀ (l : List Nat) (s s' : memory_coloring_impl), alloc_inv s → high_water s → l.Nodup →
      (∀ i ∈ l, (s.range i).offset = invalid_offset ∧ i < s.num_of_lives ∧
        ((s.live_intervals i).result.bytes ≠ 0 →
          element_size s i = e ∧ e ∣ (s.range i).size)) →
      0 ≤ s.required_bytes → (e : Int) ∣ s.required_bytes →
      s.required_bytes ≤ size_sum s →
      allocate_all o l s = some s' → s'.required_bytes ≤ size_sum s' := by
  intro l
  induction l with
  | nil =>
    intro s s' _ _ _ _ _ _ hle h
    simp only [allocate_all, Option.some.injEq] at h
    exact h ▸ hle
  | cons X l ih =>
    intro s s' hi hw hnd hun h0 hdvd hle h
    simp only [allocate_all] at h
    obtain ⟨r, hr, hrest⟩ := Option.bind_eq_some.mp h
    rw [List.nodup_cons] at hnd
    obtain ⟨hX, hlt, hcommon⟩ := hun X (List.mem_cons_self _ _)
    have hi' := allocate_inv o s X r hi hr
    unfold allocate at hr
    split at hr
    · simp only [Option.some.injEq] at hr
      subst hr
      exact ih s s' hi hw hnd.2 (fun i hi => hun i (List.mem_cons_of_mem _ hi)) h0 hdvd hle
        hrest
    · rename_i hb
      obtain ⟨off, hoff, hr'⟩ := Option.map_eq_some'.mp hr
      subst hr'
      obtain ⟨hes, hsize⟩ := hcommon hb
      obtain ⟨hoff0, hoffdvd, _, _⟩ := allocate_offset_spec o s X off hoff
      have hbelow := allocate_offset_below o s X off s.required_bytes hw hb hoff h0
        (le_refl _) (by rw [hes]; exact hdvd)
      have hsum : size_sum (assign s X off) = size_sum s + ((s.range X).size : Int) := by
        unfold size_sum
        exact placed_sum_assign s X off _ _ hX hlt hoff0 (fun i => by rw [size_assign])
      have hoffdvd' : (e : Int) ∣ off := by
        have : element_size s X = (s.live_intervals X).result.bytes /
            (s.live_intervals X).result.elements := rfl
        rw [← this, hes] at hoffdvd
        exact hoffdvd
      have hsizedvd : (e : Int) ∣ ((s.range X).size : Int) := Int.natCast_dvd_natCast.mpr hsize
      refine ih _ s' hi' (high_water_assign o s X off hw hX hoff) hnd.2 ?_ ?_ ?_ ?_ hrest
      · intro i hi
        have hiX : i ≠ X := fun he => hnd.1 (he ▸ hi)
        obtain ⟨u1, u2, u3⟩ := hun i (List.mem_cons_of_mem _ hi)
        rw [assign_offset_other s X off i hiX, assign_result, element_size_assign]
        exact ⟨u1, u2, u3⟩
      · rw [assign_required]
        exact le_trans h0 (le_max_left _ _)
      · rw [assign_required]
        rcases max_choice s.required_bytes (off + ((s.range X).size : Int)) with hm | hm
        · rw [hm]; exact hdvd
        · rw [hm]; exact dvd_add hoffdvd' hsizedvd
      · rw [assign_required, hsum]
        have hsz : (0 : Int) ≤ ((s.range X).size : Int) := Int.natCast_nonneg _
        apply max_le <;> omega

theorem placed_sum_unplaced (s : memory_coloring_impl) (w : Nat → Int)
    (hun : ∀ i, (s.range i).offset = invalid_offset) : placed_sum s w = 0 := by
  unfold placed_sum
  apply List.sum_eq_zero
  intro x hx
  obtain ⟨i, _, rfl⟩ := List.mem_map.mp hx
  rw [if_neg (fun hc => hc (hun i))]

theorem run_slots (h : helpers) (o : conflict_order) (a : alloc_order) (unify : Bool)
    (p : List instruction) (s : memory_coloring_impl)
    (hwf : ∀ i < p.length, ∀ x ∈ (instr p i).inputs, x < i)
    (htie : ∀ i < p.length, (h.is_allocate (instr p i) || h.is_literal (instr p i)) = true →
      h.get_input_tie_ndx p (instr p i) < 0)
    (hp : ∀ ins ∈ p, shape_ok ins.result)
    (hrun : run h o a unify p = some s) :
    s.required_bytes ≤ slot_sum s ∧
    ∀ e : Nat, (∀ i, (s.range i).offset ≠ invalid_offset →
        element_size s i = e ∧ e ∣ (s.range i).size) →
      s.required_bytes ≤ size_sum s := by
  have hb := build_inv_trace h p unify
  have hw0 : high_water (build h p (memory_coloring_impl.init unify)) :=
    ⟨fun i hi => absurd (hb.unplaced i) hi, Or.inr ⟨hb.required_zero, hb.unplaced⟩⟩
  have hz : (build h p (memory_coloring_impl.init unify)).required_bytes = 0 :=
    hb.required_zero
  have hun : ∀ i, ((build h p (memory_coloring_impl.init unify)).range i).offset
      = invalid_offset := hb.unplaced
  unfold run at hrun
  simp only at hrun
  split at hrun
  · obtain ⟨r, hr, hs⟩ := Option.map_eq_some'.mp hrun
    subst hs
    have hperm := a.perm (build h p (memory_coloring_impl.init unify))
      (build h p (memory_coloring_impl.init unify)).alloc_queue
    have hnd := (hperm.nodup_iff).mpr (build_queue_nodup h p unify hwf htie)
    have hlt : ∀ i ∈ a.pop (build h p (memory_coloring_impl.init unify))
        (build h p (memory_coloring_impl.init unify)).alloc_queue,
        i < (build h p (memory_coloring_impl.init unify)).num_of_lives :=
      fun i hi => hb.queue_lt i (hperm.mem_iff.mp hi)
    constructor
    · exact allocate_all_slots o _ _ r (alloc_inv_build h p unify) hw0 hnd
        (fun i hi => ⟨hun i, hlt i hi, build_shapes_ok h p unify hp i⟩)
        (by rw [hz]) (by rw [hz, slot_sum, placed_sum_unplaced _ _ hun]) hr
    · intro e he
      obtain ⟨g1, _, _, g4⟩ := allocate_all_offsets o _ _ r hr
      refine allocate_all_sizes o e _ _ r (alloc_inv_build h p unify) hw0 hnd ?_
        (by rw [hz]) (by rw [hz]; exact dvd_zero _)
        (by rw [hz, size_sum, placed_sum_unplaced _ _ hun]) hr
      intro i hi
      refine ⟨hun i, hlt i hi, ?_⟩
      intro hbytes
      have h0 := g4 i hi hbytes
      obtain ⟨e1, e2⟩ := he i (by
        change (r.range i).offset ≠ invalid_offset
        unfold invalid_offset
        omega)
      obtain ⟨_, _, e3, e4⟩ := g1.2.2.2.2 i
      constructor
      · rw [← e1]
        unfold element_size
        change _ = (r.live_intervals i).result.bytes / (r.live_intervals i).result.elements
        rw [e3]
      · have : (r.range i).size = ((build h p (memory_coloring_impl.init unify)).range i).size :=
          e4
        rw [← this]
        exact e2
  · simp only [Option.some.injEq] at hrun
    subst hrun
    constructor
    · rw [hz, slot_sum, placed_sum_unplaced _ _ hun]
    · intro _ _
      rw [hz, size_sum, placed_sum_unplaced _ _ hun]

/-! ## The output dimensions of add_broadcastable_binary_op -/

theorem aligned_max_comm : ∀ a b : List Nat, onnx.aligned_max a b = onnx.aligned_max b a := by
  intro a
  induction a with
  | nil => intro b; cases b <;> simp [onnx.aligned_max]
  | cons x a ih =>
    intro b
    cases b with
    | nil => simp [onnx.aligned_max]
    | cons y b => simp [onnx.aligned_max, ih b, max_comm]

theorem aligned_max_append : ∀ (x y z : List Nat), x.length = y.length →
    onnx.aligned_max x (y ++ z) = List.zipWith (fun a b => max a b) x y ++ z := by
  intro x
  induction x with
  | nil =>
    intro y z h
    cases y with
    | nil => simp [onnx.aligned_max]
    | cons _ _ => simp at h
  | cons a x ih =>
    intro y z h
    cases y with
    | nil => simp at h
    | cons b y =>
      simp only [List.length_cons, Nat.add_right_cancel_iff] at h
      simp [onnx.aligned_max, ih y z h]

theorem output_lens_short (a b : List Nat) (h : a.length ≤ b.length) :
    onnx.output_lens a b =
      b.take (b.length - a.length) ++
        List.zipWith (fun x y => max x y) a (b.drop (b.length - a.length)) := by
  unfold onnx.output_lens
  simp only
  rw [if_neg (by omega), if_neg (by omega)]

theorem output_lens_reverse_short (a b : List Nat) (h : a.length ≤ b.length) :
    (onnx.output_lens a b).reverse = onnx.aligned_max a.reverse b.reverse := by
  rw [output_lens_short a b h]
  have hlen : a.length = (b.drop (b.length - a.length)).length := by
    rw [List.length_drop]; omega
  have hb : b.reverse = (b.drop (b.length - a.length)).reverse ++
      (b.take (b.length - a.length)).reverse := by
    rw [← List.reverse_append, List.take_append_drop]
  rw [List.reverse_append, List.reverse_zipWith hlen]
  conv_rhs => rw [hb]
  rw [aligned_max_append _ _ _ (by simpa using hlen)]

theorem output_lens_comm (a b : List Nat) : onnx.output_lens a b = onnx.output_lens b a := by
  unfold onnx.output_lens
  simp only
  by_cases h1 : a.length > b.length
  · rw [if_pos h1, if_pos h1, if_neg (by omega), if_neg (by omega)]
  · by_cases h2 : b.length > a.length
    · rw [if_neg h1, if_neg h1, if_pos h2, if_pos h2]
    · rw [if_neg h1, if_neg h1, if_neg h2, if_neg h2]
      have he : a.length = b.length := by omega
      rw [he, Nat.sub_self, List.take_zero, List.take_zero, List.drop_zero, List.drop_zero,
        List.zipWith_comm]
      simp only [max_comm]

theorem output_lens_reverse (a b : List Nat) :
    (onnx.output_lens a b).reverse = onnx.aligned_max a.reverse b.reverse := by
  by_cases h : a.length ≤ b.length
  · exact output_lens_reverse_short a b h
  · rw [output_lens_comm, aligned_max_comm]
    exact output_lens_reverse_short b a (by omega)

theorem output_lens_length (a b : List Nat) :
    (onnx.output_lens a b).length = max a.length b.length := by
  unfold onnx.output_lens
  simp only
  split <;> simp [List.length_zipWith, List.length_take, List.length_drop] <;> omega

/-! ## parse_where -/

theorem to_int32_id (x : Int) (h1 : -2 ^ 31 ≤ x) (h2 : x < 2 ^ 31) : onnx.to_int32 x = x := by
  unfold onnx.to_int32
  omega

theorem where_ind_data (ops : onnx.where_ops) (hl : onnx.where_laws ops) (L : List Nat)
    (E : Nat) (cond : onnx.tensor) (hc : cond.lens = L) (hE : 2 * E < 2 ^ 31) (i : Nat)
    (hi : i < E) (ci : Int) (hci : cond.data[i]? = some ci) (h01 : ci = 0 ∨ ci = 1) :
    (onnx.where_ind ops L E cond).data[i]? = some ((i : Int) + (E : Int) * ci) := by
  unfold onnx.where_ind
  simp only
  rw [hl.add_data _ _ (by rw [hl.mul_lens _ _ hc.symm]), hl.mul_data _ _ hc.symm]
  simp only [List.getElem?_zipWith, List.getElem?_replicate, if_pos hi, hci,
    List.getElem?_map, List.getElem?_range hi, Option.map_some']
  have hE' : ((2 * E : Nat) : Int) < 2 ^ 31 := by exact_mod_cast hE
  have hi' : (i : Int) < (E : Int) := by exact_mod_cast hi
  have h0 : (0 : Int) ≤ (i : Int) := Int.natCast_nonneg _
  push_cast at hE'
  rw [to_int32_id (E : Int) (by omega) (by omega), to_int32_id (i : Int) (by omega) (by omega)]
  rcases h01 with h | h
  · subst h
    rw [mul_zero, to_int32_id 0 (by omega) (by omega), zero_add,
      to_int32_id (i : Int) (by omega) (by omega), add_zero]
  · subst h
    rw [mul_one, to_int32_id (E : Int) (by omega) (by omega),
      to_int32_id ((E : Int) + i) (by omega) (by omega)]
    congr 1
    ring

theorem zipWith_max_self : ∀ l : List Nat, List.zipWith (fun a b => max a b) l l = l := by
  intro l
  induction l with
  | nil => rfl
  | cons x l ih => simp [ih]

theorem list_ops_laws : onnx.where_laws onnx.list_ops := by
  refine ⟨?_, ?_, ?_, ?_, ?_, ?_, ?_, ?_, ?_⟩
  · intro l
    change onnx.output_lens l l = l
    unfold onnx.output_lens
    simp [zipWith_max_self]
  · intro t; rfl
  · intro t
    change (t.data.map onnx.to_int32).length = t.data.length
    rw [List.length_map]
  · intro a b _; rfl
  · intro d t; rfl
  · intro a b _; rfl
  · intro a b _; rfl
  · intro a b _; rfl
  · intro d idx i k hk _ hlt
    change (idx.data.map (fun k => d.data.getD k.toNat 0))[i]? = d.data[k.toNat]?
    rw [List.getElem?_map, hk, Option.map_some', List.getD_eq_getElem _ _ hlt,
      List.getElem?_eq_getElem hlt]

/-! ## The statement `return` in the loop of inline_module::apply -/

theorem apply_loop_abandons {M : Type} (api : module_api M) (m : M) (ins cond : Nat)
    (rest : List Nat) (hname : api.name m ins = "if")
    (hcond : (api.inputs m ins).head? = some cond) (heval : api.eval m cond = none)
    (hout : fold_outs api m (api.module_inputs m ins) [] = some none) :
    apply_loop api (ins :: rest) m = some m := by
  unfold apply_loop
  simp only [hname, ne_eq, not_true_eq_false, if_false, hcond, heval, hout]

/-! ## The properties of the specification -/

/-- C1: run() finishes on every program whose shapes are well formed, and after run() has
finished, for every two value numbers that are adjacent in the conflict table and whose
recorded ranges both have a valid offset, the byte ranges `[offset, offset+size)` of the
two do not intersect, and verify() reaches its `assert(false)` nowhere. -/
theorem run_adjacent_ranges_disjoint (h : helpers) (o : conflict_order) (a : alloc_order)
    (unify : Bool) (p : List instruction) :
    ((∀ ins ∈ p, shape_ok ins.result) → ∃ s, run h o a unify p = some s) ∧
    ∀ s, run h o a unify p = some s →
      (∀ v w ra rb, w ∈ s.conflict_table v → s.live_ranges v = some ra →
        s.live_ranges w = some rb → (s.range ra).offset ≠ invalid_offset →
        (s.range rb).offset ≠ invalid_offset →
        ¬ ranges_meet (s.range ra).offset (s.range ra).size (s.range rb).offset
          (s.range rb).size) ∧
      verify s = some [] := by
  refine ⟨run_finishes h o a unify p, ?_⟩
  intro s hrun
  have hi := alloc_inv_run h o a unify p s hrun
  refine ⟨?_, verify_nil s hi⟩
  intro v w ra rb hw hra hrb hoa hob
  rw [not_ranges_meet_iff]
  exact Or.inr (Or.inr (hi.disjoint v w ra rb hw hra hrb hoa hob))

/-- The run on `three_buffers` finishes; in its state the value numbers 0 and 1 are
adjacent, their ranges have the offsets 16 and 0, and no two adjacent ranges intersect. -/
theorem run_adjacent_ranges_disjoint_witness :
    ∃ s, run (spec_helpers "hip::allocate") insertion_order push_order false three_buffers
        = some s ∧
      (1 : Int) ∈ s.conflict_table 0 ∧ (s.range 0).offset = 16 ∧ (s.range 1).offset = 0 ∧
      ((∀ v w ra rb, w ∈ s.conflict_table v → s.live_ranges v = some ra →
        s.live_ranges w = some rb → (s.range ra).offset ≠ invalid_offset →
        (s.range rb).offset ≠ invalid_offset →
        ¬ ranges_meet (s.range ra).offset (s.range ra).size (s.range rb).offset
          (s.range rb).size) ∧
      verify s = some []) := by
  have hthm := run_adjacent_ranges_disjoint (spec_helpers "hip::allocate") insertion_order
    push_order false three_buffers
  have hsome : ((run (spec_helpers "hip::allocate") insertion_order push_order false
      three_buffers).map (fun s => (decide ((1 : Int) ∈ s.conflict_table 0),
        (s.range 0).offset, (s.range 1).offset))) = some (true, 16, 0) := by decide
  obtain ⟨s, hs⟩ := hthm.1 (by unfold shape_ok; decide)
  rw [hs] at hsome
  simp only [Option.map_some', Option.some.injEq, Prod.mk.injEq, decide_eq_true_eq] at hsome
  exact ⟨s, hs, hsome.1, hsome.2.1, hsome.2.2, hthm.2 s hs⟩

/-- C2: in every state the pass reaches (build followed by any calls of allocate), for
every interval X with non-zero byte size and element_size >= 1, allocate(X) assigns the
least offset `off >= 0` that is a multiple of element_size and whose range
`[off, off+size)` meets the range of no conflict neighbour of X that has a valid offset. -/
theorem allocate_assigns_least_offset (h : helpers) (o : conflict_order) (unify : Bool)
    (p : List instruction) (done : List Nat) (s : memory_coloring_impl) (X : Nat)
    (hs : allocate_all o done (build h p (memory_coloring_impl.init unify)) = some s)
    (hsize : (s.live_intervals X).result.bytes ≠ 0)
    (hes : 1 ≤ (s.live_intervals X).result.bytes / (s.live_intervals X).result.elements) :
    ∃ off : Int, allocate o s X = some (true, assign s X off) ∧
      0 ≤ off ∧
      (((s.live_intervals X).result.bytes / (s.live_intervals X).result.elements : Nat) : Int)
        ∣ off ∧
      (∀ n, placed_neighbour s X n →
        ¬ ranges_meet off (s.live_intervals X).result.bytes (s.range n).offset
          (s.range n).size) ∧
      ∀ c : Int, 0 ≤ c →
        (((s.live_intervals X).result.bytes / (s.live_intervals X).result.elements : Nat) : Int)
          ∣ c →
        (∀ n, placed_neighbour s X n →
          ¬ ranges_meet c (s.live_intervals X).result.bytes (s.range n).offset
            (s.range n).size) →
        off ≤ c := by
  have hi := allocate_all_inv o done _ s (alloc_inv_build h p unify) hs
  have he : (s.live_intervals X).result.elements ≠ 0 := by
    intro h0
    rw [h0, Nat.div_zero] at hes
    omega
  obtain ⟨off, hoff⟩ := allocate_offset_some o s X he (by omega)
    (fun v hv => hi.coh.ranged _ v hv)
  obtain ⟨h0, hdvd, hsafe, hmin⟩ := allocate_offset_spec o s X off hoff
  refine ⟨off, allocate_of_offset o s X off hsize hoff, h0, hdvd, ?_, ?_⟩
  · intro n hn
    rw [not_ranges_meet_iff]
    exact Or.inr (Or.inr (hsafe n hn))
  · intro c hc hcd hfeas
    apply hmin (Nat.pos_of_ne_zero hsize) c hc hcd
    intro n hn
    have hpos : (s.range n).size ≠ 0 := by
      obtain ⟨v, _, _, hvo⟩ := hn
      have := (hi.placed_pos n hvo).1
      have hsz := hi.coh.sizes n
      unfold memory_coloring_impl.range
      omega
    rcases (not_ranges_meet_iff _ _ _ _).mp (hfeas n hn) with h1 | h1 | h1
    · exact absurd h1 hsize
    · exact absurd h1 hpos
    · exact h1

/-- On the state build leaves for `three_buffers` after the intervals 1 and 0 have been
allocated, allocate on the interval 2 assigns the least fitting offset. -/
theorem allocate_assigns_least_offset_witness :
    ∃ s, allocate_all insertion_order [1, 0]
        (build (spec_helpers "hip::allocate") three_buffers (memory_coloring_impl.init false))
        = some s ∧
      ∃ off : Int, allocate insertion_order s 2 = some (true, assign s 2 off) ∧
      0 ≤ off ∧
      (((s.live_intervals 2).result.bytes / (s.live_intervals 2).result.elements : Nat) : Int)
        ∣ off ∧
      (∀ n, placed_neighbour s 2 n →
        ¬ ranges_meet off (s.live_intervals 2).result.bytes (s.range n).offset
          (s.range n).size) ∧
      ∀ c : Int, 0 ≤ c →
        (((s.live_intervals 2).result.bytes / (s.live_intervals 2).result.elements : Nat) : Int)
          ∣ c →
        (∀ n, placed_neighbour s 2 n →
          ¬ ranges_meet c (s.live_intervals 2).result.bytes (s.range n).offset
            (s.range n).size) →
        off ≤ c := by
  have hsome : ((allocate_all insertion_order [1, 0]
      (build (spec_helpers "hip::allocate") three_buffers
        (memory_coloring_impl.init false))).map
      (fun s => (s.live_intervals 2).result)) = some { bytes := 16, elements := 4 } := by
    decide
  obtain ⟨s, hs, hv⟩ := Option.map_eq_some'.mp hsome
  exact ⟨s, hs, allocate_assigns_least_offset _ _ _ _ _ s 2 hs (by rw [hv]; decide)
    (by rw [hv]; decide)⟩

/-- C4: three intervals A, B, C of 16 bytes each, of one element size that divides 16, with
the conflict edges A-B and B-C and no other, none of them allocated yet and
required_bytes = 0: allocated in the order A, B, C they receive the offsets 0, 16 and 0,
and required_bytes ends at 32. -/
theorem three_intervals_scenario (o : conflict_order) (s : memory_coloring_impl)
    (A B C es : Nat) (hAB : A ≠ B) (hAC : A ≠ C) (hBC : B ≠ C)
    (hbytes : ∀ X ∈ [A, B, C], (s.live_intervals X).result.bytes = 16 ∧
      (s.range X).size = 16 ∧ (s.range X).offset = invalid_offset ∧
      (s.live_intervals X).result.bytes / (s.live_intervals X).result.elements = es ∧
      s.live_ranges (s.range X).vn = some X)
    (hes : es ∣ 16)
    (hcA : s.conflict_table (s.range A).vn = [(s.range B).vn])
    (hcB : (s.conflict_table (s.range B).vn).Perm [(s.range A).vn, (s.range C).vn])
    (hcC : s.conflict_table (s.range C).vn = [(s.range B).vn])
    (hreq : s.required_bytes = 0) :
    ∃ s1 s2 s3, allocate o s A = some (true, s1) ∧ allocate o s1 B = some (true, s2) ∧
      allocate o s2 C = some (true, s3) ∧
      (s3.range A).offset = 0 ∧ (s3.range B).offset = 16 ∧ (s3.range C).offset = 0 ∧
      s3.required_bytes = 32 := by
  obtain ⟨hA1, hA2, hA3, hA4, hA5⟩ := hbytes A (by simp)
  obtain ⟨hB1, hB2, hB3, hB4, hB5⟩ := hbytes B (by simp)
  obtain ⟨hC1, hC2, hC3, hC4, hC5⟩ := hbytes C (by simp)
  have hes0 : es ≠ 0 := by
    rintro rfl
    simp at hes
  have hel : ∀ X, (s.live_intervals X).result.bytes / (s.live_intervals X).result.elements = es →
      (s.live_intervals X).result.elements ≠ 0 := by
    intro X hX h0
    rw [h0, Nat.div_zero] at hX
    exact hes0 hX.symm
  have hd16 : ((es : Nat) : Int) ∣ 16 := by exact_mod_cast hes
  -- A
  have hoA : allocate_offset o s A = some 0 := by
    apply allocate_offset_zero o s A (hel A hA4)
    intro v hv
    change v ∈ s.conflict_table (s.range A).vn at hv
    rw [hcA, List.mem_singleton] at hv
    subst hv
    exact ⟨B, hB5, hB3⟩
  have h1 := allocate_of_offset o s A 0 (by rw [hA1]; decide) hoA
  -- B
  have hvnB : ((assign s A 0).live_intervals B).segment.vn = (s.range B).vn := by
    rw [assign_segment, assign_offset_other s A 0 B (Ne.symm hAB)]
  have hnB : ∀ n, placed_neighbour (assign s A 0) B n ↔ n = A := by
    intro n
    unfold placed_neighbour
    rw [hvnB, assign_table, assign_ranges]
    constructor
    · rintro ⟨v, hv, hvr, hvo⟩
      rcases List.mem_pair.mp (hcB.mem_iff.mp hv) with hv | hv
      · subst hv; rw [hA5] at hvr; simp only [Option.some.injEq] at hvr; exact hvr.symm
      · subst hv
        rw [hC5] at hvr
        simp only [Option.some.injEq] at hvr
        subst hvr
        rw [assign_offset_other s A 0 C (Ne.symm hAC)] at hvo
        exact absurd hC3 hvo
    · rintro rfl
      refine ⟨(s.range n).vn, hcB.mem_iff.mpr (by simp), hA5, ?_⟩
      rw [assign_offset]
      decide
  have hrB : ((assign s A 0).live_intervals B).result = (s.live_intervals B).result :=
    assign_result s A 0 B
  obtain ⟨offB, hoB⟩ := allocate_offset_some o (assign s A 0) B
    (by rw [hrB]; exact hel B hB4) (by rw [hrB, hB4]; exact hes0)
    (by
      intro v hv
      rw [hvnB, assign_table] at hv
      rw [assign_ranges]
      rcases List.mem_pair.mp (hcB.mem_iff.mp hv) with hv | hv
      · subst hv; exact ⟨A, hA5⟩
      · subst hv; exact ⟨C, hC5⟩)
  have hB16 : offB = 16 := by
    obtain ⟨h0, _, hsafe, hmin⟩ := allocate_offset_spec o (assign s A 0) B offB hoB
    rw [hrB, hB4, hB1] at hmin
    rw [hrB, hB1] at hsafe
    have hs := hsafe A ((hnB A).mpr rfl)
    rw [assign_range, if_pos rfl] at hs
    simp only [hA2] at hs
    have hm := hmin (by decide) 16 (by decide) hd16 (by
      intro n hn
      rw [(hnB n).mp hn, assign_range, if_pos rfl]
      simp only [hA2]
      right
      decide)
    omega
  subst hB16
  have h2 := allocate_of_offset o (assign s A 0) B 16 (by rw [hrB, hB1]; decide) hoB
  -- C
  have hvnC : ((assign (assign s A 0) B 16).live_intervals C).segment.vn = (s.range C).vn := by
    rw [assign_segment, assign_offset_other _ B 16 C (Ne.symm hBC),
      assign_offset_other s A 0 C (Ne.symm hAC)]
  have hnC : ∀ n, placed_neighbour (assign (assign s A 0) B 16) C n → n = B := by
    intro n
    unfold placed_neighbour
    rw [hvnC, assign_table, assign_ranges, assign_table, assign_ranges, hcC]
    rintro ⟨v, hv, hvr, _⟩
    rw [List.mem_singleton] at hv
    subst hv
    rw [hB5] at hvr
    simp only [Option.some.injEq] at hvr
    exact hvr.symm
  have hrC : ((assign (assign s A 0) B 16).live_intervals C).result =
      (s.live_intervals C).result := by
    rw [assign_result, assign_result]
  obtain ⟨offC, hoC⟩ := allocate_offset_some o (assign (assign s A 0) B 16) C
    (by rw [hrC]; exact hel C hC4) (by rw [hrC, hC4]; exact hes0)
    (by
      intro v hv
      rw [hvnC, assign_table, assign_table, hcC, List.mem_singleton] at hv
      subst hv
      exact ⟨B, hB5⟩)
  have hC0 : offC = 0 := by
    obtain ⟨h0, _, _, hmin⟩ := allocate_offset_spec o (assign (assign s A 0) B 16) C offC hoC
    rw [hrC, hC4, hC1] at hmin
    have hm := hmin (by decide) 0 (le_refl _) (dvd_zero _) (by
      intro n hn
      rw [hnC n hn, assign_range, if_pos rfl]
      left
      simp only
      norm_num)
    omega
  subst hC0
  have h3 := allocate_of_offset o (assign (assign s A 0) B 16) C 0 (by rw [hrC, hC1]; decide)
    hoC
  refine ⟨_, _, _, h1, h2, h3, ?_, ?_, ?_, ?_⟩
  · rw [assign_offset_other _ C 0 A hAC, assign_offset_other _ B 16 A hAB, assign_offset]
  · rw [assign_offset_other _ C 0 B hBC, assign_offset]
  · rw [assign_offset]
  · rw [assign_required, assign_required, assign_required, hreq,
      assign_offset_other _ B 16 C (Ne.symm hBC), assign_offset_other s A 0 C (Ne.symm hAC),
      assign_offset_other s A 0 B (Ne.symm hAB), hA2, hB2, hC2]
    decide

/-- The three intervals build creates for `three_buffers` (A is interval 2, B interval 0,
C interval 1) are such a scenario. -/
theorem three_intervals_scenario_witness :
    ∃ s1 s2 s3,
      allocate insertion_order
        (build (spec_helpers "hip::allocate") three_buffers (memory_coloring_impl.init false))
        2 = some (true, s1) ∧
      allocate insertion_order s1 0 = some (true, s2) ∧
      allocate insertion_order s2 1 = some (true, s3) ∧
      (s3.range 2).offset = 0 ∧ (s3.range 0).offset = 16 ∧ (s3.range 1).offset = 0 ∧
      s3.required_bytes = 32 :=
  three_intervals_scenario insertion_order
    (build (spec_helpers "hip::allocate") three_buffers (memory_coloring_impl.init false))
    2 0 1 4 (by decide) (by decide) (by decide) (by decide) (by decide) (by decide) (by decide)
    (by decide) (by decide)

/-- C5: for every interval of non-zero size (with a non-zero element count, so that
line 34 is defined) none of whose conflict neighbours has a valid offset, allocate assigns
offset 0; and when a second interval Y of the same size has, like X, no conflict neighbour
at all and required_bytes was 0, allocating X and then Y places both at offset 0 and
leaves required_bytes equal to that single size. -/
theorem allocate_without_placed_neighbour (o : conflict_order) (s : memory_coloring_impl)
    (X : Nat) (hsize : (s.live_intervals X).result.bytes ≠ 0)
    (hel : (s.live_intervals X).result.elements ≠ 0)
    (hn : ∀ v ∈ s.conflict_table (s.range X).vn,
      ∃ r, s.live_ranges v = some r ∧ (s.range r).offset = invalid_offset) :
    allocate o s X = some (true, assign s X 0) ∧
    ((assign s X 0).range X).offset = 0 ∧
    ∀ Y, Y ≠ X → s.conflict_table (s.range X).vn = [] → s.conflict_table (s.range Y).vn = [] →
      (s.live_intervals Y).result.bytes = (s.live_intervals X).result.bytes →
      (s.live_intervals Y).result.elements ≠ 0 →
      (s.range X).size = (s.live_intervals X).result.bytes →
      (s.range Y).size = (s.live_intervals X).result.bytes →
      s.required_bytes = 0 →
      allocate o (assign s X 0) Y = some (true, assign (assign s X 0) Y 0) ∧
      ((assign (assign s X 0) Y 0).range X).offset = 0 ∧
      ((assign (assign s X 0) Y 0).range Y).offset = 0 ∧
      (assign (assign s X 0) Y 0).required_bytes = (s.live_intervals X).result.bytes := by
  refine ⟨allocate_of_offset o s X 0 hsize (allocate_offset_zero o s X hel hn),
    assign_offset s X 0, ?_⟩
  intro Y hYX _ hcY hbY heY hsX hsY hreq
  have hrY : ((assign s X 0).live_intervals Y).result = (s.live_intervals Y).result :=
    assign_result s X 0 Y
  have hoY : allocate_offset o (assign s X 0) Y = some 0 := by
    apply allocate_offset_zero o (assign s X 0) Y (by rw [hrY]; exact heY)
    intro v hv
    rw [assign_segment, assign_offset_other s X 0 Y hYX, assign_table, hcY] at hv
    exact absurd hv (List.not_mem_nil _)
  refine ⟨allocate_of_offset o _ Y 0 (by rw [hrY, hbY]; exact hsize) hoY, ?_, ?_, ?_⟩
  · rw [assign_offset_other _ Y 0 X (Ne.symm hYX), assign_offset]
  · rw [assign_offset]
  · rw [assign_required, assign_required, hreq, assign_offset_other s X 0 Y hYX, hsX, hsY]
    simp

/-- In the state build leaves for `two_buffers` the intervals 0 and 1 have no conflict
neighbour; both are placed at offset 0 and required_bytes becomes 16. -/
theorem allocate_without_placed_neighbour_witness :
    allocate insertion_order
      (build (spec_helpers "hip::allocate") two_buffers (memory_coloring_impl.init false)) 0
      = some (true, assign (build (spec_helpers "hip::allocate") two_buffers
          (memory_coloring_impl.init false)) 0 0) ∧
    (assign (assign (build (spec_helpers "hip::allocate") two_buffers
      (memory_coloring_impl.init false)) 0 0) 1 0).required_bytes = 16 :=
  have h := allocate_without_placed_neighbour insertion_order
    (build (spec_helpers "hip::allocate") two_buffers (memory_coloring_impl.init false)) 0
    (by decide) (by decide) (by decide)
  ⟨h.1, (h.2.2 1 (by decide) (by decide) (by decide) (by decide) (by decide) (by decide)
    (by decide) (by decide)).2.2.2⟩

/-- C6: for every interval whose result has byte size 0, allocate returns false and leaves
the state as it was, so the offset and required_bytes are unchanged; in every state the
pass reaches (build followed by any calls of allocate) that offset is the invalid sentinel
-1, and in the state build leaves required_bytes is 0. -/
theorem allocate_zero_size (o : conflict_order) (s : memory_coloring_impl) (X : Nat)
    (hsize : (s.live_intervals X).result.bytes = 0) :
    allocate o s X = some (false, s) ∧
    (∀ (h : helpers) (p : List instruction) (unify : Bool) (done : List Nat),
      allocate_all o done (build h p (memory_coloring_impl.init unify)) = some s →
      (s.range X).offset = -1) ∧
    (∀ (h : helpers) (p : List instruction) (unify : Bool),
      s = build h p (memory_coloring_impl.init unify) → s.required_bytes = 0) := by
  refine ⟨?_, ?_, ?_⟩
  · unfold allocate
    rw [if_pos hsize]
  · intro h p unify done hs
    have hi := allocate_all_inv o done _ s (alloc_inv_build h p unify) hs
    by_contra hcon
    exact (hi.placed_pos X hcon).1 hsize
  · intro h p unify hs
    subst hs
    exact (build_inv_trace h p unify).required_zero

/-- The only interval of `zero_buffer` has size 0: allocate returns false, the offset stays
-1 and required_bytes stays 0. -/
theorem allocate_zero_size_witness :
    allocate insertion_order
      (build (spec_helpers "hip::allocate") zero_buffer (memory_coloring_impl.init false)) 0
      = some (false,
          build (spec_helpers "hip::allocate") zero_buffer (memory_coloring_impl.init false)) ∧
    ((build (spec_helpers "hip::allocate") zero_buffer
      (memory_coloring_impl.init false)).range 0).offset = -1 ∧
    (build (spec_helpers "hip::allocate") zero_buffer
      (memory_coloring_impl.init false)).required_bytes = 0 :=
  have h := allocate_zero_size insertion_order
    (build (spec_helpers "hip::allocate") zero_buffer (memory_coloring_impl.init false)) 0
    (by decide)
  ⟨h.1, h.2.1 _ _ _ [] rfl, h.2.2 _ _ _ rfl⟩

/-- C7: after build(), two value numbers u and v are adjacent in the conflict table if and
only if they are distinct and both were members of the live set at some moment of the
backward sweep (`live_sets` holds every value the live set has taken); the relation is
symmetric and no value number conflicts with itself. -/
theorem conflict_iff_live_together (h : helpers) (p : List instruction) (unify : Bool)
    (u v : Int) :
    (v ∈ (build h p (memory_coloring_impl.init unify)).conflict_table u ↔
      u ≠ v ∧ ∃ L ∈ (build_trace h p (memory_coloring_impl.init unify)).live_sets,
        u ∈ L ∧ v ∈ L) ∧
    (v ∈ (build h p (memory_coloring_impl.init unify)).conflict_table u →
      u ∈ (build h p (memory_coloring_impl.init unify)).conflict_table v) ∧
    u ∉ (build h p (memory_coloring_impl.init unify)).conflict_table u := by
  have ht := trace_inv_trace h p unify
  have hi := build_inv_trace h p unify
  rw [← build_trace_impl]
  refine ⟨⟨?_, ?_⟩, hi.coh.sym u v, hi.coh.irrefl u⟩
  · intro huv
    refine ⟨?_, ht.witnessed u v huv⟩
    rintro rfl
    exact hi.coh.irrefl u huv
  · rintro ⟨hne, L, hL, hu, hv⟩
    exact ht.together L hL u hu v hv hne

/-- C10: in a program in which every instruction precedes its readers, for every chain
`c 0, c 1, ..., c m` in which the alias index of each `c (j+1)` points at its input `c j`,
each `c j` with `j < m` is read only by `c (j+1)`, the last link `c m` is read by some
instruction `R` and no link is a parameter or outlined buffer, build() associates all of
`c 0, ..., c m` with one and the same interval `d`; that interval is the recorded range of
its value number `vn`, and `vn` is the only value number of the chain. -/
theorem alias_chain_one_interval (h : helpers) (p : List instruction) (unify : Bool) (m : Nat)
    (c : Nat → Nat) (R : Nat)
    (hwf : ∀ i < p.length, ∀ a ∈ (instr p i).inputs, a < i)
    (hlink : ∀ j < m, ∃ t : Nat, h.get_input_tie_ndx p (instr p (c (j + 1))) = (t : Int) ∧
      (instr p (c (j + 1))).inputs[t]? = some (c j))
    (honly : ∀ j < m, ∀ x < p.length, c j ∈ (instr p x).inputs → x = c (j + 1))
    (hread : c m ∈ (instr p R).inputs)
    (hnp : ∀ j ≤ m, h.is_param (instr p (c j)) = false ∧ h.is_outline (instr p (c j)) = false) :
    ∃ d vn, (∀ j ≤ m, (build h p (memory_coloring_impl.init unify)).instr2_live (c j) = some d) ∧
      ((build h p (memory_coloring_impl.init unify)).live_intervals d).segment.vn = vn ∧
      (build h p (memory_coloring_impl.init unify)).live_ranges vn = some d ∧
      ∀ j ≤ m, ∀ d', (build h p (memory_coloring_impl.init unify)).instr2_live (c j) = some d' →
        ((build h p (memory_coloring_impl.init unify)).live_intervals d').segment.vn = vn := by
  obtain ⟨d, hd⟩ := chain_collapse h p unify m c R hwf hlink honly hread hnp
  have hi := build_inv_trace h p unify
  refine ⟨d, _, hd, rfl, ?_, ?_⟩
  · exact hi.inverse d (hi.held_lt _ _ (hd 0 (Nat.zero_le _)))
  · intro j hj d' hd'
    rw [hd j hj] at hd'
    simp only [Option.some.injEq] at hd'
    rw [hd']

/-- In `reshape_chain` the instructions 1, 2 and 3 form such a chain, read by 4. -/
theorem alias_chain_one_interval_witness :
    ∃ d vn, (∀ j ≤ 2, (build (spec_helpers "hip::allocate") reshape_chain
        (memory_coloring_impl.init false)).instr2_live (j + 1) = some d) ∧
      ((build (spec_helpers "hip::allocate") reshape_chain
        (memory_coloring_impl.init false)).live_intervals d).segment.vn = vn ∧
      (build (spec_helpers "hip::allocate") reshape_chain
        (memory_coloring_impl.init false)).live_ranges vn = some d ∧
      ∀ j ≤ 2, ∀ d', (build (spec_helpers "hip::allocate") reshape_chain
          (memory_coloring_impl.init false)).instr2_live (j + 1) = some d' →
        ((build (spec_helpers "hip::allocate") reshape_chain
          (memory_coloring_impl.init false)).live_intervals d').segment.vn = vn :=
  alias_chain_one_interval (spec_helpers "hip::allocate") reshape_chain false 2
    (fun j => j + 1) 4 (by decide)
    (by
      intro j hj
      interval_cases j
      · exact ⟨0, by decide, by decide⟩
      · exact ⟨0, by decide, by decide⟩)
    (by decide) (by decide) (by decide)

/-- C3: each allocate call that assigns an offset (returns true) leaves required_bytes equal
to max(previous required_bytes, offset + size); and after run() on a program in which
every instruction precedes its readers and no allocation or literal instruction has an
alias index, required_bytes is the maximum of offset + size over the intervals that were
given an offset, and 0 when none was. -/
theorem required_bytes_is_high_water :
    (∀ (o : conflict_order) (s s' : memory_coloring_impl) (X : Nat),
      allocate o s X = some (true, s') →
      s'.required_bytes = max s.required_bytes ((s'.range X).offset + (s'.range X).size)) ∧
    (∀ (h : helpers) (o : conflict_order) (a : alloc_order) (unify : Bool)
      (p : List instruction) (s : memory_coloring_impl),
      (∀ i < p.length, ∀ x ∈ (instr p i).inputs, x < i) →
      (∀ i < p.length, (h.is_allocate (instr p i) || h.is_literal (instr p i)) = true →
        h.get_input_tie_ndx p (instr p i) < 0) →
      run h o a unify p = some s →
      (∀ i, (s.range i).offset ≠ invalid_offset →
        (s.range i).offset + (s.range i).size ≤ s.required_bytes) ∧
      ((∃ i, (s.range i).offset ≠ invalid_offset ∧
          (s.range i).offset + (s.range i).size = s.required_bytes) ∨
        (s.required_bytes = 0 ∧ ∀ i, (s.range i).offset = invalid_offset))) := by
  constructor
  · intro o s s' X h
    obtain ⟨_, off, _, hs⟩ := allocate_true o s s' X h
    subst hs
    rw [assign_required, assign_range, if_pos rfl]
  · intro h o a unify p s hwf htie hrun
    exact high_water_run h o a unify p s hwf htie hrun

/-- The run on `three_buffers` finishes with required_bytes = 32, the end of the interval
placed at offset 16, and the first call of allocate there raises required_bytes to 16. -/
theorem required_bytes_is_high_water_witness :
    (∃ s', allocate insertion_order
        (build (spec_helpers "hip::allocate") three_buffers (memory_coloring_impl.init false))
        1 = some (true, s') ∧ s'.required_bytes = 16) ∧
    ∃ s, run (spec_helpers "hip::allocate") insertion_order push_order false three_buffers
        = some s ∧ s.required_bytes = 32 ∧
      (∀ i, (s.range i).offset ≠ invalid_offset →
        (s.range i).offset + (s.range i).size ≤ s.required_bytes) ∧
      ((∃ i, (s.range i).offset ≠ invalid_offset ∧
          (s.range i).offset + (s.range i).size = s.required_bytes) ∨
        (s.required_bytes = 0 ∧ ∀ i, (s.range i).offset = invalid_offset)) := by
  constructor
  · have h1 := allocate_of_offset insertion_order
      (build (spec_helpers "hip::allocate") three_buffers (memory_coloring_impl.init false)) 1 0
      (by decide) (by decide)
    refine ⟨_, h1, ?_⟩
    rw [required_bytes_is_high_water.1 _ _ _ _ h1]
    decide
  · have hsome : ((run (spec_helpers "hip::allocate") insertion_order push_order false
        three_buffers).map (fun s => s.required_bytes)) = some 32 := by decide
    obtain ⟨s, hs, hv⟩ := Option.map_eq_some'.mp hsome
    exact ⟨s, hs, hv, required_bytes_is_high_water.2 _ _ _ _ _ s (by decide) (by decide) hs⟩

/-- C8: the code at the failing input `direct_and_aliased_use`.  Instruction 1 (an
allocation, neither parameter nor outlined buffer) is an input of instruction 4, whose
program point is 10, and of the reshape 2.  When the reshape is visited its interval 1,
which ends at the point 8 of the reader 3 of the reshape, replaces the interval 0 that the
use by instruction 4 had created: the interval finally associated with instruction 1 ends
at 8, before the program point 10 of its reader. -/
theorem aliased_buffer_ends_before_direct_use :
    1 ∈ (instr direct_and_aliased_use 4).inputs ∧
    (spec_helpers "hip::allocate").is_param (instr direct_and_aliased_use 1) = false ∧
    (spec_helpers "hip::allocate").is_outline (instr direct_and_aliased_use 1) = false ∧
    (∀ i < direct_and_aliased_use.length, ∀ a ∈ (instr direct_and_aliased_use i).inputs, a < i) ∧
    ((build (spec_helpers "hip::allocate") direct_and_aliased_use
      (memory_coloring_impl.init false)).live_intervals 0).use_points = [2 * (4 + 1)] ∧
    (build (spec_helpers "hip::allocate") direct_and_aliased_use
      (memory_coloring_impl.init false)).instr2_live 1 = some 1 ∧
    ((build (spec_helpers "hip::allocate") direct_and_aliased_use
      (memory_coloring_impl.init false)).live_intervals 1).segment.end_ = 8 ∧
    ¬ (2 * (4 + 1) ≤ ((build (spec_helpers "hip::allocate") direct_and_aliased_use
      (memory_coloring_impl.init false)).live_intervals 1).segment.end_) := by
  decide

/-- C9: the code at the failing input `two_reshapes`.  The reshapes 2 and 3 both have the
alias index 0 and the allocation 1 as input 0, and both are read by instruction 4.  After
build the reshape 3 is associated with the interval 1 and its input 0 with the interval 0:
the reshape has an interval of its own, which no allocation finalizes (its begin stays
-1), and after run that interval has no offset while the interval of input 0 has
offset 0. -/
theorem second_alias_keeps_own_interval :
    (spec_helpers "hip::allocate").get_input_tie_ndx two_reshapes (instr two_reshapes 3) = 0 ∧
    (instr two_reshapes 3).inputs[0]? = some 1 ∧
    (spec_helpers "hip::allocate").is_param (instr two_reshapes 1) = false ∧
    (spec_helpers "hip::allocate").is_outline (instr two_reshapes 1) = false ∧
    (∀ i < two_reshapes.length, ∀ a ∈ (instr two_reshapes i).inputs, a < i) ∧
    (build (spec_helpers "hip::allocate") two_reshapes
      (memory_coloring_impl.init false)).instr2_live 3 = some 1 ∧
    (build (spec_helpers "hip::allocate") two_reshapes
      (memory_coloring_impl.init false)).instr2_live 1 = some 0 ∧
    ((build (spec_helpers "hip::allocate") two_reshapes
      (memory_coloring_impl.init false)).live_intervals 1).segment.begin = -1 ∧
    (run (spec_helpers "hip::allocate") insertion_order push_order false two_reshapes).map
      (fun s => ((s.range 0).offset, (s.range 1).offset)) = some (0, -1) := by
  decide

/-- C19: build() on a program of n instructions is the sequence of the visits
`build_visits n`: the positions n-1, n-2, ..., 0, each once, the instruction at the
position i with the program point 2*(i+1); and every begin, def, end and use point of
every interval is unset or an even number in [2, 2n] (a use point is never unset). -/
theorem build_visits_and_points (h : helpers) (p : List instruction) (unify : Bool) :
    build_trace h p (memory_coloring_impl.init unify) =
      (build_visits p.length).foldl (fun st v => build_instr h p v.1 v.2 st)
        (build_state.init (memory_coloring_impl.init unify)) ∧
    (build_visits p.length).map Prod.fst = (List.range p.length).reverse ∧
    (∀ v ∈ build_visits p.length, v.2 = 2 * ((v.1 : Int) + 1)) ∧
    ∀ i, points_ok p.length ((build h p (memory_coloring_impl.init unify)).live_intervals i) := by
  refine ⟨?_, ?_, ?_, build_points_ok h p unify⟩
  · unfold build_trace
    split
    · rename_i h0
      rw [h0]
      rfl
    · exact build_loop_eq_visits h p p.length _
  · unfold build_visits
    rw [List.map_map]
    exact List.map_id _
  · intro v hv
    unfold build_visits at hv
    obtain ⟨i, _, rfl⟩ := List.mem_map.mp hv
    rfl

/-- C14: rewrite() changes an instruction of the program only if it is an allocation-origin
instruction, or a literal while unify_literals is set, and has an interval whose begin is
set; an instruction with no interval, an instruction with an interval whose begin was
never set, an instruction that is neither allocation-origin nor literal, and a literal
(that is no allocation-origin instruction) when unify_literals is off, is left as it
was. -/
theorem rewrite_changes_only_finalized (h : helpers) (s : memory_coloring_impl)
    (p p' : List instruction) (hr : rewrite h s p = some p') (i : Nat) (hi : i < p.length) :
    (p'[i]? ≠ p[i]? →
      (h.is_allocate (instr p i) = true ∨
        (h.is_literal (instr p i) = true ∧ s.unify_literals = true)) ∧
      ∃ d, s.instr2_live i = some d ∧
        (s.live_intervals d).segment.begin ≠ invalid_offset) ∧
    (s.instr2_live i = none → p'[i]? = p[i]?) ∧
    (∀ d, s.instr2_live i = some d →
      (s.live_intervals d).segment.begin = invalid_offset → p'[i]? = p[i]?) ∧
    (h.is_allocate (instr p i) = false → h.is_literal (instr p i) = false →
      p'[i]? = p[i]?) ∧
    (h.is_literal (instr p i) = true → h.is_allocate (instr p i) = false →
      s.unify_literals = false → p'[i]? = p[i]?) := by
  have main : p'[i]? ≠ p[i]? →
      (h.is_allocate (instr p i) = true ∨
        (h.is_literal (instr p i) = true ∧ s.unify_literals = true)) ∧
      ∃ d, s.instr2_live i = some d ∧
        (s.live_intervals d).segment.begin ≠ invalid_offset := by
    intro hne
    obtain ⟨q, q', _, h2, h3, h4⟩ := (rewrite_spec h s p p' hr).2.2 i hi
    have hq := instr_eq_of_getElem? p q i h2
    rcases rewrite_instr_cases h s p.length q q' i h3 with rfl | ⟨d, hd, hb, _, h5 | h5⟩
    · exact absurd (h4.trans h2) hne
    · rw [hq] at h5
      exact ⟨Or.inl h5.1, d, hd, hb⟩
    · rw [hq] at h5
      exact ⟨Or.inr ⟨h5.2.1, h5.2.2.1⟩, d, hd, hb⟩
  refine ⟨main, ?_, ?_, ?_, ?_⟩
  · intro hn
    by_contra hne
    obtain ⟨_, d, hd, _⟩ := main hne
    rw [hn] at hd
    exact absurd hd (by simp)
  · intro d hd hb
    by_contra hne
    obtain ⟨_, d', hd', hb'⟩ := main hne
    rw [hd] at hd'
    simp only [Option.some.injEq] at hd'
    exact hb' (hd' ▸ hb)
  · intro ha hl
    by_contra hne
    rcases (main hne).1 with h1 | h1
    · rw [ha] at h1; exact absurd h1 (by simp)
    · rw [hl] at h1; exact absurd h1.1 (by simp)
  · intro _ ha hu
    by_contra hne
    rcases (main hne).1 with h1 | h1
    · rw [ha] at h1; exact absurd h1 (by simp)
    · rw [hu] at h1; exact absurd h1.2 (by simp)

/-- After the run on `three_buffers`, rewrite leaves the instruction 3, an `add`, as it
was. -/
theorem rewrite_changes_only_finalized_witness :
    ∃ s p', run_pass (spec_helpers "hip::allocate") insertion_order push_order false
        three_buffers = some (s, p') ∧ p'[3]? = three_buffers[3]? := by
  have hsome : (run_pass (spec_helpers "hip::allocate") insertion_order push_order false
      three_buffers).isSome = true := by decide
  obtain ⟨⟨s, p'⟩, hs⟩ := Option.isSome_iff_exists.mp hsome
  rcases (run_pass_some _ _ _ _ _ _ _ hs).2 with ⟨_, hr⟩ | ⟨h0, _⟩
  · exact ⟨s, p', hs,
      (rewrite_changes_only_finalized _ s three_buffers p' hr 3 (by decide)).2.2.2.1
        (by decide) (by decide)⟩
  · exact absurd h0 (by decide)

/-- C16: whenever rewrite() runs it adds the parameter "scratch" (at the position
`p.length`, the first new one), a one-dimensional float buffer of required_bytes / 4
elements; every other instruction it adds is a literal, and every instruction of the
program it changes becomes a `load` or a `write_literal` whose first input is that
parameter. -/
theorem rewrite_adds_scratch_parameter (h : helpers) (s : memory_coloring_impl)
    (p p' : List instruction) (hr : rewrite h s p = some p') :
    p'[p.length]? = some (scratch_parameter s) ∧
    (scratch_parameter s).name = "@param" ∧
    (scratch_parameter s).parameter = "scratch" ∧
    (scratch_parameter s).result = float_shape [s.required_bytes.toNat / 4] ∧
    (0 ≤ s.required_bytes →
      (((scratch_parameter s).result.elements : Nat) : Int) = s.required_bytes / 4) ∧
    (∀ j, p.length < j → ∀ x, p'[j]? = some x → x.name = "@literal") ∧
    (∀ i < p.length, ∀ x, p'[i]? = some x → p[i]? ≠ some x →
      (x.name = "load" ∨ x.name = "write_literal") ∧ x.inputs.head? = some p.length) := by
  obtain ⟨h1, h2, h3⟩ := rewrite_spec h s p p' hr
  refine ⟨h1, rfl, rfl, rfl, ?_, h2, ?_⟩
  · intro h0
    simp only [scratch_parameter, float_shape, List.prod_cons, List.prod_nil, mul_one]
    omega
  · intro i hi x hx hne
    obtain ⟨q, q', hlen, hq, hstep, hq'⟩ := h3 i hi
    have hiq : i < q.length := by omega
    rcases rewrite_instr_cases h s p.length q q' i hstep with rfl | ⟨d, _, _, _, h5 | h5⟩
    · rw [hq'.trans hq] at hx
      exact absurd hx hne
    · obtain ⟨_, a, rest, _, rfl⟩ := h5
      rw [hq', List.getElem?_set_self hiq] at hx
      simp only [Option.some.injEq] at hx
      subst hx
      exact ⟨Or.inl rfl, rfl⟩
    · obtain ⟨_, _, _, rfl⟩ := h5
      rw [hq', List.getElem?_set_self (by unfold add_literal; rw [List.length_append]; omega)]
        at hx
      simp only [Option.some.injEq] at hx
      subst hx
      exact ⟨Or.inr rfl, rfl⟩

/-- After the run on `three_buffers` (required_bytes = 32) the scratch parameter is the
instruction 6 and has 8 elements and 32 bytes; the allocation 1 has become a load whose
first input is 6. -/
theorem rewrite_adds_scratch_parameter_witness :
    ∃ s p', run_pass (spec_helpers "hip::allocate") insertion_order push_order false
        three_buffers = some (s, p') ∧
      p'[6]? = some (scratch_parameter s) ∧
      (scratch_parameter s).result = { bytes := 32, elements := 8 } ∧
      (p'[1]?.map (fun x => (x.name, x.inputs))) = some ("load", [6]) := by
  have hsome : (run_pass (spec_helpers "hip::allocate") insertion_order push_order false
      three_buffers).map (fun r => ((scratch_parameter r.1).result,
        r.2[1]?.map (fun x => (x.name, x.inputs)))) =
      some ({ bytes := 32, elements := 8 }, some ("load", [6])) := by decide
  obtain ⟨⟨s, p'⟩, hs, hv⟩ := Option.map_eq_some'.mp hsome
  simp only [Prod.mk.injEq] at hv
  rcases (run_pass_some _ _ _ _ _ _ _ hs).2 with ⟨_, hr⟩ | ⟨h0, _⟩
  · exact ⟨s, p', hs, (rewrite_adds_scratch_parameter _ s three_buffers p' hr).1, hv.1, hv.2⟩
  · exact absurd h0 (by decide)

/-- C18: the alias table of register_operand_alias maps hip::allocate, hip::load_literal,
@outline, check_context, @literal and @param to -1, transpose, flatten, reshape and pass
to 0, broadcast to 1, and has no other entry. -/
theorem operand_alias_table (name : String) :
    operand_alias.lookup name =
      if name ∈ ["hip::allocate", "hip::load_literal", "@outline", "check_context",
          "@literal", "@param"] then some (-1)
      else if name ∈ ["transpose", "flatten", "reshape", "pass"] then some 0
      else if name = "broadcast" then some 1
      else none := by
  unfold operand_alias
  simp only [List.lookup, List.mem_cons, List.mem_singleton, List.not_mem_nil, or_false]
  repeat' split
  all_goals simp_all

/-- C20: run() on an empty program is a no-op: build() returns its state as it was, no
interval is created, required_bytes stays 0 and the program stays empty; and whenever
build() creates no interval, the state run() leaves is the state build() left (no offset
assigned, required_bytes 0) and the program is unchanged. -/
theorem run_pass_without_interval (h : helpers) (o : conflict_order) (a : alloc_order)
    (unify : Bool) :
    (∀ s, build h [] s = s) ∧
    run_pass h o a unify [] = some (memory_coloring_impl.init unify, []) ∧
    (memory_coloring_impl.init unify).num_of_lives = 0 ∧
    (memory_coloring_impl.init unify).required_bytes = 0 ∧
    ∀ p, (build h p (memory_coloring_impl.init unify)).num_of_lives = 0 →
      run_pass h o a unify p = some (build h p (memory_coloring_impl.init unify), p) ∧
      (build h p (memory_coloring_impl.init unify)).required_bytes = 0 ∧
      ∀ i, ((build h p (memory_coloring_impl.init unify)).range i).offset = invalid_offset := by
  refine ⟨fun s => rfl, rfl, rfl, rfl, ?_⟩
  intro p hp
  have hi := build_inv_trace h p unify
  refine ⟨?_, hi.required_zero, hi.unplaced⟩
  unfold run_pass
  rw [if_neg (by simpa using hp)]

/-- In a program of two parameters build creates no interval and run() leaves the program
as it was. -/
theorem run_pass_without_interval_witness :
    run_pass (spec_helpers "hip::allocate") insertion_order push_order false
        [{ name := "@param", inputs := [], result := { bytes := 16, elements := 4 } },
         { name := "@param", inputs := [], result := { bytes := 16, elements := 4 } }] =
      some (build (spec_helpers "hip::allocate")
        [{ name := "@param", inputs := [], result := { bytes := 16, elements := 4 } },
         { name := "@param", inputs := [], result := { bytes := 16, elements := 4 } }]
        (memory_coloring_impl.init false),
        [{ name := "@param", inputs := [], result := { bytes := 16, elements := 4 } },
         { name := "@param", inputs := [], result := { bytes := 16, elements := 4 } }]) :=
  ((run_pass_without_interval (spec_helpers "hip::allocate") insertion_order push_order
    false).2.2.2.2 _ (by decide)).1

/-- C11 as stated fails on `reshape_of_parameter`: the instruction 1 is a reshape whose
input 0 is the parameter 0, and after run() it is associated with an interval, the
interval 0 that its reader, the instruction 2, created for it. -/
theorem reshape_of_parameter_has_interval :
    reshape_of_parameter[1]?.map (fun x => (x.name, x.inputs)) = some ("reshape", [0]) ∧
    (spec_helpers "hip::allocate").is_param (instr reshape_of_parameter 0) = true ∧
    (run_pass (spec_helpers "hip::allocate") insertion_order push_order false
      reshape_of_parameter).map (fun r => r.1.instr2_live 1) = some (some 0) := by
  decide

/-- C11 (amended): in a program in which every instruction precedes its readers and no
allocation or literal instruction has an alias index, let X be an instruction whose alias
index is 0 and whose input 0 is a parameter (a reshape of a parameter).  After run(), X is
associated with no interval when no instruction reads it and with one when some instruction
reads it; an interval X is associated with is never finalized: its begin is not set, it was
not queued for allocation and it has no offset; and the rewrite phase has not modified X.
The run finishes when every shape with bytes has elements, no more elements than bytes, and
every allocation-origin instruction has an input. -/
theorem reshape_of_parameter_not_finalized (h : helpers) (o : conflict_order)
    (a : alloc_order) (unify : Bool) (p : List instruction)
    (hwf : ∀ i < p.length, ∀ x ∈ (instr p i).inputs, x < i)
    (htie : ∀ i < p.length, (h.is_allocate (instr p i) || h.is_literal (instr p i)) = true →
      h.get_input_tie_ndx p (instr p i) < 0)
    (X P : Nat) (hX : X < p.length)
    (halias : h.get_input_tie_ndx p (instr p X) = 0)
    (hP : (instr p X).inputs[0]? = some P)
    (hparam : h.is_param (instr p P) = true) :
    ((∀ ins ∈ p, shape_ok ins.result) →
      (∀ ins ∈ p, h.is_allocate ins = true → ins.inputs ≠ []) →
      ∃ r, run_pass h o a unify p = some r) ∧
    ∀ s p', run_pass h o a unify p = some (s, p') →
      ((∀ R, X ∉ (instr p R).inputs) → s.instr2_live X = none) ∧
      ((h.is_param (instr p X) || h.is_outline (instr p X)) = false →
        ∀ R, X ∈ (instr p R).inputs → s.instr2_live X ≠ none) ∧
      (∀ d, s.instr2_live X = some d →
        (s.live_intervals d).segment.begin = invalid_offset ∧
        d ∉ (build h p (memory_coloring_impl.init unify)).alloc_queue ∧
        (s.range d).offset = invalid_offset) ∧
      p'[X]? = p[X]? := by
  refine ⟨run_pass_finishes h o a unify p, ?_⟩
  intro s p' hrun
  have hr := (run_pass_some h o a unify p p' s hrun).1
  obtain ⟨r1, r2, _⟩ := run_offsets h o a unify p s hr
  have hXk : (h.is_allocate (instr p X) || h.is_literal (instr p X)) = false := by
    by_contra hne
    have := htie X hX ((Bool.not_eq_false _).mp hne)
    omega
  have hdead : ∀ d, s.instr2_live X = some d →
      unfinalized d (build h p (memory_coloring_impl.init unify)) := by
    intro d hd
    rw [r1.1] at hd
    refine build_dead_end h p unify X hwf htie hX hXk ?_ d hd
    intro t x hx ht
    have ht0 : t = 0 := by omega
    subst ht0
    rw [hP] at hx
    simp only [Option.some.injEq] at hx
    subst hx
    rw [hparam]
    rfl
  refine ⟨?_, ?_, ?_, ?_⟩
  · intro hun
    rw [r1.1]
    exact build_unread h p unify X hun
  · intro hnp R hread
    obtain ⟨d, hd⟩ := build_read h p unify X R hwf hread hnp
    rw [r1.1, hd]
    simp
  · intro d hd
    obtain ⟨_, u2, u3⟩ := hdead d hd
    exact ⟨(r1.2.2.2.2 d).1.trans u2, u3, r2 d u3⟩
  · apply run_pass_unchanged h o a unify p p' s hrun X hX
    intro d hd
    exact Or.inl ((r1.2.2.2.2 d).1.trans (hdead d hd).2.1)

/-- After the run on `reshape_of_parameter` the reshape 1 has the interval 0, whose begin
is not set and which has no offset, and the reshape is as it was. -/
theorem reshape_of_parameter_not_finalized_witness :
    ∃ s p', run_pass (spec_helpers "hip::allocate") insertion_order push_order false
        reshape_of_parameter = some (s, p') ∧
      s.instr2_live 1 = some 0 ∧
      (s.live_intervals 0).segment.begin = invalid_offset ∧
      (s.range 0).offset = invalid_offset ∧
      p'[1]? = reshape_of_parameter[1]? := by
  have hsome : (run_pass (spec_helpers "hip::allocate") insertion_order push_order false
      reshape_of_parameter).map (fun r => r.1.instr2_live 1) = some (some 0) := by decide
  obtain ⟨⟨s, p'⟩, hs, hv⟩ := Option.map_eq_some'.mp hsome
  have ht := (reshape_of_parameter_not_finalized (spec_helpers "hip::allocate")
    insertion_order push_order false reshape_of_parameter (by decide) (by decide) 1 0
    (by decide) (by decide) (by decide) (by decide)).2 s p' hs
  exact ⟨s, p', hs, hv, (ht.2.2.1 0 hv).1, (ht.2.2.1 0 hv).2.2, ht.2.2.2⟩

/-- C12: with unify_literals disabled, in a program in which every instruction precedes its
readers and no allocation or literal instruction has an alias index, the interval of a
literal instruction L (finalized at L: its begin is the program point of L) is not on the
allocation queue build() leaves and has no offset after run(), and rewrite() leaves every
literal instruction of the program as it was.  The run finishes when every shape with
bytes has elements, no more elements than bytes, and every allocation-origin instruction
has an input. -/
theorem literals_keep_storage (h : helpers) (o : conflict_order) (a : alloc_order)
    (p : List instruction)
    (hwf : ∀ i < p.length, ∀ x ∈ (instr p i).inputs, x < i)
    (htie : ∀ i < p.length, (h.is_allocate (instr p i) || h.is_literal (instr p i)) = true →
      h.get_input_tie_ndx p (instr p i) < 0) :
    ((∀ ins ∈ p, shape_ok ins.result) →
      (∀ ins ∈ p, h.is_allocate ins = true → ins.inputs ≠ []) →
      ∃ r, run_pass h o a false p = some r) ∧
    ∀ s p', run_pass h o a false p = some (s, p') →
      ∀ L < p.length, h.is_literal (instr p L) = true →
        (∀ d, s.instr2_live L = some d →
          (s.live_intervals d).segment.begin = 2 * ((L : Int) + 1) ∧
          d ∉ (build h p (memory_coloring_impl.init false)).alloc_queue ∧
          (s.range d).offset = invalid_offset) ∧
        p'[L]? = p[L]? := by
  refine ⟨run_pass_finishes h o a false p, ?_⟩
  intro s p' hrun L hL hlit
  have hr := (run_pass_some h o a false p p' s hrun).1
  have hfin : (h.is_allocate (instr p L) || h.is_literal (instr p L)) = true := by
    rw [hlit, Bool.or_true]
  have hrec := run_record h o a false p s hwf htie hr L hL hfin
  constructor
  · intro d hd
    obtain ⟨g1, _, _, _, _, g6⟩ := hrec d hd
    have hq : d ∉ (build h p (memory_coloring_impl.init false)).alloc_queue := by
      intro hm
      have := g6.mp hm
      rw [hlit] at this
      exact absurd this (by simp)
    exact ⟨g1, hq, (run_offsets h o a false p s hr).2.1 d hq⟩
  · apply run_pass_unchanged h o a false p p' s hrun L hL
    intro d hd
    obtain ⟨_, _, g3, _, g5, _⟩ := hrec d hd
    right
    left
    rw [g5, g3, hlit]
    rfl

/-- After the run on `three_literals` with unify_literals disabled the literal 1 has the
interval 0, finalized at the program point 4, not queued and without offset, and the
literal is as it was. -/
theorem literals_keep_storage_witness :
    ∃ s p', run_pass (spec_helpers "hip::allocate") insertion_order push_order false
        three_literals = some (s, p') ∧
      s.instr2_live 1 = some 0 ∧
      (s.live_intervals 0).segment.begin = 4 ∧
      0 ∉ (build (spec_helpers "hip::allocate") three_literals
        (memory_coloring_impl.init false)).alloc_queue ∧
      (s.range 0).offset = invalid_offset ∧
      p'[1]? = three_literals[1]? := by
  have hsome : (run_pass (spec_helpers "hip::allocate") insertion_order push_order false
      three_literals).map (fun r => r.1.instr2_live 1) = some (some 0) := by decide
  obtain ⟨⟨s, p'⟩, hs, hv⟩ := Option.map_eq_some'.mp hsome
  have ht := (literals_keep_storage (spec_helpers "hip::allocate") insertion_order
    push_order three_literals (by decide) (by decide)).2 s p' hs 1 (by decide) (by decide)
  exact ⟨s, p', hs, hv, (ht.1 0 hv).1, (ht.1 0 hv).2.1, (ht.1 0 hv).2.2, ht.2⟩

/-- C13 as stated fails on `three_literals` with unify_literals enabled: the instructions
0, 1 and 2 are literals; after run() the literal 0, which no instruction reads, has no
interval and is as it was, and the literal 2, of size 0, has the interval 1, which has no
valid offset. -/
theorem unread_literal_not_unified :
    (spec_helpers "hip::allocate").is_literal (instr three_literals 0) = true ∧
    (spec_helpers "hip::allocate").is_literal (instr three_literals 2) = true ∧
    (run_pass (spec_helpers "hip::allocate") insertion_order push_order true
      three_literals).map (fun r => (r.1.instr2_live 0, r.2[0]?, r.1.instr2_live 2,
        (r.1.range 1).offset)) = some (none, three_literals[0]?, some 1, invalid_offset) := by
  decide

/-- C13 (amended): with unify_literals enabled, in a program in which every instruction
precedes its readers and no allocation or literal instruction has an alias index, after
run() every literal instruction L that some instruction reads has an interval, and a
literal that has an interval has been replaced by a write_literal instruction on the
scratch parameter that carries the offset of the interval, or 0 when it has none; when the
size of L is not 0 the interval has a valid offset with offset + size <= required_bytes,
when the size is 0 it has no offset.  A literal that no instruction reads has no interval
and is left as it was.  The run finishes when every shape with bytes has elements, no more
elements than bytes, and every allocation-origin instruction has an input. -/
theorem read_literals_unified (h : helpers) (o : conflict_order) (a : alloc_order)
    (p : List instruction)
    (hwf : ∀ i < p.length, ∀ x ∈ (instr p i).inputs, x < i)
    (htie : ∀ i < p.length, (h.is_allocate (instr p i) || h.is_literal (instr p i)) = true →
      h.get_input_tie_ndx p (instr p i) < 0) :
    ((∀ ins ∈ p, shape_ok ins.result) →
      (∀ ins ∈ p, h.is_allocate ins = true → ins.inputs ≠ []) →
      ∃ r, run_pass h o a true p = some r) ∧
    ∀ s p', run_pass h o a true p = some (s, p') →
      ∀ L < p.length, h.is_literal (instr p L) = true → h.is_allocate (instr p L) = false →
        ((∀ R, L ∉ (instr p R).inputs) → s.instr2_live L = none ∧ p'[L]? = p[L]?) ∧
        ((h.is_param (instr p L) || h.is_outline (instr p L)) = false →
          ∀ R, L ∈ (instr p R).inputs → s.instr2_live L ≠ none) ∧
        ∀ d, s.instr2_live L = some d →
          ((instr p L).result.bytes ≠ 0 →
            0 ≤ (s.range d).offset ∧
            (s.range d).offset + (s.range d).size ≤ s.required_bytes ∧
            ((rewrite_offset (s.live_intervals d) : Nat) : Int) = (s.range d).offset) ∧
          ((instr p L).result.bytes = 0 →
            (s.range d).offset = invalid_offset ∧ rewrite_offset (s.live_intervals d) = 0) ∧
          (s.range d).size = (instr p L).result.bytes ∧
          ∃ pre, p.length < pre ∧
            p'[L]? = some (write_literal (instr p L).result
              (rewrite_offset (s.live_intervals d))
              (decide ((s.live_intervals d).segment.begin < s.earliest_end_point))
              p.length pre) := by
  refine ⟨run_pass_finishes h o a true p, ?_⟩
  intro s p' hrun L hL hlit halloc
  have hr := (run_pass_some h o a true p p' s hrun).1
  obtain ⟨r1, _, _⟩ := run_offsets h o a true p s hr
  have hfin : (h.is_allocate (instr p L) || h.is_literal (instr p L)) = true := by
    rw [hlit, Bool.or_true]
  refine ⟨?_, ?_, ?_⟩
  · intro hun
    have hnone : s.instr2_live L = none := by
      rw [r1.1]
      exact build_unread h p true L hun
    refine ⟨hnone, run_pass_unchanged h o a true p p' s hrun L hL ?_⟩
    intro d hd
    rw [hnone] at hd
    exact absurd hd (by simp)
  · intro hnp R hread
    obtain ⟨d, hd⟩ := build_read h p true L R hwf hread hnp
    rw [r1.1, hd]
    simp
  · intro d hd
    obtain ⟨g1, g2, _, g4, g5, g6⟩ := run_record h o a true p s hwf htie hr L hL hfin d hd
    have hq : d ∈ (build h p (memory_coloring_impl.init true)).alloc_queue :=
      g6.mpr (by simp)
    obtain ⟨k1, k2⟩ := run_sized_offset h o a true p s hr d hq
    rw [g2] at k1 k2
    have hb : (s.live_intervals d).segment.begin ≠ invalid_offset := by
      rw [g1]
      unfold invalid_offset
      omega
    refine ⟨?_, k2, g4, rewrite_write h s p p' (run_pass_rewrite h o a true p p' s hrun L d hd)
      L d hL hd hb g5 halloc hlit⟩
    intro hbytes
    obtain ⟨k3, k4⟩ := k1 hbytes
    refine ⟨k3, ?_, k4⟩
    apply (high_water_run h o a true p s hwf htie hr).1 d
    unfold invalid_offset
    omega

/-- After the run on `three_literals` with unify_literals enabled the literal 1, of 16
bytes, has the interval 0 with the offset 0 and 0 + 16 <= required_bytes, and has become a
write_literal with the offset 0 whose first input is the scratch parameter 4. -/
theorem read_literals_unified_witness :
    ∃ s p', run_pass (spec_helpers "hip::allocate") insertion_order push_order true
        three_literals = some (s, p') ∧
      s.instr2_live 1 = some 0 ∧ (s.range 0).offset = 0 ∧
      (s.range 0).offset + (s.range 0).size ≤ s.required_bytes ∧
      ∃ pre, 4 < pre ∧
        p'[1]? = some (write_literal { bytes := 16, elements := 4 }
          (rewrite_offset (s.live_intervals 0))
          (decide ((s.live_intervals 0).segment.begin < s.earliest_end_point)) 4 pre) := by
  have hsome : (run_pass (spec_helpers "hip::allocate") insertion_order push_order true
      three_literals).map (fun r => (r.1.instr2_live 1, (r.1.range 0).offset)) =
      some (some 0, 0) := by decide
  obtain ⟨⟨s, p'⟩, hs, hv⟩ := Option.map_eq_some'.mp hsome
  simp only [Prod.mk.injEq] at hv
  have ht := ((read_literals_unified (spec_helpers "hip::allocate") insertion_order
    push_order three_literals (by decide) (by decide)).2 s p' hs 1 (by decide) (by decide)
    (by decide)).2.2 0 hv.1
  exact ⟨s, p', hs, hv.1, hv.2, (ht.1 (by decide)).2.1, ht.2.2.2⟩

/-- C15 as stated fails on `zero_buffer`: the allocation 1, of size 0, has the interval 0,
which has no valid offset after run(), and yet rewrite() has replaced it by a load on the
scratch parameter 3, with the offset 0. -/
theorem zero_size_allocation_replaced :
    (spec_helpers "hip::allocate").is_allocate (instr zero_buffer 1) = true ∧
    (run_pass (spec_helpers "hip::allocate") insertion_order push_order false
      zero_buffer).map (fun r => (r.1.instr2_live 1, (r.1.range 0).offset, r.2[1]?)) =
      some (some 0, invalid_offset, some (load { bytes := 0, elements := 0 } 0 3)) := by
  decide

/-- C15 (amended): in a program in which every instruction precedes its readers and no
allocation or literal instruction has an alias index, after run() every allocation-origin
instruction A that has an interval (it is finalized: its begin is the program point of A)
has been replaced by a load view on the scratch parameter whose offset field is the offset
of the interval when that is valid, and 0 when the interval has no valid offset, which is
the case exactly when the size of A is 0; an allocation-origin instruction without
interval is not replaced.  The run finishes when every shape with bytes has elements, no
more elements than bytes, and every allocation-origin instruction has an input. -/
theorem allocation_becomes_load (h : helpers) (o : conflict_order) (a : alloc_order)
    (unify : Bool) (p : List instruction)
    (hwf : ∀ i < p.length, ∀ x ∈ (instr p i).inputs, x < i)
    (htie : ∀ i < p.length, (h.is_allocate (instr p i) || h.is_literal (instr p i)) = true →
      h.get_input_tie_ndx p (instr p i) < 0) :
    ((∀ ins ∈ p, shape_ok ins.result) →
      (∀ ins ∈ p, h.is_allocate ins = true → ins.inputs ≠ []) →
      ∃ r, run_pass h o a unify p = some r) ∧
    ∀ s p', run_pass h o a unify p = some (s, p') →
      ∀ A < p.length, h.is_allocate (instr p A) = true → h.is_literal (instr p A) = false →
        (s.instr2_live A = none → p'[A]? = p[A]?) ∧
        ∀ d, s.instr2_live A = some d →
          (s.live_intervals d).segment.begin = 2 * ((A : Int) + 1) ∧
          ((instr p A).result.bytes ≠ 0 →
            0 ≤ (s.range d).offset ∧
            ((rewrite_offset (s.live_intervals d) : Nat) : Int) = (s.range d).offset) ∧
          ((instr p A).result.bytes = 0 →
            (s.range d).offset = invalid_offset ∧ rewrite_offset (s.live_intervals d) = 0) ∧
          ∃ sh, p'[A]? = some (load sh (rewrite_offset (s.live_intervals d)) p.length) := by
  refine ⟨run_pass_finishes h o a unify p, ?_⟩
  intro s p' hrun A hA halloc hlit
  have hr := (run_pass_some h o a unify p p' s hrun).1
  have hfin : (h.is_allocate (instr p A) || h.is_literal (instr p A)) = true := by
    rw [halloc, Bool.true_or]
  constructor
  · intro hnone
    apply run_pass_unchanged h o a unify p p' s hrun A hA
    intro d hd
    rw [hnone] at hd
    exact absurd hd (by simp)
  · intro d hd
    obtain ⟨g1, g2, g3, _, _, g6⟩ := run_record h o a unify p s hwf htie hr A hA hfin d hd
    have hq : d ∈ (build h p (memory_coloring_impl.init unify)).alloc_queue :=
      g6.mpr (by rw [hlit]; rfl)
    obtain ⟨k1, k2⟩ := run_sized_offset h o a unify p s hr d hq
    rw [g2] at k1 k2
    have hb : (s.live_intervals d).segment.begin ≠ invalid_offset := by
      rw [g1]
      unfold invalid_offset
      omega
    refine ⟨g1, k1, k2, rewrite_load h s p p'
      (run_pass_rewrite h o a unify p p' s hrun A d hd) A d hA hd hb ?_ halloc⟩
    rw [g3, hlit, Bool.and_false]

/-- After the run on `three_buffers` the allocation 2 has the interval 0 with the offset
16 and has become a load on the scratch parameter 6 whose offset is 16. -/
theorem allocation_becomes_load_witness :
    ∃ s p', run_pass (spec_helpers "hip::allocate") insertion_order push_order false
        three_buffers = some (s, p') ∧
      s.instr2_live 2 = some 0 ∧ (s.range 0).offset = 16 ∧
      ((rewrite_offset (s.live_intervals 0) : Nat) : Int) = 16 ∧
      ∃ sh, p'[2]? = some (load sh (rewrite_offset (s.live_intervals 0)) 6) := by
  have hsome : (run_pass (spec_helpers "hip::allocate") insertion_order push_order false
      three_buffers).map (fun r => (r.1.instr2_live 2, (r.1.range 0).offset)) =
      some (some 0, 16) := by decide
  obtain ⟨⟨s, p'⟩, hs, hv⟩ := Option.map_eq_some'.mp hsome
  simp only [Prod.mk.injEq] at hv
  have ht := ((allocation_becomes_load (spec_helpers "hip::allocate") insertion_order
    push_order false three_buffers (by decide) (by decide)).2 s p' hs 2 (by decide)
    (by decide) (by decide)).2 0 hv.1
  exact ⟨s, p', hs, hv.1, hv.2, by rw [(ht.2.1 (by decide)).2, hv.2], ht.2.2.2⟩

/-- C17: the code at the failing input `six_byte_buffer`.  The allocation 1, of 6 bytes,
gets the offset 0, required_bytes is 6, and the scratch parameter rewrite() creates (the
instruction 3 of the program it leaves) has 6 / 4 = 1 float element, 4 bytes: the assigned
range [0, 6) does not fit in it. -/
theorem scratch_parameter_too_small :
    (run_pass (spec_helpers "hip::allocate") insertion_order push_order false
      six_byte_buffer).map (fun r => (r.1.instr2_live 1, (r.1.range 0).offset,
        (r.1.range 0).size, r.1.required_bytes)) = some (some 0, 0, 6, 6) ∧
    (run_pass (spec_helpers "hip::allocate") insertion_order push_order false
      six_byte_buffer).map (fun r => (r.2[3]?, (scratch_parameter r.1).result.bytes)) =
      some (some { name := "@param", inputs := [], result := { bytes := 4, elements := 1 },
                   parameter := "scratch" }, 4) ∧
    ¬ ((0 : Int) + 6 ≤ 4 * (6 / 4)) := by
  decide

/-- C21: build() associates no parameter and no outlined-buffer instruction with an
interval; reading such an input changes neither the number of intervals, nor the value
number counter, nor the instruction-to-interval map, nor the live set, nor the segment or
the use points of any interval (it creates no value number and records no use); and in a
program in which every instruction precedes its readers, the interval of every instruction
that reads a parameter or an outlined buffer is marked is_live_on_entry. -/
theorem parameters_have_no_interval (h : helpers) (p : List instruction) (unify : Bool) :
    (∀ j, (h.is_param (instr p j) || h.is_outline (instr p j)) = true →
      (build h p (memory_coloring_impl.init unify)).instr2_live j = none) ∧
    (∀ (cur_points tie_ndx : Int) (def_interval : Option Nat) (st : build_state) (cnt : Int)
      (arg : Nat), (h.is_param (instr p arg) || h.is_outline (instr p arg)) = true →
      (build_arg h p cur_points tie_ndx def_interval st cnt arg).impl.num_of_lives
        = st.impl.num_of_lives ∧
      (build_arg h p cur_points tie_ndx def_interval st cnt arg).impl.max_value_number
        = st.impl.max_value_number ∧
      (build_arg h p cur_points tie_ndx def_interval st cnt arg).impl.instr2_live
        = st.impl.instr2_live ∧
      (build_arg h p cur_points tie_ndx def_interval st cnt arg).live_set = st.live_set ∧
      ∀ i,
        ((build_arg h p cur_points tie_ndx def_interval st cnt arg).impl.live_intervals
          i).segment = (st.impl.live_intervals i).segment ∧
        ((build_arg h p cur_points tie_ndx def_interval st cnt arg).impl.live_intervals
          i).use_points = (st.impl.live_intervals i).use_points) ∧
    ((∀ i < p.length, ∀ a ∈ (instr p i).inputs, a < i) →
      ∀ I < p.length, ∀ P ∈ (instr p I).inputs,
        (h.is_param (instr p P) || h.is_outline (instr p P)) = true →
        ∀ d, (build h p (memory_coloring_impl.init unify)).instr2_live I = some d →
          ((build h p (memory_coloring_impl.init unify)).live_intervals d).is_live_on_entry
            = true) := by
  refine ⟨?_, ?_, ?_⟩
  · intro j hj
    cases hd : (build h p (memory_coloring_impl.init unify)).instr2_live j with
    | none => rfl
    | some d =>
      have := build_holder_np h p unify j d hd
      rw [hj] at this
      exact absurd this (by simp)
  · intro cur_points tie_ndx def_interval st cnt arg hp
    obtain ⟨h1, h2⟩ := build_arg_param h p cur_points tie_ndx def_interval st cnt arg hp
    rw [h1]
    cases def_interval with
    | none => exact ⟨rfl, rfl, rfl, h2, fun _ => ⟨rfl, rfl⟩⟩
    | some d =>
      refine ⟨rfl, rfl, rfl, h2, fun i => ?_⟩
      simp only [memory_coloring_impl.set_interval]
      by_cases hid : i = d
      · subst hid
        rw [Function.update_same]
        exact ⟨rfl, rfl⟩
      · rw [Function.update_noteq hid]
        exact ⟨rfl, rfl⟩
  · intro hwf I hI P hP hparam d hd
    exact build_entry h p unify hwf I (Nat.zero_le _) hI P hP hparam d hd

/-- In `reshape_of_parameter` the parameter 0 has no interval, and the interval 0 of the
reshape 1, which reads the parameter, is marked is_live_on_entry. -/
theorem parameters_have_no_interval_witness :
    (build (spec_helpers "hip::allocate") reshape_of_parameter
      (memory_coloring_impl.init false)).instr2_live 0 = none ∧
    ((build (spec_helpers "hip::allocate") reshape_of_parameter
      (memory_coloring_impl.init false)).live_intervals 0).is_live_on_entry = true :=
  ⟨(parameters_have_no_interval (spec_helpers "hip::allocate") reshape_of_parameter
      false).1 0 (by decide),
    (parameters_have_no_interval (spec_helpers "hip::allocate") reshape_of_parameter
      false).2.2 (by decide) 1 (by decide) 0 (by decide) (by decide) 0 (by decide)⟩

/-- C29: the code at the failing input `direct_and_aliased_use`.  After build() the
interval 0, which the direct reader 4 created for the allocation 1, has no begin (the
reshape 2 replaced the allocation's interval by its own at line 155, so that the
allocation finalized the interval 1 instead) and is not marked is_live_on_entry: the
assertion of line 293 of verify fails for it, after build() and after the run. -/
theorem unset_interval_not_live_on_entry :
    ((build (spec_helpers "hip::allocate") direct_and_aliased_use
      (memory_coloring_impl.init false)).live_intervals 0).segment.begin = invalid_offset ∧
    ((build (spec_helpers "hip::allocate") direct_and_aliased_use
      (memory_coloring_impl.init false)).live_intervals 0).is_live_on_entry = false ∧
    verify_entry (build (spec_helpers "hip::allocate") direct_and_aliased_use
      (memory_coloring_impl.init false)) = [0] ∧
    (run (spec_helpers "hip::allocate") insertion_order push_order false
      direct_and_aliased_use).map verify_entry = some [0] := by
  decide

/-- C28: after the allocation loop of run(), the assertion of line 225 of rewrite() holds
at every instruction: an interval whose begin is set and that is not skipped as a literal
while literals are not unified has a valid offset or a result of byte size 0.  The
allocation loop finishes when every shape with bytes has elements, and no more elements
than bytes. -/
theorem rewrite_assertion_holds (h : helpers) (o : conflict_order) (a : alloc_order)
    (unify : Bool) (p : List instruction) :
    ((∀ ins ∈ p, shape_ok ins.result) → ∃ s, run h o a unify p = some s) ∧
    ∀ s, run h o a unify p = some s →
      (∀ ins, rewrite_assert s ins = true) ∧
      ∀ ins d, s.instr2_live ins = some d →
        (s.live_intervals d).segment.begin ≠ invalid_offset →
        (!s.unify_literals && (s.live_intervals d).is_literal) = false →
        (s.live_intervals d).segment.offset ≠ invalid_offset ∨
          (s.live_intervals d).result.bytes = 0 := by
  refine ⟨run_finishes h o a unify p, ?_⟩
  intro s hrun
  have main : ∀ d, (s.live_intervals d).segment.begin ≠ invalid_offset →
      (!s.unify_literals && (s.live_intervals d).is_literal) = false →
      (s.live_intervals d).segment.offset ≠ invalid_offset ∨
        (s.live_intervals d).result.bytes = 0 :=
    run_rewrite_assert h o a unify p s hrun
  refine ⟨?_, fun _ d _ => main d⟩
  intro ins
  unfold rewrite_assert
  split
  · rfl
  · rename_i d _
    simp only
    split
    · rfl
    · rename_i hb
      split
      · rfl
      · rename_i hl
        split
        · rename_i hoff
          rcases main d hb (by simpa using hl) with h1 | h1
          · exact absurd hoff h1
          · exact decide_eq_true h1
        · rfl

/-- After the run on `zero_buffer` the allocation 1 has the interval 0, finalized at the
program point 4 and without offset; its result has 0 bytes and the assertion holds. -/
theorem rewrite_assertion_holds_witness :
    ∃ s, run (spec_helpers "hip::allocate") insertion_order push_order false zero_buffer
        = some s ∧
      s.instr2_live 1 = some 0 ∧ (s.live_intervals 0).segment.begin = 4 ∧
      (s.live_intervals 0).segment.offset = invalid_offset ∧
      rewrite_assert s 1 = true ∧ (s.live_intervals 0).result.bytes = 0 := by
  have hsome : (run (spec_helpers "hip::allocate") insertion_order push_order false
      zero_buffer).map (fun s => (s.instr2_live 1, (s.live_intervals 0).segment.begin,
        (s.live_intervals 0).segment.offset, (s.live_intervals 0).is_literal)) =
      some (some 0, 4, invalid_offset, false) := by decide
  obtain ⟨s, hs, hv⟩ := Option.map_eq_some'.mp hsome
  simp only [Prod.mk.injEq] at hv
  obtain ⟨v1, v2, v3, v4⟩ := hv
  have ht := (rewrite_assertion_holds (spec_helpers "hip::allocate") insertion_order
    push_order false zero_buffer).2 s hs
  refine ⟨s, hs, v1, v2, v3, ht.1 1, ?_⟩
  rcases ht.2 1 0 v1 (by rw [v2]; decide) (by rw [v4, Bool.and_false]) with h1 | h1
  · exact absurd v3 h1
  · exact h1

/-- C30: after build() (interval counter from 0, value-number counter from -1) the id of
every interval equals its value number (both are the index of the interval); and on a
program in which every instruction precedes its readers and no allocation or literal
instruction has an alias index, the assertion of line 178 of build() holds every time it is
reached: whenever an operand that already has an interval is read again, not as the tied
operand, the id of that interval is in the live set. -/
theorem build_assertion_holds (h : helpers) (p : List instruction) (unify : Bool) :
    (∀ i < (build h p (memory_coloring_impl.init unify)).num_of_lives,
      ((build h p (memory_coloring_impl.init unify)).live_intervals i).id =
        ((build h p (memory_coloring_impl.init unify)).live_intervals i).segment.vn ∧
      ((build h p (memory_coloring_impl.init unify)).live_intervals i).id = (i : Int)) ∧
    ((∀ i < p.length, ∀ a ∈ (instr p i).inputs, a < i) →
      (∀ i < p.length, (h.is_allocate (instr p i) || h.is_literal (instr p i)) = true →
        h.get_input_tie_ndx p (instr p i) < 0) →
      build_assert h p (memory_coloring_impl.init unify) = true) := by
  constructor
  · intro i hi
    obtain ⟨e1, e2⟩ := (build_ids h p unify).2 i hi
    exact ⟨by rw [e1, e2], e1⟩
  · intro hwf htie
    exact build_assert_true h p unify hwf htie

/-- In `three_buffers` the buffer 2 is read by the instruction 5 and again by the
instruction 3: the assertion is reached and holds. -/
theorem build_assertion_holds_witness :
    build_assert (spec_helpers "hip::allocate") three_buffers
      (memory_coloring_impl.init false) = true :=
  (build_assertion_holds (spec_helpers "hip::allocate") three_buffers false).2
    (by decide) (by decide)

/-- C26: in a program in which every instruction precedes its readers and no allocation or
literal instruction has an alias index, build() pushes no interval on the allocation queue
twice, and no two allocation-origin or literal instructions finalize the same interval; an
allocate(X) call changes the range of no interval other than X; and during the allocation
loop of run() an offset once assigned is final: the offset an interval has after any
number of allocate calls is the offset it has at the end. -/
theorem allocator_never_revisits (h : helpers) (o : conflict_order) (a : alloc_order)
    (unify : Bool) (p : List instruction)
    (hwf : ∀ i < p.length, ∀ x ∈ (instr p i).inputs, x < i)
    (htie : ∀ i < p.length, (h.is_allocate (instr p i) || h.is_literal (instr p i)) = true →
      h.get_input_tie_ndx p (instr p i) < 0) :
    (build h p (memory_coloring_impl.init unify)).alloc_queue.Nodup ∧
    (∀ L1 < p.length, ∀ L2 < p.length,
      (h.is_allocate (instr p L1) || h.is_literal (instr p L1)) = true →
      (h.is_allocate (instr p L2) || h.is_literal (instr p L2)) = true →
      ∀ d, (build h p (memory_coloring_impl.init unify)).instr2_live L1 = some d →
        (build h p (memory_coloring_impl.init unify)).instr2_live L2 = some d → L1 = L2) ∧
    (∀ s X r, allocate o s X = some r → ∀ i, i ≠ X → r.2.range i = s.range i) ∧
    (∀ s n sn, run h o a unify p = some s →
      allocate_all o
        ((a.pop (build h p (memory_coloring_impl.init unify))
          (build h p (memory_coloring_impl.init unify)).alloc_queue).take n)
        (build h p (memory_coloring_impl.init unify)) = some sn →
      ∀ i, (sn.range i).offset ≠ invalid_offset →
        (s.range i).offset = (sn.range i).offset) := by
  have hnd := build_queue_nodup h p unify hwf htie
  refine ⟨hnd, ?_, ?_, ?_⟩
  · intro L1 hL1 L2 hL2 hf1 hf2 d hd1 hd2
    have hf := build_fin h p unify hwf htie
    have e1 := (hf.record L1 (Nat.zero_le _) hL1 hf1 d hd1).1
    have e2 := (hf.record L2 (Nat.zero_le _) hL2 hf2 d hd2).1
    rw [e1] at e2
    omega
  · intro s X r hr i hi
    exact (allocate_offsets o s X r hr).1 i hi
  · intro s n sn hrun hpre i hi
    obtain ⟨r, hr, hsame⟩ := run_allocate_all h o a unify p s hrun
    rw [hsame i]
    apply allocate_all_final o _ _ r sn n ?_ ?_ hr hpre i hi
    · exact (a.perm _ _).nodup_iff.mpr hnd
    · intro j
      have := (build_inv_trace h p unify).unplaced j
      rw [build_trace_impl] at this
      exact this

/-- In the run on `three_buffers` the queue is [1, 0, 2]; after the first two allocate
calls the interval 1 has the offset 0 and the interval 0 the offset 16, and these are their
offsets at the end. -/
theorem allocator_never_revisits_witness :
    ∃ s sn, run (spec_helpers "hip::allocate") insertion_order push_order false
        three_buffers = some s ∧
      allocate_all insertion_order [1, 0]
        (build (spec_helpers "hip::allocate") three_buffers
          (memory_coloring_impl.init false)) = some sn ∧
      (sn.range 0).offset = 16 ∧ (s.range 0).offset = 16 := by
  have h1 : (allocate_all insertion_order [1, 0]
      (build (spec_helpers "hip::allocate") three_buffers
        (memory_coloring_impl.init false))).map (fun s => (s.range 0).offset) = some 16 := by
    decide
  have h2 : (run (spec_helpers "hip::allocate") insertion_order push_order false
      three_buffers).isSome = true := by decide
  obtain ⟨sn, hsn, hv⟩ := Option.map_eq_some'.mp h1
  obtain ⟨s, hs⟩ := Option.isSome_iff_exists.mp h2
  refine ⟨s, sn, hs, hsn, hv, ?_⟩
  rw [(allocator_never_revisits (spec_helpers "hip::allocate") insertion_order push_order
    false three_buffers (by decide) (by decide)).2.2.2 s 2 sn hs hsn 0
    (by rw [hv]; decide), hv]

/-- C22 as stated fails on `reread_literal` with unify_literals enabled: the literal 2 has
the interval 3, whose begin is 6, and the literal 0 has the interval 2, which records the
use point 4 (the instruction 1 reads it there); 6 is not smaller than the smallest
recorded use point, and yet the write_literal that replaces the literal 2 has
pre_copy = true, because earliest_end_point is 8. -/
theorem pre_copy_ignores_later_uses :
    (run_pass (spec_helpers "hip::allocate") insertion_order push_order true
      reread_literal).map (fun r => (r.1.instr2_live 2, (r.1.live_intervals 3).segment.begin,
        (r.1.live_intervals 2).use_points, r.1.earliest_end_point)) =
      some (some 3, 6, [4, 8], 8) ∧
    (run_pass (spec_helpers "hip::allocate") insertion_order push_order true
      reread_literal).map (fun r => r.2[2]?.map (fun x => (x.name, x.pre_copy))) =
      some (some ("write_literal", true)) := by
  decide

/-- C22 (amended): with unify_literals enabled, in a program in which every instruction
precedes its readers and no allocation or literal instruction has an alias index, the
pre_copy flag of the write_literal that replaces a literal is true if and only if the
begin of the literal's interval is strictly smaller than earliest_end_point, that is
strictly smaller than the end point of every interval; the end point of an interval is the
largest of its use points (the point of the reader at which build() created it), so that
earliest_end_point is the smallest over all intervals of the largest use point, not the
smallest use point. -/
theorem pre_copy_before_earliest_end (h : helpers) (o : conflict_order) (a : alloc_order)
    (p : List instruction)
    (hwf : ∀ i < p.length, ∀ x ∈ (instr p i).inputs, x < i)
    (htie : ∀ i < p.length, (h.is_allocate (instr p i) || h.is_literal (instr p i)) = true →
      h.get_input_tie_ndx p (instr p i) < 0) :
    ((∀ ins ∈ p, shape_ok ins.result) →
      (∀ ins ∈ p, h.is_allocate ins = true → ins.inputs ≠ []) →
      ∃ r, run_pass h o a true p = some r) ∧
    ∀ s p', run_pass h o a true p = some (s, p') →
      (∀ i < s.num_of_lives,
        s.earliest_end_point ≤ (s.live_intervals i).segment.end_ ∧
        (s.live_intervals i).segment.end_ ∈ (s.live_intervals i).use_points ∧
        ∀ u ∈ (s.live_intervals i).use_points, u ≤ (s.live_intervals i).segment.end_) ∧
      (0 < s.num_of_lives →
        ∃ i < s.num_of_lives, (s.live_intervals i).segment.end_ = s.earliest_end_point) ∧
      ∀ L < p.length, h.is_literal (instr p L) = true → h.is_allocate (instr p L) = false →
        ∀ d, s.instr2_live L = some d →
          ∃ x, p'[L]? = some x ∧ x.name = "write_literal" ∧
            (x.pre_copy = true ↔
              (s.live_intervals d).segment.begin < s.earliest_end_point) ∧
            (x.pre_copy = true ↔
              ∀ i < s.num_of_lives,
                (s.live_intervals d).segment.begin < (s.live_intervals i).segment.end_) := by
  refine ⟨run_pass_finishes h o a true p, ?_⟩
  intro s p' hrun
  have hr := (run_pass_some h o a true p p' s hrun).1
  obtain ⟨c, hc1, hc2⟩ := run_ends h o a true p s hr
  refine ⟨hc1, fun hpos => (hc2 hpos).2, ?_⟩
  intro L hL hlit halloc d hd
  have hfin : (h.is_allocate (instr p L) || h.is_literal (instr p L)) = true := by
    rw [hlit, Bool.or_true]
  obtain ⟨g1, _, _, _, g5, _⟩ := run_record h o a true p s hwf htie hr L hL hfin d hd
  have hb : (s.live_intervals d).segment.begin ≠ invalid_offset := by
    rw [g1]
    unfold invalid_offset
    omega
  obtain ⟨pre, _, hp'⟩ := rewrite_write h s p p'
    (run_pass_rewrite h o a true p p' s hrun L d hd) L d hL hd hb g5 halloc hlit
  have hdlt : d < s.num_of_lives := by
    have := (build_inv_trace h p true).held_lt L d
      (by rw [build_trace_impl, ← (run_offsets h o a true p s hr).1.1]; exact hd)
    rw [build_trace_impl, ← (run_offsets h o a true p s hr).1.2.2.2.1] at this
    exact this
  refine ⟨_, hp', rfl, ?_, ?_⟩
  · simp only [write_literal, decide_eq_true_eq]
  · simp only [write_literal, decide_eq_true_eq]
    constructor
    · intro hlt i hi
      exact lt_of_lt_of_le hlt (hc1 i hi).1
    · intro hall
      obtain ⟨i, hi1, hi2⟩ := (hc2 (by omega)).2
      rw [← hi2]
      exact hall i hi1

/-- After the run on `reread_literal` the literal 2 (interval 3, begin 6) has become a
write_literal with pre_copy = true, and 6 is smaller than the end point of every
interval. -/
theorem pre_copy_before_earliest_end_witness :
    ∃ s p', run_pass (spec_helpers "hip::allocate") insertion_order push_order true
        reread_literal = some (s, p') ∧
      s.instr2_live 2 = some 3 ∧
      ∃ x, p'[2]? = some x ∧ x.name = "write_literal" ∧ x.pre_copy = true ∧
        ∀ i < s.num_of_lives,
          (s.live_intervals 3).segment.begin < (s.live_intervals i).segment.end_ := by
  have hsome : (run_pass (spec_helpers "hip::allocate") insertion_order push_order true
      reread_literal).map (fun r => (r.1.instr2_live 2,
        (r.1.live_intervals 3).segment.begin, r.1.earliest_end_point)) =
      some (some 3, 6, 8) := by decide
  obtain ⟨⟨s, p'⟩, hs, hv⟩ := Option.map_eq_some'.mp hsome
  simp only [Prod.mk.injEq] at hv
  obtain ⟨v1, v2, v3⟩ := hv
  obtain ⟨x, hx, hn, h1, h2⟩ := ((pre_copy_before_earliest_end (spec_helpers "hip::allocate")
    insertion_order push_order reread_literal (by decide) (by decide)).2 s p' hs).2.2 2
    (by decide) (by decide) (by decide) 3 v1
  have hpc : x.pre_copy = true := h1.mpr (by rw [v2, v3]; decide)
  exact ⟨s, p', hs, v1, x, hx, hn, hpc, h2.mp hpc⟩

/-- C25 as stated fails.  In `rounding_gap` the queue yields the intervals in the order
0 (A), 3 (C), 1 (B), 2 (X); when allocate is called on X its neighbours A and B lie at
[0, 6) and [10, 14), and allocate assigns 16: it rounds the candidate 6 up to 8 after A and
finds the gap before B too small.  The procedure of the spec stops at the unrounded
candidate 6 (the gap 10 - 6 is not smaller than the size 4) and rounds it to 8, inside B.
In `small_gap` the only neighbour of X lies at [4, 8) when allocate is called on X, of 8
bytes; allocate assigns 8, and the procedure of the spec, which neither finds the candidate
0 inside the neighbour nor a gap of 8, leaves it at 0. -/
theorem allocate_rounds_after_every_neighbour :
    definition_order.pop
      (build (spec_helpers "hip::allocate") rounding_gap (memory_coloring_impl.init false))
      (build (spec_helpers "hip::allocate") rounding_gap
        (memory_coloring_impl.init false)).alloc_queue = [0, 3, 1, 2] ∧
    (allocate_all insertion_order [0, 3, 1]
      (build (spec_helpers "hip::allocate") rounding_gap
        (memory_coloring_impl.init false))).map
      (fun s => ((s.range 0).offset, (s.range 1).offset,
        allocate_offset insertion_order s 2, spec_offset s 2)) =
      some (0, 10, some 16, some 8) ∧
    definition_order.pop
      (build (spec_helpers "hip::allocate") small_gap (memory_coloring_impl.init false))
      (build (spec_helpers "hip::allocate") small_gap
        (memory_coloring_impl.init false)).alloc_queue = [2, 0, 1] ∧
    (allocate_all insertion_order [2, 0]
      (build (spec_helpers "hip::allocate") small_gap
        (memory_coloring_impl.init false))).map
      (fun s => ((s.range 0).offset, allocate_offset insertion_order s 1, spec_offset s 1)) =
      some (4, some 8, some 0) := by
  decide

/-- C25 (amended): for an interval of non-zero size (with a well-defined element size, in
a state in which every value number of its conflict set has a recorded range) the offset
allocate assigns equals the offset produced by this procedure: gather the placed
neighbours, keep of the neighbours of one offset only one of largest size, and scan them in
ascending offset order with a running candidate starting at 0 that is rounded up to a
multiple of element_size after every neighbour considered: advance past a neighbour that
contains the candidate or starts less than size after it, stop at a gap of at least
size. -/
theorem allocate_refines_rounded_scan (o : conflict_order) (s : memory_coloring_impl)
    (interval : Nat) (hb : (s.live_intervals interval).result.bytes ≠ 0)
    (hs : shape_ok (s.live_intervals interval).result)
    (hl : ∀ v ∈ s.conflict_table (s.live_intervals interval).segment.vn,
      ∃ r, s.live_ranges v = some r) :
    ∃ off, allocate_offset o s interval = some off ∧
      spec_offset_rounded s interval = some off ∧
      allocate o s interval = some (true, assign s interval off) := by
  obtain ⟨he, hes⟩ := hs hb
  obtain ⟨off, hoff⟩ := allocate_offset_some o s interval he hes hl
  obtain ⟨off', hoff'⟩ := spec_offset_rounded_some s interval he hes
  have hpos : 0 < (s.live_intervals interval).result.bytes := Nat.pos_of_ne_zero hb
  have heq := least_fit_unique s _ _ _ off off'
    (allocate_offset_least o s interval off hpos hoff)
    (spec_offset_rounded_least s interval off' hpos hoff')
  exact ⟨off, hoff, by rw [hoff', heq], allocate_of_offset o s interval off hb hoff⟩

/-- In the state the run on `rounding_gap` leaves, allocate on the interval 2 (X) computes
the offset 16, and so does the procedure. -/
theorem allocate_refines_rounded_scan_witness :
    ∃ s, run (spec_helpers "hip::allocate") insertion_order definition_order false
        rounding_gap = some s ∧
      allocate_offset insertion_order s 2 = some 16 ∧
      spec_offset_rounded s 2 = some 16 := by
  have hsome : (run (spec_helpers "hip::allocate") insertion_order definition_order false
      rounding_gap).map (fun s => ((s.live_intervals 2).result,
        allocate_offset insertion_order s 2)) =
      some ({ bytes := 4, elements := 1 }, some 16) := by decide
  obtain ⟨s, hs, hv⟩ := Option.map_eq_some'.mp hsome
  simp only [Prod.mk.injEq] at hv
  obtain ⟨v1, v2⟩ := hv
  obtain ⟨off, h1, h2, _⟩ := allocate_refines_rounded_scan insertion_order s 2
    (by rw [v1]; decide) (by rw [v1]; unfold shape_ok; decide)
    (fun v hv => (alloc_inv_run _ _ _ _ _ s hs).coh.ranged _ v hv)
  rw [v2] at h1
  simp only [Option.some.injEq] at h1
  exact ⟨s, hs, v2, by rw [h2, ← h1]⟩

/-- C27: for an interval of non-zero size (with a well-defined element size, in a state in
which every value number of its conflict set has a recorded range) the offset allocate
assigns is the same for every order in which the priority queue yields neighbours of equal
offset, and it is the offset allocate would assign if only the neighbours `offset2_live`
holds were scanned; `offset2_live` holds for every offset of a gathered neighbour exactly
one gathered neighbour of that offset, and no gathered neighbour of that offset is
larger. -/
theorem allocate_offset_order_independent (s : memory_coloring_impl) (interval : Nat)
    (hb : (s.live_intervals interval).result.bytes ≠ 0)
    (hs : shape_ok (s.live_intervals interval).result)
    (hl : ∀ v ∈ s.conflict_table (s.live_intervals interval).segment.vn,
      ∃ r, s.live_ranges v = some r) :
    (∀ o o' : conflict_order, ∃ off, allocate_offset o s interval = some off ∧
      allocate_offset o' s interval = some off ∧
      allocate_offset_kept o' s interval = some off ∧
      allocate o s interval = some (true, assign s interval off) ∧
      allocate o' s interval = some (true, assign s interval off)) ∧
    ∀ q m, gather s (s.conflict_table (s.live_intervals interval).segment.vn)
        ([], fun _ => none) = some (q, m) →
      (∀ r ∈ q, ∃ r' ∈ q, m (s.range r).offset = some r' ∧
        (s.range r').offset = (s.range r).offset ∧ (s.range r).size ≤ (s.range r').size) ∧
      (∀ x r', m x = some r' → r' ∈ q ∧ (s.range r').offset = x) := by
  obtain ⟨he, hes⟩ := hs hb
  have hpos : 0 < (s.live_intervals interval).result.bytes := Nat.pos_of_ne_zero hb
  constructor
  · intro o o'
    obtain ⟨off, hoff⟩ := allocate_offset_some o s interval he hes hl
    obtain ⟨off1, hoff1⟩ := allocate_offset_some o' s interval he hes hl
    obtain ⟨off2, hoff2⟩ := allocate_offset_kept_some o' s interval he hes hl
    have hl0 := allocate_offset_least o s interval off hpos hoff
    have e1 := least_fit_unique s _ _ _ off off1 hl0
      (allocate_offset_least o' s interval off1 hpos hoff1)
    have e2 := least_fit_unique s _ _ _ off off2 hl0
      (allocate_offset_kept_least o' s interval off2 hpos hoff2)
    refine ⟨off, hoff, by rw [hoff1, e1], by rw [hoff2, e2],
      allocate_of_offset o s interval off hb hoff,
      allocate_of_offset o' s interval off hb (by rw [hoff1, e1])⟩
  · intro q m hg
    obtain ⟨⟨hv, hc⟩, _⟩ := gather_spec s _ [] (fun _ => none) q m (gathered_nil s) hg
    refine ⟨?_, hv⟩
    intro r hr
    obtain ⟨r', h1, h2⟩ := hc r hr
    obtain ⟨h3, h4⟩ := hv _ _ h1
    exact ⟨r', h3, h1, h4, h2⟩

/-- In the state the run on `two_at_zero` leaves, the neighbours A (16 bytes) and B (8
bytes) of the interval 0 (X) both lie at the offset 0; allocate computes the offset 16 for
X, also when only the larger one is scanned. -/
theorem allocate_offset_order_independent_witness :
    ∃ s, run (spec_helpers "hip::allocate") insertion_order push_order false two_at_zero
        = some s ∧
      (s.range 1).offset = 0 ∧ (s.range 2).offset = 0 ∧
      allocate_offset insertion_order s 0 = some 16 ∧
      allocate_offset_kept insertion_order s 0 = some 16 := by
  have hsome : (run (spec_helpers "hip::allocate") insertion_order push_order false
      two_at_zero).map (fun s => ((s.live_intervals 0).result, (s.range 1).offset,
        (s.range 2).offset, allocate_offset insertion_order s 0)) =
      some ({ bytes := 16, elements := 4 }, 0, 0, some 16) := by decide
  obtain ⟨s, hs, hv⟩ := Option.map_eq_some'.mp hsome
  simp only [Prod.mk.injEq] at hv
  obtain ⟨v1, v2, v3, v4⟩ := hv
  obtain ⟨off, h1, _, h3, _⟩ := (allocate_offset_order_independent s 0
    (by rw [v1]; decide) (by rw [v1]; unfold shape_ok; decide)
    (fun v hv => (alloc_inv_run _ _ _ _ _ s hs).coh.ranged _ v hv)).1
    insertion_order insertion_order
  rw [v4] at h1
  simp only [Option.some.injEq] at h1
  exact ⟨s, hs, v2, v3, v4, by rw [h3, ← h1]⟩

/-- C31: in a program whose inputs are instructions of the program, build() creates at
most as many intervals as the program has instructions: after every visit of the loop
num_of_lives is at most num_of_instrs, so every index `id = num_of_lives++` used into the
interval table, which is sized to num_of_instrs, is in bounds; at the end every index held
by the instruction-to-interval map, the allocation queue and the value-number map is
below num_of_instrs, and the entries from num_of_lives on were never written. -/
theorem intervals_at_most_instructions (h : helpers) (p : List instruction) (unify : Bool)
    (hin : ∀ i < p.length, ∀ a ∈ (instr p i).inputs, a < p.length) :
    (∀ m, (((build_visits p.length).take m).foldl (fun st v => build_instr h p v.1 v.2 st)
        (build_state.init (memory_coloring_impl.init unify))).impl.num_of_lives ≤ p.length) ∧
    (build h p (memory_coloring_impl.init unify)).num_of_lives ≤ p.length ∧
    (∀ j d, (build h p (memory_coloring_impl.init unify)).instr2_live j = some d →
      d < p.length) ∧
    (∀ d ∈ (build h p (memory_coloring_impl.init unify)).alloc_queue, d < p.length) ∧
    (∀ v r, (build h p (memory_coloring_impl.init unify)).live_ranges v = some r →
      r < p.length) ∧
    (∀ i, (build h p (memory_coloring_impl.init unify)).num_of_lives ≤ i →
      (build h p (memory_coloring_impl.init unify)).live_intervals i = live_interval.init) := by
  have hall : ∀ l : List (Nat × Int), ((l.foldl (fun st v => build_instr h p v.1 v.2 st)
      (build_state.init (memory_coloring_impl.init unify))).impl.num_of_lives ≤ p.length) :=
    fun l => creators_le _ _ (creators_foldl h p hin l _ (creators_init _ unify))
  have hn : (build h p (memory_coloring_impl.init unify)).num_of_lives ≤ p.length := by
    unfold build
    rw [build_trace_eq_visits]
    exact hall _
  have hb := build_inv_trace h p unify
  refine ⟨fun m => hall _, hn, ?_, ?_, ?_, ?_⟩
  · intro j d hj
    exact lt_of_lt_of_le (hb.held_lt j d hj) hn
  · intro d hd
    exact lt_of_lt_of_le (hb.queue_lt d hd) hn
  · intro v r hv
    exact lt_of_lt_of_le (hb.range_lt v r hv).1 hn
  · intro i hi
    exact hb.fresh i hi

/-- On `three_buffers` every input is an instruction of the program, and build creates 3
intervals for its 7 instructions. -/
theorem intervals_at_most_instructions_witness :
    (∀ i < three_buffers.length, ∀ a ∈ (instr three_buffers i).inputs,
      a < three_buffers.length) ∧
    (build (spec_helpers "hip::allocate") three_buffers
      (memory_coloring_impl.init false)).num_of_lives ≤ three_buffers.length :=
  ⟨by decide, (intervals_at_most_instructions (spec_helpers "hip::allocate") three_buffers false
    (by decide)).2.1⟩

/-- C32: after build(), every interval whose begin is set is one of the num_of_lives
intervals and satisfies begin == def_point < end, and its end is one of its recorded use
points and the largest of them. -/
theorem finalized_interval_points (h : helpers) (p : List instruction) (unify : Bool) (d : Nat)
    (hd : ((build h p (memory_coloring_impl.init unify)).live_intervals d).segment.begin
      ≠ invalid_offset) :
    d < (build h p (memory_coloring_impl.init unify)).num_of_lives ∧
    ((build h p (memory_coloring_impl.init unify)).live_intervals d).segment.begin =
      ((build h p (memory_coloring_impl.init unify)).live_intervals d).def_point ∧
    ((build h p (memory_coloring_impl.init unify)).live_intervals d).segment.begin <
      ((build h p (memory_coloring_impl.init unify)).live_intervals d).segment.end_ ∧
    ((build h p (memory_coloring_impl.init unify)).live_intervals d).segment.end_ ∈
      ((build h p (memory_coloring_impl.init unify)).live_intervals d).use_points ∧
    ∀ u ∈ ((build h p (memory_coloring_impl.init unify)).live_intervals d).use_points,
      u ≤ ((build h p (memory_coloring_impl.init unify)).live_intervals d).segment.end_ := by
  have hlt := begun_lt _ (build_inv_trace h p unify) d hd
  obtain ⟨c, he⟩ := build_ends h p unify
  obtain ⟨_, e2, e3⟩ := he.1 d hlt
  obtain ⟨b1, b2⟩ := build_begun h p unify d hd
  exact ⟨hlt, b1, b2, e2, e3⟩

/-- On `three_buffers` the interval 0 has its begin set. -/
theorem finalized_interval_points_witness :
    ((build (spec_helpers "hip::allocate") three_buffers
      (memory_coloring_impl.init false)).live_intervals 0).segment.begin ≠ invalid_offset ∧
    ((build (spec_helpers "hip::allocate") three_buffers
      (memory_coloring_impl.init false)).live_intervals 0).segment.begin <
    ((build (spec_helpers "hip::allocate") three_buffers
      (memory_coloring_impl.init false)).live_intervals 0).segment.end_ :=
  ⟨by decide, (finalized_interval_points (spec_helpers "hip::allocate") three_buffers false 0
    (by decide)).2.2.1⟩

/-- C33: in a program in which every instruction precedes its readers, no allocation or
literal instruction has an alias index and every shape that has bytes has an element size,
run() returns, and the required_bytes it leaves is at most the sum, over the intervals
that were given an offset, of size + element_size - 1; when all the intervals that were
given an offset share one element size that divides every size, required_bytes is at most
the sum of their sizes. -/
theorem packing_within_slots (h : helpers) (o : conflict_order) (a : alloc_order)
    (unify : Bool) (p : List instruction)
    (hwf : ∀ i < p.length, ∀ x ∈ (instr p i).inputs, x < i)
    (htie : ∀ i < p.length, (h.is_allocate (instr p i) || h.is_literal (instr p i)) = true →
      h.get_input_tie_ndx p (instr p i) < 0)
    (hp : ∀ ins ∈ p, shape_ok ins.result) :
    ∃ s, run h o a unify p = some s ∧
      s.required_bytes ≤ slot_sum s ∧
      ∀ e : Nat, (∀ i, (s.range i).offset ≠ invalid_offset →
          element_size s i = e ∧ e ∣ (s.range i).size) →
        s.required_bytes ≤ size_sum s := by
  obtain ⟨s, hs⟩ := run_finishes h o a unify p hp
  exact ⟨s, hs, run_slots h o a unify p s hwf htie hp hs⟩

/-- On `rounding_gap`, whose buffers have the element sizes 2 and 4, the run leaves
required_bytes = 14, and the sum of size + element_size - 1 over the four intervals is
24. -/
theorem packing_within_slots_witness :
    ∃ s, run (spec_helpers "hip::allocate") insertion_order push_order false rounding_gap
        = some s ∧ s.required_bytes ≤ slot_sum s ∧
      (run (spec_helpers "hip::allocate") insertion_order push_order false rounding_gap).map
        (fun s => (s.required_bytes, slot_sum s)) = some (14, 24) := by
  obtain ⟨s, hs, h1, _⟩ := packing_within_slots (spec_helpers "hip::allocate") insertion_order
    push_order false rounding_gap (by decide) (by decide) (by unfold shape_ok; decide)
  exact ⟨s, hs, h1, by decide⟩

/-- C34: the dimensions add_broadcastable_binary_op computes for operands of unequal shapes
are the right-aligned broadcast of the two dimension lists: as many as the longer list
has, and, read from the last dimension backwards, the maximum of the two dimensions where
both lists have one and the dimension of the longer list beyond; they do not depend on
which operand is the shorter one, and when the first is not longer they are the leading
dimensions of the second followed by the element-wise maxima.  (3,2,4,5) with (2,1,1)
gives (3,2,4,5) and (3,2,1,5) with (2,7,5) gives (3,2,7,5).  Operands of equal shapes get
the operator alone, without broadcast instruction; operands of unequal shapes get a
multibroadcast to these dimensions each and the operator on the two results. -/
theorem broadcast_output_dimensions (get_shape : List onnx.instruction → Nat → onnx.shape)
    (prog : List onnx.instruction) (arg0 arg1 : Nat) (x : onnx.op) (a b : List Nat) :
    (onnx.output_lens a b).length = max a.length b.length ∧
    (onnx.output_lens a b).reverse = onnx.aligned_max a.reverse b.reverse ∧
    onnx.output_lens a b = onnx.output_lens b a ∧
    (a.length ≤ b.length → onnx.output_lens a b =
      b.take (b.length - a.length) ++
        List.zipWith (fun x y => max x y) a (b.drop (b.length - a.length))) ∧
    onnx.output_lens [3, 2, 4, 5] [2, 1, 1] = [3, 2, 4, 5] ∧
    onnx.output_lens [3, 2, 1, 5] [2, 7, 5] = [3, 2, 7, 5] ∧
    (get_shape prog arg0 = get_shape prog arg1 →
      onnx.add_broadcastable_binary_op get_shape prog arg0 arg1 x =
        (prog ++ [{ op := x, inputs := [arg0, arg1] }], prog.length)) ∧
    (get_shape prog arg0 ≠ get_shape prog arg1 →
      onnx.add_broadcastable_binary_op get_shape prog arg0 arg1 x =
        (prog ++
          [{ op := onnx.op.multibroadcast
               (onnx.output_lens (get_shape prog arg0).lens (get_shape prog arg1).lens),
             inputs := [arg0] },
           { op := onnx.op.multibroadcast
               (onnx.output_lens (get_shape prog arg0).lens (get_shape prog arg1).lens),
             inputs := [arg1] },
           { op := x, inputs := [prog.length, prog.length + 1] }],
          prog.length + 2)) := by
  refine ⟨output_lens_length a b, output_lens_reverse a b, output_lens_comm a b,
    output_lens_short a b, by decide, by decide, ?_, ?_⟩
  · intro h
    unfold onnx.add_broadcastable_binary_op
    rw [if_neg (fun hc => hc h)]
    rfl
  · intro h
    unfold onnx.add_broadcastable_binary_op
    rw [if_pos h]
    simp [onnx.add_instruction]

/-- The dimensions (2,1,1) and (3,2,4,5): the first list is the shorter one, the output
dimensions are (3,2,4,5) in both orders of the operands, and two instructions of one shape
get the operator alone. -/
theorem broadcast_output_dimensions_witness :
    [2, 1, 1].length ≤ [3, 2, 4, 5].length ∧
    onnx.output_lens [2, 1, 1] [3, 2, 4, 5] = [3, 2, 4, 5] ∧
    onnx.add_broadcastable_binary_op onnx.flat_shape onnx.conv_inputs 0 1 onnx.op.add =
      (onnx.conv_inputs ++ [{ op := onnx.op.add, inputs := [0, 1] }], 3) := by
  have h := broadcast_output_dimensions onnx.flat_shape onnx.conv_inputs 0 1 onnx.op.add
    [2, 1, 1] [3, 2, 4, 5]
  exact ⟨by decide, by rw [h.2.2.2.1 (by decide)]; decide, h.2.2.2.2.2.2.1 rfl⟩

/-- C35: the activation names of parse_lstm.  For a bidirectional LSTM given n names with
1 <= n <= 6 the expanded list has exactly 6 names, for a forward or reverse LSTM given
1 <= n <= 3 names it has exactly 3; the given names are kept as the first names of the
expanded list; one name a becomes a six times, two names a, b become a, b, b, a, b, b and
three names a, b, c become a, b, c, a, b, c in the bidirectional case. -/
theorem lstm_activation_names (names : List String) (a b c : String) :
    (1 ≤ names.length → names.length ≤ 6 →
      (onnx.lstm_vec_names true (some names)).length = 6) ∧
    (1 ≤ names.length → names.length ≤ 3 →
      (onnx.lstm_vec_names false (some names)).length = 3) ∧
    (∀ bidirectional, names <+: onnx.lstm_vec_names bidirectional (some names)) ∧
    onnx.lstm_vec_names true (some [a]) = [a, a, a, a, a, a] ∧
    onnx.lstm_vec_names true (some [a, b]) = [a, b, b, a, b, b] ∧
    onnx.lstm_vec_names true (some [a, b, c]) = [a, b, c, a, b, c] := by
  refine ⟨?_, ?_, ?_, rfl, rfl, rfl⟩
  · intro h1 h6
    rcases names with _ | ⟨x1, _ | ⟨x2, _ | ⟨x3, _ | ⟨x4, _ | ⟨x5, _ | ⟨x6, _ | ⟨x7, t⟩⟩⟩⟩⟩⟩⟩
    · simp at h1
    · rfl
    · rfl
    · rfl
    · rfl
    · rfl
    · rfl
    · simp only [List.length_cons] at h6
      omega
  · intro h1 h3
    rcases names with _ | ⟨x1, _ | ⟨x2, _ | ⟨x3, _ | ⟨x4, t⟩⟩⟩⟩
    · simp at h1
    · rfl
    · rfl
    · rfl
    · simp only [List.length_cons] at h3
      omega
  · intro bidirectional
    cases bidirectional
    · rcases names with _ | ⟨x1, _ | ⟨x2, _ | ⟨x3, t⟩⟩⟩ <;>
        simp [onnx.lstm_vec_names]
    · rcases names with _ | ⟨x1, _ | ⟨x2, _ | ⟨x3, _ | ⟨x4, _ | ⟨x5, _ | ⟨x6, t⟩⟩⟩⟩⟩⟩ <;>
        simp [onnx.lstm_vec_names]

/-- The four names of a bidirectional LSTM become six, the two names of a forward one
three. -/
theorem lstm_activation_names_witness :
    (onnx.lstm_vec_names true (some ["sigmoid", "tanh", "relu", "tanh"])).length = 6 ∧
    (onnx.lstm_vec_names false (some ["sigmoid", "tanh"])).length = 3 :=
  ⟨(lstm_activation_names ["sigmoid", "tanh", "relu", "tanh"] "" "" "").1 (by decide)
      (by decide),
    (lstm_activation_names ["sigmoid", "tanh"] "" "" "").2.1 (by decide) (by decide)⟩

/-- C37: the code at the failing input, a Conv node with the asymmetric pads (0, 0, 1, 1)
and the three inputs data (0), weights (1) and bias (2).  The pad instruction with the
pads (0, 0, 0, 0, 0, 0, 1, 1) is added at the position 3, but the convolution added at the
position 4 reads the unpadded data 0, and no instruction reads the pad instruction.  With
the two inputs data and weights the convolution reads the pad instruction 3. -/
theorem conv_with_bias_reads_unpadded_data (to_upper : String → String)
    (get_shape : List onnx.instruction → Nat → onnx.shape) :
    (onnx.parse_conv to_upper get_shape onnx.plain_convolution onnx.conv_inputs
        { pads := some [0, 0, 1, 1] } [0, 1, 2]).map
      (fun r => r.map (fun q => (q.1.drop 3).map (fun i => i.inputs))) =
      some (Except.ok [[0], [0, 1], [2], [4, 5]]) ∧
    (onnx.parse_conv to_upper get_shape onnx.plain_convolution onnx.conv_inputs
        { pads := some [0, 0, 1, 1] } [0, 1, 2]).map
      (fun r => r.map (fun q => (q.1[3]?.map (fun i => i.op), q.1[4]?.map (fun i => i.op)))) =
      some (Except.ok (some (onnx.op.pad [0, 0, 0, 0, 0, 0, 1, 1]),
        some (onnx.op.convolution onnx.plain_convolution))) ∧
    onnx.parse_conv to_upper get_shape onnx.plain_convolution onnx.conv_inputs
        { pads := some [0, 0, 1, 1] } [0, 1] =
      some (Except.ok (onnx.conv_inputs ++
        [{ op := onnx.op.pad [0, 0, 0, 0, 0, 0, 1, 1], inputs := [0] },
         { op := onnx.op.convolution onnx.plain_convolution, inputs := [3, 1] }], 4)) :=
  ⟨rfl, rfl, rfl⟩

/-- C38: the code at the failing input, a Conv node with the attributes pads = (1, 1, 1, 1)
and auto_pad = "NOTSET" and the inputs data and weights: parse_conv throws "auto_pad and
padding cannot be specified simultaneously" at the check of lines 238-241, whatever
to_upper is, as it does for every other value of auto_pad, although the check of lines 271-274, reached only when "pads" is absent or
"auto_pad" is absent, lets the upper case of "NOTSET" and of "notset" pass; without the
attribute auto_pad the node is parsed. -/
theorem conv_rejects_pads_with_notset (to_upper : String → String)
    (get_shape : List onnx.instruction → Nat → onnx.shape) :
    onnx.parse_conv to_upper get_shape onnx.plain_convolution onnx.conv_inputs
        { pads := some [1, 1, 1, 1], auto_pad := some "NOTSET" } [0, 1] =
      some (Except.error "auto_pad and padding cannot be specified simultaneously") ∧
    (∀ s : String,
      onnx.parse_conv to_upper get_shape onnx.plain_convolution onnx.conv_inputs
          { pads := some [1, 1, 1, 1], auto_pad := some s } [0, 1] =
        some (Except.error "auto_pad and padding cannot be specified simultaneously")) ∧
    onnx.conv_auto_pad onnx.upper { pads := some [1, 1, 1, 1], auto_pad := some "NOTSET" }
        onnx.plain_convolution = Except.ok onnx.plain_convolution ∧
    onnx.conv_auto_pad onnx.upper { pads := some [1, 1, 1, 1], auto_pad := some "notset" }
        onnx.plain_convolution = Except.ok onnx.plain_convolution ∧
    onnx.parse_conv to_upper get_shape onnx.plain_convolution onnx.conv_inputs
        { pads := some [1, 1, 1, 1] } [0, 1] =
      some (Except.ok (onnx.conv_inputs ++
        [{ op := onnx.op.convolution { onnx.plain_convolution with padding := [1, 1] },
           inputs := [0, 1] }], 3)) := by
  refine ⟨rfl, fun _ => rfl, ?_, ?_, rfl⟩
  · rfl
  · rfl

/-- C36: parse_where with a condition of more than one element, the three operands having
the common dimensions L with E elements (E small enough for `int`), and operators that
obey `where_laws`: parse_where returns the gather from the data [args[2] ; args[1]] = [Y ;
X] (their concatenation, reshaped to 2E) at the index `where_ind`; the index at the flat
position i is i + E * c_i where c_i, the element i of the condition converted to int32, is
0 or 1; and the element i of the result is X[i] when c_i is 1 and Y[i] when c_i is 0. -/
theorem where_selects_by_condition (ops : onnx.where_ops) (hl : onnx.where_laws ops)
    (L : List Nat) (c x y : onnx.tensor)
    (hc : c.lens = L) (hx : x.lens = L) (hy : y.lens = L)
    (hxd : x.data.length = L.prod) (hyd : y.data.length = L.prod)
    (hns : L.prod ≠ 1) (hE : 2 * L.prod < 2 ^ 31) :
    onnx.parse_where ops [c, x, y] =
      some (ops.gather (onnx.where_data ops L.prod x y)
        (onnx.where_ind ops L L.prod (ops.convert_int32 c))) ∧
    (onnx.where_data ops L.prod x y).data = y.data ++ x.data ∧
    ∀ r, onnx.parse_where ops [c, x, y] = some r →
      ∀ i < L.prod,
        (∀ ci, (ops.convert_int32 c).data[i]? = some ci → ci = 0 ∨ ci = 1 →
          (onnx.where_ind ops L L.prod (ops.convert_int32 c)).data[i]?
            = some ((i : Int) + (L.prod : Int) * ci)) ∧
        ((ops.convert_int32 c).data[i]? = some 1 → r.data[i]? = x.data[i]?) ∧
        ((ops.convert_int32 c).data[i]? = some 0 → r.data[i]? = y.data[i]?) := by
  have hcl : (ops.convert_int32 c).lens = L := by rw [hl.convert_lens, hc]
  have hparse : onnx.parse_where ops [c, x, y] =
      some (ops.gather (onnx.where_data ops L.prod x y)
        (onnx.where_ind ops L L.prod (ops.convert_int32 c))) := by
    unfold onnx.parse_where
    simp only [List.getElem?_cons_zero, List.getElem?_cons_succ, hc, hx, hy,
      hl.broadcast_same, ne_eq, not_true_eq_false, if_false, onnx.tensor.elements, hcl,
      if_neg hns]
  have hdata : (onnx.where_data ops L.prod x y).data = y.data ++ x.data := by
    unfold onnx.where_data
    simp only
    rw [hl.reshape_data, hl.concat_data _ _ (by rw [hx, hy])]
  refine ⟨hparse, hdata, ?_⟩
  intro r hr i hi
  rw [hparse] at hr
  simp only [Option.some.injEq] at hr
  subst hr
  have hind := where_ind_data ops hl L L.prod (ops.convert_int32 c) hcl hE i hi
  refine ⟨hind, ?_, ?_⟩
  · intro h1
    have hk := hind 1 h1 (Or.inr rfl)
    have hnat : ((i : Int) + (L.prod : Int) * 1).toNat = L.prod + i := by omega
    rw [hl.gather_data _ _ i _ hk (by omega)
      (by rw [hdata, List.length_append, hxd, hyd, hnat]; omega), hdata, hnat,
      List.getElem?_append_right (by rw [hyd]; omega), hyd]
    congr 1
    omega
  · intro h0
    have hk := hind 0 h0 (Or.inl rfl)
    have hnat : ((i : Int) + (L.prod : Int) * 0).toNat = i := by omega
    rw [hl.gather_data _ _ i _ hk (by omega)
      (by rw [hdata, List.length_append, hxd, hyd, hnat]; omega), hdata, hnat,
      List.getElem?_append_left (by rw [hyd]; exact hi)]

/-- The condition (1, 0, 0, 1) of the dimensions (2, 2) selects the elements 10 and 40 of
X = (10, 20, 30, 40) and 2 and 3 of Y = (1, 2, 3, 4); the index is (4, 1, 2, 7). -/
theorem where_selects_by_condition_witness :
    onnx.parse_where onnx.list_ops
        [{ lens := [2, 2], data := [1, 0, 0, 1] }, { lens := [2, 2], data := [10, 20, 30, 40] },
          { lens := [2, 2], data := [1, 2, 3, 4] }] =
      some { lens := [2, 2], data := [10, 2, 3, 40] } ∧
    (onnx.where_ind onnx.list_ops [2, 2] 4
      (onnx.list_ops.convert_int32 { lens := [2, 2], data := [1, 0, 0, 1] })).data
        = [4, 1, 2, 7] ∧
    onnx.parse_where onnx.list_ops
        [{ lens := [2, 2], data := [1, 0, 0, 1] }, { lens := [2, 2], data := [10, 20, 30, 40] },
          { lens := [2, 2], data := [1, 2, 3, 4] }] =
      some (onnx.list_ops.gather
        (onnx.where_data onnx.list_ops 4 { lens := [2, 2], data := [10, 20, 30, 40] }
          { lens := [2, 2], data := [1, 2, 3, 4] })
        (onnx.where_ind onnx.list_ops [2, 2] 4
          (onnx.list_ops.convert_int32 { lens := [2, 2], data := [1, 0, 0, 1] }))) :=
  ⟨by decide, by decide,
    (where_selects_by_condition onnx.list_ops list_ops_laws [2, 2]
      { lens := [2, 2], data := [1, 0, 0, 1] } { lens := [2, 2], data := [10, 20, 30, 40] }
      { lens := [2, 2], data := [1, 2, 3, 4] } rfl rfl rfl rfl rfl (by decide) (by decide)).1⟩

/-- C39: the code at the failing input `two_ifs`.  The condition of the `if` instruction 4
is the literal 1, a constant, but the pass leaves the module as it was: the `if`
instruction 2 before it has a condition without constant value and submodule outputs
without constant value, and the statement `return` of line 103 ends apply before the
instruction 4 is visited (the defect of C40).  On `two_ifs_swapped`, where the instruction
4 comes first, its submodule 2 (the condition is true) is inlined: the literal 7 is copied
to the instruction 30, the negation is inserted before the `if` as the instruction 31 with
the copy 30 as its input, and the reader 6 of the consumer 5 of index 0 reads the output 31
of the inlined submodule instead. -/
theorem constant_if_behind_abandoned_if_not_inlined :
    simple_api.eval two_ifs 1 = some 1 ∧
    inline_module.apply simple_api two_ifs = some two_ifs ∧
    (inline_module.apply simple_api two_ifs_swapped).map
      (fun m => m.main.map (fun i => (i.ref, i.name, i.inputs))) =
      some [(30, "@literal", []), (0, "@param", []), (1, "@literal", []), (31, "neg", [30]),
        (4, "if", [1]), (5, "get_tuple_elem", [4]), (2, "if", [0]),
        (3, "get_tuple_elem", [2]), (6, "add", [3, 31])] := by
  refine ⟨by decide, by decide, by decide⟩

/-- C40: the code at the failing input `three_ifs`.  The `if` instruction 2 has a
condition without constant value and submodule outputs without constant value; the
statement `return` of line 103 ends apply there, so that the module is left as it was, the
later `if` instructions 4 (both submodule outputs constant) and 6 (constant condition)
included.  Visiting the instructions after the instruction 2 folds the instruction 4 into
the `if` instruction 32 on the literals 30 and 31 and inlines the submodule 2 of the
instruction 6 as the instructions 33 and 34. -/
theorem abandoned_if_ends_the_pass :
    inline_module.apply simple_api three_ifs = some three_ifs ∧
    (apply_loop simple_api [3, 4, 5, 6, 7, 8] three_ifs).map
      (fun m => m.main.map (fun i => (i.ref, i.name, i.inputs))) =
      some [(33, "@literal", []), (31, "@literal", []), (30, "@literal", []),
        (0, "@param", []), (1, "@literal", []), (2, "if", [0]), (3, "get_tuple_elem", [2]),
        (32, "if", [0, 30, 31]), (4, "if", [0]), (5, "get_tuple_elem", [4]),
        (34, "neg", [33]), (6, "if", [1]), (7, "get_tuple_elem", [6]),
        (8, "concat", [3, 32, 34])] := by
  refine ⟨by decide, by decide⟩

end migraph
